import Mathlib

/-!
# A verification development for the `bigint` library (`bigint.c`, `bigint.h`)

The C library stores a signed integer as a doubly linked chain of 32-bit nodes
(`first` is the least significant node, `last` the most significant one), together with
the node count `length` and a `sign` byte.  The embedding below keeps the chain as a
`List Nat` in `first → last` order and the sign as a `Nat`; every C function that
mutates a value through a pointer becomes a function that returns the new value.

Conventions of the embedding:

* a `uint32_t` is a `Nat` below `2^32`; wrap-around is written as an explicit `% 4294967296`,
  a `uint64_t` sum as an explicit `% 18446744073709551616`;
* loop counters and node counts (`size_t`, `int`) are unbounded naturals;
* pointer arguments are non-null and `malloc` succeeds, unless a function takes an `Option`;
* a function that reports failure through `bigint_errno` returns `Except bigint_error_code _`:
  `.error e` is the failure sentinel (`NULL` or `-1`) with `bigint_errno = e`,
  `.ok _` is success (`SUCCESS`, i.e. `0`, for the functions returning a status);
* characters are `Char`s whose code is the C `char`; text written by `printf` is a `List Char`.
-/

set_option autoImplicit false

namespace Bigint

/-! ## Data model (`bigint.h`) -/

/-- The `enum bigint_error_code` of `bigint.h`. -/
inductive bigint_error_code where
  | ALL_GOOD_IN_THE_HOOD
  | BIGINT_INCORRECT_STRING
  | BIGINT_MEMORY_ALLOCATION_ERROR
  | BIGINT_INCORRECT_FUNCTION_ARGUMENT
  | BIGINT_TOO_LARGE_BIGINT_TO_CONVERT
  | BIGINT_DIVISION_BY_ZERO
  | BIGINT_LENGTH_INDIVISIBLE_BY_FOUR
  | BIGINT_ERROR_IN_DATA_STRUCTURE
  deriving DecidableEq, Repr

/-- The `enum bigint_base` of `bigint.h`. -/
inductive bigint_base where
  | BIN
  | DEC
  | HEX
  | OTHER
  deriving DecidableEq, Repr

/-- The `struct bigint_data_structure`: the node values from `first` to `last`
(least significant limb first) and the `sign` byte. -/
structure bigint where
  limbs : List Nat
  sign : Nat
  deriving DecidableEq, Repr

/-- Status code of a call: `SUCCESS` is `0`, `FAILURE` is `-1`. -/
def status {ε α : Type} : Except ε α → Int
  | .ok _ => 0
  | .error _ => -1

/-- The magnitude spelled by a limb list, least significant limb first. -/
def limbs_value : List Nat → Nat
  | [] => 0
  | l :: ls => l + 4294967296 * limbs_value ls

/-- The magnitude of a value. -/
def bigint.magnitude (v : bigint) : Nat := limbs_value v.limbs

/-- The represented integer `(-1)^sign * Σ limb_i * 2^(32 i)`. -/
def bigint.toInt (v : bigint) : Int := (-1) ^ v.sign * (v.magnitude : Int)

/-- Invariant I2 on a limb list: with more than one limb, the highest limb is non-zero. -/
def no_high_zero (l : List Nat) : Prop := 1 < l.length → l.getLast? ≠ some 0

instance (l : List Nat) : Decidable (no_high_zero l) := by
  unfold no_high_zero; infer_instance

/-- Every node holds a 32-bit word. -/
def limbs_ok (l : List Nat) : Prop := ∀ x ∈ l, x < 4294967296

instance (l : List Nat) : Decidable (limbs_ok l) := by
  unfold limbs_ok; infer_instance

/-- Canonical values: sign bit in `{0, 1}`, 32-bit limbs, I1 (at least one limb),
I2 (no redundant high zero limb), I3 (no negative zero). -/
def canonical (v : bigint) : Prop :=
  v.sign ≤ 1 ∧ limbs_ok v.limbs ∧ v.limbs ≠ [] ∧ no_high_zero v.limbs ∧
    (v.limbs = [0] → v.sign = 0)

instance (v : bigint) : Decidable (canonical v) := by
  unfold canonical; infer_instance

/-! ## Magnitude store -/

/-- `bigint_create_empty_segments`: `count` zeroed nodes, sign `0`. -/
def bigint_create_empty_segments (count : Nat) : bigint :=
  { limbs := List.replicate count 0, sign := 0 }

/-- `bigint_copy`: a fresh chain of the same length with the same values and sign. -/
def bigint_copy (number : bigint) : bigint :=
  { limbs := number.limbs, sign := number.sign }

/-- `reset`: every node value becomes `0`. -/
def reset (number : bigint) : bigint :=
  { number with limbs := number.limbs.map (fun _ => 0) }

/-- `add_segments`: `count` zeroed nodes appended after `last`. -/
def add_segments (number : bigint) (count : Nat) : bigint :=
  { number with limbs := number.limbs ++ List.replicate count 0 }

/-- `add_segments_beginning`: `count` zeroed nodes inserted before `first`. -/
def add_segments_beginning (number : bigint) (count : Nat) : bigint :=
  { number with limbs := List.replicate count 0 ++ number.limbs }

/-- The loop `while (last->value == 0 && length != 1) { drop last }`,
run for at most `fuel` rounds. -/
def delete_zero_segments_loop : Nat → List Nat → List Nat
  | 0, l => l
  | fuel + 1, l =>
    if l.getLast? = some 0 ∧ l.length ≠ 1 then delete_zero_segments_loop fuel l.dropLast
    else l

/-- The trimming loop; it cannot run more often than there are nodes. -/
def delete_zero_segments (l : List Nat) : List Nat :=
  delete_zero_segments_loop l.length l

/-- Bitwise complement of a `uint32_t`. -/
def not32 (v : Nat) : Nat := 4294967295 - v % 4294967296

/-- `bigint_not`: every node is complemented; length and sign stay. -/
def bigint_not (number : bigint) : bigint :=
  { number with limbs := number.limbs.map not32 }

/-! ## Comparator -/

/-- The loop of `bigint_compare_absolute`, walking both chains from `last` via `prev`;
the arguments are the node values in that order. -/
def compare_loop : List Nat → List Nat → Int
  | a :: as, b :: bs =>
    if a ≠ b then (if a > b then 1 else -1) else compare_loop as bs
  | _, _ => 0

/-- `bigint_compare_absolute`. -/
def bigint_compare_absolute (number1 number2 : bigint) : Int :=
  if number1.limbs.length ≠ number2.limbs.length then
    (if number1.limbs.length > number2.limbs.length then 1 else -1)
  else compare_loop number1.limbs.reverse number2.limbs.reverse

/-- `bigint_compare`. -/
def bigint_compare (number1 number2 : bigint) : Int :=
  match 2 * number1.sign + number2.sign with
  | 0 => bigint_compare_absolute number1 number2
  | 1 => 1
  | 2 => -1
  | 3 => bigint_compare_absolute number2 number1
  | _ => 0

/-! ## Adder and subtractor -/

/-- The loop of `bigint_add_basic`: `n` rounds of
`integer_sum = longer + shorter + temp` in 64 bits; the low word is stored, the high word
is carried.  A chain that has run out reads as the zero `empty_node`. -/
def add_loop : Nat → List Nat → List Nat → Nat → List Nat
  | 0, _, _, _ => []
  | n + 1, longer, shorter, temp =>
    let integer_sum := (longer.headD 0 + shorter.headD 0 + temp) % 18446744073709551616
    (integer_sum % 4294967296) ::
      add_loop n longer.tail shorter.tail (integer_sum / 4294967296)

/-- `bigint_add_basic`: the operands are copied first, `sum` is reset and grown to
`longer->length + 1` nodes if it is shorter, the first `longer->length + 1` nodes are written
by the loop, and high zero nodes are deleted.  The sign of `sum` is not touched. -/
def bigint_add_basic (sum _summand1 _summand2 : bigint) : bigint :=
  let summand1 := bigint_copy _summand1
  let summand2 := bigint_copy _summand2
  let longer := if summand1.limbs.length > summand2.limbs.length then summand1 else summand2
  let shorter := if summand1.limbs.length > summand2.limbs.length then summand2 else summand1
  let sum := reset sum
  let sum :=
    if sum.limbs.length < longer.limbs.length + 1 then
      add_segments sum (longer.limbs.length + 1 - sum.limbs.length)
    else sum
  let written := add_loop (longer.limbs.length + 1) longer.limbs shorter.limbs 0
  let sum := { sum with limbs := written ++ sum.limbs.drop (longer.limbs.length + 1) }
  { sum with limbs := delete_zero_segments sum.limbs }

/-- The loop of `bigint_increment_basic`: add one to each node while the node was all ones. -/
def increment_loop : List Nat → List Nat
  | [] => []
  | v :: rest =>
    if not32 v = 0 then ((v + 1) % 4294967296) :: increment_loop rest
    else ((v + 1) % 4294967296) :: rest

/-- `bigint_increment_basic`: one node is appended, the loop runs, and the last node is
dropped once if it is zero and not the only one. -/
def bigint_increment_basic (number : bigint) : bigint :=
  let number := add_segments number 1
  let number := { number with limbs := increment_loop number.limbs }
  if number.limbs.getLast? = some 0 ∧ number.limbs.length ≠ 1 then
    { number with limbs := number.limbs.dropLast }
  else number

/-- `bigint_subtract_basic`: `x - y = x + ~y + 1`; `adjusted` has `minuend->length` nodes,
the complemented subtrahend followed by all-ones nodes.  After the addition and the
increment the last node is deleted unconditionally, then high zero nodes are deleted. -/
def bigint_subtract_basic (difference minuend subtrahend : bigint) : bigint :=
  let adjusted : bigint :=
    { limbs := subtrahend.limbs.map not32 ++
        List.replicate (minuend.limbs.length - subtrahend.limbs.length) (not32 0),
      sign := 0 }
  let difference := bigint_add_basic difference minuend adjusted
  let difference := bigint_increment_basic difference
  let difference := { difference with limbs := difference.limbs.dropLast }
  { difference with limbs := delete_zero_segments difference.limbs }

/-- `bigint_add_sign`.  In the mixed-sign case the sign is read from `bigger` after the
subtraction has written `sum`; the subtraction leaves every sign byte alone, so the read
sees the sign `bigger` had on entry also when `sum` and `bigger` are the same object.
With both operands non-negative the sign of `sum` is left as it was. -/
def bigint_add_sign (sum summand1 summand2 : bigint) : Except bigint_error_code bigint :=
  match 2 * summand1.sign + summand2.sign with
  | 0 => .ok (bigint_add_basic sum summand1 summand2)
  | 1 | 2 =>
    let comparison := bigint_compare_absolute summand1 summand2
    let bigger := if comparison = 1 then summand1 else summand2
    let smaller := if comparison = 1 then summand2 else summand1
    let result := bigint_subtract_basic sum bigger smaller
    .ok { result with sign := if comparison = 0 then 0 else bigger.sign }
  | 3 =>
    let result := bigint_add_basic sum summand1 summand2
    .ok { result with sign := 1 }
  | _ => .error bigint_error_code.BIGINT_INCORRECT_FUNCTION_ARGUMENT

/-! ## Numeral parser -/

/-- `check_sign`: the sign byte and the text after an optional `-` or `+`. -/
def check_sign (number : List Char) : Nat × List Char :=
  match number with
  | '-' :: rest => (1, rest)
  | '+' :: rest => (0, rest)
  | _ => (0, number)

/-- `check_base`: a leading `0` that is not the whole text must be followed by `x` or `b`
(lower case only); the two marker characters are skipped. -/
def check_base (number : List Char) : bigint_base × List Char :=
  if number.length ≤ 0 then (bigint_base.OTHER, number)
  else if number.head? = some '0' ∧ number.length ≠ 1 then
    match number.tail.head? with
    | some 'x' => (bigint_base.HEX, number.drop 2)
    | some 'b' => (bigint_base.BIN, number.drop 2)
    | _ => (bigint_base.OTHER, number)
  else (bigint_base.DEC, number)

/-- The `charsets` table of `check_syntax`, indexed by the base. -/
def charsets : bigint_base → List Char
  | bigint_base.BIN => "01".toList
  | bigint_base.DEC => "0123456789".toList
  | bigint_base.HEX => "0123456789ABCDEF".toList
  | bigint_base.OTHER => []

/-- The test `strchr(charset, c) != NULL`: `strchr` also finds the terminating NUL. -/
def strchr_found (charset : List Char) (c : Char) : Bool :=
  decide (c ∈ charset) || decide (c.toNat = 0)

/-- `check_syntax`: `true` is `SUCCESS`.  The text must be non-empty, the base known, a
leading `0` is allowed only as the whole text, and every character, upper-cased, must be
found in the charset of the base. -/
def check_syntax (number : List Char) (base : bigint_base) : Bool :=
  if number.length ≤ 0 then false
  else if base = bigint_base.OTHER ∨ (number.head? = some '0' ∧ number.length ≠ 1) then false
  else number.all (fun c => strchr_found (charsets base) c.toUpper)

/-- One round of the loop of `save_binary_segment`:
`return_number |= (number[31 - i] - 48) << i`, the shifted `int` converted to 32 bits. -/
def save_binary_bit (return_number : Nat) (c : Char) (i : Nat) : Nat :=
  return_number ||| ((((c.toNat : Int) - 48) * 2 ^ i) % 4294967296).toNat

/-- `save_binary_segment` on the 32 characters at `number`: character `31 - i` gives bit `i`. -/
def save_binary_segment (number : List Char) : Nat :=
  (List.range 32).foldl (fun r i => save_binary_bit r (number.getD (31 - i) '0') i) 0

/-- `save_binary`: the text is padded on the left with `'0'` to a multiple of 32 characters
and node `i` is read from the 32 characters that end `32 * i` characters before the end. -/
def save_binary (number : List Char) : List Nat :=
  let length := number.length
  let empty := if length % 32 = 0 then 0 else 32 - length % 32
  let new_number := List.replicate empty '0' ++ number
  let nodes := if length % 32 = 0 then length / 32 else length / 32 + 1
  (List.range nodes).map
    (fun i => save_binary_segment (new_number.drop (length + empty - 32 * (i + 1))))

/-- The table `binary_numbers` of `convert_to_binary`. -/
def binary_numbers : List (List Char) :=
  ["0000", "0001", "0010", "0011", "0100", "0101", "0110", "0111",
   "1000", "1001", "1010", "1011", "1100", "1101", "1110", "1111"].map String.toList

/-- The string `hex_digits` of `convert_to_binary`. -/
def hex_digits : List Char := "0123456789ABCDEF##########abcdef".toList

/-- `convert_to_binary`: every character is replaced by the four binary digits found at
`(strchr(hex_digits, c) - hex_digits) % 16`. -/
def convert_to_binary (number : List Char) : List Char :=
  (number.map (fun c => binary_numbers.getD (hex_digits.indexOf c % 16) [])).flatten

/-- `get_parity` on the decimal scratch buffer (character codes): an odd last character is
decremented and `ODD` (`1`) is returned, else `EVEN` (`0`). -/
def get_parity (number : List Int) : Nat × List Int :=
  match number.getLast? with
  | some d =>
    if d % 2 = 1 then (1, number.dropLast ++ [d - 1]) else (0, number)
  | none => (0, number)

/-- `divide_one_digit` at the head of the given part of the buffer: an odd `digit[0]` is
decremented and `5` is added to `digit[1]`; then `digit[0]` is halved.  At the last
character of the buffer there is no `digit[1]`; `get_parity` has made that character even. -/
def divide_one_digit : List Int → List Int
  | [] => []
  | [d0] => [((if d0 % 2 = 1 then d0 - 1 else d0) - 48) / 2 + 48]
  | d0 :: d1 :: rest =>
    if d0 % 2 = 1 then ((d0 - 1 - 48) / 2 + 48) :: (d1 + 5) :: rest
    else ((d0 - 48) / 2 + 48) :: d1 :: rest

/-- `divide_digits`: `divide_one_digit` is applied at every position, from the last
character down to the first. -/
def divide_digits : List Int → List Int
  | [] => []
  | d :: rest => divide_one_digit (d :: divide_digits rest)

/-- `is_zero`: every character is `'0'`. -/
def is_zero (number : List Int) : Bool := number.all (fun d => decide (d = 48))

/-- The halving loop of `save_decimal`.  `done` holds the finished nodes, `segment` and
`count` the node being filled.  Every 32 rounds allocate a node; a loop that outlives
`fuel` rounds ends as the allocation failure it runs into. -/
def save_decimal_loop :
    Nat → List Int → Nat → Nat → List Nat → Except bigint_error_code (List Nat)
  | 0, _, _, _, _ => .error bigint_error_code.BIGINT_MEMORY_ALLOCATION_ERROR
  | fuel + 1, duplicate, count, segment, done =>
    if is_zero duplicate then .ok (done ++ [segment])
    else
      let parity := get_parity duplicate
      let segment := (segment ||| (parity.1 <<< count)) % 4294967296
      let duplicate := divide_digits parity.2
      let count := count + 1
      if count = 32 then save_decimal_loop fuel duplicate 0 0 (done ++ [segment])
      else save_decimal_loop fuel duplicate count segment done

/-- `save_decimal`: a one-character text is stored as `number[0] - 48`; a longer one goes
through the halving loop, which needs fewer than `4 * length + 1` rounds on decimal digits. -/
def save_decimal (number : List Char) : Except bigint_error_code (List Nat) :=
  if number.length = 0 then .error bigint_error_code.BIGINT_INCORRECT_STRING
  else if number.length = 1 then
    .ok [(((number.headD '0').toNat : Int) - 48) % 4294967296 |>.toNat]
  else
    save_decimal_loop (4 * number.length + 1) (number.map (fun c => (c.toNat : Int))) 0 0 []

/-- `bigint_create`; the argument is the text of `length` characters. -/
def bigint_create (number : List Char) : Except bigint_error_code bigint :=
  if number.length = 0 then .error bigint_error_code.BIGINT_INCORRECT_STRING
  else
    let signed := check_sign number
    let based := check_base signed.2
    if check_syntax based.2 based.1 = false then
      .error bigint_error_code.BIGINT_INCORRECT_STRING
    else
      let saved : Except bigint_error_code (List Nat) :=
        if based.1 = bigint_base.BIN then .ok (save_binary based.2)
        else if based.1 = bigint_base.HEX then .ok (save_binary (convert_to_binary based.2))
        else save_decimal based.2
      match saved with
      | .error e => .error e
      | .ok limbs =>
        .ok { limbs := limbs,
              sign := if limbs.length = 1 ∧ limbs.head? = some 0 then 0 else signed.1 }

/-! ## Signed addition and subtraction -/

/-- `bigint_add` with the summands `v_1 .. v_k` passed as a list (`args` is their number):
a fold of `bigint_add_sign(temp_sum, temp_sum, v_i)` from `bigint_create("0", 1)`, whose
chain and sign are then moved into `sum`. -/
def bigint_add (sum : bigint) (summands : List bigint) : Except bigint_error_code bigint :=
  if summands.length ≤ 0 then .error bigint_error_code.BIGINT_INCORRECT_FUNCTION_ARGUMENT
  else do
    let temp_sum ← bigint_create ['0']
    let temp_sum ← summands.foldlM (fun t v => bigint_add_sign t t v) temp_sum
    pure { sum with limbs := temp_sum.limbs, sign := temp_sum.sign }

/-- `bigint_subtract`.  With both operands non-negative the C code tests the pointer
equality `subtrahend == bigger`; `bigger` is `minuend` exactly when `comparison == 1`, and when
both pointers are the same object `comparison` is `0`, so the test is `comparison != 1`. -/
def bigint_subtract (difference minuend subtrahend : bigint) :
    Except bigint_error_code bigint :=
  match 2 * minuend.sign + subtrahend.sign with
  | 0 =>
    let comparison := bigint_compare_absolute minuend subtrahend
    let bigger := if comparison = 1 then minuend else subtrahend
    let smaller := if comparison = 1 then subtrahend else minuend
    let result := bigint_subtract_basic difference bigger smaller
    .ok { result with
          sign := if comparison = 0 then 0 else (if comparison = 1 then 0 else 1) }
  | 1 =>
    let result := bigint_add_basic difference minuend subtrahend
    .ok { result with sign := 0 }
  | 2 =>
    let result := bigint_add_basic difference minuend subtrahend
    .ok { result with sign := 1 }
  | 3 =>
    let comparison := bigint_compare_absolute minuend subtrahend
    let bigger := if comparison = 1 then minuend else subtrahend
    let smaller := if comparison = 1 then subtrahend else minuend
    let result := bigint_subtract_basic difference bigger smaller
    .ok { result with sign := if comparison ≠ 1 then 0 else 1 }
  | _ => .ok difference

/-! ## Shifts and multiplication -/

/-- The loop of `bigint_shift_left_basic` (and of `array_shift_left`): every node is shifted
left by one bit and receives the top bit of the node before it (`remaining2`). -/
def shift_left_loop : List Nat → Nat → List Nat
  | [], _ => []
  | value :: rest, remaining2 =>
    (((value <<< 1) % 4294967296) ||| remaining2) ::
      shift_left_loop rest ((value &&& 2147483648) >>> 31)

/-- `bigint_shift_left_basic`: a node is appended when the top bit of the last node is set,
then the loop runs from `first` to `last`. -/
def bigint_shift_left_basic (number : bigint) : bigint :=
  let number :=
    if number.limbs.getLastD 0 &&& 2147483648 ≠ 0 then
      { number with limbs := number.limbs ++ [0] }
    else number
  { number with limbs := shift_left_loop number.limbs 0 }

/-- `bigint_shift_left`: `count / 32` zero nodes are inserted at the low end, then the value
is shifted by one bit `count % 32` times. -/
def bigint_shift_left (number : bigint) (count : Nat) : bigint :=
  if count = 0 then number
  else Nat.iterate bigint_shift_left_basic (count % 32) (add_segments_beginning number (count / 32))

/-- One round of the inner loop of `bigint_multiply_basic`; the state is `product` and
`counter`. -/
def multiply_bit (longer : bigint) (value : Nat) (state : bigint × Nat) (j : Nat) :
    bigint × Nat :=
  let product :=
    if value &&& (1 <<< j) ≠ 0 then
      let temp := bigint_shift_left (bigint_copy longer) state.2
      bigint_add_basic state.1 state.1 temp
    else state.1
  (product, state.2 + 1)

/-- The inner loop of `bigint_multiply_basic` for one node of `shorter`: `j = 0 .. 31`. -/
def multiply_node (longer : bigint) (state : bigint × Nat) (value : Nat) : bigint × Nat :=
  (List.range 32).foldl (multiply_bit longer value) state

/-- `bigint_multiply_basic`: the operands are copied, `product` becomes a single zero node
(its sign is left alone), and for every set bit of `shorter` the copy of `longer`, shifted
left by the position of the bit, is added to `product`. -/
def bigint_multiply_basic (product _element1 _element2 : bigint) : bigint :=
  let element1 := bigint_copy _element1
  let element2 := bigint_copy _element2
  let longer := if bigint_compare_absolute element1 element2 = 1 then element1 else element2
  let shorter := if bigint_compare_absolute element1 element2 = 1 then element2 else element1
  let product : bigint := { product with limbs := [0] }
  (shorter.limbs.foldl (multiply_node longer) (product, 0)).1

/-- `bigint_multiply` with the factors passed as a list: a fold of
`bigint_multiply_basic(temp_product, temp_product, v_i)` from `bigint_create("1", 1)`; the
byte `sign` adds up the sign bytes and the result gets `sign % 2`. -/
def bigint_multiply (product : bigint) (factors : List bigint) :
    Except bigint_error_code bigint :=
  if factors.length ≤ 0 then .error bigint_error_code.BIGINT_INCORRECT_FUNCTION_ARGUMENT
  else do
    let temp_product ← bigint_create ['1']
    let state := factors.foldl
      (fun (state : bigint × Nat) current =>
        (bigint_multiply_basic state.1 state.1 current, (state.2 + current.sign) % 256))
      (temp_product, 0)
    pure { product with limbs := state.1.limbs, sign := state.2 % 2 }

/-! ## Arrays of words (most significant word first) -/

/-- `copy_to_chain`: the node values from `last` to `first`. -/
def copy_to_chain (number : bigint) : List Nat := number.limbs.reverse

/-- `chain_alignment`: the node values from `last` to `first`, padded in front with zero
words to `length` words (`number->length <= length` at the only call). -/
def chain_alignment (number : bigint) (length : Nat) : List Nat :=
  List.replicate (length - number.limbs.length) 0 ++ number.limbs.reverse

/-- The loop of `bit_len`: the highest `i` in `31 .. 1` with bit `i` set gives `i + 1`,
and `1` is returned when there is none. -/
def bit_len_loop : Nat → Nat → Nat
  | 0, _ => 1
  | i + 1, number => if (number >>> (i + 1)) &&& 1 ≠ 0 then i + 2 else bit_len_loop i number

/-- `bit_len`: the number of binary digits of a word, `0` for `0`. -/
def bit_len (number : Nat) : Nat := if number = 0 then 0 else bit_len_loop 31 number

/-- `get_n_bit`: bit `number` of the array, bit `0` being the lowest bit of the last word. -/
def get_n_bit (chain : List Nat) (length number : Nat) : Nat :=
  if number / 32 + 1 > length then 0
  else if chain.getD (length - 1 - number / 32) 0 &&& (1 <<< (number % 32)) ≠ 0 then 1 else 0

/-- `set_n_bit_to_1`: sets bit `number` of the array (nothing happens out of range). -/
def set_n_bit_to_1 (chain : List Nat) (length number : Nat) : List Nat :=
  if number / 32 + 1 > length then chain
  else chain.set (length - 1 - number / 32)
    (chain.getD (length - 1 - number / 32) 0 ||| (1 <<< (number % 32)))

/-- `chain_length`: the number of words from the first non-zero word on. -/
def chain_length : List Nat → Nat
  | [] => 0
  | c :: rest => if c ≠ 0 then (c :: rest).length else chain_length rest

/-- `array_shift_left`: a one-bit left shift of the whole array, walking from the last word
to the first; the bit shifted out of the first word is lost. -/
def array_shift_left (array : List Nat) : List Nat :=
  (shift_left_loop array.reverse 0).reverse

/-- The loop of `array_subtract`, on the words from the last to the first:
`sum = array1[i] + ~array2[i] + temp`, plus `1` in the first round. -/
def array_subtract_loop : List Nat → List Nat → Nat → Bool → List Nat
  | a :: as, b :: bs, temp, first =>
    let sum := (a + not32 b + temp + (if first then 1 else 0)) % 18446744073709551616
    (sum % 4294967296) :: array_subtract_loop as bs (sum / 4294967296) false
  | _, _, _, _ => []

/-- `array_subtract`: `array1 := array1 + ~array2 + 1`, the carry out of the first word is
dropped. -/
def array_subtract (array1 array2 : List Nat) : List Nat :=
  (array_subtract_loop array1.reverse array2.reverse 0 true).reverse

/-- `greater_or_eq`: word by word from the first (most significant) word. -/
def greater_or_eq : List Nat → List Nat → Bool
  | a :: as, b :: bs => if a > b then true else if a < b then false else greater_or_eq as bs
  | _, _ => true

/-! ## Divider -/

/-- `leave_one_segment`: a chain of one node is left as it is, a longer one is cut down to
its first node, which is set to `0`. -/
def leave_one_segment (number : bigint) : bigint :=
  if number.limbs.length = 1 then number else { number with limbs := [0] }

/-- The bit loop of `bigint_divide`, for the bits `count - 1` down to `0` of the dividend;
the state is `remainder_int` and `quotient_int`. -/
def divide_bit_loop (dividend_int divisor_int : List Nat) (initial_len : Nat) :
    Nat → List Nat × List Nat → List Nat × List Nat
  | 0, state => state
  | i + 1, state =>
    let remainder_int := array_shift_left state.1
    let bit := get_n_bit dividend_int initial_len i
    let remainder_int :=
      if bit ≠ 0 then
        remainder_int.set (initial_len - 1) (remainder_int.getD (initial_len - 1) 0 ||| 1)
      else remainder_int
    if greater_or_eq remainder_int divisor_int then
      divide_bit_loop dividend_int divisor_int initial_len i
        (array_subtract remainder_int divisor_int, set_n_bit_to_1 state.2 initial_len i)
    else divide_bit_loop dividend_int divisor_int initial_len i (remainder_int, state.2)

/-- The write-back of `bigint_divide`: `real_len` is the `chain_length` of the array (at
least `1`), the destination is cut to one node and grown to `real_len` nodes, and the last
`real_len` words of the array are stored from `last` down to `first`.  The sign is set by
the caller. -/
def save_array (number : bigint) (array : List Nat) (initial_len : Nat) : bigint :=
  let real_len := chain_length array
  let real_len := if real_len ≠ 0 then real_len else 1
  let number := add_segments (leave_one_segment number) (real_len - 1)
  { number with limbs := ((array.drop (initial_len - real_len)).take number.limbs.length).reverse }

/-- `bigint_divide`; `quotient` and `remainder` are the optional destinations, and the result
holds their new contents. -/
def bigint_divide (dividend divisor : bigint) (quotient remainder : Option bigint) :
    Except bigint_error_code (Option bigint × Option bigint) :=
  if quotient.isNone ∧ remainder.isNone then
    .error bigint_error_code.BIGINT_INCORRECT_FUNCTION_ARGUMENT
  else if divisor.limbs.length = 1 ∧ divisor.limbs.head? = some 0 then
    .error bigint_error_code.BIGINT_DIVISION_BY_ZERO
  else
    let initial_len := dividend.limbs.length
    let comparison := bigint_compare_absolute dividend divisor
    if comparison = -1 ∨ comparison = 0 then
      let quotient := quotient.map (fun _ =>
        if comparison = 0 then
          ({ limbs := [1], sign := if dividend.sign = divisor.sign then 0 else 1 } : bigint)
        else { limbs := [0], sign := 0 })
      let remainder := remainder.map (fun _ =>
        if comparison = 0 then ({ limbs := [0], sign := 0 } : bigint)
        else bigint_copy dividend)
      .ok (quotient, remainder)
    else
      let remainder_int := List.replicate initial_len 0
      let quotient_int := List.replicate initial_len 0
      let dividend_int := copy_to_chain dividend
      let divisor_int := chain_alignment divisor initial_len
      let count := (initial_len - 1) * 32 + bit_len (dividend_int.headD 0)
      let state := divide_bit_loop dividend_int divisor_int initial_len count
        (remainder_int, quotient_int)
      let quotient := quotient.map (fun q =>
        let q := save_array q state.2 initial_len
        if dividend.sign + divisor.sign = 1 then { q with sign := 1 } else q)
      let remainder := remainder.map (fun r =>
        { save_array r state.1 initial_len with sign := dividend.sign })
      .ok (quotient, remainder)

/-! ## Formatter -/

/-- Modelled from the C library: the conversion `%u` of `printf`, the decimal digits of the
number without padding. -/
def printf_u (n : Nat) : List Char := Nat.toDigits 10 n

/-- Modelled from the C library: the conversion `%09u`, padded with zeros to nine digits. -/
def printf_09u (n : Nat) : List Char :=
  List.replicate (9 - (Nat.toDigits 10 n).length) '0' ++ Nat.toDigits 10 n

/-- Modelled from the C library: the conversion `%x`, lower-case hexadecimal digits without
padding. -/
def printf_x (n : Nat) : List Char := Nat.toDigits 16 n

/-- Modelled from the C library: the conversion `%08x`, padded with zeros to eight digits. -/
def printf_08x (n : Nat) : List Char :=
  List.replicate (8 - (Nat.toDigits 16 n).length) '0' ++ Nat.toDigits 16 n

/-- The loop shared by `print_bits` and `print_bits_first_element`: the bits `count - 1`
down to `0` of the word. -/
def print_bits_loop : Nat → Nat → List Char
  | 0, _ => []
  | i + 1, num => (if (num >>> i) &&& 1 ≠ 0 then '1' else '0') :: print_bits_loop i num

/-- `print_bits`: all 32 bits. -/
def print_bits (num : Nat) : List Char := print_bits_loop 32 num

/-- `print_bits_first_element`: the `bit_len(num)` significant bits, nothing for `0`. -/
def print_bits_first_element (num : Nat) : List Char := print_bits_loop (bit_len num) num

/-- The loop of `divide`, for the bits `count - 1` down to `0`; the state is the running
remainder `r` (64 bits) and the quotient array. -/
def divide_loop (divident : List Nat) (count : Nat) : Nat → Nat × List Nat → Nat × List Nat
  | 0, state => state
  | i + 1, state =>
    let r := (state.1 <<< 1) % 18446744073709551616
    let r := r ||| get_n_bit divident count i
    if r ≥ 1000000000 then
      divide_loop divident count i (r - 1000000000, set_n_bit_to_1 state.2 count i)
    else divide_loop divident count i (r, state.2)

/-- `divide`: long division of the array by `10^9`; returns the remainder and the quotient
array, which is zero on entry. -/
def divide (divident quotient : List Nat) (count : Nat) : Nat × List Nat :=
  if count = 0 then (0, quotient)
  else divide_loop divident count (count * 32 - 32 + bit_len (divident.headD 0)) (0, quotient)

/-- The first loop of `print_decimal`: `rounds` divisions by `10^9`; `current` is the array
to divide in this round; the remainders are collected with the latest in front, which is
the order of `result`. -/
def print_decimal_loop (count : Nat) : Nat → List Nat → List Nat → List Nat
  | 0, _, result => result
  | rounds + 1, current, result =>
    let shift := count - chain_length current
    let divided := divide (current.drop shift) (List.replicate (count - shift) 0)
      (chain_length current)
    print_decimal_loop count rounds (List.replicate shift 0 ++ divided.2)
      ((divided.1 % 4294967296) :: result)

/-- The printing loops of `print_decimal`: zero entries in front are skipped, the first
entry left is printed with `%u`, the others with `%09u`. -/
def print_decimal_result (result : List Nat) : List Char :=
  match result.dropWhile (fun r => decide (r = 0) && decide (result.length ≠ 1)) with
  | [] => []
  | first :: rest => printf_u first ++ (rest.map printf_09u).flatten

/-- `print_decimal`: the text written. -/
def print_decimal (number : bigint) : List Char :=
  if number.limbs.length = 1 then printf_u (number.limbs.headD 0)
  else
    let chain := copy_to_chain number
    let count := number.limbs.length
    let decimal_digits := count * 10 + 1
    let decimal_segments :=
      if decimal_digits % 9 = 0 then decimal_digits / 9 else decimal_digits / 9 + 1
    print_decimal_result (print_decimal_loop count decimal_segments chain [])

/-- `bigint_print`: the text written to the standard output (the `stream` argument is not
used by the C code). -/
def bigint_print (base : bigint_base) (number : bigint) :
    Except bigint_error_code (List Char) :=
  if base ≠ bigint_base.BIN ∧ base ≠ bigint_base.DEC ∧ base ≠ bigint_base.HEX then
    .error bigint_error_code.BIGINT_INCORRECT_FUNCTION_ARGUMENT
  else
    let minus := if number.sign = 1 then ['-'] else []
    let marker :=
      if base = bigint_base.BIN then ['0', 'b']
      else if base = bigint_base.HEX then ['0', 'x'] else []
    if base = bigint_base.DEC then .ok (minus ++ marker ++ print_decimal number)
    else
      let first :=
        if base = bigint_base.BIN then print_bits_first_element (number.limbs.getLastD 0)
        else printf_x (number.limbs.getLastD 0)
      let others := number.limbs.dropLast.reverse.map
        (fun value => if base = bigint_base.BIN then print_bits value else printf_08x value)
      .ok (minus ++ marker ++ first ++ others.flatten)

/-! ## Right shift -/

/-- The loop of `bigint_shift_right_basic`, walking from `last` via `prev`: every node is
shifted right by one bit and receives as its top bit the low bit of the node before it
(`remaining2`). -/
def shift_right_loop : List Nat → Nat → List Nat
  | [], _ => []
  | value :: rest, remaining2 =>
    ((value >>> 1) ||| remaining2) ::
      shift_right_loop rest (((value &&& 1) <<< 31) % 4294967296)

/-- `bigint_shift_right_basic`: the loop runs from `last` to `first`, then the last node is
deleted once if it is zero and not the only one.  The sign is not touched. -/
def bigint_shift_right_basic (number : bigint) : bigint :=
  let number := { number with limbs := (shift_right_loop number.limbs.reverse 0).reverse }
  if number.limbs.getLast? = some 0 ∧ number.limbs.length ≠ 1 then
    { number with limbs := number.limbs.dropLast }
  else number

/-- `bigint_shift_right`: `count` one-bit shifts. -/
def bigint_shift_right (number : bigint) (count : Nat) : bigint :=
  if count = 0 then number else Nat.iterate bigint_shift_right_basic count number

/-! ## Signed increment and decrement -/

/-- `bigint_decrement_basic`: `number := number + ones`, where `ones` has as many nodes as
`number`, all of them `~0`; then the last node is deleted unconditionally.  The C code
follows `last->prev` there, so `number` must not be zero (the sum would have one node). -/
def bigint_decrement_basic (number : bigint) : bigint :=
  let ones := bigint_not (bigint_create_empty_segments number.limbs.length)
  let number := bigint_add_basic number number ones
  { number with limbs := number.limbs.dropLast }

/-- `bigint_increment`: the magnitude is incremented for sign `0` and decremented otherwise,
and a result of one zero node gets the sign `0`. -/
def bigint_increment (number : bigint) : bigint :=
  if number.sign = 0 then bigint_increment_basic number
  else
    let number := bigint_decrement_basic number
    if number.limbs.length = 1 ∧ number.limbs.head? = some 0 then { number with sign := 0 }
    else number

/-- `bigint_decrement`: zero (one zero node) becomes `-1`; otherwise the magnitude is
decremented for sign `0` and incremented for a negative value. -/
def bigint_decrement (number : bigint) : bigint :=
  if number.limbs.length = 1 ∧ number.limbs.head? = some 0 then
    { limbs := [(number.limbs.headD 0 + 1) % 4294967296], sign := 1 }
  else if number.sign = 0 then bigint_decrement_basic number
  else bigint_increment_basic number

/-! ## Sign operations -/

/-- `bigint_absolute_value`: the sign byte is set to `0`. -/
def bigint_absolute_value (number : bigint) : bigint := { number with sign := 0 }

/-- `bigint_change_sign`: the sign byte becomes `0` if it is `1`, and `1` otherwise. -/
def bigint_change_sign (number : bigint) : bigint :=
  { number with sign := if number.sign = 1 then 0 else 1 }

/-! ## Fixed-width conversion

`check_endian` reports the byte order of the host: `BIGINT_LITTLE_ENDIAN` (`-1`) or
`BIGINT_BIG_ENDIAN` (`1`).  The functions below take its result as the argument `endianness`
and test it as the C code does (`endianness == -1`).  A buffer is given by its 32-bit words in
address order, as the cast `(uint32_t *)integer` reads them; `uintmax_t` has 64 bits. -/

/-- The value `check_endian` returns on a little-endian host. -/
def BIGINT_LITTLE_ENDIAN : Int := -1

/-- The value `check_endian` returns on a big-endian host. -/
def BIGINT_BIG_ENDIAN : Int := 1

/-- The loop "delete leading nodes with 0 value" of `bigint_convert_to_bigint`, which runs for
`i = 1 .. segments - 1`.  A round that finds the last node zero unlinks and frees it and then
loads `current` from the node just freed (`temp = current; free(current);
current = temp->prev;`), so nothing is known about the pointer `current` holds afterwards;
`stale` says that `current` is such a pointer.  If the loop ends there the pointer is never
used.  A further round dereferences it (`current->value`): the run has no defined result,
which is `none`. -/
def delete_leading_nodes : Nat → Bool → List Nat → Option (List Nat)
  | 0, _, l => some l
  | rounds + 1, stale, l =>
    if stale then none
    else if l.getLast? = some 0 then delete_leading_nodes rounds true l.dropLast
    else some l

/-- `bigint_convert_to_bigint`; `integer32` holds the words of the buffer and `length` is the
number of bytes.  Node `i` is word `i` on a little-endian host and word `segments - i - 1` on
a big-endian one.  The result is `none` when the deletion loop follows a pointer it has read
from a freed node. -/
def bigint_convert_to_bigint (endianness : Int) (integer32 : List Nat) (length : Nat) :
    Option (Except bigint_error_code bigint) :=
  if length = 0 then some (.error bigint_error_code.BIGINT_INCORRECT_FUNCTION_ARGUMENT)
  else if length % 4 ≠ 0 then
    some (.error bigint_error_code.BIGINT_LENGTH_INDIVISIBLE_BY_FOUR)
  else
    let segments := length / 4
    let values := (List.range segments).map (fun i =>
      if endianness = -1 then integer32.getD i 0 else integer32.getD (segments - i - 1) 0)
    (delete_leading_nodes (segments - 1) false values).map
      (fun limbs => .ok { limbs := limbs, sign := 0 })

/-- The conversion loop of `bigint_convert_to_int` on the two words of `*integer`: node `i`
is stored at index `i` on a little-endian host and at index `segments - i - 1` on a
big-endian one. -/
def convert_loop (endianness : Int) (segments : Nat) : List Nat → Nat → List Nat → List Nat
  | [], _, integer32 => integer32
  | value :: rest, i, integer32 =>
    convert_loop endianness segments rest (i + 1)
      (integer32.set (if endianness = -1 then i else segments - i - 1) value)

/-- The `uintmax_t` whose two words, in address order, are `integer32`. -/
def uintmax_of_words (endianness : Int) (integer32 : List Nat) : Nat :=
  if endianness = -1 then integer32.getD 0 0 + 4294967296 * integer32.getD 1 0
  else integer32.getD 1 0 + 4294967296 * integer32.getD 0 0

/-- `bigint_convert_to_int`: the result is the value left in `*integer`.  The destination
is cleared, `number` is compared with the conversion of `UINTMAX_MAX` (both words all ones,
so that conversion deletes no node), and the nodes are stored by the loop. -/
def bigint_convert_to_int (endianness : Int) (number : bigint) :
    Except bigint_error_code Nat :=
  let too_large :=
    match bigint_convert_to_bigint endianness [4294967295, 4294967295] 8 with
    | some (.ok max_value_b) => decide (bigint_compare_absolute max_value_b number = -1)
    | _ => true
  if too_large then .error bigint_error_code.BIGINT_TOO_LARGE_BIGINT_TO_CONVERT
  else
    .ok (uintmax_of_words endianness
      (convert_loop endianness number.limbs.length number.limbs 0 [0, 0]))

/-! ## The loops round by round -/

/-- The first half of a round of the bit loop of `bigint_divide`: `remainder_int` is shifted
left by one bit and bit `i` of the dividend is brought in as its lowest bit. -/
def divide_bit_shift (dividend_int : List Nat) (initial_len i : Nat)
    (remainder_int : List Nat) : List Nat :=
  let remainder_int := array_shift_left remainder_int
  let bit := get_n_bit dividend_int initial_len i
  if bit ≠ 0 then
    remainder_int.set (initial_len - 1) (remainder_int.getD (initial_len - 1) 0 ||| 1)
  else remainder_int

/-- One round of the bit loop of `bigint_divide`, for bit `i`: after the shift, the divisor is
subtracted and bit `i` of the quotient is set if the remainder is not smaller. -/
def divide_bit_round (dividend_int divisor_int : List Nat) (initial_len i : Nat)
    (state : List Nat × List Nat) : List Nat × List Nat :=
  let remainder_int := divide_bit_shift dividend_int initial_len i state.1
  if greater_or_eq remainder_int divisor_int then
    (array_subtract remainder_int divisor_int, set_n_bit_to_1 state.2 initial_len i)
  else (remainder_int, state.2)

/-- The state of the bit loop of `bigint_divide` after its first `k` rounds, which handle the
bits `count - 1` down to `count - k`. -/
def divide_bit_rounds (dividend_int divisor_int : List Nat) (initial_len count : Nat) :
    Nat → List Nat × List Nat → List Nat × List Nat
  | 0, state => state
  | k + 1, state =>
    divide_bit_round dividend_int divisor_int initial_len (count - (k + 1))
      (divide_bit_rounds dividend_int divisor_int initial_len count k state)

/-- One round of the halving loop of `save_decimal`; the state is the scratch buffer
`duplicate`, `count`, `segment` and the finished nodes. -/
def save_decimal_round (state : List Int × Nat × Nat × List Nat) :
    List Int × Nat × Nat × List Nat :=
  let parity := get_parity state.1
  let segment := (state.2.2.1 ||| (parity.1 <<< state.2.1)) % 4294967296
  let duplicate := divide_digits parity.2
  let count := state.2.1 + 1
  if count = 32 then (duplicate, 0, 0, state.2.2.2 ++ [segment])
  else (duplicate, count, segment, state.2.2.2)

/-! ## Calls on objects

The functions above take and return values.  The functions below are the same C functions
on a program state in which two pointers may name one object: arguments are addresses, every
read of an argument goes through its address at the moment the C code reads it, and every
write goes to the object the address names.  `bigint_copy`, `bigint_create` and
`bigint_create_empty_segments` allocate: the object they return gets an address that has not
been in use.  Releasing an object changes no other object and is left out. -/

/-- A program state: the value each object holds, by address, and the address the next
allocation returns (every address below `next` is in use). -/
structure store where
  object : Nat → bigint
  next : Nat

/-- The state after the object at `p` has been given the value `v`. -/
def store.write (h : store) (p : Nat) (v : bigint) : store :=
  { h with object := fun q => if q = p then v else h.object q }

/-- An allocation: the address of the new object, which holds `v`, and the state with it. -/
def store.allocate (h : store) (v : bigint) : Nat × store :=
  (h.next, { object := fun q => if q = h.next then v else h.object q, next := h.next + 1 })

/-- `bigint_copy` on objects: a new object with the value `number` holds at the call. -/
def bigint_copy_ptr (h : store) (number : Nat) : Nat × store :=
  store.allocate h (bigint_copy (h.object number))

/-- The loop of `bigint_add_basic` on objects, at round `i` with `rounds` rounds to go: node
`i` of `longer` and of `shorter` is read from the state (past the end of a chain the walk
stays on the empty node, `0`), and node `i` of `sum` is written. -/
def add_loop_ptr (sum longer shorter : Nat) : Nat → Nat → Nat → store → store
  | 0, _, _, h => h
  | rounds + 1, i, temp, h =>
    let integer_sum :=
      ((h.object longer).limbs.getD i 0 + (h.object shorter).limbs.getD i 0 + temp) %
        18446744073709551616
    let h := store.write h sum
      { h.object sum with limbs := (h.object sum).limbs.set i (integer_sum % 4294967296) }
    add_loop_ptr sum longer shorter rounds (i + 1) (integer_sum / 4294967296) h

/-- `bigint_add_basic` on objects, statement by statement: the two copies are made, `sum` is
reset and grown, the loop reads the copies node by node while it writes `sum`, and `sum` is
trimmed. -/
def bigint_add_basic_ptr (h : store) (sum _summand1 _summand2 : Nat) : store :=
  let copied1 := bigint_copy_ptr h _summand1
  let summand1 := copied1.1
  let copied2 := bigint_copy_ptr copied1.2 _summand2
  let summand2 := copied2.1
  let h := copied2.2
  let longer :=
    if (h.object summand1).limbs.length > (h.object summand2).limbs.length then summand1
    else summand2
  let shorter :=
    if (h.object summand1).limbs.length > (h.object summand2).limbs.length then summand2
    else summand1
  let h := store.write h sum (reset (h.object sum))
  let h :=
    if (h.object sum).limbs.length < (h.object longer).limbs.length + 1 then
      store.write h sum (add_segments (h.object sum)
        ((h.object longer).limbs.length + 1 - (h.object sum).limbs.length))
    else h
  let h := add_loop_ptr sum longer shorter ((h.object longer).limbs.length + 1) 0 0 h
  store.write h sum { h.object sum with limbs := delete_zero_segments (h.object sum).limbs }

/-- `bigint_subtract_basic` on objects: the new object `adjusted` is filled from
`minuend->length` and the nodes of `subtrahend`, then `difference` is written by
`bigint_add_basic`, by `bigint_increment_basic`, by the deletion of the last node and by the
trimming loop. -/
def bigint_subtract_basic_ptr (h : store) (difference minuend subtrahend : Nat) : store :=
  let allocated := store.allocate h
    { limbs := (h.object subtrahend).limbs.map not32 ++
        List.replicate ((h.object minuend).limbs.length - (h.object subtrahend).limbs.length)
          (not32 0),
      sign := 0 }
  let adjusted := allocated.1
  let h := bigint_add_basic_ptr allocated.2 difference minuend adjusted
  let h := store.write h difference (bigint_increment_basic (h.object difference))
  let h := store.write h difference
    { h.object difference with limbs := (h.object difference).limbs.dropLast }
  store.write h difference
    { h.object difference with limbs := delete_zero_segments (h.object difference).limbs }

/-- `bigint_add_sign` on objects.  In the mixed-sign case `bigger->sign` is read after
`bigint_subtract_basic` has written `sum`. -/
def bigint_add_sign_ptr (h : store) (sum summand1 summand2 : Nat) :
    Except bigint_error_code store :=
  match 2 * (h.object summand1).sign + (h.object summand2).sign with
  | 0 => .ok (bigint_add_basic_ptr h sum summand1 summand2)
  | 1 | 2 =>
    let comparison := bigint_compare_absolute (h.object summand1) (h.object summand2)
    let bigger := if comparison = 1 then summand1 else summand2
    let smaller := if comparison = 1 then summand2 else summand1
    let h := bigint_subtract_basic_ptr h sum bigger smaller
    .ok (store.write h sum
      { h.object sum with sign := if comparison = 0 then 0 else (h.object bigger).sign })
  | 3 =>
    let h := bigint_add_basic_ptr h sum summand1 summand2
    .ok (store.write h sum { h.object sum with sign := 1 })
  | _ => .error bigint_error_code.BIGINT_INCORRECT_FUNCTION_ARGUMENT

/-- `bigint_add` on objects: `temp_sum` is the new object `bigint_create("0", 1)` returns,
the summands are read through their addresses in every round, and `sum` is written once,
after the loop, with the chain and the sign of `temp_sum`. -/
def bigint_add_ptr (h : store) (sum : Nat) (summands : List Nat) :
    Except bigint_error_code store :=
  if summands.length ≤ 0 then .error bigint_error_code.BIGINT_INCORRECT_FUNCTION_ARGUMENT
  else do
    let created ← bigint_create ['0']
    let allocated := store.allocate h created
    let temp_sum := allocated.1
    let h ← summands.foldlM (fun h v => bigint_add_sign_ptr h temp_sum temp_sum v) allocated.2
    pure (store.write h sum
      { h.object sum with limbs := (h.object temp_sum).limbs, sign := (h.object temp_sum).sign })

/-- `bigint_subtract` on objects.  With both operands non-negative the sign is decided by
the pointer comparison `subtrahend == bigger`; with a sign byte above `1` nothing is
written. -/
def bigint_subtract_ptr (h : store) (difference minuend subtrahend : Nat) :
    Except bigint_error_code store :=
  match 2 * (h.object minuend).sign + (h.object subtrahend).sign with
  | 0 =>
    let comparison := bigint_compare_absolute (h.object minuend) (h.object subtrahend)
    let bigger := if comparison = 1 then minuend else subtrahend
    let smaller := if comparison = 1 then subtrahend else minuend
    let h := bigint_subtract_basic_ptr h difference bigger smaller
    .ok (store.write h difference
      { h.object difference with
        sign := if comparison = 0 then 0 else (if subtrahend = bigger then 1 else 0) })
  | 1 =>
    let h := bigint_add_basic_ptr h difference minuend subtrahend
    .ok (store.write h difference { h.object difference with sign := 0 })
  | 2 =>
    let h := bigint_add_basic_ptr h difference minuend subtrahend
    .ok (store.write h difference { h.object difference with sign := 1 })
  | 3 =>
    let comparison := bigint_compare_absolute (h.object minuend) (h.object subtrahend)
    let bigger := if comparison = 1 then minuend else subtrahend
    let smaller := if comparison = 1 then subtrahend else minuend
    let h := bigint_subtract_basic_ptr h difference bigger smaller
    .ok (store.write h difference
      { h.object difference with sign := if comparison ≠ 1 then 0 else 1 })
  | _ => .ok h

/-- One round of the inner loop of `bigint_multiply_basic` on objects, for bit `j` of node
`i` of `shorter`; the state is the program state and `counter`.  For a set bit a new copy
`temp` of `longer` is shifted and added to `product`. -/
def multiply_bit_ptr (product longer shorter i : Nat) (state : store × Nat) (j : Nat) :
    store × Nat :=
  let h := state.1
  let h :=
    if (h.object shorter).limbs.getD i 0 &&& (1 <<< j) ≠ 0 then
      let copied := bigint_copy_ptr h longer
      let temp := copied.1
      let h := store.write copied.2 temp (bigint_shift_left (copied.2.object temp) state.2)
      bigint_add_basic_ptr h product product temp
    else h
  (h, state.2 + 1)

/-- The inner loop of `bigint_multiply_basic` on objects for node `i` of `shorter`. -/
def multiply_node_ptr (product longer shorter : Nat) (state : store × Nat) (i : Nat) :
    store × Nat :=
  (List.range 32).foldl (multiply_bit_ptr product longer shorter i) state

/-- `bigint_multiply_basic` on objects, statement by statement: the two copies are made,
`product` becomes a single zero node (its sign is left alone), and the loops read the copies
while they write `product`. -/
def bigint_multiply_basic_ptr (h : store) (product _element1 _element2 : Nat) : store :=
  let copied1 := bigint_copy_ptr h _element1
  let element1 := copied1.1
  let copied2 := bigint_copy_ptr copied1.2 _element2
  let element2 := copied2.1
  let h := copied2.2
  let longer :=
    if bigint_compare_absolute (h.object element1) (h.object element2) = 1 then element1
    else element2
  let shorter :=
    if bigint_compare_absolute (h.object element1) (h.object element2) = 1 then element2
    else element1
  let h := store.write h product { h.object product with limbs := [0] }
  ((List.range (h.object shorter).limbs.length).foldl
    (multiply_node_ptr product longer shorter) (h, 0)).1

/-- `bigint_multiply` on objects: `temp_product` is the new object `bigint_create("1", 1)`
returns, `current->sign` is read after `bigint_multiply_basic` has written `temp_product`,
and `product` is written once, after the loop. -/
def bigint_multiply_ptr (h : store) (product : Nat) (factors : List Nat) :
    Except bigint_error_code store :=
  if factors.length ≤ 0 then .error bigint_error_code.BIGINT_INCORRECT_FUNCTION_ARGUMENT
  else do
    let created ← bigint_create ['1']
    let allocated := store.allocate h created
    let temp_product := allocated.1
    let state := factors.foldl
      (fun (state : store × Nat) current =>
        let h := bigint_multiply_basic_ptr state.1 temp_product temp_product current
        (h, (state.2 + (h.object current).sign) % 256))
      (allocated.2, 0)
    pure (store.write state.1 product
      { state.1.object product with
        limbs := (state.1.object temp_product).limbs, sign := state.2 % 2 })

/-! ## Predicates used in the proofs -/

/-- The value the object at `p` holds after a call, if the call succeeded. -/
def value_after (r : Except bigint_error_code store) (p : Nat) :
    Except bigint_error_code bigint :=
  match r with
  | .ok h => .ok (h.object p)
  | .error e => .error e

/-- The state `later` comes after `h` in a call that writes the object `dest`: no address has
been given back, and every object of `h` other than `dest` holds what it held. -/
def store.frame (h later : store) (dest : Nat) : Prop :=
  h.next ≤ later.next ∧ ∀ p, p < h.next → p ≠ dest → later.object p = h.object p

/-- The invariant of the loops of `bigint_multiply_basic`: `product` is trimmed and holds
`longer * acc`. -/
def multiply_inv (longer : bigint) (acc : Nat) (product : bigint) : Prop :=
  limbs_value product.limbs = limbs_value longer.limbs * acc ∧ limbs_ok product.limbs ∧
    product.limbs ≠ [] ∧ no_high_zero product.limbs

/-- The number spelled by an array of words, most significant word first. -/
def array_value (array : List Nat) : Nat := limbs_value array.reverse

/-- Horner evaluation of a digit list in base `B`, most significant digit first. -/
def horner (B : Nat) (l : List Nat) : Nat := l.foldl (fun acc r => B * acc + r) 0

/-- The value of a decimal or binary digit character. -/
def digit_value (c : Char) : Nat := c.toNat - 48

/-- The value of a hexadecimal digit character of either case. -/
def hex_digit_value (c : Char) : Nat :=
  if 97 ≤ c.toNat then c.toNat - 87 else if 65 ≤ c.toNat then c.toNat - 55 else c.toNat - 48

/-- The number a numeral denotes in base `b`: its digits read most significant first, so
that the rightmost character is the digit of weight `1`. -/
def numeral_value (b : Nat) (digit : Char → Nat) (ds : List Char) : Nat :=
  horner b (ds.map digit)

/-- The characters `0` .. `9`. -/
def is_decimal_digit (c : Char) : Prop := 48 ≤ c.toNat ∧ c.toNat ≤ 57

instance (c : Char) : Decidable (is_decimal_digit c) := by
  unfold is_decimal_digit; infer_instance

/-- The characters `0` and `1`. -/
def is_binary_digit (c : Char) : Prop := c = '0' ∨ c = '1'

instance (c : Char) : Decidable (is_binary_digit c) := by
  unfold is_binary_digit; infer_instance

/-- The characters `0` .. `9`, `A` .. `F`, `a` .. `f`. -/
def is_hex_digit (c : Char) : Prop :=
  (48 ≤ c.toNat ∧ c.toNat ≤ 57) ∨ (65 ≤ c.toNat ∧ c.toNat ≤ 70) ∨
    (97 ≤ c.toNat ∧ c.toNat ≤ 102)

instance (c : Char) : Decidable (is_hex_digit c) := by
  unfold is_hex_digit; infer_instance

/-- The optional sign in front of a numeral: nothing, `+` or `-`. -/
def is_sign (sgn : List Char) : Prop := sgn = [] ∨ sgn = ['+'] ∨ sgn = ['-']

instance (sgn : List Char) : Decidable (is_sign sgn) := by
  unfold is_sign; infer_instance

/-- A digit string without a leading zero, the single digit `0` apart. -/
def no_leading_zero (ds : List Char) : Prop := ds.head? = some '0' → ds.length = 1

instance (ds : List Char) : Decidable (no_leading_zero ds) := by
  unfold no_leading_zero; infer_instance

/-- The `k` lowest digits of `r` in base `b`, most significant first, with leading zeros. -/
def fixed_digits (b : Nat) : Nat → Nat → List Char
  | 0, _ => []
  | k + 1, r => fixed_digits b k (r / b) ++ [Nat.digitChar (r % b)]

/-- The number held by the decimal scratch buffer of `save_decimal`. -/
def scratch_value : List Int → Nat
  | [] => 0
  | d :: rest => (d - 48).toNat * 10 ^ rest.length + scratch_value rest

/-- Every character of the scratch buffer is a decimal digit. -/
def scratch_ok (number : List Int) : Prop := ∀ d ∈ number, 48 ≤ d ∧ d ≤ 57

/-- The base a text is written in, as `bigint_create` detects it: `check_base` on what
`check_sign` leaves. -/
def numeral_base (s : List Char) : bigint_base := (check_base (check_sign s).2).1

/-- A text without its leading `+`, if it has one. -/
def omit_plus : List Char → List Char
  | '+' :: rest => rest
  | s => s

/-- The comparison of the round-trip property: the printed text equals the text parsed up
to omission of a leading `+` and the case of letters (hexadecimal digits, base marker). -/
def same_numeral_text (printed s : List Char) : Prop :=
  printed.map Char.toLower = (omit_plus s).map Char.toLower

instance (printed s : List Char) : Decidable (same_numeral_text printed s) := by
  unfold same_numeral_text; infer_instance

/-- The numerals of the specification's grammar for `bigint_create`: an optional sign
followed by `0b` and binary digits, or by `0x` and hexadecimal digits of either case, or by
decimal digits that are the lone `0` or do not begin with `0`. -/
def specified_numeral (s : List Char) : Prop :=
  ∃ sgn ds, is_sign sgn ∧ ds ≠ [] ∧
    ((s = sgn ++ '0' :: 'b' :: ds ∧ ∀ c ∈ ds, is_binary_digit c) ∨
      (s = sgn ++ '0' :: 'x' :: ds ∧ ∀ c ∈ ds, is_hex_digit c) ∨
      (s = sgn ++ ds ∧ (∀ c ∈ ds, is_decimal_digit c) ∧ no_leading_zero ds))

/-- The numerals that pass `check_sign`, `check_base` and `check_syntax`: as above, but in
every base the digits are the lone `0` or do not begin with `0`. -/
def accepted_numeral (s : List Char) : Prop :=
  ∃ sgn ds, is_sign sgn ∧ ds ≠ [] ∧ no_leading_zero ds ∧
    ((s = sgn ++ '0' :: 'b' :: ds ∧ ∀ c ∈ ds, is_binary_digit c) ∨
      (s = sgn ++ '0' :: 'x' :: ds ∧ ∀ c ∈ ds, is_hex_digit c) ∨
      (s = sgn ++ ds ∧ ∀ c ∈ ds, is_decimal_digit c))

/-- The destinations of `bigint_divide` after a call: a successful call returns their new
contents, and both failure returns of the function come before its first write. -/
def destinations_after (quotient remainder : Option bigint)
    (result : Except bigint_error_code (Option bigint × Option bigint)) :
    Option bigint × Option bigint :=
  match result with
  | .ok written => written
  | .error _ => (quotient, remainder)

end Bigint

namespace Bigint

/-! ## Facts about limb lists -/

theorem limbs_value_append (a b : List Nat) :
    limbs_value (a ++ b) = limbs_value a + 4294967296 ^ a.length * limbs_value b := by
  induction a with
  | nil => simp [limbs_value]
  | cons x xs ih =>
    show x + 4294967296 * limbs_value (xs ++ b) =
      (x + 4294967296 * limbs_value xs) + 4294967296 ^ (xs.length + 1) * limbs_value b
    rw [ih, pow_succ]
    ring

theorem limbs_value_replicate_zero (n : Nat) : limbs_value (List.replicate n 0) = 0 := by
  induction n with
  | zero => rfl
  | succ n ih => simp [List.replicate_succ, limbs_value, ih]

theorem limbs_value_lt (l : List Nat) (h : limbs_ok l) :
    limbs_value l < 4294967296 ^ l.length := by
  induction l with
  | nil => simp [limbs_value]
  | cons x xs ih =>
    have hx : x < 4294967296 := h x (List.mem_cons_self _ _)
    have hxs : limbs_value xs < 4294967296 ^ xs.length :=
      ih (fun y hy => h y (List.mem_cons_of_mem _ hy))
    simp only [limbs_value, List.length_cons, pow_succ]
    nlinarith

theorem limbs_ok_append {a b : List Nat} : limbs_ok (a ++ b) ↔ limbs_ok a ∧ limbs_ok b := by
  unfold limbs_ok
  constructor
  · intro h
    exact ⟨fun x hx => h x (List.mem_append_left _ hx), fun x hx => h x (List.mem_append_right _ hx)⟩
  · rintro ⟨h1, h2⟩ x hx
    rcases List.mem_append.1 hx with h | h
    · exact h1 x h
    · exact h2 x h

theorem limbs_ok_replicate_zero (n : Nat) : limbs_ok (List.replicate n 0) := by
  intro x hx
  rw [List.eq_of_mem_replicate hx]; decide

theorem limbs_ok_dropLast {l : List Nat} (h : limbs_ok l) : limbs_ok l.dropLast :=
  fun x hx => h x (List.dropLast_subset l hx)

/-- A non-empty list is its `dropLast` followed by its last element. -/
theorem eq_dropLast_append (l : List Nat) (h : l ≠ []) :
    ∃ x, l = l.dropLast ++ [x] ∧ l.getLast? = some x := by
  refine ⟨l.getLast h, ?_, ?_⟩
  · exact (List.dropLast_append_getLast h).symm
  · exact List.getLast?_eq_getLast l h

theorem limbs_value_dropLast_zero (l : List Nat) (h : l.getLast? = some 0) :
    limbs_value l.dropLast = limbs_value l := by
  have hne : l ≠ [] := by rintro rfl; simp at h
  obtain ⟨x, hx, hx2⟩ := eq_dropLast_append l hne
  rw [h] at hx2
  have : x = 0 := by injection hx2 with h'; exact h'.symm
  subst this
  conv_rhs => rw [hx]
  rw [limbs_value_append]; simp [limbs_value]

theorem delete_zero_segments_loop_value (fuel : Nat) (l : List Nat) :
    limbs_value (delete_zero_segments_loop fuel l) = limbs_value l := by
  induction fuel generalizing l with
  | zero => rfl
  | succ n ih =>
    simp only [delete_zero_segments_loop]
    split
    · next h => rw [ih, limbs_value_dropLast_zero l h.1]
    · rfl

theorem delete_zero_segments_loop_ok (fuel : Nat) (l : List Nat) (h : limbs_ok l) :
    limbs_ok (delete_zero_segments_loop fuel l) := by
  induction fuel generalizing l with
  | zero => exact h
  | succ n ih =>
    simp only [delete_zero_segments_loop]
    split
    · exact ih _ (limbs_ok_dropLast h)
    · exact h

theorem delete_zero_segments_loop_ne_nil (fuel : Nat) (l : List Nat) (h : l ≠ []) :
    delete_zero_segments_loop fuel l ≠ [] := by
  induction fuel generalizing l with
  | zero => exact h
  | succ n ih =>
    simp only [delete_zero_segments_loop]
    split
    · next hc =>
      apply ih
      intro hd
      have hlen := congrArg List.length hd
      simp only [List.length_dropLast, List.length_nil] at hlen
      have : l.length ≠ 0 := by simpa using h
      omega
    · exact h

theorem delete_zero_segments_loop_no_high_zero (fuel : Nat) (l : List Nat)
    (h : l.length ≤ fuel) : no_high_zero (delete_zero_segments_loop fuel l) := by
  induction fuel generalizing l with
  | zero =>
    intro h1
    simp only [delete_zero_segments_loop] at h1
    omega
  | succ n ih =>
    simp only [delete_zero_segments_loop]
    split
    · next hc =>
      apply ih
      simp only [List.length_dropLast]; omega
    · next hc =>
      intro h1 h2
      exact hc ⟨h2, by omega⟩

theorem delete_zero_segments_value (l : List Nat) :
    limbs_value (delete_zero_segments l) = limbs_value l :=
  delete_zero_segments_loop_value _ _

theorem delete_zero_segments_ok (l : List Nat) (h : limbs_ok l) :
    limbs_ok (delete_zero_segments l) :=
  delete_zero_segments_loop_ok _ _ h

theorem delete_zero_segments_ne_nil (l : List Nat) (h : l ≠ []) :
    delete_zero_segments l ≠ [] :=
  delete_zero_segments_loop_ne_nil _ _ h

theorem delete_zero_segments_no_high_zero (l : List Nat) :
    no_high_zero (delete_zero_segments l) :=
  delete_zero_segments_loop_no_high_zero _ _ (le_refl _)

/-- A list with no redundant high zero limb and at least two limbs is at least
`2^(32 (n-1))`. -/
theorem le_limbs_value (l : List Nat) (h : no_high_zero l) (h2 : 1 < l.length) :
    4294967296 ^ (l.length - 1) ≤ limbs_value l := by
  have hne : l ≠ [] := by rintro rfl; simp at h2
  obtain ⟨x, hx, hx2⟩ := eq_dropLast_append l hne
  have hx0 : x ≠ 0 := by
    rintro rfl
    exact h h2 hx2
  conv_rhs => rw [hx]
  rw [limbs_value_append]
  simp only [List.length_dropLast, limbs_value, mul_zero, add_zero]
  have : 1 ≤ x := Nat.one_le_iff_ne_zero.2 hx0
  nlinarith [Nat.zero_le (limbs_value l.dropLast), Nat.zero_le (4294967296 ^ (l.length - 1))]

/-- Conversely a limb list whose value reaches `2^(32 (n-1))` has a non-zero high limb. -/
theorem no_high_zero_of_le (l : List Nat) (hok : limbs_ok l)
    (h : 4294967296 ^ (l.length - 1) ≤ limbs_value l) : no_high_zero l := by
  intro h2 h0
  have hv := limbs_value_dropLast_zero l h0
  have hlt := limbs_value_lt l.dropLast (limbs_ok_dropLast hok)
  simp only [List.length_dropLast] at hlt
  omega

theorem limbs_value_dropLast (l : List Nat) (hok : limbs_ok l) :
    limbs_value l.dropLast = limbs_value l % 4294967296 ^ (l.length - 1) := by
  by_cases hne : l = []
  · subst hne; simp [limbs_value]
  obtain ⟨x, hx, -⟩ := eq_dropLast_append l hne
  have hlt := limbs_value_lt l.dropLast (limbs_ok_dropLast hok)
  simp only [List.length_dropLast] at hlt
  have e := congrArg limbs_value hx
  rw [limbs_value_append] at e
  simp only [List.length_dropLast, limbs_value, mul_zero, add_zero] at e
  rw [e, Nat.add_mul_mod_self_left, Nat.mod_eq_of_lt hlt]

end Bigint

namespace Bigint

/-! ## Unsigned addition -/

theorem limbs_ok_tail {l : List Nat} (h : limbs_ok l) : limbs_ok l.tail :=
  fun x hx => h x (List.mem_of_mem_tail hx)

theorem headD_lt {l : List Nat} (h : limbs_ok l) : l.headD 0 < 4294967296 := by
  cases l with
  | nil => simp
  | cons x xs => exact h x (List.mem_cons_self _ _)

theorem limbs_value_head_tail (l : List Nat) :
    limbs_value l = l.headD 0 + 4294967296 * limbs_value l.tail := by
  cases l <;> simp [limbs_value]

theorem add_loop_length (n : Nat) (a b : List Nat) (t : Nat) :
    (add_loop n a b t).length = n := by
  induction n generalizing a b t with
  | zero => rfl
  | succ n ih => simp [add_loop, ih]

theorem add_loop_ok (n : Nat) (a b : List Nat) (t : Nat) : limbs_ok (add_loop n a b t) := by
  induction n generalizing a b t with
  | zero => intro x hx; simp [add_loop] at hx
  | succ n ih =>
    intro x hx
    simp only [add_loop, List.mem_cons] at hx
    rcases hx with rfl | hx
    · exact Nat.mod_lt _ (by decide)
    · exact ih _ _ _ x hx

theorem add_loop_succ (n : Nat) (a b : List Nat) (t : Nat) :
    add_loop (n + 1) a b t =
      ((a.headD 0 + b.headD 0 + t) % 18446744073709551616 % 4294967296) ::
        add_loop n a.tail b.tail
          ((a.headD 0 + b.headD 0 + t) % 18446744073709551616 / 4294967296) := rfl

/-- With one round more than the longer operand has limbs, the loop writes the exact sum. -/
theorem add_loop_value (n : Nat) (a b : List Nat) (t : Nat) (ha : limbs_ok a)
    (hb : limbs_ok b) (ht : t ≤ 1) (hla : a.length ≤ n) (hlb : b.length ≤ n) :
    limbs_value (add_loop (n + 1) a b t) = limbs_value a + limbs_value b + t := by
  induction n generalizing a b t with
  | zero =>
    have ea : a = [] := List.length_eq_zero.1 (by omega)
    have eb : b = [] := List.length_eq_zero.1 (by omega)
    subst ea; subst eb
    simp only [add_loop, limbs_value, List.headD_nil]
    omega
  | succ n ih =>
    have h1 := headD_lt ha
    have h2 := headD_lt hb
    have hta : a.tail.length ≤ n := by simp only [List.length_tail]; omega
    have htb : b.tail.length ≤ n := by simp only [List.length_tail]; omega
    have hc : (a.headD 0 + b.headD 0 + t) % 18446744073709551616 / 4294967296 ≤ 1 := by omega
    have := ih a.tail b.tail _ (limbs_ok_tail ha) (limbs_ok_tail hb) hc hta htb
    rw [add_loop_succ, limbs_value, this, limbs_value_head_tail a, limbs_value_head_tail b]
    omega

theorem bigint_add_basic_sign (sum x y : bigint) :
    (bigint_add_basic sum x y).sign = sum.sign := by
  simp only [bigint_add_basic, reset, add_segments]
  split_ifs <;> rfl

/-- The limbs `bigint_add_basic` leaves in `sum`, before trimming, are the written limbs
followed by zero limbs. -/
theorem bigint_add_basic_limbs (sum x y : bigint) :
    ∃ k, (bigint_add_basic sum x y).limbs =
      delete_zero_segments
        (add_loop ((if x.limbs.length > y.limbs.length then x.limbs else y.limbs).length + 1)
            (if x.limbs.length > y.limbs.length then x.limbs else y.limbs)
            (if x.limbs.length > y.limbs.length then y.limbs else x.limbs) 0 ++
          List.replicate k 0) := by
  simp only [bigint_add_basic, bigint_copy, reset, add_segments]
  by_cases hxy : x.limbs.length > y.limbs.length
  · simp only [hxy, if_true]
    split
    · refine ⟨sum.limbs.length + (x.limbs.length + 1 - sum.limbs.length) - (x.limbs.length + 1), ?_⟩
      simp [List.map_const', ← List.replicate_add, List.drop_replicate]
    · refine ⟨sum.limbs.length - (x.limbs.length + 1), ?_⟩
      simp [List.map_const', List.drop_replicate]
  · simp only [hxy, if_false]
    split
    · refine ⟨sum.limbs.length + (y.limbs.length + 1 - sum.limbs.length) - (y.limbs.length + 1), ?_⟩
      simp [List.map_const', ← List.replicate_add, List.drop_replicate]
    · refine ⟨sum.limbs.length - (y.limbs.length + 1), ?_⟩
      simp [List.map_const', List.drop_replicate]

/-- `bigint_add_basic` leaves the sum of the magnitudes, trimmed, whatever `sum` held. -/
theorem bigint_add_basic_spec (sum x y : bigint) (hx : limbs_ok x.limbs)
    (hy : limbs_ok y.limbs) :
    limbs_value (bigint_add_basic sum x y).limbs = limbs_value x.limbs + limbs_value y.limbs ∧
      limbs_ok (bigint_add_basic sum x y).limbs ∧ (bigint_add_basic sum x y).limbs ≠ [] ∧
      no_high_zero (bigint_add_basic sum x y).limbs := by
  obtain ⟨k, hk⟩ := bigint_add_basic_limbs sum x y
  rw [hk]
  refine ⟨?_, ?_, ?_, delete_zero_segments_no_high_zero _⟩
  · rw [delete_zero_segments_value, limbs_value_append, limbs_value_replicate_zero]
    by_cases hxy : x.limbs.length > y.limbs.length
    · simp only [hxy, if_true]
      rw [add_loop_value _ _ _ _ hx hy (Nat.zero_le 1) (le_refl _) (by omega)]
      simp
    · simp only [hxy, if_false]
      rw [add_loop_value _ _ _ _ hy hx (Nat.zero_le 1) (le_refl _) (by omega)]
      simp; omega
  · apply delete_zero_segments_ok
    exact limbs_ok_append.2 ⟨add_loop_ok _ _ _ _, limbs_ok_replicate_zero _⟩
  · apply delete_zero_segments_ne_nil
    intro h
    have := congrArg List.length h
    simp [add_loop_length] at this

end Bigint

namespace Bigint

/-! ## Increment and unsigned subtraction -/

theorem not32_eq_zero_iff (v : Nat) (h : v < 4294967296) : not32 v = 0 ↔ v = 4294967295 := by
  unfold not32; omega

theorem increment_loop_length (l : List Nat) : (increment_loop l).length = l.length := by
  induction l with
  | nil => rfl
  | cons v rest ih =>
    simp only [increment_loop]
    split <;> simp [ih]

theorem increment_loop_ok (l : List Nat) (h : limbs_ok l) : limbs_ok (increment_loop l) := by
  induction l with
  | nil => exact h
  | cons v rest ih =>
    have hr : limbs_ok rest := fun y hy => h y (List.mem_cons_of_mem _ hy)
    simp only [increment_loop]
    split
    · intro x hx
      rcases List.mem_cons.1 hx with rfl | hx
      · exact Nat.mod_lt _ (by decide)
      · exact ih hr x hx
    · intro x hx
      rcases List.mem_cons.1 hx with rfl | hx
      · exact Nat.mod_lt _ (by decide)
      · exact hr x hx

theorem increment_loop_cons (v : Nat) (rest : List Nat) :
    increment_loop (v :: rest) =
      if not32 v = 0 then ((v + 1) % 4294967296) :: increment_loop rest
      else ((v + 1) % 4294967296) :: rest := rfl

/-- After a zero node has been appended the increment loop adds exactly one. -/
theorem increment_loop_value (l : List Nat) (h : limbs_ok l) :
    limbs_value (increment_loop (l ++ [0])) = limbs_value l + 1 := by
  induction l with
  | nil => simp [increment_loop, not32, limbs_value]
  | cons v rest ih =>
    have hv : v < 4294967296 := h v (List.mem_cons_self _ _)
    have hr : limbs_ok rest := fun y hy => h y (List.mem_cons_of_mem _ hy)
    rw [List.cons_append, increment_loop_cons]
    split
    · next h0 =>
      have := (not32_eq_zero_iff v hv).1 h0
      rw [limbs_value, ih hr, limbs_value]
      omega
    · next h0 =>
      have : v ≠ 4294967295 := fun e => h0 ((not32_eq_zero_iff v hv).2 e)
      rw [limbs_value, limbs_value_append, limbs_value]
      simp only [limbs_value, mul_zero, add_zero]
      omega

/-- `bigint_increment_basic` adds one to the magnitude and keeps the limb list trimmed. -/
theorem bigint_increment_basic_spec (number : bigint) (hok : limbs_ok number.limbs)
    (hne : number.limbs ≠ []) (hz : no_high_zero number.limbs) :
    limbs_value (bigint_increment_basic number).limbs = limbs_value number.limbs + 1 ∧
      limbs_ok (bigint_increment_basic number).limbs ∧
      (bigint_increment_basic number).limbs ≠ [] ∧
      no_high_zero (bigint_increment_basic number).limbs ∧
      (bigint_increment_basic number).sign = number.sign := by
  have hlen : 1 ≤ number.limbs.length := by
    rcases hl : number.limbs with _ | ⟨a, t⟩
    · exact absurd hl hne
    · simp
  have hv := increment_loop_value number.limbs hok
  have hk : limbs_ok (increment_loop (number.limbs ++ [0])) :=
    increment_loop_ok _ (limbs_ok_append.2 ⟨hok, by intro x hx; simp at hx; omega⟩)
  have hl : (increment_loop (number.limbs ++ [0])).length = number.limbs.length + 1 := by
    rw [increment_loop_length]; simp
  simp only [bigint_increment_basic, add_segments, List.replicate_one]
  split
  · next hc =>
    simp only
    have hd := limbs_value_dropLast_zero _ hc.1
    refine ⟨by rw [hd, hv], limbs_ok_dropLast hk, ?_, ?_, trivial⟩
    · intro e
      have := congrArg List.length e
      simp only [List.length_dropLast, hl, List.length_nil] at this
      omega
    · apply no_high_zero_of_le _ (limbs_ok_dropLast hk)
      rw [hd, hv]
      simp only [List.length_dropLast, hl, Nat.add_sub_cancel]
      by_cases h1 : 1 < number.limbs.length
      · have := le_limbs_value _ hz h1
        omega
      · have : number.limbs.length - 1 = 0 := by omega
        rw [this]; simp
  · next hc =>
    simp only
    refine ⟨hv, hk, ?_, ?_, trivial⟩
    · intro e
      have := congrArg List.length e
      simp [hl] at this
    · intro _ h0
      exact hc ⟨h0, by omega⟩

theorem limbs_value_map_not32 (l : List Nat) (h : limbs_ok l) :
    limbs_value (l.map not32) + limbs_value l + 1 = 4294967296 ^ l.length := by
  induction l with
  | nil => simp [limbs_value]
  | cons v rest ih =>
    have hv : v < 4294967296 := h v (List.mem_cons_self _ _)
    have hr : limbs_ok rest := fun y hy => h y (List.mem_cons_of_mem _ hy)
    have := ih hr
    simp only [List.map_cons, limbs_value, List.length_cons, pow_succ, not32]
    rw [Nat.mod_eq_of_lt hv]
    omega

theorem limbs_value_replicate_ones (n : Nat) :
    limbs_value (List.replicate n (not32 0)) + 1 = 4294967296 ^ n := by
  have e : not32 0 = 4294967295 := rfl
  rw [e]
  induction n with
  | zero => simp [limbs_value]
  | succ n ih =>
    rw [List.replicate_succ, limbs_value, pow_succ]
    omega

theorem limbs_ok_map_not32 (l : List Nat) : limbs_ok (l.map not32) := by
  intro x hx
  obtain ⟨y, -, rfl⟩ := List.mem_map.1 hx
  unfold not32; omega

/-- The operand `adjusted` of `bigint_subtract_basic`: its value is `2^(32 n) - 1 - s`. -/
theorem adjusted_value (s : List Nat) (n : Nat) (hs : limbs_ok s) (hn : s.length ≤ n) :
    limbs_value (s.map not32 ++ List.replicate (n - s.length) (not32 0)) + limbs_value s + 1 =
      4294967296 ^ n := by
  have h1 := limbs_value_map_not32 s hs
  have h2 := limbs_value_replicate_ones (n - s.length)
  rw [limbs_value_append, List.length_map]
  have h3 : (4294967296 : Nat) ^ n = 4294967296 ^ s.length * 4294967296 ^ (n - s.length) := by
    rw [← pow_add]; congr 1; omega
  rw [h3, ← h2, ← h1]
  ring

theorem bigint_subtract_basic_sign (d m s : bigint) :
    (bigint_subtract_basic d m s).sign = d.sign := by
  simp only [bigint_subtract_basic, bigint_increment_basic, add_segments]
  split <;> simp [bigint_add_basic_sign]

/-- `bigint_subtract_basic` leaves `m - s`, trimmed, when `s` is not longer than `m` and not
larger than it, whatever `difference` held. -/
theorem bigint_subtract_basic_spec (d m s : bigint) (hm : limbs_ok m.limbs)
    (hmne : m.limbs ≠ []) (hs : limbs_ok s.limbs) (hlen : s.limbs.length ≤ m.limbs.length)
    (hle : limbs_value s.limbs ≤ limbs_value m.limbs) :
    limbs_value (bigint_subtract_basic d m s).limbs + limbs_value s.limbs =
        limbs_value m.limbs ∧
      limbs_ok (bigint_subtract_basic d m s).limbs ∧ (bigint_subtract_basic d m s).limbs ≠ [] ∧
      no_high_zero (bigint_subtract_basic d m s).limbs := by
  have hadj := adjusted_value s.limbs m.limbs.length hs hlen
  have hadjok : limbs_ok (s.limbs.map not32 ++
      List.replicate (m.limbs.length - s.limbs.length) (not32 0)) :=
    limbs_ok_append.2 ⟨limbs_ok_map_not32 _, by
      intro x hx; rw [List.eq_of_mem_replicate hx]; decide⟩
  obtain ⟨a1, a2, a3, a4⟩ := bigint_add_basic_spec d m
    { limbs := s.limbs.map not32 ++
        List.replicate (m.limbs.length - s.limbs.length) (not32 0), sign := 0 } hm hadjok
  obtain ⟨i1, i2, i3, i4, -⟩ := bigint_increment_basic_spec _ a2 a3 a4
  have hmlt := limbs_value_lt _ hm
  simp only at a1
  -- the value after the increment lies in `[2^(32 n), 2 * 2^(32 n))`
  set I := (bigint_increment_basic (bigint_add_basic d m
    { limbs := s.limbs.map not32 ++
        List.replicate (m.limbs.length - s.limbs.length) (not32 0), sign := 0 })).limbs with hI
  have hIv : limbs_value I + limbs_value s.limbs =
      4294967296 ^ m.limbs.length + limbs_value m.limbs := by
    rw [i1, a1]; omega
  have hIlen : I.length = m.limbs.length + 1 := by
    have hup := limbs_value_lt I i2
    have hlo : 4294967296 ^ m.limbs.length ≤ limbs_value I := by omega
    have hlt2 : limbs_value I < 4294967296 ^ (m.limbs.length + 1) := by
      rw [pow_succ]; omega
    have hge : m.limbs.length < I.length :=
      (Nat.pow_lt_pow_iff_right (by decide : 1 < 4294967296)).1 (lt_of_le_of_lt hlo hup)
    by_contra hcon
    have h2 : 1 < I.length := by omega
    have := le_limbs_value I i4 h2
    have hpow : (4294967296 : Nat) ^ (m.limbs.length + 1) ≤ 4294967296 ^ (I.length - 1) :=
      Nat.pow_le_pow_right (by decide) (by omega)
    omega
  have hD : limbs_value I.dropLast + limbs_value s.limbs = limbs_value m.limbs := by
    rw [limbs_value_dropLast I i2, hIlen, Nat.add_sub_cancel]
    have e : limbs_value I =
        (limbs_value m.limbs - limbs_value s.limbs) + 4294967296 ^ m.limbs.length * 1 := by
      omega
    have hlt3 : limbs_value m.limbs - limbs_value s.limbs < 4294967296 ^ m.limbs.length := by
      omega
    rw [e, Nat.add_mul_mod_self_left, Nat.mod_eq_of_lt hlt3]
    omega
  have hDne : I.dropLast ≠ [] := by
    intro e
    have := congrArg List.length e
    simp only [List.length_dropLast, hIlen, List.length_nil] at this
    have : m.limbs.length ≠ 0 := by simpa using hmne
    omega
  show limbs_value (delete_zero_segments I.dropLast) + limbs_value s.limbs = limbs_value m.limbs ∧
    limbs_ok (delete_zero_segments I.dropLast) ∧ delete_zero_segments I.dropLast ≠ [] ∧
    no_high_zero (delete_zero_segments I.dropLast)
  exact ⟨by rw [delete_zero_segments_value]; exact hD,
    delete_zero_segments_ok _ (limbs_ok_dropLast i2), delete_zero_segments_ne_nil _ hDne,
    delete_zero_segments_no_high_zero _⟩

end Bigint

namespace Bigint

/-! ## Comparison of magnitudes -/

/-- On limb lists of the same length the comparison loop, which walks from the high end,
decides the order of the magnitudes. -/
theorem compare_loop_spec (a b : List Nat) (ha : limbs_ok a) (hb : limbs_ok b)
    (hlen : a.length = b.length) :
    compare_loop a.reverse b.reverse =
      if limbs_value a < limbs_value b then -1
      else if limbs_value a = limbs_value b then 0 else 1 := by
  induction a using List.reverseRecOn generalizing b with
  | nil =>
    have : b = [] := List.length_eq_zero.1 (by simpa using hlen.symm)
    subst this
    simp [compare_loop, limbs_value]
  | append_singleton i x ih =>
    have hbne : b ≠ [] := by
      intro e; subst e; simp at hlen
    obtain ⟨y, hy, -⟩ := eq_dropLast_append b hbne
    have hi : limbs_ok i := (limbs_ok_append.1 ha).1
    have hx : x < 4294967296 := (limbs_ok_append.1 ha).2 x (List.mem_singleton_self x)
    have hj : limbs_ok b.dropLast := limbs_ok_dropLast hb
    have hlen2 : i.length = b.dropLast.length := by
      simp only [List.length_dropLast]
      simp only [List.length_append, List.length_singleton] at hlen
      omega
    have hvi := limbs_value_lt i hi
    have hvj := limbs_value_lt _ hj
    have hvb : limbs_value b = limbs_value b.dropLast + 4294967296 ^ i.length * y := by
      have e := congrArg limbs_value hy
      rw [limbs_value_append] at e
      simp only [limbs_value, mul_zero, add_zero] at e
      rw [e, hlen2]
    have hrev : b.reverse = y :: b.dropLast.reverse := by
      conv_lhs => rw [hy]
      simp
    rw [hvb, limbs_value_append, hrev]
    simp only [List.reverse_append, List.reverse_cons, List.reverse_nil, List.nil_append,
      List.singleton_append, compare_loop, limbs_value, mul_zero, add_zero]
    rw [← hlen2] at hvj
    have hpos : 0 < 4294967296 ^ i.length := Nat.pow_pos (by decide)
    by_cases hxy : x = y
    · subst hxy
      simp only [ne_eq, not_true_eq_false, if_false]
      rw [ih b.dropLast hi hj hlen2]
      by_cases h1 : limbs_value i < limbs_value b.dropLast
      · simp [h1]
      · by_cases h2 : limbs_value i = limbs_value b.dropLast
        · simp [h2]
        · simp [h1, h2]
    · simp only [ne_eq, hxy, not_false_eq_true, if_true]
      by_cases hgt : x > y
      · have h1 : 4294967296 ^ i.length * (y + 1) ≤ 4294967296 ^ i.length * x :=
          Nat.mul_le_mul_left _ hgt
        have hn1 : ¬ (limbs_value i + 4294967296 ^ i.length * x <
            limbs_value b.dropLast + 4294967296 ^ i.length * y) := by
          rw [Nat.mul_add] at h1; omega
        have hn2 : ¬ (limbs_value i + 4294967296 ^ i.length * x =
            limbs_value b.dropLast + 4294967296 ^ i.length * y) := by
          rw [Nat.mul_add] at h1; omega
        simp [hgt, hn1, hn2]
      · have hlt : x < y := by omega
        have h1 : 4294967296 ^ i.length * (x + 1) ≤ 4294967296 ^ i.length * y :=
          Nat.mul_le_mul_left _ hlt
        have hn1 : limbs_value i + 4294967296 ^ i.length * x <
            limbs_value b.dropLast + 4294967296 ^ i.length * y := by
          rw [Nat.mul_add] at h1; omega
        simp [hgt, hn1]

/-- The trimmed limb list of the smaller magnitude is not the longer one. -/
theorem length_le_of_value_le (a b : List Nat) (ha : no_high_zero a) (hb : limbs_ok b)
    (hbne : b ≠ []) (h : limbs_value a ≤ limbs_value b) : a.length ≤ b.length := by
  by_contra hcon
  have hbl : b.length ≠ 0 := by simpa using hbne
  have h2 : 1 < a.length := by omega
  have h3 := le_limbs_value a ha h2
  have h4 := limbs_value_lt b hb
  have h5 : (4294967296 : Nat) ^ b.length ≤ 4294967296 ^ (a.length - 1) :=
    Nat.pow_le_pow_right (by decide) (by omega)
  omega

/-- On trimmed operands `bigint_compare_absolute` decides the order of the magnitudes. -/
theorem bigint_compare_absolute_spec (a b : bigint) (ha : limbs_ok a.limbs)
    (hane : a.limbs ≠ []) (haz : no_high_zero a.limbs) (hb : limbs_ok b.limbs)
    (hbne : b.limbs ≠ []) (hbz : no_high_zero b.limbs) :
    bigint_compare_absolute a b =
      if limbs_value a.limbs < limbs_value b.limbs then -1
      else if limbs_value a.limbs = limbs_value b.limbs then 0 else 1 := by
  unfold bigint_compare_absolute
  by_cases hlen : a.limbs.length = b.limbs.length
  · simp only [hlen, ne_eq, not_true_eq_false, if_false]
    exact compare_loop_spec _ _ ha hb hlen
  · simp only [ne_eq, hlen, not_false_eq_true, if_true]
    by_cases hgt : a.limbs.length > b.limbs.length
    · have : ¬ limbs_value a.limbs ≤ limbs_value b.limbs := fun hle =>
        absurd (length_le_of_value_le _ _ haz hb hbne hle) (by omega)
      have h1 : ¬ limbs_value a.limbs < limbs_value b.limbs := by omega
      have h2 : ¬ limbs_value a.limbs = limbs_value b.limbs := by omega
      simp [hgt, h1, h2]
    · have : ¬ limbs_value b.limbs ≤ limbs_value a.limbs := fun hle =>
        absurd (length_le_of_value_le _ _ hbz ha hane hle) (by omega)
      have h1 : limbs_value a.limbs < limbs_value b.limbs := by omega
      simp [hgt, h1]

end Bigint

namespace Bigint

/-! ## Signed addition and subtraction -/

theorem canonical_sign (v : bigint) (h : canonical v) : v.sign = 0 ∨ v.sign = 1 := by
  have := h.1; omega

theorem limbs_eq_zero_of_value (l : List Nat) (hne : l ≠ []) (hz : no_high_zero l)
    (h0 : limbs_value l = 0) : l = [0] := by
  by_cases h2 : 1 < l.length
  · have := le_limbs_value l hz h2
    have hp : 0 < 4294967296 ^ (l.length - 1) := Nat.pow_pos (by decide)
    omega
  · match l, hne, h2, h0 with
    | [x], _, _, h0 => simp [limbs_value] at h0; rw [h0]
    | _ :: _ :: _, _, h2, _ => simp at h2

theorem canonical_pos_of_sign (v : bigint) (h : canonical v) (hs : v.sign = 1) :
    0 < limbs_value v.limbs := by
  by_contra hcon
  have h0 : limbs_value v.limbs = 0 := by omega
  have := h.2.2.2.2 (limbs_eq_zero_of_value _ h.2.2.1 h.2.2.2.1 h0)
  omega

theorem toInt_sign_zero (v : bigint) (h : v.sign = 0) :
    v.toInt = (limbs_value v.limbs : Int) := by
  simp [bigint.toInt, bigint.magnitude, h]

theorem toInt_sign_one (v : bigint) (h : v.sign = 1) :
    v.toInt = -(limbs_value v.limbs : Int) := by
  simp [bigint.toInt, bigint.magnitude, h]

/-- A trimmed limb list with a sign that is `0` whenever the magnitude is zero is canonical. -/
theorem canonical_of (l : List Nat) (s : Nat) (hs : s ≤ 1) (hok : limbs_ok l) (hne : l ≠ [])
    (hz : no_high_zero l) (h0 : limbs_value l = 0 → s = 0) :
    canonical { limbs := l, sign := s } :=
  ⟨hs, hok, hne, hz, fun e => h0 (by simp only at e; rw [e]; rfl)⟩

/-- The mixed-sign dispatch shared by `bigint_add_sign` and `bigint_subtract`: the smaller
magnitude is subtracted from the bigger one. -/
theorem subtract_dispatch_spec (d t v : bigint) (tok : limbs_ok t.limbs) (tne : t.limbs ≠ [])
    (tz : no_high_zero t.limbs) (vok : limbs_ok v.limbs) (vne : v.limbs ≠ [])
    (vz : no_high_zero v.limbs) :
    (bigint_compare_absolute t v = 1 ↔ limbs_value v.limbs < limbs_value t.limbs) ∧
    (bigint_compare_absolute t v = 0 ↔ limbs_value t.limbs = limbs_value v.limbs) ∧
    ((limbs_value (bigint_subtract_basic d
        (if bigint_compare_absolute t v = 1 then t else v)
        (if bigint_compare_absolute t v = 1 then v else t)).limbs : Int) =
      |(limbs_value t.limbs : Int) - (limbs_value v.limbs : Int)|) ∧
    limbs_ok (bigint_subtract_basic d
        (if bigint_compare_absolute t v = 1 then t else v)
        (if bigint_compare_absolute t v = 1 then v else t)).limbs ∧
    (bigint_subtract_basic d
        (if bigint_compare_absolute t v = 1 then t else v)
        (if bigint_compare_absolute t v = 1 then v else t)).limbs ≠ [] ∧
    no_high_zero (bigint_subtract_basic d
        (if bigint_compare_absolute t v = 1 then t else v)
        (if bigint_compare_absolute t v = 1 then v else t)).limbs := by
  have hcmp := bigint_compare_absolute_spec t v tok tne tz vok vne vz
  by_cases hgt : limbs_value v.limbs < limbs_value t.limbs
  · have hc : bigint_compare_absolute t v = 1 := by
      rw [hcmp]; simp [Nat.not_lt.2 (le_of_lt hgt), Nat.ne_of_gt hgt]
    obtain ⟨s1, s2, s3, s4⟩ := bigint_subtract_basic_spec d t v tok tne vok
      (length_le_of_value_le _ _ vz tok tne (le_of_lt hgt)) (le_of_lt hgt)
    simp only [hc, if_true]
    refine ⟨by simp [hgt], by constructor <;> intro h <;> omega, ?_, s2, s3, s4⟩
    rw [abs_of_nonneg (by omega)]
    omega
  · have hle : limbs_value t.limbs ≤ limbs_value v.limbs := by omega
    have hc : bigint_compare_absolute t v ≠ 1 := by
      rw [hcmp]
      by_cases h1 : limbs_value t.limbs < limbs_value v.limbs
      · simp [h1]
      · have : limbs_value t.limbs = limbs_value v.limbs := by omega
        simp [this]
    obtain ⟨s1, s2, s3, s4⟩ := bigint_subtract_basic_spec d v t vok vne tok
      (length_le_of_value_le _ _ tz vok vne hle) hle
    simp only [hc, if_false]
    refine ⟨by simp [hgt], ?_, ?_, s2, s3, s4⟩
    · rw [hcmp]
      by_cases h1 : limbs_value t.limbs < limbs_value v.limbs
      · simp [h1]; omega
      · have : limbs_value t.limbs = limbs_value v.limbs := by omega
        simp [this]
    · rw [abs_of_nonpos (by omega)]
      omega

/-- One step of the fold of `bigint_add`: `bigint_add_sign(t, t, v)`. -/
theorem bigint_add_sign_spec (t v : bigint) (ht : canonical t) (hv : canonical v) :
    ∃ r, bigint_add_sign t t v = .ok r ∧ canonical r ∧ r.toInt = t.toInt + v.toInt := by
  have tok := ht.2.1
  have tne := ht.2.2.1
  have tz := ht.2.2.2.1
  have vok := hv.2.1
  have vne := hv.2.2.1
  have vz := hv.2.2.2.1
  have hadd := bigint_add_basic_spec t t v tok vok
  have haddsign := bigint_add_basic_sign t t v
  obtain ⟨d1, d0, dv, dok, dne, dz⟩ := subtract_dispatch_spec t t v tok tne tz vok vne vz
  rcases canonical_sign t ht with hts | hts <;> rcases canonical_sign v hv with hvs | hvs
  · -- both non-negative
    refine ⟨bigint_add_basic t t v, by simp [bigint_add_sign, hts, hvs], ?_, ?_⟩
    · exact ⟨by rw [haddsign, hts]; omega, hadd.2.1, hadd.2.2.1, hadd.2.2.2,
        fun _ => by rw [haddsign, hts]⟩
    · rw [toInt_sign_zero _ (by rw [haddsign, hts]), toInt_sign_zero _ hts,
        toInt_sign_zero _ hvs, hadd.1]
      push_cast; ring
  · -- t ≥ 0 > v
    have hvpos := canonical_pos_of_sign v hv hvs
    rw [toInt_sign_zero _ hts, toInt_sign_one _ hvs]
    simp only [bigint_add_sign, hts, hvs]
    refine ⟨_, rfl, ?_, ?_⟩
    · refine canonical_of _ _ ?_ dok dne dz ?_
      · split_ifs <;> simp [hts, hvs]
      · intro h0
        rw [h0] at dv
        have : limbs_value t.limbs = limbs_value v.limbs := by
          have := abs_eq_zero.1 dv.symm
          omega
        simp [d0.2 this]
    · by_cases h0 : bigint_compare_absolute t v = 0
      · have := d0.1 h0
        rw [toInt_sign_zero _ (by simp [h0])]
        simp only
        rw [dv, this]; simp
      · by_cases h1 : bigint_compare_absolute t v = 1
        · have := d1.1 h1
          rw [toInt_sign_zero _ (by simp [h1, hts])]
          simp only
          rw [dv, abs_of_nonneg (by omega)]
          ring
        · have h2 : ¬ limbs_value v.limbs < limbs_value t.limbs := fun h => h1 (d1.2 h)
          rw [toInt_sign_one _ (by simp [h0, h1, hvs])]
          simp only
          rw [dv, abs_of_nonpos (by omega)]
          ring
  · -- t < 0 ≤ v
    have htpos := canonical_pos_of_sign t ht hts
    rw [toInt_sign_one _ hts, toInt_sign_zero _ hvs]
    simp only [bigint_add_sign, hts, hvs]
    refine ⟨_, rfl, ?_, ?_⟩
    · refine canonical_of _ _ ?_ dok dne dz ?_
      · split_ifs <;> simp [hts, hvs]
      · intro h0
        rw [h0] at dv
        have : limbs_value t.limbs = limbs_value v.limbs := by
          have := abs_eq_zero.1 dv.symm
          omega
        simp [d0.2 this]
    · by_cases h0 : bigint_compare_absolute t v = 0
      · have := d0.1 h0
        rw [toInt_sign_zero _ (by simp [h0])]
        simp only
        rw [dv, this]; simp
      · by_cases h1 : bigint_compare_absolute t v = 1
        · have := d1.1 h1
          rw [toInt_sign_one _ (by simp [h1, hts])]
          simp only
          rw [dv, abs_of_nonneg (by omega)]
          ring
        · have h2 : ¬ limbs_value v.limbs < limbs_value t.limbs := fun h => h1 (d1.2 h)
          rw [toInt_sign_zero _ (by simp [h0, h1, hvs])]
          simp only
          rw [dv, abs_of_nonpos (by omega)]
          ring
  · -- both negative
    have htpos := canonical_pos_of_sign t ht hts
    refine ⟨{ bigint_add_basic t t v with sign := 1 }, by simp [bigint_add_sign, hts, hvs],
      ?_, ?_⟩
    · exact canonical_of _ _ (le_refl _) hadd.2.1 hadd.2.2.1 hadd.2.2.2
        (fun h0 => by have := hadd.1; omega)
    · rw [toInt_sign_one _ rfl, toInt_sign_one _ hts, toInt_sign_one _ hvs]
      simp only
      rw [hadd.1]
      push_cast; ring

/-- The fold of `bigint_add` over canonical summands. -/
theorem bigint_add_fold_spec (vs : List bigint) (t : bigint) (ht : canonical t)
    (hvs : ∀ v ∈ vs, canonical v) :
    ∃ r, vs.foldlM (fun t v => bigint_add_sign t t v) t = .ok r ∧ canonical r ∧
      r.toInt = t.toInt + (vs.map bigint.toInt).sum := by
  induction vs generalizing t with
  | nil => exact ⟨t, rfl, ht, by simp⟩
  | cons v vs ih =>
    obtain ⟨r1, h1, c1, e1⟩ :=
      bigint_add_sign_spec t v ht (hvs v (List.mem_cons_self _ _))
    obtain ⟨r, h2, c2, e2⟩ := ih r1 c1 (fun w hw => hvs w (List.mem_cons_of_mem _ hw))
    refine ⟨r, ?_, c2, ?_⟩
    · rw [List.foldlM_cons, h1]
      exact h2
    · rw [e2, e1]
      simp only [List.map_cons, List.sum_cons]
      ring

theorem bigint_create_zero : bigint_create ['0'] = .ok { limbs := [0], sign := 0 } := by
  rfl

end Bigint

namespace Bigint

/-! ## Bit operations on words -/

theorem and_bit_ne_zero (v j : Nat) : v &&& (1 <<< j) ≠ 0 ↔ v / 2 ^ j % 2 = 1 := by
  rw [Nat.shiftLeft_eq, one_mul, Nat.and_two_pow]
  have hp : 0 < 2 ^ j := Nat.pow_pos (by decide)
  cases h : v.testBit j
  · have : ¬ v / 2 ^ j % 2 = 1 := by
      intro e
      rw [Nat.testBit_to_div_mod] at h
      simp [e] at h
    simp [this]
  · have : v / 2 ^ j % 2 = 1 := by
      rw [Nat.testBit_to_div_mod] at h
      simpa using h
    simp [this, Nat.ne_of_gt hp]

theorem shiftRight_and_one_ne_zero (v i : Nat) : (v >>> i) &&& 1 ≠ 0 ↔ v / 2 ^ i % 2 = 1 := by
  rw [Nat.and_one_is_mod, Nat.shiftRight_eq_div_pow]
  omega

theorem and_top_bit_ne_zero (v : Nat) (h : v < 4294967296) :
    v &&& 2147483648 ≠ 0 ↔ 2147483648 ≤ v := by
  have := and_bit_ne_zero v 31
  rw [show (1 <<< 31 : Nat) = 2147483648 from rfl] at this
  rw [this]
  norm_num
  omega

theorem and_top_bit_shift (v : Nat) (h : v < 4294967296) :
    (v &&& 2147483648) >>> 31 = v / 2147483648 := by
  rw [show (2147483648 : Nat) = 2 ^ 31 from rfl, Nat.and_two_pow, Nat.shiftRight_eq_div_pow]
  cases hb : v.testBit 31
  · rw [Nat.testBit_to_div_mod] at hb
    simp at hb
    norm_num at hb ⊢
    omega
  · rw [Nat.testBit_to_div_mod] at hb
    simp at hb
    norm_num at hb ⊢
    omega

theorem or_low_bit (x r : Nat) (hx : x % 2 = 0) (hr : r ≤ 1) : x ||| r = x + r := by
  have h := Nat.mul_add_lt_is_or (i := 1) (b := r) (by omega) (x / 2)
  have e : 2 ^ 1 * (x / 2) = x := by omega
  rw [e] at h
  exact h.symm

/-! ## Left shifts -/

theorem shift_left_loop_length (l : List Nat) (r : Nat) :
    (shift_left_loop l r).length = l.length := by
  induction l generalizing r with
  | nil => rfl
  | cons v rest ih => simp [shift_left_loop, ih]

theorem shift_left_loop_cons (v : Nat) (rest : List Nat) (r : Nat) :
    shift_left_loop (v :: rest) r =
      (((v <<< 1) % 4294967296) ||| r) :: shift_left_loop rest ((v &&& 2147483648) >>> 31) :=
  rfl

theorem shift_left_word (v r : Nat) (hr : r ≤ 1) :
    ((v <<< 1) % 4294967296) ||| r = (2 * v) % 4294967296 + r := by
  rw [Nat.shiftLeft_eq, pow_one, or_low_bit _ _ (by omega) hr]
  congr 1
  omega

theorem shift_left_loop_ok (l : List Nat) (r : Nat) (hr : r ≤ 1) :
    limbs_ok (shift_left_loop l r) := by
  induction l generalizing r with
  | nil => intro x hx; simp [shift_left_loop] at hx
  | cons v rest ih =>
    rw [shift_left_loop_cons, shift_left_word v r hr]
    intro x hx
    rcases List.mem_cons.1 hx with rfl | hx
    · omega
    · refine ih _ ?_ x hx
      have := @Nat.and_le_right v 2147483648
      rw [Nat.shiftRight_eq_div_pow]
      have : (v &&& 2147483648) / 2 ^ 31 ≤ 2147483648 / 2 ^ 31 := Nat.div_le_div_right this
      norm_num at this ⊢
      exact this

/-- The loop shifts the whole number by one bit when the result fits the nodes. -/
theorem shift_left_loop_value (l : List Nat) (r : Nat) (hl : limbs_ok l) (hr : r ≤ 1)
    (hfit : 2 * limbs_value l + r < 4294967296 ^ l.length) :
    limbs_value (shift_left_loop l r) = 2 * limbs_value l + r := by
  induction l generalizing r with
  | nil =>
    simp only [limbs_value, List.length_nil, pow_zero] at hfit
    simp only [shift_left_loop, limbs_value]
    omega
  | cons v rest ih =>
    have hv : v < 4294967296 := hl v (List.mem_cons_self _ _)
    have hrest : limbs_ok rest := fun y hy => hl y (List.mem_cons_of_mem _ hy)
    rw [shift_left_loop_cons, shift_left_word v r hr, and_top_bit_shift v hv]
    simp only [limbs_value, List.length_cons, pow_succ] at hfit ⊢
    have hfit2 : 2 * limbs_value rest + v / 2147483648 < 4294967296 ^ rest.length := by
      by_contra hcon
      have : 4294967296 ^ rest.length ≤ 2 * limbs_value rest + v / 2147483648 := by omega
      have := Nat.mul_le_mul_right 4294967296 this
      omega
    rw [ih _ hrest (by omega) hfit2]
    omega

theorem bigint_shift_left_basic_sign (number : bigint) :
    (bigint_shift_left_basic number).sign = number.sign := by
  simp only [bigint_shift_left_basic]
  split <;> rfl

/-- `bigint_shift_left_basic` doubles the magnitude. -/
theorem bigint_shift_left_basic_spec (number : bigint) (hok : limbs_ok number.limbs)
    (hne : number.limbs ≠ []) :
    limbs_value (bigint_shift_left_basic number).limbs = 2 * limbs_value number.limbs ∧
      limbs_ok (bigint_shift_left_basic number).limbs ∧
      (bigint_shift_left_basic number).limbs ≠ [] := by
  obtain ⟨x, hx, hx2⟩ := eq_dropLast_append number.limbs hne
  have hxlt : x < 4294967296 := hok x (by rw [hx]; simp)
  have hlast : number.limbs.getLastD 0 = x := by
    rw [List.getLastD_eq_getLast?, hx2]; rfl
  have hval : limbs_value number.limbs =
      limbs_value number.limbs.dropLast + 4294967296 ^ (number.limbs.length - 1) * x := by
    have e := congrArg limbs_value hx
    rw [limbs_value_append] at e
    simpa [limbs_value] using e
  have hdl := limbs_value_lt _ (limbs_ok_dropLast hok)
  simp only [List.length_dropLast] at hdl
  have hlen : 1 ≤ number.limbs.length := by
    have : number.limbs.length ≠ 0 := by simpa using hne
    omega
  have hpow : (4294967296 : Nat) ^ number.limbs.length =
      4294967296 ^ (number.limbs.length - 1) * 4294967296 := by
    rw [← pow_succ]; congr 1; omega
  simp only [bigint_shift_left_basic, hlast]
  split
  · next htop =>
    have hfit : 2 * limbs_value (number.limbs ++ [0]) + 0 <
        4294967296 ^ (number.limbs ++ [0]).length := by
      have := limbs_value_lt _ hok
      rw [limbs_value_append]
      simp only [limbs_value, List.length_append, List.length_singleton, pow_succ]
      omega
    have hok2 : limbs_ok (number.limbs ++ [0]) :=
      limbs_ok_append.2 ⟨hok, by intro y hy; simp at hy; omega⟩
    refine ⟨?_, shift_left_loop_ok _ _ (by omega), ?_⟩
    · rw [shift_left_loop_value _ _ hok2 (by omega) hfit, limbs_value_append]
      simp [limbs_value]
    · intro e
      have := congrArg List.length e
      simp [shift_left_loop_length] at this
  · next htop =>
    have hx31 : x < 2147483648 := by
      by_contra hcon
      exact htop ((and_top_bit_ne_zero x hxlt).2 (by omega))
    have hfit : 2 * limbs_value number.limbs + 0 < 4294967296 ^ number.limbs.length := by
      rw [hval, hpow]
      have h1 : 4294967296 ^ (number.limbs.length - 1) * (x + 1) ≤
          4294967296 ^ (number.limbs.length - 1) * 2147483648 :=
        Nat.mul_le_mul_left _ hx31
      rw [Nat.mul_add] at h1
      omega
    refine ⟨?_, shift_left_loop_ok _ _ (by omega), ?_⟩
    · rw [shift_left_loop_value _ _ hok (by omega) hfit]
      omega
    · intro e
      have := congrArg List.length e
      simp only [shift_left_loop_length, List.length_nil] at this
      omega

theorem iterate_shift_left_basic_spec (k : Nat) (number : bigint) (hok : limbs_ok number.limbs)
    (hne : number.limbs ≠ []) :
    limbs_value (Nat.iterate bigint_shift_left_basic k number).limbs =
        2 ^ k * limbs_value number.limbs ∧
      limbs_ok (Nat.iterate bigint_shift_left_basic k number).limbs ∧
      (Nat.iterate bigint_shift_left_basic k number).limbs ≠ [] := by
  induction k generalizing number with
  | zero => simpa using ⟨hok, hne⟩
  | succ k ih =>
    obtain ⟨h1, h2, h3⟩ := bigint_shift_left_basic_spec number hok hne
    obtain ⟨i1, i2, i3⟩ := ih (bigint_shift_left_basic number) h2 h3
    rw [Function.iterate_succ_apply]
    refine ⟨?_, i2, i3⟩
    rw [i1, h1, pow_succ]
    ring

/-- `bigint_shift_left(number, count)` multiplies the magnitude by `2^count`. -/
theorem bigint_shift_left_spec (number : bigint) (count : Nat) (hok : limbs_ok number.limbs)
    (hne : number.limbs ≠ []) :
    limbs_value (bigint_shift_left number count).limbs = 2 ^ count * limbs_value number.limbs ∧
      limbs_ok (bigint_shift_left number count).limbs ∧
      (bigint_shift_left number count).limbs ≠ [] := by
  unfold bigint_shift_left
  split
  · next h0 => subst h0; simpa using ⟨hok, hne⟩
  · have hok2 : limbs_ok (add_segments_beginning number (count / 32)).limbs :=
      limbs_ok_append.2 ⟨limbs_ok_replicate_zero _, hok⟩
    have hne2 : (add_segments_beginning number (count / 32)).limbs ≠ [] := by
      simp [add_segments_beginning, hne]
    obtain ⟨i1, i2, i3⟩ := iterate_shift_left_basic_spec (count % 32) _ hok2 hne2
    refine ⟨?_, i2, i3⟩
    rw [i1]
    simp only [add_segments_beginning]
    rw [limbs_value_append, limbs_value_replicate_zero, List.length_replicate, zero_add]
    have e : (4294967296 : Nat) = 2 ^ 32 := by norm_num
    rw [e, ← pow_mul, ← mul_assoc, ← pow_add]
    congr 2
    omega

end Bigint

namespace Bigint

/-! ## Unsigned multiplication -/

theorem multiply_bit_spec (longer : bigint) (hl : limbs_ok longer.limbs)
    (hlne : longer.limbs ≠ []) (value c j acc : Nat) (p : bigint)
    (hinv : multiply_inv longer (acc + 2 ^ c * (value % 2 ^ j)) p) :
    multiply_inv longer (acc + 2 ^ c * (value % 2 ^ (j + 1)))
        (multiply_bit longer value (p, c + j) j).1 ∧
      (multiply_bit longer value (p, c + j) j).2 = c + (j + 1) := by
  obtain ⟨h1, h2, h3, h4⟩ := hinv
  have hmod : value % 2 ^ (j + 1) = value % 2 ^ j + 2 ^ j * (value / 2 ^ j % 2) := by
    rw [Nat.mod_pow_succ]
  refine ⟨?_, by simp [multiply_bit]; omega⟩
  simp only [multiply_bit]
  split
  · next hbit =>
    have hb := (and_bit_ne_zero value j).1 hbit
    obtain ⟨s1, s2, s3⟩ := bigint_shift_left_spec (bigint_copy longer) (c + j) hl hlne
    obtain ⟨a1, a2, a3, a4⟩ := bigint_add_basic_spec p p _ h2 s2
    refine ⟨?_, a2, a3, a4⟩
    rw [a1, s1, h1, hmod, hb]
    simp only [bigint_copy]
    rw [pow_add]
    ring
  · next hbit =>
    have hb : value / 2 ^ j % 2 = 0 := by
      have := (and_bit_ne_zero value j).not.1 hbit
      omega
    refine ⟨?_, h2, h3, h4⟩
    rw [h1, hmod, hb]
    simp

theorem multiply_bits_spec (longer : bigint) (hl : limbs_ok longer.limbs)
    (hlne : longer.limbs ≠ []) (value c acc : Nat) (p : bigint) (n : Nat)
    (hinv : multiply_inv longer acc p) :
    multiply_inv longer (acc + 2 ^ c * (value % 2 ^ n))
        ((List.range n).foldl (multiply_bit longer value) (p, c)).1 ∧
      ((List.range n).foldl (multiply_bit longer value) (p, c)).2 = c + n := by
  induction n with
  | zero => simpa [Nat.mod_one] using hinv
  | succ n ih =>
    rw [List.range_succ, List.foldl_append]
    simp only [List.foldl_cons, List.foldl_nil]
    obtain ⟨i1, i2⟩ := ih
    have e : (List.foldl (multiply_bit longer value) (p, c) (List.range n)) =
        ((List.foldl (multiply_bit longer value) (p, c) (List.range n)).1, c + n) := by
      rw [← i2]
    rw [e]
    exact multiply_bit_spec longer hl hlne value c n acc _ i1

theorem multiply_node_spec (longer : bigint) (hl : limbs_ok longer.limbs)
    (hlne : longer.limbs ≠ []) (value c acc : Nat) (p : bigint) (hv : value < 4294967296)
    (hinv : multiply_inv longer acc p) :
    multiply_inv longer (acc + 2 ^ c * value) (multiply_node longer (p, c) value).1 ∧
      (multiply_node longer (p, c) value).2 = c + 32 := by
  have := multiply_bits_spec longer hl hlne value c acc p 32 hinv
  rw [Nat.mod_eq_of_lt (by norm_num; exact hv)] at this
  exact this

theorem multiply_nodes_spec (longer : bigint) (hl : limbs_ok longer.limbs)
    (hlne : longer.limbs ≠ []) (ls : List Nat) (hls : limbs_ok ls) (c acc : Nat) (p : bigint)
    (hinv : multiply_inv longer acc p) :
    multiply_inv longer (acc + 2 ^ c * limbs_value ls)
      (ls.foldl (multiply_node longer) (p, c)).1 := by
  induction ls generalizing c acc p with
  | nil => simpa [limbs_value] using hinv
  | cons v rest ih =>
    have hv : v < 4294967296 := hls v (List.mem_cons_self _ _)
    have hrest : limbs_ok rest := fun y hy => hls y (List.mem_cons_of_mem _ hy)
    obtain ⟨n1, n2⟩ := multiply_node_spec longer hl hlne v c acc p hv hinv
    rw [List.foldl_cons]
    have e : multiply_node longer (p, c) v = ((multiply_node longer (p, c) v).1, c + 32) := by
      rw [← n2]
    rw [e]
    have := ih hrest (c + 32) (acc + 2 ^ c * v) _ n1
    have e2 : acc + 2 ^ c * limbs_value (v :: rest) =
        acc + 2 ^ c * v + 2 ^ (c + 32) * limbs_value rest := by
      simp only [limbs_value]
      rw [pow_add]
      norm_num
      ring
    rw [e2]
    exact this

/-- `bigint_multiply_basic` leaves the product of the magnitudes, trimmed, whatever
`product` held; its sign is left alone. -/
theorem bigint_multiply_basic_spec (product x y : bigint) (hx : limbs_ok x.limbs)
    (hxne : x.limbs ≠ []) (hy : limbs_ok y.limbs) (hyne : y.limbs ≠ []) :
    limbs_value (bigint_multiply_basic product x y).limbs =
        limbs_value x.limbs * limbs_value y.limbs ∧
      limbs_ok (bigint_multiply_basic product x y).limbs ∧
      (bigint_multiply_basic product x y).limbs ≠ [] ∧
      no_high_zero (bigint_multiply_basic product x y).limbs := by
  have hstart : ∀ l : bigint, multiply_inv l 0 { product with limbs := [0] } := by
    intro l
    refine ⟨by simp [limbs_value], by intro z hz; simp at hz; omega, by simp, ?_⟩
    intro h; simp at h
  simp only [bigint_multiply_basic, bigint_copy]
  split
  · have := multiply_nodes_spec x hx hxne y.limbs hy 0 0 _ (hstart x)
    simp only [pow_zero, one_mul, zero_add] at this
    exact this
  · have := multiply_nodes_spec y hy hyne x.limbs hx 0 0 _ (hstart y)
    simp only [pow_zero, one_mul, zero_add] at this
    obtain ⟨h1, h2⟩ := this
    exact ⟨by rw [h1]; ring, h2⟩

end Bigint

namespace Bigint

/-! ## Arrays of words, most significant word first -/

theorem pow32 (m : Nat) : (4294967296 : Nat) ^ m = 2 ^ (32 * m) := by
  rw [pow_mul]; norm_num

theorem limbs_ok_reverse {a : List Nat} : limbs_ok a.reverse ↔ limbs_ok a := by
  unfold limbs_ok; simp

theorem array_value_nil : array_value [] = 0 := rfl

theorem array_value_append (a b : List Nat) :
    array_value (a ++ b) = array_value a * 4294967296 ^ b.length + array_value b := by
  unfold array_value
  rw [List.reverse_append, limbs_value_append, List.length_reverse]
  ring

theorem array_value_cons (x : Nat) (a : List Nat) :
    array_value (x :: a) = x * 4294967296 ^ a.length + array_value a := by
  have := array_value_append [x] a
  simpa [array_value, limbs_value] using this

theorem array_value_lt (a : List Nat) (h : limbs_ok a) :
    array_value a < 4294967296 ^ a.length := by
  have := limbs_value_lt a.reverse (limbs_ok_reverse.2 h)
  simpa [array_value] using this

theorem array_value_replicate_zero (n : Nat) : array_value (List.replicate n 0) = 0 := by
  simp [array_value, limbs_value_replicate_zero]

theorem limbs_ok_take {a : List Nat} (h : limbs_ok a) (k : Nat) : limbs_ok (a.take k) :=
  fun x hx => h x (List.mem_of_mem_take hx)

theorem limbs_ok_drop {a : List Nat} (h : limbs_ok a) (k : Nat) : limbs_ok (a.drop k) :=
  fun x hx => h x (List.mem_of_mem_drop hx)

/-- An array split around the word that holds bit `32 m + j`. -/
theorem array_split (a : List Nat) (m : Nat) (hm : m < a.length) :
    a = a.take (a.length - 1 - m) ++ a.getD (a.length - 1 - m) 0 :: a.drop (a.length - m) := by
  have hk : a.length - 1 - m < a.length := by omega
  have h1 : a.drop (a.length - 1 - m) =
      a.getD (a.length - 1 - m) 0 :: a.drop (a.length - m) := by
    rw [List.getD_eq_getElem _ _ hk, List.drop_eq_getElem_cons hk]
    congr 2
    omega
  conv_lhs => rw [← List.take_append_drop (a.length - 1 - m) a, h1]

theorem array_set_split (a : List Nat) (m y : Nat) (hm : m < a.length) :
    a.set (a.length - 1 - m) y = a.take (a.length - 1 - m) ++ y :: a.drop (a.length - m) := by
  have hk : a.length - 1 - m < a.length := by omega
  rw [List.set_eq_take_append_cons_drop, if_pos hk]
  congr 3
  omega

theorem array_value_split (a : List Nat) (m : Nat) (hm : m < a.length) (x : Nat) :
    array_value (a.take (a.length - 1 - m) ++ x :: a.drop (a.length - m)) =
      2 ^ (32 * m) * (4294967296 * array_value (a.take (a.length - 1 - m)) + x) +
        array_value (a.drop (a.length - m)) := by
  rw [array_value_append, array_value_cons]
  have hl : (a.drop (a.length - m)).length = m := by simp; omega
  simp only [List.length_cons, hl, pow_succ, pow32]
  ring

theorem array_value_drop_lt (a : List Nat) (h : limbs_ok a) (m : Nat) (hm : m < a.length) :
    array_value (a.drop (a.length - m)) < 2 ^ (32 * m) := by
  have := array_value_lt _ (limbs_ok_drop h (a.length - m))
  have hl : (a.drop (a.length - m)).length = m := by simp; omega
  rwa [hl, pow32] at this

theorem and_bit_ne_zero_iff_testBit (w j : Nat) : w &&& (1 <<< j) ≠ 0 ↔ w.testBit j = true := by
  rw [and_bit_ne_zero, Nat.testBit_to_div_mod]
  simp

/-- `get_n_bit` reads bit `i` of the number spelled by the array. -/
theorem get_n_bit_spec (a : List Nat) (h : limbs_ok a) (i : Nat) (hi : i < 32 * a.length) :
    get_n_bit a a.length i = ((array_value a).testBit i).toNat := by
  have hm : i / 32 < a.length := by omega
  have hw : a.getD (a.length - 1 - i / 32) 0 < 2 ^ 32 := by
    have hk : a.length - 1 - i / 32 < a.length := by omega
    rw [List.getD_eq_getElem _ _ hk]
    exact h _ (List.getElem_mem _)
  have hbit : (array_value a).testBit i =
      (a.getD (a.length - 1 - i / 32) 0).testBit (i % 32) := by
    conv_lhs => rw [array_split a (i / 32) hm]
    rw [array_value_split a (i / 32) hm,
      Nat.testBit_mul_pow_two_add _ (array_value_drop_lt a h _ hm), if_neg (by omega),
      show (4294967296 : Nat) = 2 ^ 32 from by norm_num,
      Nat.testBit_mul_pow_two_add _ hw, if_pos (by omega)]
    congr 1
    omega
  unfold get_n_bit
  rw [if_neg (by omega), hbit]
  by_cases hb : (a.getD (a.length - 1 - i / 32) 0).testBit (i % 32) = true
  · rw [if_pos ((and_bit_ne_zero_iff_testBit _ _).2 hb), hb]; rfl
  · rw [if_neg (fun hc => hb ((and_bit_ne_zero_iff_testBit _ _).1 hc))]
    simp only [Bool.not_eq_true] at hb
    rw [hb]; rfl

theorem or_bit (w j : Nat) (h : w.testBit j = false) : w ||| (1 <<< j) = w + 2 ^ j := by
  apply Nat.eq_of_testBit_eq
  intro i
  rw [Nat.shiftLeft_eq, one_mul, Nat.testBit_or, Nat.testBit_two_pow]
  have hw : w = 2 ^ j * (w / 2 ^ j) + w % 2 ^ j := (Nat.div_add_mod w (2 ^ j)).symm
  have hlo : w % 2 ^ j < 2 ^ j := Nat.mod_lt _ (Nat.pow_pos (by decide))
  have heven : w / 2 ^ j % 2 = 0 := by
    rw [Nat.testBit_to_div_mod] at h
    simp at h
    omega
  have hsum : w + 2 ^ j = 2 ^ j * (w / 2 ^ j + 1) + w % 2 ^ j := by
    rw [Nat.mul_add, mul_one]; omega
  rw [hsum, Nat.testBit_mul_pow_two_add _ hlo]
  conv_lhs => rw [hw, Nat.testBit_mul_pow_two_add _ hlo]
  by_cases hij : i < j
  · have : ¬ j = i := by omega
    simp [hij, this]
  · simp only [hij, if_false]
    by_cases hji : j = i
    · subst hji
      simp only [Nat.sub_self, decide_True, Bool.or_true, Nat.testBit_zero]
      simp; omega
    · have h1 : i - j = (i - j - 1) + 1 := by omega
      simp only [hji, decide_False, Bool.or_false]
      rw [h1, Nat.testBit_add_one, Nat.testBit_add_one]
      congr 1
      omega

/-- `set_n_bit_to_1` adds `2^i` when bit `i` of the array is clear. -/
theorem set_n_bit_to_1_spec (a : List Nat) (h : limbs_ok a) (i : Nat) (hi : i < 32 * a.length)
    (hclear : (array_value a).testBit i = false) :
    array_value (set_n_bit_to_1 a a.length i) = array_value a + 2 ^ i ∧
      limbs_ok (set_n_bit_to_1 a a.length i) ∧
      (set_n_bit_to_1 a a.length i).length = a.length := by
  have hm : i / 32 < a.length := by omega
  have hk : a.length - 1 - i / 32 < a.length := by omega
  have hw : a.getD (a.length - 1 - i / 32) 0 < 2 ^ 32 := by
    rw [List.getD_eq_getElem _ _ hk]
    exact h _ (List.getElem_mem _)
  have hbit : (array_value a).testBit i =
      (a.getD (a.length - 1 - i / 32) 0).testBit (i % 32) := by
    conv_lhs => rw [array_split a (i / 32) hm]
    rw [array_value_split a (i / 32) hm,
      Nat.testBit_mul_pow_two_add _ (array_value_drop_lt a h _ hm), if_neg (by omega),
      show (4294967296 : Nat) = 2 ^ 32 from by norm_num,
      Nat.testBit_mul_pow_two_add _ hw, if_pos (by omega)]
    congr 1
    omega
  rw [hbit] at hclear
  have hor := or_bit _ _ hclear
  have hnew : a.getD (a.length - 1 - i / 32) 0 + 2 ^ (i % 32) < 4294967296 := by
    have hlt := Nat.or_lt_two_pow hw
      (show 1 <<< (i % 32) < 2 ^ 32 by
        rw [Nat.shiftLeft_eq, one_mul]
        exact Nat.pow_lt_pow_right (by decide) (by omega))
    rw [hor, show (2 : Nat) ^ 32 = 4294967296 from by norm_num] at hlt
    exact hlt
  unfold set_n_bit_to_1
  rw [if_neg (by omega), hor]
  refine ⟨?_, ?_, by simp⟩
  · rw [array_set_split a _ _ hm, array_value_split a _ hm]
    conv_rhs => rw [array_split a (i / 32) hm, array_value_split a _ hm]
    have e : 2 ^ i = 2 ^ (32 * (i / 32)) * 2 ^ (i % 32) := by
      rw [← pow_add]; congr 1; omega
    rw [e]
    ring
  · rw [array_set_split a _ _ hm]
    refine limbs_ok_append.2 ⟨limbs_ok_take h _, ?_⟩
    intro x hx
    rcases List.mem_cons.1 hx with rfl | hx
    · exact hnew
    · exact limbs_ok_drop h _ x hx

theorem array_shift_left_length (a : List Nat) : (array_shift_left a).length = a.length := by
  simp [array_shift_left, shift_left_loop_length]

theorem array_shift_left_ok (a : List Nat) : limbs_ok (array_shift_left a) :=
  limbs_ok_reverse.1 (by
    simp only [array_shift_left, List.reverse_reverse]
    exact shift_left_loop_ok _ _ (by omega))

/-- `array_shift_left` doubles the number when the result fits the array. -/
theorem array_shift_left_value (a : List Nat) (h : limbs_ok a)
    (hfit : 2 * array_value a < 4294967296 ^ a.length) :
    array_value (array_shift_left a) = 2 * array_value a := by
  unfold array_value array_shift_left
  rw [List.reverse_reverse]
  have := shift_left_loop_value a.reverse 0 (limbs_ok_reverse.2 h) (by omega)
    (by simpa [array_value] using hfit)
  simpa using this

theorem greater_or_eq_eq (a b : List Nat) :
    greater_or_eq a b = decide (compare_loop a b ≠ -1) := by
  induction a generalizing b with
  | nil => simp [greater_or_eq, compare_loop]
  | cons x xs ih =>
    cases b with
    | nil => simp [greater_or_eq, compare_loop]
    | cons y ys =>
      simp only [greater_or_eq, compare_loop]
      by_cases hgt : x > y
      · have : x ≠ y := by omega
        simp [hgt, this]
      · by_cases hlt : x < y
        · have : x ≠ y := by omega
          simp [hgt, hlt, this]
        · have : x = y := by omega
          simp [hgt, hlt, this, ih]

/-- `greater_or_eq` decides `≥` on arrays of the same length. -/
theorem greater_or_eq_spec (a b : List Nat) (ha : limbs_ok a) (hb : limbs_ok b)
    (hlen : a.length = b.length) :
    greater_or_eq a b = true ↔ array_value b ≤ array_value a := by
  have h := compare_loop_spec a.reverse b.reverse (limbs_ok_reverse.2 ha)
    (limbs_ok_reverse.2 hb) (by simpa using hlen)
  rw [List.reverse_reverse, List.reverse_reverse] at h
  rw [greater_or_eq_eq, h]
  unfold array_value
  by_cases h1 : limbs_value a.reverse < limbs_value b.reverse
  · simp [h1]
  · by_cases h2 : limbs_value a.reverse = limbs_value b.reverse
    · simp [h2]
    · simp [h1, h2]; omega

theorem array_subtract_loop_length (a b : List Nat) (t : Nat) (f : Bool)
    (hlen : a.length = b.length) : (array_subtract_loop a b t f).length = a.length := by
  induction a generalizing b t f with
  | nil => cases b <;> simp [array_subtract_loop]
  | cons x xs ih =>
    cases b with
    | nil => simp at hlen
    | cons y ys =>
      simp only [array_subtract_loop, List.length_cons]
      rw [ih]
      simpa using hlen

theorem array_subtract_loop_ok (a b : List Nat) (t : Nat) (f : Bool) :
    limbs_ok (array_subtract_loop a b t f) := by
  induction a generalizing b t f with
  | nil => intro z hz; cases b <;> simp [array_subtract_loop] at hz
  | cons x xs ih =>
    cases b with
    | nil => intro z hz; simp [array_subtract_loop] at hz
    | cons y ys =>
      intro z hz
      simp only [array_subtract_loop, List.mem_cons] at hz
      rcases hz with rfl | hz
      · exact Nat.mod_lt _ (by decide)
      · exact ih _ _ _ z hz

/-- The subtraction loop computes `a + ~b + c` with a carry `k` out of the highest word. -/
theorem array_subtract_loop_value (a b : List Nat) (t : Nat) (f : Bool)
    (ha : limbs_ok a) (hb : limbs_ok b) (hlen : a.length = b.length)
    (hc : t + (if f then 1 else 0) ≤ 1) :
    ∃ k, limbs_value (array_subtract_loop a b t f) + 4294967296 ^ a.length * k +
        limbs_value b + 1 =
      limbs_value a + 4294967296 ^ a.length + (t + (if f then 1 else 0)) := by
  induction a generalizing b t f with
  | nil =>
    have : b = [] := List.length_eq_zero.1 (by simpa using hlen.symm)
    subst this
    refine ⟨t + (if f then 1 else 0), ?_⟩
    simp only [array_subtract_loop, limbs_value, List.length_nil, pow_zero]
    omega
  | cons x xs ih =>
    cases b with
    | nil => simp at hlen
    | cons y ys =>
      have hx : x < 4294967296 := ha x (List.mem_cons_self _ _)
      have hy : y < 4294967296 := hb y (List.mem_cons_self _ _)
      have hxs : limbs_ok xs := fun z hz => ha z (List.mem_cons_of_mem _ hz)
      have hys : limbs_ok ys := fun z hz => hb z (List.mem_cons_of_mem _ hz)
      have hn : not32 y = 4294967295 - y := by unfold not32; omega
      obtain ⟨k, hk⟩ := ih ys
        ((x + not32 y + t + (if f then 1 else 0)) % 18446744073709551616 / 4294967296) false
        hxs hys (by simpa using hlen) (by rw [hn]; simp only [Bool.false_eq_true, if_false]; omega)
      refine ⟨k, ?_⟩
      simp only [array_subtract_loop, limbs_value, List.length_cons, pow_succ]
      simp only [Bool.false_eq_true, if_false, add_zero] at hk
      rw [hn] at hk ⊢
      generalize limbs_value (array_subtract_loop xs ys _ false) = V at hk ⊢
      generalize (4294967296 : Nat) ^ xs.length = P at hk ⊢
      generalize (if f = true then 1 else 0) = c at hc hk ⊢
      have hPk : P * 4294967296 * k = 4294967296 * (P * k) := by ring
      rw [hPk]
      generalize P * k = Pk at hk ⊢
      omega

/-- `array_subtract` leaves `array1 - array2` when `array2` is not the bigger one. -/
theorem array_subtract_spec (a b : List Nat) (ha : limbs_ok a) (hb : limbs_ok b)
    (hlen : a.length = b.length) (hle : array_value b ≤ array_value a) :
    array_value (array_subtract a b) + array_value b = array_value a ∧
      limbs_ok (array_subtract a b) ∧ (array_subtract a b).length = a.length := by
  have hl : (array_subtract a b).length = a.length := by
    simp only [array_subtract, List.length_reverse]
    rw [array_subtract_loop_length _ _ _ _ (by simpa using hlen)]
    simp
  have hok : limbs_ok (array_subtract a b) :=
    limbs_ok_reverse.1 (by
      simp only [array_subtract, List.reverse_reverse]
      exact array_subtract_loop_ok _ _ _ _)
  refine ⟨?_, hok, hl⟩
  obtain ⟨k, hk⟩ := array_subtract_loop_value a.reverse b.reverse 0 true
    (limbs_ok_reverse.2 ha) (limbs_ok_reverse.2 hb) (by simpa using hlen) (by simp)
  have hlt := array_value_lt _ hok
  have hlta := array_value_lt _ ha
  rw [hl] at hlt
  simp only [List.length_reverse, if_true] at hk
  have e : array_value (array_subtract a b) =
      limbs_value (array_subtract_loop a.reverse b.reverse 0 true) := by
    simp [array_value, array_subtract]
  rw [e] at hlt ⊢
  unfold array_value at hle hlta ⊢
  generalize limbs_value (array_subtract_loop a.reverse b.reverse 0 true) = V at *
  generalize (4294967296 : Nat) ^ a.length = P at *
  have hk01 : k = 1 := by
    rcases Nat.lt_trichotomy k 1 with h0 | h1 | h2
    · have : k = 0 := by omega
      subst this
      simp at hk
      omega
    · exact h1
    · have : P * 2 ≤ P * k := Nat.mul_le_mul_left _ h2
      omega
  subst hk01
  omega

end Bigint

namespace Bigint

/-! ## Binary long division -/

/-- One step of binary long division on numbers: from `Y / 2` to `Y`. -/
theorem div_step (Y R : Nat) (hR : 0 < R) :
    (R ≤ 2 * (Y / 2 % R) + Y % 2 →
      Y / R = 2 * (Y / 2 / R) + 1 ∧ Y % R = 2 * (Y / 2 % R) + Y % 2 - R) ∧
    (2 * (Y / 2 % R) + Y % 2 < R →
      Y / R = 2 * (Y / 2 / R) ∧ Y % R = 2 * (Y / 2 % R) + Y % 2) := by
  have hX : R * (Y / 2 / R) + Y / 2 % R = Y / 2 := Nat.div_add_mod _ _
  have hr : Y / 2 % R < R := Nat.mod_lt _ hR
  have hY : 2 * (Y / 2) + Y % 2 = Y := Nat.div_add_mod _ _
  constructor
  · intro h
    apply (Nat.div_mod_unique hR).2
    refine ⟨?_, by omega⟩
    have e : R * (2 * (Y / 2 / R) + 1) = 2 * (R * (Y / 2 / R)) + R := by ring
    rw [e]
    omega
  · intro h
    apply (Nat.div_mod_unique hR).2
    refine ⟨?_, h⟩
    have e : R * (2 * (Y / 2 / R)) = 2 * (R * (Y / 2 / R)) := by ring
    rw [e]
    omega

theorem set_low_bit_eq (a : List Nat) (n : Nat) (hn : a.length = n) (hpos : 0 < n) :
    a.set (n - 1) (a.getD (n - 1) 0 ||| 1) = set_n_bit_to_1 a a.length 0 := by
  unfold set_n_bit_to_1
  rw [if_neg (by omega), hn]
  simp

/-- The invariant of the bit loop of `bigint_divide` carries through to the end: with the
bits above `i` consumed, `remainder_int` holds `(D / 2^i) mod R` and `quotient_int` holds
`(D / 2^i) / R * 2^i`; after the loop they hold `D mod R` and `D / R`. -/
theorem divide_bit_loop_spec (d r : List Nat) (n : Nat) (hd : limbs_ok d) (hdl : d.length = n)
    (hr : limbs_ok r) (hrl : r.length = n) (hpos : 0 < array_value r) (i : Nat)
    (rem quo : List Nat) (hi : i ≤ 32 * n) (hrem : limbs_ok rem) (hreml : rem.length = n)
    (hquo : limbs_ok quo) (hquol : quo.length = n)
    (hremv : array_value rem = array_value d / 2 ^ i % array_value r)
    (hquov : array_value quo = array_value d / 2 ^ i / array_value r * 2 ^ i) :
    array_value (divide_bit_loop d r n i (rem, quo)).1 = array_value d % array_value r ∧
      array_value (divide_bit_loop d r n i (rem, quo)).2 = array_value d / array_value r ∧
      limbs_ok (divide_bit_loop d r n i (rem, quo)).1 ∧
      (divide_bit_loop d r n i (rem, quo)).1.length = n ∧
      limbs_ok (divide_bit_loop d r n i (rem, quo)).2 ∧
      (divide_bit_loop d r n i (rem, quo)).2.length = n := by
  induction i generalizing rem quo with
  | zero =>
    simp only [pow_zero, Nat.div_one, mul_one] at hremv hquov
    exact ⟨hremv, hquov, hrem, hreml, hquo, hquol⟩
  | succ i ih =>
    have hnpos : 0 < n := by omega
    have hdlt := array_value_lt d hd
    rw [hdl] at hdlt
    -- the numbers of this step
    have hYX : array_value d / 2 ^ (i + 1) = array_value d / 2 ^ i / 2 := by
      rw [pow_succ, Nat.div_div_eq_div_mul]
    rw [hYX] at hremv hquov
    have hYle : array_value d / 2 ^ i ≤ array_value d := Nat.div_le_self _ _
    have hmodle : array_value d / 2 ^ i / 2 % array_value r ≤ array_value d / 2 ^ i / 2 :=
      Nat.mod_le _ _
    -- shift
    have hfit : 2 * array_value rem < 4294967296 ^ rem.length := by
      rw [hreml, hremv]; omega
    have hs := array_shift_left_value rem hrem hfit
    have hsok := array_shift_left_ok rem
    have hsl : (array_shift_left rem).length = n := by rw [array_shift_left_length, hreml]
    -- bring in the bit
    have hbit : get_n_bit d n i = array_value d / 2 ^ i % 2 := by
      rw [← hdl, get_n_bit_spec d hd i (by omega), Nat.toNat_testBit]
    have hb2 : ∃ rem2, (if get_n_bit d n i ≠ 0 then
          (array_shift_left rem).set (n - 1) ((array_shift_left rem).getD (n - 1) 0 ||| 1)
        else array_shift_left rem) = rem2 ∧
        array_value rem2 = 2 * array_value rem + array_value d / 2 ^ i % 2 ∧
        limbs_ok rem2 ∧ rem2.length = n := by
      by_cases hb : get_n_bit d n i ≠ 0
      · rw [if_pos hb, set_low_bit_eq _ n hsl hnpos]
        have hclear : (array_value (array_shift_left rem)).testBit 0 = false := by
          rw [hs, Nat.testBit_zero]
          simp
        obtain ⟨s1, s2, s3⟩ := set_n_bit_to_1_spec _ hsok 0 (by omega) hclear
        refine ⟨_, rfl, ?_, s2, by rw [s3, hsl]⟩
        rw [s1, hs]
        rw [hbit] at hb
        omega
      · rw [if_neg hb]
        refine ⟨_, rfl, ?_, hsok, hsl⟩
        rw [hs]
        rw [hbit] at hb
        omega
    obtain ⟨rem2, hrem2, hv2, hok2, hl2⟩ := hb2
    have hstep := div_step (array_value d / 2 ^ i) (array_value r) hpos
    rw [divide_bit_loop]
    simp only [hrem2]
    by_cases hge : greater_or_eq rem2 r = true
    · rw [if_pos hge]
      have hle := (greater_or_eq_spec rem2 r hok2 hr (by omega)).1 hge
      obtain ⟨a1, a2, a3⟩ := array_subtract_spec rem2 r hok2 hr (by omega) hle
      have hclear : (array_value quo).testBit i = false := by
        rw [hquov, mul_comm]
        have := Nat.testBit_mul_pow_two_add (array_value d / 2 ^ i / 2 / array_value r)
          (show 0 < 2 ^ (i + 1) from Nat.pow_pos (by decide)) i
        simp only [add_zero] at this
        rw [this, if_pos (by omega)]
        simp
      have hquo2 := set_n_bit_to_1_spec quo hquo i (by omega) hclear
      rw [hquol] at hquo2
      obtain ⟨q1, q2, q3⟩ := hquo2
      obtain ⟨e1, e2⟩ := hstep.1 (by rw [← hremv, ← hv2]; exact hle)
      refine ih _ _ (by omega) a2 (by rw [a3, hl2]) q2 q3 ?_ ?_
      · rw [e2, ← hremv, ← hv2]; omega
      · rw [q1, hquov, e1, pow_succ]; ring
    · rw [if_neg hge]
      have hlt : array_value rem2 < array_value r := by
        by_contra hcon
        exact hge ((greater_or_eq_spec rem2 r hok2 hr (by omega)).2 (by omega))
      obtain ⟨e1, e2⟩ := hstep.2 (by rw [← hremv, ← hv2]; exact hlt)
      refine ih _ _ (by omega) hok2 hl2 hquo hquol ?_ ?_
      · rw [e2, ← hremv, ← hv2]
      · rw [hquov, e1, pow_succ]; ring

/-! ## Writing an array back into a value -/

theorem chain_length_le (a : List Nat) : chain_length a ≤ a.length := by
  induction a with
  | nil => simp [chain_length]
  | cons c rest ih =>
    simp only [chain_length]
    split
    · exact le_refl _
    · simp only [List.length_cons]; omega

theorem chain_length_spec (a : List Nat) :
    array_value (a.drop (a.length - chain_length a)) = array_value a ∧
      (chain_length a ≠ 0 → (a.drop (a.length - chain_length a)).head? ≠ some 0) ∧
      (chain_length a = 0 → array_value a = 0) := by
  induction a with
  | nil => simp [chain_length, array_value, limbs_value]
  | cons c rest ih =>
    have hle := chain_length_le rest
    simp only [chain_length]
    split
    · next hc =>
      rw [Nat.sub_self, List.drop_zero]
      refine ⟨rfl, fun _ h => hc (by simpa using h), fun h => by simp at h⟩
    · next hc =>
      have hc0 : c = 0 := by simpa using hc
      subst hc0
      have e : (0 :: rest).length - chain_length rest = (rest.length - chain_length rest) + 1 := by
        simp only [List.length_cons]; omega
      rw [e, List.drop_succ_cons]
      have hv : array_value (0 :: rest) = array_value rest := by
        rw [array_value_cons]; simp
      rw [hv]
      exact ih

theorem array_value_drop_le (a : List Nat) (k : Nat) : array_value (a.drop k) ≤ array_value a := by
  conv_rhs => rw [← List.take_append_drop k a, array_value_append]
  omega

theorem leave_one_segment_length (number : bigint) :
    (leave_one_segment number).limbs.length = 1 := by
  unfold leave_one_segment
  split
  · assumption
  · rfl

theorem save_array_sign (number : bigint) (array : List Nat) (n : Nat) :
    (save_array number array n).sign = number.sign := by
  simp only [save_array, add_segments, leave_one_segment]
  split <;> rfl

/-- `save_array` stores the number spelled by the array, trimmed. -/
theorem save_array_spec (number : bigint) (array : List Nat) (n : Nat) (hok : limbs_ok array)
    (hl : array.length = n) (hn : 0 < n) :
    limbs_value (save_array number array n).limbs = array_value array ∧
      limbs_ok (save_array number array n).limbs ∧ (save_array number array n).limbs ≠ [] ∧
      no_high_zero (save_array number array n).limbs := by
  have hle := chain_length_le array
  obtain ⟨c1, c2, c3⟩ := chain_length_spec array
  have hlen1 := leave_one_segment_length number
  by_cases h0 : chain_length array = 0
  · have hlimbs : (save_array number array n).limbs = (array.drop (n - 1)).reverse := by
      simp only [save_array, h0, ne_eq, not_true_eq_false, if_false, add_segments,
        Nat.sub_self, List.replicate_zero, List.append_nil, hlen1]
      rw [List.take_of_length_le (by simp; omega)]
    have hdl : (array.drop (n - 1)).length = 1 := by simp; omega
    have hv : array_value (array.drop (n - 1)) = 0 := by
      have := array_value_drop_le array (n - 1)
      rw [c3 h0] at this
      omega
    rw [hlimbs]
    refine ⟨?_, limbs_ok_reverse.2 (limbs_ok_drop hok _), ?_, ?_⟩
    · rw [c3 h0]; exact hv
    · intro e
      have := congrArg List.length e
      simp only [List.length_reverse, hdl, List.length_nil] at this
      omega
    · intro h
      simp only [List.length_reverse, hdl] at h
      omega
  · have hlimbs : (save_array number array n).limbs =
        (array.drop (array.length - chain_length array)).reverse := by
      simp only [save_array, h0, ne_eq, not_false_eq_true, if_true, add_segments,
        List.length_append, hlen1, List.length_replicate, hl]
      rw [List.take_of_length_le (by simp; omega)]
    have hdl : (array.drop (array.length - chain_length array)).length = chain_length array := by
      simp; omega
    rw [hlimbs]
    refine ⟨?_, limbs_ok_reverse.2 (limbs_ok_drop hok _), ?_, ?_⟩
    · exact c1
    · intro e
      have := congrArg List.length e
      simp only [List.length_reverse, hdl, List.length_nil] at this
      omega
    · intro _ h
      rw [List.getLast?_reverse] at h
      exact c2 h0 h

end Bigint

namespace Bigint

/-! ## `bit_len` -/

theorem bit_len_loop_spec (i x : Nat) (hx : x < 2 ^ (i + 1)) (h0 : x ≠ 0) :
    2 ^ (bit_len_loop i x - 1) ≤ x ∧ x < 2 ^ bit_len_loop i x ∧ 1 ≤ bit_len_loop i x ∧
      bit_len_loop i x ≤ i + 1 := by
  induction i with
  | zero =>
    simp only [bit_len_loop]
    norm_num at hx ⊢
    omega
  | succ i ih =>
    rw [bit_len_loop]
    split
    · next hb =>
      have hb' := (shiftRight_and_one_ne_zero x (i + 1)).1 hb
      have hge : 2 ^ (i + 1) ≤ x := by
        by_contra hcon
        have : x / 2 ^ (i + 1) = 0 := Nat.div_eq_of_lt (by omega)
        rw [this] at hb'
        omega
      exact ⟨by simpa using hge, hx, by omega, le_refl _⟩
    · next hb =>
      have hb' : ¬ x / 2 ^ (i + 1) % 2 = 1 := fun h => hb ((shiftRight_and_one_ne_zero x (i + 1)).2 h)
      have hlt : x < 2 ^ (i + 1) := by
        by_contra hcon
        have h1 : x / 2 ^ (i + 1) < 2 := by
          rw [Nat.div_lt_iff_lt_mul (Nat.pow_pos (by decide))]
          rw [pow_succ] at hx
          omega
        have h2 : 1 ≤ x / 2 ^ (i + 1) := by
          rw [Nat.le_div_iff_mul_le (Nat.pow_pos (by decide))]
          omega
        omega
      obtain ⟨a, b, c, d⟩ := ih hlt
      exact ⟨a, b, c, by omega⟩

/-- `bit_len` of a 32-bit word is its number of binary digits. -/
theorem bit_len_spec (x : Nat) (hx : x < 4294967296) :
    x < 2 ^ bit_len x ∧ bit_len x ≤ 32 ∧ (x ≠ 0 → 2 ^ (bit_len x - 1) ≤ x ∧ 1 ≤ bit_len x) := by
  unfold bit_len
  split
  · next h0 => subst h0; simp
  · next h0 =>
    obtain ⟨a, b, c, d⟩ := bit_len_loop_spec 31 x (by norm_num; exact hx) h0
    exact ⟨b, d, fun _ => ⟨a, c⟩⟩

/-! ## `bigint_divide` -/

theorem save_array_limbs (number : bigint) (array : List Nat) (n : Nat) :
    (save_array number array n).limbs = (save_array { limbs := [0], sign := 0 } array n).limbs := by
  simp only [save_array, add_segments, List.length_append, leave_one_segment_length]

theorem copy_to_chain_value (number : bigint) :
    array_value (copy_to_chain number) = limbs_value number.limbs := by
  simp [array_value, copy_to_chain]

theorem chain_alignment_value (number : bigint) (n : Nat) :
    array_value (chain_alignment number n) = limbs_value number.limbs := by
  unfold chain_alignment
  rw [array_value_append, array_value_replicate_zero]
  simp [array_value]

/-- The dividend is below `2^count` for the bit count the loop of `bigint_divide` starts
from. -/
theorem dividend_lt_pow (l : List Nat) (hok : limbs_ok l) (hne : l ≠ []) :
    limbs_value l < 2 ^ ((l.length - 1) * 32 + bit_len (l.reverse.headD 0)) ∧
      (l.length - 1) * 32 + bit_len (l.reverse.headD 0) ≤ 32 * l.length := by
  obtain ⟨x, hx, hx2⟩ := eq_dropLast_append l hne
  have hxlt : x < 4294967296 := hok x (by rw [hx]; simp)
  have hhead : l.reverse.headD 0 = x := by
    rw [hx]; simp
  have hval : limbs_value l = limbs_value l.dropLast + 4294967296 ^ (l.length - 1) * x := by
    have e := congrArg limbs_value hx
    rw [limbs_value_append] at e
    simpa [limbs_value] using e
  have hdl := limbs_value_lt _ (limbs_ok_dropLast hok)
  simp only [List.length_dropLast] at hdl
  obtain ⟨b1, b2, -⟩ := bit_len_spec x hxlt
  have hlen : l.length ≠ 0 := by simpa using hne
  rw [hhead]
  refine ⟨?_, by omega⟩
  rw [hval, pow_add, mul_comm (l.length - 1) 32, ← pow32]
  have : 4294967296 ^ (l.length - 1) * (x + 1) ≤ 4294967296 ^ (l.length - 1) * 2 ^ bit_len x :=
    Nat.mul_le_mul_left _ b1
  rw [Nat.mul_add] at this
  omega

/-- The long path of `bigint_divide` (`|D| > |R| > 0`): the limbs written are the trimmed
quotient and remainder of the magnitudes; the sign of the quotient is set to `1` when exactly
one operand is negative and otherwise left as it was, the remainder gets the sign of `D`. -/
theorem bigint_divide_long (D R : bigint) (hD : limbs_ok D.limbs) (hDne : D.limbs ≠ [])
    (hDz : no_high_zero D.limbs) (hR : limbs_ok R.limbs) (hRne : R.limbs ≠ [])
    (hRz : no_high_zero R.limbs) (hpos : 0 < limbs_value R.limbs)
    (hgt : limbs_value R.limbs < limbs_value D.limbs) (Q M : Option bigint)
    (hQM : ¬ (Q.isNone ∧ M.isNone)) :
    ∃ ql ml, limbs_value ql = limbs_value D.limbs / limbs_value R.limbs ∧
      limbs_value ml = limbs_value D.limbs % limbs_value R.limbs ∧
      limbs_ok ql ∧ ql ≠ [] ∧ no_high_zero ql ∧ limbs_ok ml ∧ ml ≠ [] ∧ no_high_zero ml ∧
      bigint_divide D R Q M = .ok
        (Q.map (fun q => { limbs := ql, sign := if D.sign + R.sign = 1 then 1 else q.sign }),
         M.map (fun _ => { limbs := ml, sign := D.sign })) := by
  have hcmp := bigint_compare_absolute_spec D R hD hDne hDz hR hRne hRz
  have hc1 : bigint_compare_absolute D R = 1 := by
    rw [hcmp]; simp [Nat.not_lt.2 (le_of_lt hgt), Nat.ne_of_gt hgt]
  have hlenle := length_le_of_value_le _ _ hRz hD hDne (le_of_lt hgt)
  have hn : 0 < D.limbs.length := by
    have : D.limbs.length ≠ 0 := by simpa using hDne
    omega
  have hzero : ¬ (R.limbs.length = 1 ∧ R.limbs.head? = some 0) := by
    rintro ⟨h1, h2⟩
    match hl : R.limbs, h1, h2 with
    | [x], _, h2 =>
      simp at h2
      rw [hl, h2] at hpos
      simp [limbs_value] at hpos
  -- the arrays
  have hdok : limbs_ok (copy_to_chain D) := limbs_ok_reverse.2 hD
  have hdl : (copy_to_chain D).length = D.limbs.length := by simp [copy_to_chain]
  have hrok : limbs_ok (chain_alignment R D.limbs.length) :=
    limbs_ok_append.2 ⟨limbs_ok_replicate_zero _, limbs_ok_reverse.2 hR⟩
  have hrl : (chain_alignment R D.limbs.length).length = D.limbs.length := by
    simp [chain_alignment]; omega
  obtain ⟨hlt, hcount⟩ := dividend_lt_pow D.limbs hD hDne
  have hdiv0 : limbs_value D.limbs /
      2 ^ ((D.limbs.length - 1) * 32 + bit_len (D.limbs.reverse.headD 0)) = 0 :=
    Nat.div_eq_of_lt hlt
  obtain ⟨l1, l2, l3, l4, l5, l6⟩ := divide_bit_loop_spec (copy_to_chain D)
    (chain_alignment R D.limbs.length) D.limbs.length hdok hdl hrok hrl
    (by rw [chain_alignment_value]; exact hpos)
    ((D.limbs.length - 1) * 32 + bit_len ((copy_to_chain D).headD 0))
    (List.replicate D.limbs.length 0) (List.replicate D.limbs.length 0)
    hcount (limbs_ok_replicate_zero _) (by simp) (limbs_ok_replicate_zero _) (by simp)
    (by rw [array_value_replicate_zero, copy_to_chain_value]
        simp only [copy_to_chain]
        rw [hdiv0]; simp)
    (by rw [array_value_replicate_zero, copy_to_chain_value]
        simp only [copy_to_chain]
        rw [hdiv0]; simp)
  rw [copy_to_chain_value, chain_alignment_value] at l1 l2
  obtain ⟨q1, q2, q3, q4⟩ := save_array_spec { limbs := [0], sign := 0 } _ D.limbs.length l5 l6 hn
  obtain ⟨m1, m2, m3, m4⟩ := save_array_spec { limbs := [0], sign := 0 } _ D.limbs.length l3 l4 hn
  refine ⟨_, _, by rw [q1, l2], by rw [m1, l1], q2, q3, q4, m2, m3, m4, ?_⟩
  unfold bigint_divide
  rw [if_neg hQM, if_neg hzero]
  simp only [hc1]
  rw [if_neg (by decide)]
  congr 2
  · cases Q with
    | none => rfl
    | some q =>
      simp only [Option.map_some']
      congr 1
      split
      · simp [save_array_limbs q]
      · cases hq : save_array q
          (divide_bit_loop (copy_to_chain D) (chain_alignment R D.limbs.length) D.limbs.length
            ((D.limbs.length - 1) * 32 + bit_len ((copy_to_chain D).headD 0))
            (List.replicate D.limbs.length 0, List.replicate D.limbs.length 0)).2
          D.limbs.length with
        | mk ls sg =>
          have e1 := save_array_limbs q
            (divide_bit_loop (copy_to_chain D) (chain_alignment R D.limbs.length) D.limbs.length
              ((D.limbs.length - 1) * 32 + bit_len ((copy_to_chain D).headD 0))
              (List.replicate D.limbs.length 0, List.replicate D.limbs.length 0)).2
            D.limbs.length
          have e2 := save_array_sign q
            (divide_bit_loop (copy_to_chain D) (chain_alignment R D.limbs.length) D.limbs.length
              ((D.limbs.length - 1) * 32 + bit_len ((copy_to_chain D).headD 0))
              (List.replicate D.limbs.length 0, List.replicate D.limbs.length 0)).2
            D.limbs.length
          rw [hq] at e1 e2
          simp only at e1 e2
          rw [e1, e2]
  · cases M with
    | none => rfl
    | some m =>
      simp only [Option.map_some']
      congr 1
      simp [save_array_limbs m]

/-- The fast paths of `bigint_divide` (`|D| ≤ |R|`, `R ≠ 0`). -/
theorem bigint_divide_fast (D R : bigint) (hD : limbs_ok D.limbs) (hDne : D.limbs ≠ [])
    (hDz : no_high_zero D.limbs) (hR : limbs_ok R.limbs) (hRne : R.limbs ≠ [])
    (hRz : no_high_zero R.limbs) (hpos : 0 < limbs_value R.limbs)
    (hle : limbs_value D.limbs ≤ limbs_value R.limbs) (Q M : Option bigint)
    (hQM : ¬ (Q.isNone ∧ M.isNone)) :
    bigint_divide D R Q M = .ok
      (Q.map (fun _ =>
        if limbs_value D.limbs = limbs_value R.limbs then
          ({ limbs := [1], sign := if D.sign = R.sign then 0 else 1 } : bigint)
        else { limbs := [0], sign := 0 }),
       M.map (fun _ =>
        if limbs_value D.limbs = limbs_value R.limbs then ({ limbs := [0], sign := 0 } : bigint)
        else { limbs := D.limbs, sign := D.sign })) := by
  have hcmp := bigint_compare_absolute_spec D R hD hDne hDz hR hRne hRz
  have hzero : ¬ (R.limbs.length = 1 ∧ R.limbs.head? = some 0) := by
    rintro ⟨h1, h2⟩
    match hl : R.limbs, h1, h2 with
    | [x], _, h2 =>
      simp at h2
      rw [hl, h2] at hpos
      simp [limbs_value] at hpos
  unfold bigint_divide
  rw [if_neg hQM, if_neg hzero]
  by_cases heq : limbs_value D.limbs = limbs_value R.limbs
  · have hc : bigint_compare_absolute D R = 0 := by rw [hcmp]; simp [heq]
    simp only [hc, heq, if_true]
    rw [if_pos (by decide)]
  · have hc : bigint_compare_absolute D R = -1 := by
      rw [hcmp]; simp [show limbs_value D.limbs < limbs_value R.limbs by omega]
    simp only [hc, heq, if_false]
    rw [if_pos (by decide)]
    simp [bigint_copy]

end Bigint

namespace Bigint

/-! ## Positional notation -/

theorem horner_nil (B : Nat) : horner B [] = 0 := rfl

theorem horner_append_singleton (B : Nat) (l : List Nat) (r : Nat) :
    horner B (l ++ [r]) = B * horner B l + r := by
  simp [horner, List.foldl_append]

theorem foldl_horner (B : Nat) (l : List Nat) (acc : Nat) :
    l.foldl (fun a r => B * a + r) acc = acc * B ^ l.length + horner B l := by
  induction l generalizing acc with
  | nil => simp [horner]
  | cons x xs ih =>
    simp only [List.foldl_cons, List.length_cons, horner]
    rw [ih, ih (B * 0 + x)]
    ring

theorem horner_cons (B : Nat) (x : Nat) (l : List Nat) :
    horner B (x :: l) = x * B ^ l.length + horner B l := by
  have := foldl_horner B l (B * 0 + x)
  simp only [mul_zero, zero_add] at this
  simpa [horner] using this

theorem horner_append (B : Nat) (l m : List Nat) :
    horner B (l ++ m) = horner B l * B ^ m.length + horner B m := by
  simp only [horner, List.foldl_append]
  exact foldl_horner B m _

theorem horner_lt (B : Nat) (l : List Nat) (h : ∀ x ∈ l, x < B) : horner B l < B ^ l.length := by
  induction l using List.reverseRecOn with
  | nil => simp [horner]
  | append_singleton l x ih =>
    have hx : x < B := h x (by simp)
    have hl := ih (fun y hy => h y (by simp [hy]))
    rw [horner_append_singleton, List.length_append, List.length_singleton, pow_succ]
    nlinarith

theorem horner_replicate_zero (B n : Nat) : horner B (List.replicate n 0) = 0 := by
  induction n with
  | zero => rfl
  | succ n ih => rw [List.replicate_succ, horner_cons, ih]; simp

/-! ## `Nat.toDigits` -/

theorem toDigitsCore_eq (b : Nat) (hb : 2 ≤ b) (fuel : Nat) :
    ∀ n ds, n < fuel →
      Nat.toDigitsCore b fuel n ds = Nat.toDigitsCore b (n + 1) n [] ++ ds := by
  induction fuel using Nat.strong_induction_on with
  | _ fuel ih =>
    intro n ds hn
    match fuel, hn with
    | fuel + 1, hn =>
      rw [Nat.toDigitsCore, Nat.toDigitsCore]
      by_cases h0 : n / b = 0
      · simp [h0]
      · simp only [h0, if_false]
        have hlt : n / b < n := Nat.div_lt_self (by
          by_contra hc
          have : n = 0 := by omega
          subst this
          simp at h0) (by omega)
        rw [ih fuel (by omega) (n / b) _ (by omega), ih n (by omega) (n / b) _ hlt]
        simp

/-- The digits of a number of more than one digit: the digits of `n / b`, then the last
digit. -/
theorem toDigits_step (b : Nat) (hb : 2 ≤ b) (n : Nat) (hn : b ≤ n) :
    Nat.toDigits b n = Nat.toDigits b (n / b) ++ [Nat.digitChar (n % b)] := by
  have h0 : n / b ≠ 0 := by
    have : 1 ≤ n / b := (Nat.le_div_iff_mul_le (by omega)).2 (by omega)
    omega
  have hlt : n / b < n := Nat.div_lt_self (by omega) (by omega)
  unfold Nat.toDigits
  rw [Nat.toDigitsCore]
  simp only [h0, if_false]
  rw [toDigitsCore_eq b hb n (n / b) _ hlt]

theorem toDigits_small (b : Nat) (n : Nat) (hn : n < b) :
    Nat.toDigits b n = [Nat.digitChar n] := by
  unfold Nat.toDigits
  rw [Nat.toDigitsCore]
  simp [Nat.div_eq_of_lt hn, Nat.mod_eq_of_lt hn]

theorem fixed_digits_length (b k r : Nat) : (fixed_digits b k r).length = k := by
  induction k generalizing r with
  | zero => rfl
  | succ k ih => simp [fixed_digits, ih]

theorem fixed_digits_zero (b k : Nat) : fixed_digits b k 0 = List.replicate k '0' := by
  induction k with
  | zero => rfl
  | succ k ih =>
    rw [fixed_digits, Nat.zero_div, Nat.zero_mod, ih, List.replicate_succ']
    rfl

/-- The digits of `q * b^k + r` are the digits of `q` followed by the `k` digits of `r`. -/
theorem toDigits_mul_pow_add (b : Nat) (hb : 2 ≤ b) (k q r : Nat) (hq : 0 < q)
    (hr : r < b ^ k) :
    Nat.toDigits b (q * b ^ k + r) = Nat.toDigits b q ++ fixed_digits b k r := by
  induction k generalizing r with
  | zero =>
    simp only [pow_zero, Nat.lt_one_iff] at hr
    subst hr
    simp [fixed_digits]
  | succ k ih =>
    have hpos : 0 < b ^ k := Nat.pow_pos (by omega)
    have hge : b ≤ q * b ^ (k + 1) + r := by
      rw [pow_succ]
      have h1 : 1 * (1 * b) ≤ q * (b ^ k * b) := by
        apply Nat.mul_le_mul hq
        exact Nat.mul_le_mul hpos (le_refl _)
      nlinarith
    have hdiv : (q * b ^ (k + 1) + r) / b = q * b ^ k + r / b := by
      rw [pow_succ, ← mul_assoc, add_comm, Nat.add_mul_div_right _ _ (by omega), add_comm]
    have hmod : (q * b ^ (k + 1) + r) % b = r % b := by
      rw [pow_succ, ← mul_assoc, add_comm, Nat.add_mul_mod_self_right]
    have hrb : r / b < b ^ k := by
      rw [Nat.div_lt_iff_lt_mul (by omega)]
      rw [pow_succ] at hr
      exact hr
    rw [toDigits_step b hb _ hge, hdiv, hmod, ih _ hrb, fixed_digits, List.append_assoc]

/-- Zero padding of the digits of `r` to width `k` gives the `k` digits of `r`. -/
theorem pad_toDigits (b : Nat) (hb : 2 ≤ b) (k r : Nat) (hk : 1 ≤ k) (hr : r < b ^ k) :
    List.replicate (k - (Nat.toDigits b r).length) '0' ++ Nat.toDigits b r =
      fixed_digits b k r := by
  induction k generalizing r with
  | zero => omega
  | succ k ih =>
    by_cases hsmall : r < b
    · rw [toDigits_small b r hsmall, fixed_digits, Nat.div_eq_of_lt hsmall,
        Nat.mod_eq_of_lt hsmall, fixed_digits_zero]
      simp
    · have hge : b ≤ r := by omega
      have hk1 : 1 ≤ k := by
        by_contra hc
        have : k = 0 := by omega
        subst this
        simp at hr
        omega
      have hrb : r / b < b ^ k := by
        rw [Nat.div_lt_iff_lt_mul (by omega)]
        rw [pow_succ] at hr
        exact hr
      rw [toDigits_step b hb r hge, fixed_digits, ← ih (r / b) hk1 hrb]
      simp only [List.length_append, List.length_singleton, List.append_assoc]
      congr 2
      omega

/-- A first group printed without padding followed by groups printed with `k` digits each
spells the number whose base-`b^k` digits the groups are. -/
theorem grouped_digits (b : Nat) (hb : 2 ≤ b) (k : Nat) (first : Nat) (rest : List Nat)
    (hfirst : 0 < first) (hrest : ∀ x ∈ rest, x < b ^ k) :
    Nat.toDigits b first ++ (rest.map (fixed_digits b k)).flatten =
      Nat.toDigits b (horner (b ^ k) (first :: rest)) := by
  induction rest using List.reverseRecOn with
  | nil => simp [horner]
  | append_singleton rest x ih =>
    have hx : x < b ^ k := hrest x (by simp)
    have hr := ih (fun y hy => hrest y (by simp [hy]))
    have hpos : 0 < horner (b ^ k) (first :: rest) := by
      rw [horner_cons]
      have : 0 < (b ^ k) ^ rest.length := Nat.pow_pos (Nat.pow_pos (by omega))
      have : 0 < first * (b ^ k) ^ rest.length := Nat.mul_pos hfirst this
      omega
    rw [← List.cons_append, horner_append_singleton, mul_comm,
      toDigits_mul_pow_add b hb k _ x hpos hx, ← hr]
    simp [List.append_assoc]

/-- The `k` digits of the number spelled by `k` digits are the digits. -/
theorem fixed_digits_horner (b : Nat) (hb : 2 ≤ b) (l : List Nat) (h : ∀ x ∈ l, x < b) :
    fixed_digits b l.length (horner b l) = l.map Nat.digitChar := by
  induction l using List.reverseRecOn with
  | nil => rfl
  | append_singleton l x ih =>
    have hx : x < b := h x (by simp)
    have hl := ih (fun y hy => h y (by simp [hy]))
    rw [List.length_append, List.length_singleton, fixed_digits, horner_append_singleton]
    have hdiv : (b * horner b l + x) / b = horner b l := by
      rw [add_comm, Nat.add_mul_div_left _ _ (by omega), Nat.div_eq_of_lt hx, zero_add]
    have hmod : (b * horner b l + x) % b = x := by
      rw [add_comm, Nat.add_mul_mod_self_left, Nat.mod_eq_of_lt hx]
    rw [hdiv, hmod, hl]
    simp

/-- Printing the number a digit list without leading zero spells gives the digit list. -/
theorem toDigits_horner (b : Nat) (hb : 2 ≤ b) (x : Nat) (l : List Nat)
    (h : ∀ y ∈ x :: l, y < b) (hx : l ≠ [] → 0 < x) :
    Nat.toDigits b (horner b (x :: l)) = (x :: l).map Nat.digitChar := by
  have hxb : x < b := h x (List.mem_cons_self _ _)
  have hl : ∀ y ∈ l, y < b := fun y hy => h y (List.mem_cons_of_mem _ hy)
  by_cases hne : l = []
  · subst hne
    rw [horner_cons]
    simp [horner, toDigits_small b x hxb]
  · rw [horner_cons, toDigits_mul_pow_add b hb l.length x _ (hx hne) (horner_lt b l hl),
      toDigits_small b x hxb, fixed_digits_horner b hb l hl]
    simp

end Bigint

namespace Bigint

/-! ## The decimal scratch buffer -/

theorem scratch_value_append (a b : List Int) :
    scratch_value (a ++ b) = scratch_value a * 10 ^ b.length + scratch_value b := by
  induction a with
  | nil => simp [scratch_value]
  | cons d rest ih =>
    rw [List.cons_append, scratch_value, scratch_value, ih, List.length_append, pow_add]
    ring

theorem scratch_ok_cons {d : Int} {rest : List Int} :
    scratch_ok (d :: rest) ↔ (48 ≤ d ∧ d ≤ 57) ∧ scratch_ok rest := by
  unfold scratch_ok; simp

theorem scratch_ok_append {a b : List Int} :
    scratch_ok (a ++ b) ↔ scratch_ok a ∧ scratch_ok b := by
  unfold scratch_ok
  constructor
  · intro h
    exact ⟨fun x hx => h x (List.mem_append_left _ hx),
      fun x hx => h x (List.mem_append_right _ hx)⟩
  · rintro ⟨h1, h2⟩ x hx
    rcases List.mem_append.1 hx with h | h
    · exact h1 x h
    · exact h2 x h

theorem scratch_value_lt (buf : List Int) (h : scratch_ok buf) :
    scratch_value buf < 10 ^ buf.length := by
  induction buf with
  | nil => simp [scratch_value]
  | cons d rest ih =>
    obtain ⟨hd, hr⟩ := scratch_ok_cons.1 h
    have := ih hr
    have hd2 : (d - 48).toNat ≤ 9 := by omega
    rw [scratch_value, List.length_cons, pow_succ]
    nlinarith

/-- `is_zero` holds exactly when the buffer spells zero. -/
theorem is_zero_iff (buf : List Int) (h : scratch_ok buf) :
    is_zero buf = true ↔ scratch_value buf = 0 := by
  induction buf with
  | nil => simp [is_zero, scratch_value]
  | cons d rest ih =>
    obtain ⟨hd, hr⟩ := scratch_ok_cons.1 h
    have hi := ih hr
    have hpos : 0 < 10 ^ rest.length := Nat.pow_pos (by decide)
    unfold is_zero at hi ⊢
    rw [List.all_cons, Bool.and_eq_true, hi, scratch_value]
    simp only [decide_eq_true_eq]
    constructor
    · rintro ⟨h1, h2⟩
      subst h1
      simp [h2]
    · intro h0
      have h1 : (d - 48).toNat * 10 ^ rest.length = 0 := by omega
      have h2 : scratch_value rest = 0 := by omega
      rcases Nat.mul_eq_zero.1 h1 with h3 | h3
      · exact ⟨by omega, h2⟩
      · omega

/-- `get_parity` returns the parity of the number and leaves the number made even. -/
theorem get_parity_spec (buf : List Int) (h : scratch_ok buf) (hne : buf ≠ []) :
    (get_parity buf).1 = scratch_value buf % 2 ∧ scratch_ok (get_parity buf).2 ∧
      (get_parity buf).2.length = buf.length ∧
      scratch_value (get_parity buf).2 + (get_parity buf).1 = scratch_value buf := by
  have hlast : buf.getLast? = some (buf.getLast hne) := List.getLast?_eq_getLast buf hne
  have hsplit : buf = buf.dropLast ++ [buf.getLast hne] :=
    (List.dropLast_append_getLast hne).symm
  have hd : 48 ≤ buf.getLast hne ∧ buf.getLast hne ≤ 57 := h _ (List.getLast_mem hne)
  have hinit : scratch_ok buf.dropLast := fun x hx => h x (List.dropLast_subset buf hx)
  have hv : scratch_value buf = scratch_value buf.dropLast * 10 + (buf.getLast hne - 48).toNat := by
    conv_lhs => rw [hsplit]
    rw [scratch_value_append]
    simp [scratch_value]
  have hlen : buf.length = buf.dropLast.length + 1 := by
    conv_lhs => rw [hsplit]
    simp
  unfold get_parity
  rw [hlast]
  simp only
  generalize buf.getLast hne = d at hd hv
  split
  · next hodd =>
    refine ⟨by omega, scratch_ok_append.2 ⟨hinit, by intro x hx; simp at hx; omega⟩,
      by simp; omega, ?_⟩
    rw [scratch_value_append]
    simp only [scratch_value, List.length_singleton, List.length_nil, pow_zero, pow_one]
    omega
  · next hodd =>
    refine ⟨?_, h, rfl, ?_⟩
    · dsimp only; omega
    · dsimp only; omega

theorem divide_digits_cons (d : Int) (rest : List Int) :
    divide_digits (d :: rest) = divide_one_digit (d :: divide_digits rest) := rfl

/-- `divide_digits` halves the number in the buffer; the first digit it leaves is at most
`4`. -/
theorem divide_digits_spec (buf : List Int) (h : scratch_ok buf) :
    scratch_ok (divide_digits buf) ∧ (divide_digits buf).length = buf.length ∧
      (∀ x, (divide_digits buf).head? = some x → x ≤ 52) ∧
      scratch_value (divide_digits buf) = scratch_value buf / 2 := by
  induction buf with
  | nil => simp [divide_digits, scratch_ok, scratch_value]
  | cons d rest ih =>
    obtain ⟨hd, hr⟩ := scratch_ok_cons.1 h
    obtain ⟨i1, i2, i3, i4⟩ := ih hr
    rw [divide_digits_cons]
    cases hdr : divide_digits rest with
    | nil =>
      have hrest : rest = [] := by
        rw [hdr] at i2
        exact List.length_eq_zero.1 i2.symm
      subst hrest
      simp only [divide_one_digit, scratch_value, List.length_nil, pow_zero, mul_one, add_zero,
        List.length_singleton, List.head?_cons, Option.some.injEq, forall_eq']
      refine ⟨?_, trivial, ?_, ?_⟩
      · intro x hx
        simp only [List.mem_singleton] at hx
        subst hx
        split <;> omega
      · split <;> omega
      · split <;> omega
    | cons r0 t =>
      rw [hdr] at i1 i2 i3 i4
      obtain ⟨hr0, ht⟩ := scratch_ok_cons.1 i1
      have hr052 : r0 ≤ 52 := i3 r0 rfl
      have hlen : rest.length = t.length + 1 := by simpa using i2.symm
      simp only [divide_one_digit]
      split
      · next hodd =>
        refine ⟨?_, by simp [hlen], ?_, ?_⟩
        · exact scratch_ok_cons.2 ⟨by omega, scratch_ok_cons.2 ⟨by omega, ht⟩⟩
        · intro x hx
          simp only [List.head?_cons, Option.some.injEq] at hx
          omega
        · simp only [scratch_value, List.length_cons, pow_succ] at i4 ⊢
          rw [hlen, pow_succ]
          have e1 : ((d - 1 - 48) / 2 + 48 - 48).toNat * (10 ^ t.length * 10) +
              ((r0 + 5 - 48).toNat * 10 ^ t.length + scratch_value t) =
              ((d - 1 - 48) / 2).toNat * (10 ^ t.length * 10) + 5 * 10 ^ t.length +
                ((r0 - 48).toNat * 10 ^ t.length + scratch_value t) := by
            have a1 : ((d - 1 - 48) / 2 + 48 - 48).toNat = ((d - 1 - 48) / 2).toNat := by
              congr 1; omega
            have a2 : (r0 + 5 - 48).toNat = (r0 - 48).toNat + 5 := by omega
            rw [a1, a2]; ring
          have e2 : (d - 48).toNat = 2 * ((d - 1 - 48) / 2).toNat + 1 := by omega
          rw [e1, i4, e2]
          generalize ((d - 1 - 48) / 2).toNat = a
          generalize 10 ^ t.length = P
          generalize scratch_value rest = v
          have e3 : (2 * a + 1) * (P * 10) + v = 2 * (a * (P * 10) + 5 * P) + v := by ring
          rw [e3]
          omega
      · next hodd =>
        refine ⟨?_, by simp [hlen], ?_, ?_⟩
        · exact scratch_ok_cons.2 ⟨by omega, i1⟩
        · intro x hx
          simp only [List.head?_cons, Option.some.injEq] at hx
          omega
        · simp only [scratch_value, List.length_cons, pow_succ] at i4 ⊢
          rw [hlen, pow_succ]
          have a1 : ((d - 48) / 2 + 48 - 48).toNat = ((d - 48) / 2).toNat := by
            congr 1; omega
          have e2 : (d - 48).toNat = 2 * ((d - 48) / 2).toNat := by omega
          rw [a1, i4, e2]
          generalize ((d - 48) / 2).toNat = a
          generalize 10 ^ t.length = P
          generalize scratch_value rest = v
          have e3 : 2 * a * (P * 10) + v = 2 * (a * (P * 10)) + v := by ring
          rw [e3]
          omega

/-! ## The halving loop of `save_decimal` -/

theorem or_shift_bit (segment p count : Nat) (hs : segment < 2 ^ count) (hp : p ≤ 1)
    (hc : count < 32) :
    (segment ||| (p <<< count)) % 4294967296 = segment + p * 2 ^ count ∧
      segment + p * 2 ^ count < 2 ^ (count + 1) := by
  have h1 : 2 ^ count * p + segment = 2 ^ count * p ||| segment :=
    Nat.mul_add_lt_is_or hs p
  have hlt : segment + p * 2 ^ count < 2 ^ (count + 1) := by
    rw [pow_succ]
    have : p * 2 ^ count ≤ 1 * 2 ^ count := Nat.mul_le_mul_right _ hp
    omega
  have hle : 2 ^ (count + 1) ≤ 2 ^ 32 := Nat.pow_le_pow_right (by decide) (by omega)
  rw [Nat.shiftLeft_eq, Nat.or_comm, mul_comm p, ← h1]
  refine ⟨?_, by rw [mul_comm]; omega⟩
  rw [Nat.mod_eq_of_lt]
  · ring
  · rw [mul_comm] at hlt
    norm_num at hle
    omega

/-- The halving loop ends within its bound and then the nodes spell the number that was in
the buffer: `N = (nodes so far) + 2^(bits so far) * (number in the buffer)` holds throughout. -/
theorem save_decimal_loop_spec (fuel : Nat) (buf : List Int) (count segment : Nat)
    (done : List Nat) (N : Nat) (hok : scratch_ok buf) (hne : buf ≠ [])
    (hfuel : scratch_value buf < 2 ^ fuel) (hc : count < 32) (hs : segment < 2 ^ count)
    (hdone : limbs_ok done)
    (hinv : limbs_value (done ++ [segment]) +
      2 ^ (32 * done.length + count) * scratch_value buf = N) :
    ∃ limbs, save_decimal_loop (fuel + 1) buf count segment done = .ok limbs ∧
      limbs_value limbs = N ∧ limbs_ok limbs ∧ limbs ≠ [] := by
  have hseg32 : segment < 4294967296 := by
    have : 2 ^ count ≤ 2 ^ 32 := Nat.pow_le_pow_right (by decide) (le_of_lt hc)
    norm_num at this
    omega
  induction fuel generalizing buf count segment done with
  | zero =>
    have h0 : scratch_value buf = 0 := by simpa using hfuel
    refine ⟨done ++ [segment], ?_, ?_, ?_, by simp⟩
    · rw [save_decimal_loop, if_pos ((is_zero_iff buf hok).2 h0)]
    · rw [h0] at hinv; simpa using hinv
    · exact limbs_ok_append.2 ⟨hdone, by intro x hx; simp at hx; omega⟩
  | succ fuel ih =>
    by_cases hz : is_zero buf = true
    · have h0 := (is_zero_iff buf hok).1 hz
      refine ⟨done ++ [segment], ?_, ?_, ?_, by simp⟩
      · rw [save_decimal_loop, if_pos hz]
      · rw [h0] at hinv; simpa using hinv
      · exact limbs_ok_append.2 ⟨hdone, by intro x hx; simp at hx; omega⟩
    · obtain ⟨p1, p2, p3, p4⟩ := get_parity_spec buf hok hne
      obtain ⟨d1, d2, d3, d4⟩ := divide_digits_spec _ p2
      have hp : (get_parity buf).1 ≤ 1 := by omega
      obtain ⟨b1, b2⟩ := or_shift_bit segment (get_parity buf).1 count hs hp hc
      have hdne : divide_digits (get_parity buf).2 ≠ [] := by
        intro e
        have := congrArg List.length e
        rw [d2, p3] at this
        exact hne (List.length_eq_zero.1 this)
      have hhalf : scratch_value (divide_digits (get_parity buf).2) = scratch_value buf / 2 := by
        rw [d4]; omega
      have hfuel2 : scratch_value (divide_digits (get_parity buf).2) < 2 ^ fuel := by
        rw [hhalf]
        rw [pow_succ] at hfuel
        omega
      have hV : scratch_value buf = 2 * (scratch_value buf / 2) + (get_parity buf).1 := by
        omega
      rw [save_decimal_loop, if_neg hz]
      simp only [b1]
      by_cases h32 : count + 1 = 32
      · rw [if_pos h32]
        have hnew : segment + (get_parity buf).1 * 2 ^ count < 4294967296 := by
          rw [h32] at b2
          norm_num at b2
          exact b2
        refine ih _ 0 0 (done ++ [segment + (get_parity buf).1 * 2 ^ count]) d1 hdne hfuel2
          (by omega) (by simp)
          (limbs_ok_append.2 ⟨hdone, by intro x hx; simp at hx; omega⟩) ?_ (by omega)
        rw [hhalf, ← hinv]
        rw [limbs_value_append, limbs_value_append, limbs_value_append]
        simp only [limbs_value, mul_zero, add_zero, List.length_append, List.length_singleton]
        have e1 : 2 ^ (32 * (done.length + 1)) = 2 ^ (32 * done.length + count) * 2 := by
          rw [← pow_succ]; congr 1; omega
        have e2 : (4294967296 : Nat) ^ done.length * (2 ^ count) =
            2 ^ (32 * done.length + count) := by
          rw [pow32, ← pow_add]
        rw [e1]
        conv_rhs => rw [hV]
        rw [← e2]
        ring
      · rw [if_neg h32]
        refine ih _ (count + 1) _ done d1 hdne hfuel2 (by omega) b2 hdone ?_ ?_
        · rw [hhalf, ← hinv]
          rw [limbs_value_append, limbs_value_append]
          simp only [limbs_value, mul_zero, add_zero]
          have e1 : 2 ^ (32 * done.length + (count + 1)) = 2 ^ (32 * done.length + count) * 2 := by
            rw [← pow_succ]; rfl
          have e2 : (4294967296 : Nat) ^ done.length * (2 ^ count) =
              2 ^ (32 * done.length + count) := by
            rw [pow32, ← pow_add]
          rw [e1]
          conv_rhs => rw [hV]
          rw [← e2]
          ring
        · have : 2 ^ (count + 1) ≤ 2 ^ 32 := Nat.pow_le_pow_right (by decide) (by omega)
          norm_num at this
          omega

end Bigint

namespace Bigint

/-! ## The front end of `bigint_create` -/

theorem decimal_digit_mem (c : Char) (h : is_decimal_digit c) : c ∈ "0123456789".toList := by
  obtain ⟨h1, h2⟩ := h
  have hc : c = Char.ofNat c.toNat := (Char.ofNat_toNat c).symm
  generalize c.toNat = n at h1 h2 hc
  subst hc
  interval_cases n <;> decide

theorem hex_digit_mem (c : Char) (h : is_hex_digit c) :
    c ∈ "0123456789ABCDEFabcdef".toList := by
  have hc : c = Char.ofNat c.toNat := (Char.ofNat_toNat c).symm
  unfold is_hex_digit at h
  generalize c.toNat = n at h hc
  subst hc
  rcases h with ⟨h1, h2⟩ | ⟨h1, h2⟩ | ⟨h1, h2⟩ <;> interval_cases n <;> decide

theorem binary_digit_mem (c : Char) (h : is_binary_digit c) : c ∈ "01".toList := by
  rcases h with rfl | rfl <;> decide

/-- `check_sign` on a numeral whose first character after the sign is not a sign. -/
theorem check_sign_spec (sgn body : List Char) (hs : is_sign sgn)
    (hb : body.head? ≠ some '-' ∧ body.head? ≠ some '+') :
    check_sign (sgn ++ body) = (if sgn = ['-'] then 1 else 0, body) := by
  rcases hs with rfl | rfl | rfl
  · simp only [List.nil_append]
    unfold check_sign
    split
    · next rest => exact absurd rfl hb.1
    · next rest => exact absurd rfl hb.2
    · simp
  · rfl
  · rfl

theorem check_base_dec (ds : List Char) (hne : ds ≠ []) (hlead : no_leading_zero ds) :
    check_base ds = (bigint_base.DEC, ds) := by
  have hlen : ¬ ds.length ≤ 0 := by
    have : ds.length ≠ 0 := by simpa using hne
    omega
  unfold check_base
  rw [if_neg hlen, if_neg]
  rintro ⟨h1, h2⟩
  exact h2 (hlead h1)

theorem check_base_bin (ds : List Char) : check_base ('0' :: 'b' :: ds) = (bigint_base.BIN, ds) := by
  simp [check_base]

theorem check_base_hex (ds : List Char) : check_base ('0' :: 'x' :: ds) = (bigint_base.HEX, ds) := by
  simp [check_base]

theorem check_syntax_spec (ds : List Char) (base : bigint_base) (hne : ds ≠ [])
    (hbase : base ≠ bigint_base.OTHER) (hlead : no_leading_zero ds)
    (hall : ∀ c ∈ ds, strchr_found (charsets base) c.toUpper = true) :
    check_syntax ds base = true := by
  have hlen : ¬ ds.length ≤ 0 := by
    have : ds.length ≠ 0 := by simpa using hne
    omega
  unfold check_syntax
  rw [if_neg hlen, if_neg]
  · exact List.all_eq_true.2 hall
  · rintro (h | ⟨h1, h2⟩)
    · exact hbase h
    · exact h2 (hlead h1)

theorem decimal_digit_facts : ∀ c ∈ "0123456789".toList,
    c ≠ '-' ∧ c ≠ '+' ∧ strchr_found (charsets bigint_base.DEC) c.toUpper = true ∧
      Nat.digitChar (digit_value c) = c ∧ digit_value c < 10 ∧
      ((((c.toNat : Int) - 48) % 4294967296).toNat = digit_value c) ∧
      (c = '0' ↔ digit_value c = 0) := by
  decide

/-! ## Decimal numerals -/

theorem scratch_of_digits (ds : List Char) (hd : ∀ c ∈ ds, is_decimal_digit c) :
    scratch_ok (ds.map (fun c => (c.toNat : Int))) ∧
      scratch_value (ds.map (fun c => (c.toNat : Int))) = numeral_value 10 digit_value ds := by
  induction ds with
  | nil => exact ⟨by intro d hd; simp at hd, rfl⟩
  | cons c rest ih =>
    obtain ⟨i1, i2⟩ := ih (fun x hx => hd x (List.mem_cons_of_mem _ hx))
    obtain ⟨h1, h2⟩ := hd c (List.mem_cons_self _ _)
    rw [List.map_cons]
    have hcb : 48 ≤ (c.toNat : Int) ∧ (c.toNat : Int) ≤ 57 := by omega
    refine ⟨scratch_ok_cons.2 ⟨hcb, i1⟩, ?_⟩
    simp only [List.map_cons, scratch_value, List.length_map, numeral_value]
    rw [horner_cons, i2]
    simp only [numeral_value, List.length_map, digit_value]
    congr 2
    omega

/-- `save_decimal` on a decimal numeral: the loop ends and the nodes spell the number. -/
theorem save_decimal_spec (ds : List Char) (hne : ds ≠ []) (hd : ∀ c ∈ ds, is_decimal_digit c) :
    ∃ limbs, save_decimal ds = .ok limbs ∧
      limbs_value limbs = numeral_value 10 digit_value ds ∧ limbs_ok limbs ∧ limbs ≠ [] := by
  have hlen : ds.length ≠ 0 := by simpa using hne
  unfold save_decimal
  rw [if_neg hlen]
  by_cases h1 : ds.length = 1
  · rw [if_pos h1]
    match ds, h1, hd with
    | [c], _, hd =>
      obtain ⟨-, -, -, -, f5, f6, -⟩ :=
        decimal_digit_facts c (decimal_digit_mem c (hd c (List.mem_singleton_self c)))
      refine ⟨_, rfl, ?_, ?_, by simp⟩
      · simp only [List.headD_cons, f6, limbs_value, numeral_value, List.map_cons, List.map_nil,
          horner_cons, horner_nil]
        simp
      · intro x hx
        simp only [List.headD_cons, f6, List.mem_singleton] at hx
        omega
  · rw [if_neg h1]
    obtain ⟨s1, s2⟩ := scratch_of_digits ds hd
    have hlt := scratch_value_lt _ s1
    rw [List.length_map] at hlt
    have hpow : 10 ^ ds.length ≤ 2 ^ (4 * ds.length) := by
      rw [pow_mul]
      exact Nat.pow_le_pow_left (by norm_num) _
    have := save_decimal_loop_spec (4 * ds.length) (ds.map (fun c => (c.toNat : Int))) 0 0 []
      (numeral_value 10 digit_value ds) s1 (by simpa using hne) (by omega) (by omega)
      (by simp) (by intro x hx; simp at hx) (by simp [limbs_value, s2])
    exact this

/-- `bigint_create` on a signed decimal numeral without leading zero. -/
theorem bigint_create_decimal (sgn ds : List Char) (hs : is_sign sgn) (hne : ds ≠ [])
    (hd : ∀ c ∈ ds, is_decimal_digit c) (hlead : no_leading_zero ds) :
    ∃ limbs, save_decimal ds = .ok limbs ∧
      limbs_value limbs = numeral_value 10 digit_value ds ∧ limbs_ok limbs ∧ limbs ≠ [] ∧
      bigint_create (sgn ++ ds) = .ok
        { limbs := limbs,
          sign := if limbs.length = 1 ∧ limbs.head? = some 0 then 0
            else (if sgn = ['-'] then 1 else 0) } := by
  obtain ⟨limbs, l1, l2, l3, l4⟩ := save_decimal_spec ds hne hd
  refine ⟨limbs, l1, l2, l3, l4, ?_⟩
  have hhead : ds.head? ≠ some '-' ∧ ds.head? ≠ some '+' := by
    match ds, hne, hd with
    | c :: rest, _, hd =>
      obtain ⟨f1, f2, -⟩ :=
        decimal_digit_facts c (decimal_digit_mem c (hd c (List.mem_cons_self _ _)))
      simp [f1, f2]
  have hsyn : check_syntax ds bigint_base.DEC = true :=
    check_syntax_spec ds _ hne (by decide) hlead (fun c hc =>
      (decimal_digit_facts c (decimal_digit_mem c (hd c hc))).2.2.1)
  have hlen : ¬ (sgn ++ ds).length = 0 := by
    have : ds.length ≠ 0 := by simpa using hne
    simp only [List.length_append]; omega
  unfold bigint_create
  rw [if_neg hlen]
  simp only [check_sign_spec sgn ds hs hhead, check_base_dec ds hne hlead, hsyn]
  simp [l1]

end Bigint

namespace Bigint

/-! ## Binary numerals -/

theorem binary_digit_value (c : Char) (h : is_binary_digit c) : digit_value c ≤ 1 := by
  rcases h with rfl | rfl <;> decide

theorem save_binary_bit_spec (r : Nat) (c : Char) (i : Nat) (hc : is_binary_digit c)
    (hi : i < 32) (hr : r < 2 ^ i) :
    save_binary_bit r c i = digit_value c * 2 ^ i + r ∧
      digit_value c * 2 ^ i + r < 2 ^ (i + 1) := by
  have hle : (2 : Nat) ^ i < 4294967296 := by
    have : 2 ^ i < 2 ^ 32 := Nat.pow_lt_pow_right (by decide) hi
    norm_num at this
    exact this
  have hword : ((((c.toNat : Int) - 48) * 2 ^ i) % 4294967296).toNat = digit_value c * 2 ^ i := by
    rcases hc with rfl | rfl
    · simp [digit_value]
    · have e : ((('1' : Char).toNat : Int) - 48) * 2 ^ i = ((2 ^ i : Nat) : Int) := by
        simp
      rw [e, Int.emod_eq_of_lt (by positivity) (by exact_mod_cast hle), Int.toNat_ofNat]
      simp [digit_value]
  have hd := binary_digit_value c hc
  unfold save_binary_bit
  rw [hword]
  have h1 : 2 ^ i * digit_value c + r = 2 ^ i * digit_value c ||| r :=
    Nat.mul_add_lt_is_or hr _
  rw [Nat.or_comm, mul_comm, ← h1]
  refine ⟨rfl, ?_⟩
  rw [pow_succ]
  have : 2 ^ i * digit_value c ≤ 2 ^ i * 1 := Nat.mul_le_mul_left _ hd
  omega

theorem save_binary_segment_steps (seg : List Char) (hlen : seg.length = 32)
    (hb : ∀ c ∈ seg, is_binary_digit c) (j : Nat) (hj : j ≤ 32) :
    (List.range j).foldl (fun r i => save_binary_bit r (seg.getD (31 - i) '0') i) 0 =
        horner 2 ((seg.drop (32 - j)).map digit_value) ∧
      horner 2 ((seg.drop (32 - j)).map digit_value) < 2 ^ j := by
  induction j with
  | zero =>
    rw [List.drop_of_length_le (by omega)]
    simp [horner]
  | succ j ih =>
    obtain ⟨i1, i2⟩ := ih (by omega)
    have hk : 31 - j < seg.length := by omega
    have hdrop : seg.drop (32 - (j + 1)) = seg.getD (31 - j) '0' :: seg.drop (32 - j) := by
      rw [List.getD_eq_getElem _ _ hk]
      have e1 : 32 - (j + 1) = 31 - j := by omega
      have e2 : 32 - j = 31 - j + 1 := by omega
      rw [e1, e2]
      exact List.drop_eq_getElem_cons hk
    have hmem : is_binary_digit (seg.getD (31 - j) '0') := by
      rw [List.getD_eq_getElem _ _ hk]
      exact hb _ (List.getElem_mem _)
    obtain ⟨s1, s2⟩ := save_binary_bit_spec _ _ j hmem (by omega) i2
    rw [List.range_succ, List.foldl_append]
    simp only [List.foldl_cons, List.foldl_nil]
    rw [i1, hdrop, List.map_cons, horner_cons, List.length_map]
    have hl : (seg.drop (32 - j)).length = j := by simp; omega
    rw [hl]
    exact ⟨s1, s2⟩

theorem save_binary_segment_take (number : List Char) (h : 32 ≤ number.length) :
    save_binary_segment number = save_binary_segment (number.take 32) := by
  unfold save_binary_segment
  apply List.foldl_ext
  intro r i hi
  have hi32 : i < 32 := List.mem_range.1 hi
  congr 1
  rw [List.getD_eq_getElem _ _ (by omega), List.getD_eq_getElem _ _ (by simp; omega)]
  simp

/-- `save_binary_segment` reads the 32 characters at `number` as a binary number. -/
theorem save_binary_segment_spec (number : List Char) (h : 32 ≤ number.length)
    (hb : ∀ c ∈ number.take 32, is_binary_digit c) :
    save_binary_segment number = horner 2 ((number.take 32).map digit_value) ∧
      save_binary_segment number < 4294967296 := by
  have hlen : (number.take 32).length = 32 := by simp; omega
  have := save_binary_segment_steps (number.take 32) hlen hb 32 (le_refl _)
  rw [save_binary_segment_take number h]
  simp only [Nat.sub_self, List.drop_zero] at this
  obtain ⟨h1, h2⟩ := this
  refine ⟨h1, ?_⟩
  have e : save_binary_segment (number.take 32) =
      horner 2 ((number.take 32).map digit_value) := h1
  rw [e]
  rw [show (2 : Nat) ^ 32 = 4294967296 from by norm_num] at h2
  exact h2

/-- Cutting a digit string of `32 k` binary digits into 32-digit groups from the right and
reading the groups as limbs, low limb first, spells the same number. -/
theorem groups_value (k : Nat) (s : List Nat) (hlen : s.length = 32 * k) :
    limbs_value ((List.range k).map
        (fun i => horner 2 ((s.drop (32 * k - 32 * (i + 1))).take 32))) = horner 2 s := by
  induction k generalizing s with
  | zero =>
    have : s = [] := List.length_eq_zero.1 (by simpa using hlen)
    subst this
    rfl
  | succ k ih =>
    have hsplit : s = s.take (32 * k) ++ s.drop (32 * k) := (List.take_append_drop _ _).symm
    have hdl : (s.drop (32 * k)).length = 32 := by simp; omega
    have htl : (s.take (32 * k)).length = 32 * k := by simp; omega
    rw [List.range_succ_eq_map, List.map_cons, List.map_map, limbs_value]
    have h0 : (s.drop (32 * (k + 1) - 32 * (0 + 1))).take 32 = s.drop (32 * k) := by
      have e : 32 * (k + 1) - 32 * (0 + 1) = 32 * k := by omega
      rw [e, List.take_of_length_le (by omega)]
    have hrest : (List.range k).map
        ((fun i => horner 2 ((s.drop (32 * (k + 1) - 32 * (i + 1))).take 32)) ∘ Nat.succ) =
        (List.range k).map
          (fun i => horner 2 (((s.take (32 * k)).drop (32 * k - 32 * (i + 1))).take 32)) := by
      apply List.map_congr_left
      intro i hi
      have hik : i < k := List.mem_range.1 hi
      simp only [Function.comp, Nat.succ_eq_add_one]
      have e : 32 * (k + 1) - 32 * (i + 1 + 1) = 32 * k - 32 * (i + 1) := by omega
      rw [e, List.drop_take, List.take_take]
      congr 2
      omega
    rw [h0, hrest, ih _ htl]
    conv_rhs => rw [hsplit, horner_append, hdl]
    norm_num
    ring

theorem horner_replicate_zero_append (B n : Nat) (l : List Nat) :
    horner B (List.replicate n 0 ++ l) = horner B l := by
  rw [horner_append, horner_replicate_zero]
  simp

/-- `save_binary` on binary digits: the limbs spell the digits read in base 2. -/
theorem save_binary_spec (bits : List Char) (hb : ∀ c ∈ bits, is_binary_digit c) :
    limbs_value (save_binary bits) = numeral_value 2 digit_value bits ∧
      limbs_ok (save_binary bits) ∧
      (save_binary bits).length = (bits.length + 31) / 32 := by
  have hpad : ∀ c ∈ List.replicate (if bits.length % 32 = 0 then 0 else 32 - bits.length % 32)
      '0' ++ bits, is_binary_digit c := by
    intro c hc
    rcases List.mem_append.1 hc with h | h
    · rw [List.eq_of_mem_replicate h]; exact Or.inl rfl
    · exact hb c h
  have hnodes : (if bits.length % 32 = 0 then bits.length / 32 else bits.length / 32 + 1) =
      (bits.length + 31) / 32 := by
    split <;> omega
  have hplen : (List.replicate (if bits.length % 32 = 0 then 0 else 32 - bits.length % 32)
      '0' ++ bits).length = 32 * ((bits.length + 31) / 32) := by
    simp only [List.length_append, List.length_replicate]
    split <;> omega
  have htot : bits.length + (if bits.length % 32 = 0 then 0 else 32 - bits.length % 32) =
      32 * ((bits.length + 31) / 32) := by
    split <;> omega
  have hmap : save_binary bits = (List.range ((bits.length + 31) / 32)).map
      (fun i => horner 2 ((((List.replicate
          (if bits.length % 32 = 0 then 0 else 32 - bits.length % 32) '0' ++ bits).map
            digit_value).drop (32 * ((bits.length + 31) / 32) - 32 * (i + 1))).take 32)) := by
    unfold save_binary
    simp only [hnodes, htot]
    apply List.map_congr_left
    intro i hi
    have hik : i < (bits.length + 31) / 32 := List.mem_range.1 hi
    have h32 : 32 ≤ ((List.replicate (if bits.length % 32 = 0 then 0 else 32 - bits.length % 32)
        '0' ++ bits).drop (32 * ((bits.length + 31) / 32) - 32 * (i + 1))).length := by
      rw [List.length_drop, hplen]; omega
    rw [(save_binary_segment_spec _ h32
      (fun c hc => hpad c (List.mem_of_mem_drop (List.mem_of_mem_take hc)))).1,
      ← List.map_drop, ← List.map_take]
  refine ⟨?_, ?_, ?_⟩
  · rw [hmap, groups_value _ _ (by rw [List.length_map, hplen])]
    simp only [numeral_value, List.map_append, List.map_replicate]
    rw [show digit_value '0' = 0 from rfl, horner_replicate_zero_append]
  · intro x hx
    unfold save_binary at hx
    simp only [hnodes, htot] at hx
    obtain ⟨i, hi, rfl⟩ := List.mem_map.1 hx
    have hik : i < (bits.length + 31) / 32 := List.mem_range.1 hi
    have h32 : 32 ≤ ((List.replicate (if bits.length % 32 = 0 then 0 else 32 - bits.length % 32)
        '0' ++ bits).drop (32 * ((bits.length + 31) / 32) - 32 * (i + 1))).length := by
      rw [List.length_drop, hplen]; omega
    exact (save_binary_segment_spec _ h32
      (fun c hc => hpad c (List.mem_of_mem_drop (List.mem_of_mem_take hc)))).2
  · unfold save_binary
    simp only [hnodes, List.length_map, List.length_range]

end Bigint

namespace Bigint

/-! ## Hexadecimal numerals -/

theorem hex_digit_facts : ∀ c ∈ "0123456789ABCDEFabcdef".toList,
    (binary_numbers.getD (hex_digits.indexOf c % 16) []).length = 4 ∧
      (∀ x ∈ binary_numbers.getD (hex_digits.indexOf c % 16) [], is_binary_digit x) ∧
      horner 2 ((binary_numbers.getD (hex_digits.indexOf c % 16) []).map digit_value) =
        hex_digit_value c ∧
      hex_digit_value c < 16 ∧ Nat.digitChar (hex_digit_value c) = c.toLower ∧
      strchr_found (charsets bigint_base.HEX) c.toUpper = true ∧
      (c = '0' ↔ hex_digit_value c = 0) := by
  decide

theorem hex_digit_case_facts : ∀ c ∈ "0123456789ABCDEFabcdef".toList,
    is_hex_digit c.toUpper ∧ is_hex_digit c.toLower ∧
      binary_numbers.getD (hex_digits.indexOf c.toUpper % 16) [] =
        binary_numbers.getD (hex_digits.indexOf c % 16) [] ∧
      binary_numbers.getD (hex_digits.indexOf c.toLower % 16) [] =
        binary_numbers.getD (hex_digits.indexOf c % 16) [] ∧
      (c.toUpper = '0' ↔ c = '0') ∧ (c.toLower = '0' ↔ c = '0') ∧
      hex_digit_value c.toUpper = hex_digit_value c ∧
      hex_digit_value c.toLower = hex_digit_value c := by
  decide

theorem binary_digit_facts : ∀ c ∈ "01".toList,
    strchr_found (charsets bigint_base.BIN) c.toUpper = true ∧
      Nat.digitChar (digit_value c) = c ∧ digit_value c < 2 ∧
      (c = '0' ↔ digit_value c = 0) := by
  decide

theorem convert_to_binary_append (a b : List Char) :
    convert_to_binary (a ++ b) = convert_to_binary a ++ convert_to_binary b := by
  simp [convert_to_binary]

/-- `convert_to_binary` on hexadecimal digits: four binary digits a character, spelling the
same number. -/
theorem convert_to_binary_spec (ds : List Char) (hd : ∀ c ∈ ds, is_hex_digit c) :
    (∀ x ∈ convert_to_binary ds, is_binary_digit x) ∧
      (convert_to_binary ds).length = 4 * ds.length ∧
      numeral_value 2 digit_value (convert_to_binary ds) =
        numeral_value 16 hex_digit_value ds := by
  induction ds using List.reverseRecOn with
  | nil => exact ⟨by intro x hx; simp [convert_to_binary] at hx, rfl, rfl⟩
  | append_singleton ds c ih =>
    obtain ⟨i1, i2, i3⟩ := ih (fun x hx => hd x (by simp [hx]))
    obtain ⟨f1, f2, f3, -⟩ := hex_digit_facts c (hex_digit_mem c (hd c (by simp)))
    have hc : convert_to_binary [c] = binary_numbers.getD (hex_digits.indexOf c % 16) [] := by
      simp [convert_to_binary]
    rw [convert_to_binary_append, hc]
    refine ⟨?_, ?_, ?_⟩
    · intro x hx
      rcases List.mem_append.1 hx with h | h
      · exact i1 x h
      · exact f2 x h
    · simp only [List.length_append, i2, f1, List.length_singleton]; omega
    · simp only [numeral_value, List.map_append, List.map_cons, List.map_nil] at i3 ⊢
      rw [horner_append, horner_append_singleton, i3, f3, List.length_map, f1]
      ring

theorem convert_to_binary_congr (ds : List Char) (f : Char → Char)
    (hf : ∀ c ∈ ds, binary_numbers.getD (hex_digits.indexOf (f c) % 16) [] =
      binary_numbers.getD (hex_digits.indexOf c % 16) []) :
    convert_to_binary (ds.map f) = convert_to_binary ds := by
  unfold convert_to_binary
  rw [List.map_map]
  congr 1
  apply List.map_congr_left
  intro c hc
  exact hf c hc

/-! ## `bigint_create` on binary and hexadecimal numerals -/

/-- `bigint_create` on a signed binary numeral. -/
theorem bigint_create_binary (sgn ds : List Char) (hs : is_sign sgn) (hne : ds ≠ [])
    (hb : ∀ c ∈ ds, is_binary_digit c) (hlead : no_leading_zero ds) :
    bigint_create (sgn ++ '0' :: 'b' :: ds) = .ok
      { limbs := save_binary ds,
        sign := if (save_binary ds).length = 1 ∧ (save_binary ds).head? = some 0 then 0
          else (if sgn = ['-'] then 1 else 0) } := by
  have hsyn : check_syntax ds bigint_base.BIN = true :=
    check_syntax_spec ds _ hne (by decide) hlead (fun c hc =>
      (binary_digit_facts c (binary_digit_mem c (hb c hc))).1)
  have hlen : ¬ (sgn ++ '0' :: 'b' :: ds).length = 0 := by simp
  unfold bigint_create
  rw [if_neg hlen]
  simp only [check_sign_spec sgn ('0' :: 'b' :: ds) hs (by simp), check_base_bin, hsyn]
  simp

/-- `bigint_create` on a signed hexadecimal numeral. -/
theorem bigint_create_hex (sgn ds : List Char) (hs : is_sign sgn) (hne : ds ≠ [])
    (hd : ∀ c ∈ ds, is_hex_digit c) (hlead : no_leading_zero ds) :
    bigint_create (sgn ++ '0' :: 'x' :: ds) = .ok
      { limbs := save_binary (convert_to_binary ds),
        sign := if (save_binary (convert_to_binary ds)).length = 1 ∧
            (save_binary (convert_to_binary ds)).head? = some 0 then 0
          else (if sgn = ['-'] then 1 else 0) } := by
  have hsyn : check_syntax ds bigint_base.HEX = true :=
    check_syntax_spec ds _ hne (by decide) hlead (fun c hc =>
      (hex_digit_facts c (hex_digit_mem c (hd c hc))).2.2.2.2.2.1)
  have hlen : ¬ (sgn ++ '0' :: 'x' :: ds).length = 0 := by simp
  unfold bigint_create
  rw [if_neg hlen]
  simp only [check_sign_spec sgn ('0' :: 'x' :: ds) hs (by simp), check_base_hex, hsyn]
  simp

theorem no_leading_zero_map (ds : List Char) (f : Char → Char)
    (hf : ∀ c ∈ ds, (f c = '0' ↔ c = '0')) (hlead : no_leading_zero ds) :
    no_leading_zero (ds.map f) := by
  unfold no_leading_zero at hlead ⊢
  cases ds with
  | nil => simp
  | cons c rest =>
    intro h
    simp only [List.map_cons, List.head?_cons, Option.some.injEq] at h
    have := (hf c (List.mem_cons_self _ _)).1 h
    subst this
    simpa using hlead rfl

end Bigint

namespace Bigint

/-! ## Division of an array by `10^9` -/

/-- The invariant of the loop of `divide` carries through to the end: with the bits above
`i` consumed, `r = (N / 2^i) mod 10^9` and the quotient array holds `(N / 2^i) / 10^9 * 2^i`. -/
theorem divide_loop_spec (a : List Nat) (count : Nat) (ha : limbs_ok a) (hal : a.length = count)
    (i r : Nat) (quo : List Nat) (hi : i ≤ 32 * count) (hquo : limbs_ok quo)
    (hquol : quo.length = count)
    (hr : r = array_value a / 2 ^ i % 1000000000)
    (hquov : array_value quo = array_value a / 2 ^ i / 1000000000 * 2 ^ i) :
    (divide_loop a count i (r, quo)).1 = array_value a % 1000000000 ∧
      array_value (divide_loop a count i (r, quo)).2 = array_value a / 1000000000 ∧
      limbs_ok (divide_loop a count i (r, quo)).2 ∧
      (divide_loop a count i (r, quo)).2.length = count := by
  induction i generalizing r quo with
  | zero =>
    simp only [pow_zero, Nat.div_one, mul_one] at hr hquov
    exact ⟨hr, hquov, hquo, hquol⟩
  | succ i ih =>
    have hYX : array_value a / 2 ^ (i + 1) = array_value a / 2 ^ i / 2 := by
      rw [pow_succ, Nat.div_div_eq_div_mul]
    rw [hYX] at hr hquov
    have hrlt : r < 1000000000 := by rw [hr]; exact Nat.mod_lt _ (by decide)
    have hbit : get_n_bit a count i = array_value a / 2 ^ i % 2 := by
      rw [← hal, get_n_bit_spec a ha i (by omega), Nat.toNat_testBit]
    have hnew : ((r <<< 1) % 18446744073709551616 ||| get_n_bit a count i) =
        2 * r + array_value a / 2 ^ i % 2 := by
      rw [Nat.shiftLeft_eq, pow_one, Nat.mod_eq_of_lt (by omega), hbit,
        or_low_bit _ _ (by omega) (by omega)]
      omega
    have hstep := div_step (array_value a / 2 ^ i) 1000000000 (by decide)
    rw [divide_loop]
    simp only [hnew]
    by_cases hge : 2 * r + array_value a / 2 ^ i % 2 ≥ 1000000000
    · rw [if_pos hge]
      have hclear : (array_value quo).testBit i = false := by
        rw [hquov, mul_comm]
        have := Nat.testBit_mul_pow_two_add (array_value a / 2 ^ i / 2 / 1000000000)
          (show 0 < 2 ^ (i + 1) from Nat.pow_pos (by decide)) i
        simp only [add_zero] at this
        rw [this, if_pos (by omega)]
        simp
      have hquo2 := set_n_bit_to_1_spec quo hquo i (by omega) hclear
      rw [hquol] at hquo2
      obtain ⟨q1, q2, q3⟩ := hquo2
      obtain ⟨e1, e2⟩ := hstep.1 (by rw [← hr]; exact hge)
      refine ih _ _ (by omega) q2 q3 ?_ ?_
      · rw [e2, ← hr]
      · rw [q1, hquov, e1, pow_succ]; ring
    · rw [if_neg hge]
      obtain ⟨e1, e2⟩ := hstep.2 (by rw [← hr]; omega)
      refine ih _ _ (by omega) hquo hquol ?_ ?_
      · rw [e2, ← hr]
      · rw [hquov, e1, pow_succ]; ring

/-- `divide` on an array and a zeroed quotient array of the same length: the remainder and
the quotient of the number by `10^9`. -/
theorem divide_spec (a : List Nat) (ha : limbs_ok a) :
    (divide a (List.replicate a.length 0) a.length).1 = array_value a % 1000000000 ∧
      array_value (divide a (List.replicate a.length 0) a.length).2 =
        array_value a / 1000000000 ∧
      limbs_ok (divide a (List.replicate a.length 0) a.length).2 ∧
      (divide a (List.replicate a.length 0) a.length).2.length = a.length := by
  unfold divide
  split
  · next h0 =>
    have : a = [] := List.length_eq_zero.1 h0
    subst this
    simp [array_value, limbs_value, limbs_ok]
  · next h0 =>
    have hne : a.reverse ≠ [] := by
      intro e
      exact h0 (by simpa using congrArg List.length e)
    obtain ⟨hlt, hcount⟩ := dividend_lt_pow a.reverse (limbs_ok_reverse.2 ha) hne
    simp only [List.reverse_reverse, List.length_reverse] at hlt hcount
    have hc : a.length * 32 - 32 + bit_len (a.headD 0) =
        (a.length - 1) * 32 + bit_len (a.headD 0) := by omega
    rw [hc]
    have hdiv0 : array_value a / 2 ^ ((a.length - 1) * 32 + bit_len (a.headD 0)) = 0 :=
      Nat.div_eq_of_lt hlt
    exact divide_loop_spec a a.length ha rfl _ 0 _ hcount (limbs_ok_replicate_zero _)
      (by simp) (by rw [hdiv0]) (by rw [hdiv0, array_value_replicate_zero]; simp)

/-! ## `print_decimal` -/

/-- One round of the first loop of `print_decimal`. -/
theorem print_decimal_round (count : Nat) (current : List Nat) (hc : limbs_ok current)
    (hl : current.length = count) :
    (divide (current.drop (count - chain_length current))
        (List.replicate (count - (count - chain_length current)) 0)
        (chain_length current)).1 = array_value current % 1000000000 ∧
      array_value (List.replicate (count - chain_length current) 0 ++
        (divide (current.drop (count - chain_length current))
          (List.replicate (count - (count - chain_length current)) 0)
          (chain_length current)).2) = array_value current / 1000000000 ∧
      limbs_ok (List.replicate (count - chain_length current) 0 ++
        (divide (current.drop (count - chain_length current))
          (List.replicate (count - (count - chain_length current)) 0)
          (chain_length current)).2) ∧
      (List.replicate (count - chain_length current) 0 ++
        (divide (current.drop (count - chain_length current))
          (List.replicate (count - (count - chain_length current)) 0)
          (chain_length current)).2).length = count := by
  have hle := chain_length_le current
  obtain ⟨c1, -, -⟩ := chain_length_spec current
  rw [hl] at hle c1
  have hdl : (current.drop (count - chain_length current)).length = chain_length current := by
    simp; omega
  have e : count - (count - chain_length current) = chain_length current := by omega
  have := divide_spec (current.drop (count - chain_length current)) (limbs_ok_drop hc _)
  rw [hdl, c1] at this
  rw [e]
  obtain ⟨d1, d2, d3, d4⟩ := this
  refine ⟨d1, ?_, limbs_ok_append.2 ⟨limbs_ok_replicate_zero _, d3⟩, by simp [d4]; omega⟩
  rw [array_value_append, array_value_replicate_zero, d2]
  simp

/-- The first loop of `print_decimal`: `N = result + (10^9)^(rounds done) * current` holds
throughout, the entries of `result` being base-`10^9` digits, most significant first. -/
theorem print_decimal_loop_spec (count rounds : Nat) (current result : List Nat) (N : Nat)
    (hc : limbs_ok current) (hl : current.length = count)
    (hres : ∀ x ∈ result, x < 1000000000)
    (hinv : horner 1000000000 result + 1000000000 ^ result.length * array_value current = N) :
    horner 1000000000 (print_decimal_loop count rounds current result) +
        1000000000 ^ (result.length + rounds) *
          (array_value current / 1000000000 ^ rounds) = N ∧
      (∀ x ∈ print_decimal_loop count rounds current result, x < 1000000000) ∧
      (print_decimal_loop count rounds current result).length = result.length + rounds := by
  induction rounds generalizing current result with
  | zero => simpa [print_decimal_loop] using ⟨hinv, hres⟩
  | succ rounds ih =>
    obtain ⟨r1, r2, r3, r4⟩ := print_decimal_round count current hc hl
    have hrlt : array_value current % 1000000000 < 1000000000 := Nat.mod_lt _ (by decide)
    rw [print_decimal_loop]
    simp only [r1]
    rw [Nat.mod_eq_of_lt (by omega)]
    have := ih _ (array_value current % 1000000000 :: result) r3 r4
      (by
        intro x hx
        rcases List.mem_cons.1 hx with rfl | hx
        · exact hrlt
        · exact hres x hx)
      (by
        rw [r2, horner_cons, List.length_cons, pow_succ, ← hinv]
        have hV := Nat.div_add_mod (array_value current) 1000000000
        conv_rhs => rw [← hV]
        ring)
    obtain ⟨t1, t2, t3⟩ := this
    rw [r2, Nat.div_div_eq_div_mul, List.length_cons] at t1
    refine ⟨?_, t2, by rw [t3, List.length_cons]; omega⟩
    rw [← t1, pow_succ]
    congr 3
    · omega
    · ring

theorem horner_dropWhile_zero (B : Nat) (l : List Nat) :
    horner B (l.dropWhile (fun r => decide (r = 0))) = horner B l := by
  induction l with
  | nil => rfl
  | cons x xs ih =>
    by_cases hx : x = 0
    · subst hx
      rw [List.dropWhile_cons_of_pos (by simp), ih, horner_cons]
      simp
    · rw [List.dropWhile_cons_of_neg (by simpa using hx)]

theorem printf_09u_eq (x : Nat) (hx : x < 1000000000) : printf_09u x = fixed_digits 10 9 x :=
  pad_toDigits 10 (by decide) 9 x (by decide) (by norm_num; exact hx)

/-- The printing loops of `print_decimal` spell the number whose base-`10^9` digits are in
`result`. -/
theorem print_decimal_result_spec (result : List Nat) (hlen : result.length ≠ 1)
    (hres : ∀ x ∈ result, x < 1000000000) (hpos : 0 < horner 1000000000 result) :
    print_decimal_result result = Nat.toDigits 10 (horner 1000000000 result) := by
  have hfun : (fun r => decide (r = 0) && decide (result.length ≠ 1)) =
      (fun r => decide (r = 0)) := by
    funext r
    simp [hlen]
  have hv := horner_dropWhile_zero 1000000000 result
  have hmem : ∀ x ∈ result.dropWhile (fun r => decide (r = 0)), x < 1000000000 :=
    fun x hx => hres x ((List.dropWhile_sublist _).subset hx)
  unfold print_decimal_result
  rw [hfun]
  cases hd : result.dropWhile (fun r => decide (r = 0)) with
  | nil =>
    rw [hd] at hv
    simp only [horner_nil] at hv
    omega
  | cons first rest =>
    rw [hd] at hv hmem
    have hfirst : first ≠ 0 := by
      have := List.head_dropWhile_not (fun r => decide (r = 0)) result
        (by rw [hd]; simp)
      simpa [hd] using this
    have hmap : rest.map printf_09u = rest.map (fixed_digits 10 9) :=
      List.map_congr_left (fun x hx => printf_09u_eq x (hmem x (List.mem_cons_of_mem _ hx)))
    simp only
    rw [hmap, ← hv]
    have := grouped_digits 10 (by decide) 9 first rest (Nat.pos_of_ne_zero hfirst)
      (fun x hx => by
        have := hmem x (List.mem_cons_of_mem _ hx)
        norm_num
        exact this)
    rw [show (10 : Nat) ^ 9 = 1000000000 from by norm_num] at this
    exact this

/-- On a value of more than one limb `print_decimal` prints, through its printing loops, a
list of base-`10^9` digits of the magnitude (most significant first). -/
theorem print_decimal_super_digits (number : bigint) (hok : limbs_ok number.limbs)
    (hne : number.limbs ≠ []) (h1 : number.limbs.length ≠ 1) :
    ∃ result, (∀ x ∈ result, x < 1000000000) ∧
      horner 1000000000 result = limbs_value number.limbs ∧ result.length ≠ 1 ∧
      print_decimal number = print_decimal_result result := by
  have hsegs : (if (number.limbs.length * 10 + 1) % 9 = 0 then
      (number.limbs.length * 10 + 1) / 9 else (number.limbs.length * 10 + 1) / 9 + 1) =
      (number.limbs.length * 10 + 9) / 9 := by
    split <;> omega
  have hlen0 : number.limbs.length ≠ 0 := by simpa using hne
  obtain ⟨l1, l2, l3⟩ := print_decimal_loop_spec number.limbs.length
    ((number.limbs.length * 10 + 9) / 9) (copy_to_chain number) [] (limbs_value number.limbs)
    (limbs_ok_reverse.2 hok) (by simp [copy_to_chain]) (by intro x hx; simp at hx)
    (by simp [horner, copy_to_chain_value])
  have hbound : limbs_value number.limbs <
      1000000000 ^ ((number.limbs.length * 10 + 9) / 9) := by
    have h1 := limbs_value_lt _ hok
    have h2 : (4294967296 : Nat) ^ number.limbs.length ≤
        10000000000 ^ number.limbs.length := Nat.pow_le_pow_left (by norm_num) _
    have h3 : (10000000000 : Nat) ^ number.limbs.length =
        10 ^ (10 * number.limbs.length) := by
      rw [pow_mul]; norm_num
    have h4 : (10 : Nat) ^ (10 * number.limbs.length) ≤
        10 ^ (9 * ((number.limbs.length * 10 + 9) / 9)) :=
      Nat.pow_le_pow_right (by decide) (by omega)
    have h5 : (10 : Nat) ^ (9 * ((number.limbs.length * 10 + 9) / 9)) =
        1000000000 ^ ((number.limbs.length * 10 + 9) / 9) := by
      rw [pow_mul]; norm_num
    calc limbs_value number.limbs < 4294967296 ^ number.limbs.length := h1
      _ ≤ 10000000000 ^ number.limbs.length := h2
      _ = 10 ^ (10 * number.limbs.length) := h3
      _ ≤ 10 ^ (9 * ((number.limbs.length * 10 + 9) / 9)) := h4
      _ = 1000000000 ^ ((number.limbs.length * 10 + 9) / 9) := h5
  have hz : array_value (copy_to_chain number) /
      1000000000 ^ ((number.limbs.length * 10 + 9) / 9) = 0 := by
    rw [copy_to_chain_value]
    exact Nat.div_eq_of_lt hbound
  rw [hz] at l1
  simp only [mul_zero, add_zero] at l1
  refine ⟨_, l2, l1, by rw [l3]; simp; omega, ?_⟩
  unfold print_decimal
  rw [if_neg h1]
  simp only [hsegs]

/-- `print_decimal` writes the decimal digits of the magnitude; a value of more than one
limb has to be non-zero for that. -/
theorem print_decimal_spec (number : bigint) (hok : limbs_ok number.limbs)
    (hne : number.limbs ≠ [])
    (hpos : number.limbs.length = 1 ∨ 0 < limbs_value number.limbs) :
    print_decimal number = Nat.toDigits 10 (limbs_value number.limbs) := by
  by_cases h1 : number.limbs.length = 1
  · unfold print_decimal
    rw [if_pos h1]
    match hl : number.limbs, h1 with
    | [x], _ => simp [printf_u, limbs_value]
  · have hp : 0 < limbs_value number.limbs := by
      rcases hpos with h | h
      · exact absurd h h1
      · exact h
    obtain ⟨result, r1, r2, r3, r4⟩ := print_decimal_super_digits number hok hne h1
    rw [r4, print_decimal_result_spec result r3 r1 (by rw [r2]; exact hp), r2]

end Bigint

namespace Bigint

/-! ## Printing in base 2 and 16 -/

theorem array_value_eq_horner (a : List Nat) : array_value a = horner 4294967296 a := by
  induction a with
  | nil => rfl
  | cons x xs ih => rw [array_value_cons, horner_cons, ih]

theorem limbs_value_eq_horner (l : List Nat) : limbs_value l = horner 4294967296 l.reverse := by
  rw [← array_value_eq_horner]; simp [array_value]

/-- The digits of the high limb followed by the fixed-width digits of the lower limbs, from
high to low, are the digits of the magnitude. -/
theorem grouped_limbs (b k : Nat) (hb : 2 ≤ b) (hk : b ^ k = 4294967296) (limbs : List Nat)
    (hok : limbs_ok limbs) (hne : limbs ≠ []) (hz : no_high_zero limbs) :
    Nat.toDigits b (limbs.getLastD 0) ++
        (limbs.dropLast.reverse.map (fixed_digits b k)).flatten =
      Nat.toDigits b (limbs_value limbs) := by
  obtain ⟨x, hx, hx2⟩ := eq_dropLast_append limbs hne
  have hlast : limbs.getLastD 0 = x := by
    rw [List.getLastD_eq_getLast?, hx2]; rfl
  have hrev : limbs.reverse = x :: limbs.dropLast.reverse := by
    conv_lhs => rw [hx]
    simp
  rw [hlast, limbs_value_eq_horner, hrev]
  by_cases hd : limbs.dropLast = []
  · rw [hd]
    simp [horner]
  · have hlen : 1 < limbs.length := by
      have h1 : limbs.dropLast.length ≠ 0 := fun e => hd (List.length_eq_zero.1 e)
      simp only [List.length_dropLast] at h1
      omega
    have hx0 : x ≠ 0 := by
      rintro rfl
      exact hz hlen hx2
    have := grouped_digits b hb k x limbs.dropLast.reverse (Nat.pos_of_ne_zero hx0)
      (fun y hy => by
        rw [hk]
        exact hok y (List.dropLast_subset _ (List.mem_reverse.1 hy)))
    rw [hk] at this
    exact this

theorem printf_08x_eq (x : Nat) (hx : x < 4294967296) : printf_08x x = fixed_digits 16 8 x :=
  pad_toDigits 16 (by decide) 8 x (by decide) (by norm_num; exact hx)

theorem fixed_digits_front (b k r : Nat) :
    fixed_digits b (k + 1) r =
      Nat.digitChar (r / b ^ k % b) :: fixed_digits b k (r % b ^ k) := by
  induction k generalizing r with
  | zero => simp [fixed_digits, Nat.mod_one]
  | succ k ih =>
    rw [fixed_digits, ih, fixed_digits]
    have e1 : r / b / b ^ k = r / b ^ (k + 1) := by
      rw [Nat.div_div_eq_div_mul, pow_succ, mul_comm]
    have e2 : r % b ^ (k + 1) / b = r / b % b ^ k := by
      rw [pow_succ, mul_comm, Nat.mod_mul_right_div_self]
    have e3 : r % b ^ (k + 1) % b = r % b := by
      rw [pow_succ]
      exact Nat.mod_mul_left_mod _ _ _
    rw [e1, e2, e3]
    simp

theorem bit_char (num i : Nat) :
    (if (num >>> i) &&& 1 ≠ 0 then '1' else '0') = Nat.digitChar (num / 2 ^ i % 2) := by
  by_cases h : num / 2 ^ i % 2 = 1
  · rw [if_pos ((shiftRight_and_one_ne_zero num i).2 h), h]; rfl
  · rw [if_neg (fun hc => h ((shiftRight_and_one_ne_zero num i).1 hc))]
    have : num / 2 ^ i % 2 = 0 := by omega
    rw [this]; rfl

theorem print_bits_loop_eq (i num : Nat) :
    print_bits_loop i num = fixed_digits 2 i (num % 2 ^ i) := by
  induction i with
  | zero => rfl
  | succ i ih =>
    rw [print_bits_loop, ih, fixed_digits_front 2 i _, bit_char]
    have e1 : num % 2 ^ (i + 1) / 2 ^ i % 2 = num / 2 ^ i % 2 := by
      rw [pow_succ, Nat.mod_mul_right_div_self, Nat.mod_mod]
    have e2 : num % 2 ^ (i + 1) % 2 ^ i = num % 2 ^ i := by
      rw [pow_succ]
      exact Nat.mod_mul_right_mod _ _ _
    rw [e1, e2]

theorem print_bits_eq (x : Nat) (hx : x < 4294967296) : print_bits x = fixed_digits 2 32 x := by
  unfold print_bits
  rw [print_bits_loop_eq, Nat.mod_eq_of_lt (by norm_num; exact hx)]

/-- `print_bits_first_element` writes the binary digits of a non-zero word. -/
theorem print_bits_first_element_eq (x : Nat) (hx : x < 4294967296) (h0 : x ≠ 0) :
    print_bits_first_element x = Nat.toDigits 2 x := by
  obtain ⟨b1, -, b3⟩ := bit_len_spec x hx
  obtain ⟨b4, b5⟩ := b3 h0
  unfold print_bits_first_element
  have hbl : bit_len x = (bit_len x - 1) + 1 := by omega
  rw [print_bits_loop_eq, Nat.mod_eq_of_lt b1, hbl, fixed_digits_front 2 _ _]
  have hdiv : x / 2 ^ (bit_len x - 1) = 1 := by
    apply Nat.div_eq_of_lt_le
    · simpa using b4
    · have e : 2 ^ bit_len x = 2 * 2 ^ (bit_len x - 1) := by
        conv_lhs => rw [hbl, pow_succ]
        ring
      omega
  have hsplit : x = 1 * 2 ^ (bit_len x - 1) + x % 2 ^ (bit_len x - 1) := by
    have := Nat.div_add_mod x (2 ^ (bit_len x - 1))
    rw [hdiv] at this
    omega
  conv_rhs => rw [hsplit]
  rw [toDigits_mul_pow_add 2 (by decide) _ 1 _ (by decide)
    (Nat.mod_lt _ (Nat.pow_pos (by decide))), hdiv]
  rfl

theorem print_bits_first_element_zero : print_bits_first_element 0 = [] := rfl

/-- `bigint_print` in base 16 on a trimmed value. -/
theorem bigint_print_hex_spec (number : bigint) (hok : limbs_ok number.limbs)
    (hne : number.limbs ≠ []) (hz : no_high_zero number.limbs) :
    bigint_print bigint_base.HEX number = .ok
      ((if number.sign = 1 then ['-'] else []) ++ ['0', 'x'] ++
        Nat.toDigits 16 (limbs_value number.limbs)) := by
  have hmap : number.limbs.dropLast.reverse.map printf_08x =
      number.limbs.dropLast.reverse.map (fixed_digits 16 8) :=
    List.map_congr_left (fun x hx =>
      printf_08x_eq x (hok x (List.dropLast_subset _ (List.mem_reverse.1 hx))))
  have := grouped_limbs 16 8 (by decide) (by norm_num) number.limbs hok hne hz
  simp only [bigint_print, printf_x]
  rw [if_neg (by decide), if_neg (by decide)]
  simp only [show (bigint_base.HEX = bigint_base.BIN) = False from by simp, if_false, if_true,
    hmap]
  rw [List.append_assoc, this]

/-- `bigint_print` in base 2 on a trimmed non-zero value. -/
theorem bigint_print_bin_spec (number : bigint) (hok : limbs_ok number.limbs)
    (hne : number.limbs ≠ []) (hz : no_high_zero number.limbs)
    (hpos : 0 < limbs_value number.limbs) :
    bigint_print bigint_base.BIN number = .ok
      ((if number.sign = 1 then ['-'] else []) ++ ['0', 'b'] ++
        Nat.toDigits 2 (limbs_value number.limbs)) := by
  have hmap : number.limbs.dropLast.reverse.map print_bits =
      number.limbs.dropLast.reverse.map (fixed_digits 2 32) :=
    List.map_congr_left (fun x hx =>
      print_bits_eq x (hok x (List.dropLast_subset _ (List.mem_reverse.1 hx))))
  obtain ⟨x, hx, hx2⟩ := eq_dropLast_append number.limbs hne
  have hlast : number.limbs.getLastD 0 = x := by
    rw [List.getLastD_eq_getLast?, hx2]; rfl
  have hx0 : x ≠ 0 := by
    rintro rfl
    by_cases hlen : 1 < number.limbs.length
    · exact hz hlen hx2
    · have hd : number.limbs.dropLast = [] := by
        apply List.length_eq_zero.1
        simp only [List.length_dropLast]; omega
      rw [hx, hd] at hpos
      simp [limbs_value] at hpos
  have hxlt : x < 4294967296 := hok x (by rw [hx]; simp)
  have := grouped_limbs 2 32 (by decide) (by norm_num) number.limbs hok hne hz
  simp only [bigint_print]
  rw [if_neg (by decide), if_neg (by decide)]
  simp only [if_true, hmap, hlast, print_bits_first_element_eq x hxlt hx0]
  rw [hlast] at this
  rw [List.append_assoc, this]

/-- `bigint_print` in base 10. -/
theorem bigint_print_dec_spec (number : bigint) (hok : limbs_ok number.limbs)
    (hne : number.limbs ≠ [])
    (hpos : number.limbs.length = 1 ∨ 0 < limbs_value number.limbs) :
    bigint_print bigint_base.DEC number = .ok
      ((if number.sign = 1 then ['-'] else []) ++ Nat.toDigits 10 (limbs_value number.limbs)) := by
  simp only [bigint_print]
  rw [if_neg (by decide)]
  simp [print_decimal_spec number hok hne hpos]

/-! ## Shape of `Nat.toDigits` -/

theorem digitChar_ne_zero (d : Nat) (h0 : d ≠ 0) (h16 : d < 16) : Nat.digitChar d ≠ '0' := by
  interval_cases d <;> first | exact absurd rfl h0 | decide

theorem toDigits_ne_nil (b n : Nat) : Nat.toDigits b n ≠ [] := by
  unfold Nat.toDigits
  rw [Nat.toDigitsCore]
  split
  · simp
  · intro h
    have := congrArg List.length h
    rw [Nat.toDigitsCore_lens_eq] at this
    simp at this

/-- The digits of a positive number do not start with `0`. -/
theorem toDigits_head (b : Nat) (hb : 2 ≤ b) (hb16 : b ≤ 16) (n : Nat) (hn : 0 < n) :
    (Nat.toDigits b n).head? ≠ some '0' := by
  induction n using Nat.strong_induction_on with
  | _ n ih =>
    by_cases hsmall : n < b
    · rw [toDigits_small b n hsmall]
      simp only [List.head?_cons, ne_eq, Option.some.injEq]
      exact digitChar_ne_zero n (by omega) (by omega)
    · have hge : b ≤ n := by omega
      have hdiv : 0 < n / b := Nat.div_pos hge (by omega)
      have hlt : n / b < n := Nat.div_lt_self hn (by omega)
      rw [toDigits_step b hb n hge]
      have hne := toDigits_ne_nil b (n / b)
      cases hd : Nat.toDigits b (n / b) with
      | nil => exact absurd hd hne
      | cons c rest =>
        have := ih (n / b) hlt hdiv
        rw [hd] at this
        simpa using this

theorem toDigits_mem (b : Nat) (hb : 2 ≤ b) (n : Nat) :
    ∀ c ∈ Nat.toDigits b n, ∃ d, d < b ∧ c = Nat.digitChar d := by
  induction n using Nat.strong_induction_on with
  | _ n ih =>
    intro c hc
    by_cases hsmall : n < b
    · rw [toDigits_small b n hsmall] at hc
      exact ⟨n, hsmall, by simpa using hc⟩
    · have hge : b ≤ n := by omega
      have hlt : n / b < n := Nat.div_lt_self (by omega) (by omega)
      rw [toDigits_step b hb n hge] at hc
      rcases List.mem_append.1 hc with h | h
      · exact ih (n / b) hlt c h
      · exact ⟨n % b, Nat.mod_lt _ (by omega), by simpa using h⟩

theorem toDigits_hex_lower (n : Nat) : ∀ c ∈ Nat.toDigits 16 n, c ∈ "0123456789abcdef".toList := by
  intro c hc
  obtain ⟨d, hd, rfl⟩ := toDigits_mem 16 (by decide) n c hc
  interval_cases d <;> decide

theorem toDigits_decimal (n : Nat) : ∀ c ∈ Nat.toDigits 10 n, c ∈ "0123456789".toList := by
  intro c hc
  obtain ⟨d, hd, rfl⟩ := toDigits_mem 10 (by decide) n c hc
  interval_cases d <;> decide

theorem toDigits_length_le (b : Nat) (hb : 2 ≤ b) (n e : Nat) (hlt : n < b ^ e) (he : 0 < e) :
    (Nat.toDigits b n).length ≤ e :=
  Nat.toDigitsCore_length b hb (n + 1) n e hlt he

end Bigint

namespace Bigint

/-! ## Numerals and their digits -/

/-- A numeral without leading zero that is not the single digit `0` denotes a positive
number, at least the weight of its first digit. -/
theorem numeral_value_ge (b : Nat) (digit : Char → Nat) (ds : List Char) (hne : ds ≠ [])
    (hlead : no_leading_zero ds) (hnz : ds ≠ ['0'])
    (hzero : ∀ c ∈ ds, (c = '0' ↔ digit c = 0)) :
    b ^ (ds.length - 1) ≤ numeral_value b digit ds := by
  match ds, hne with
  | c :: rest, _ =>
    have hc : digit c ≠ 0 := by
      intro h0
      have hc0 := (hzero c (List.mem_cons_self _ _)).2 h0
      subst hc0
      have := hlead rfl
      simp only [List.length_cons, add_left_eq_self, List.length_eq_zero] at this
      subst this
      exact hnz rfl
    simp only [numeral_value, List.map_cons, List.length_cons, Nat.add_sub_cancel]
    rw [horner_cons, List.length_map]
    have : 1 * b ^ rest.length ≤ digit c * b ^ rest.length :=
      Nat.mul_le_mul_right _ (by omega)
    omega

/-- Printing the number a numeral without leading zero denotes gives back its digits, each
as the digit character of its value. -/
theorem toDigits_numeral (b : Nat) (hb : 2 ≤ b) (digit : Char → Nat) (ds : List Char)
    (hne : ds ≠ []) (hlead : no_leading_zero ds) (hlt : ∀ c ∈ ds, digit c < b)
    (hzero : ∀ c ∈ ds, (c = '0' ↔ digit c = 0)) :
    Nat.toDigits b (numeral_value b digit ds) = ds.map (fun c => Nat.digitChar (digit c)) := by
  match ds, hne with
  | c :: rest, _ =>
    have := toDigits_horner b hb (digit c) (rest.map digit)
      (by
        intro y hy
        rw [← List.map_cons] at hy
        obtain ⟨x, hx, rfl⟩ := List.mem_map.1 hy
        exact hlt x hx)
      (by
        intro hr
        apply Nat.pos_of_ne_zero
        intro h0
        have hc0 := (hzero c (List.mem_cons_self _ _)).2 h0
        subst hc0
        have := hlead rfl
        simp only [List.length_cons, add_left_eq_self, List.length_eq_zero] at this
        subst this
        exact hr rfl)
    simp only [numeral_value, List.map_cons]
    rw [this]
    simp

theorem map_digitChar_decimal (ds : List Char) (hd : ∀ c ∈ ds, is_decimal_digit c) :
    ds.map (fun c => Nat.digitChar (digit_value c)) = ds := by
  conv_rhs => rw [← List.map_id ds]
  apply List.map_congr_left
  intro c hc
  exact (decimal_digit_facts c (decimal_digit_mem c (hd c hc))).2.2.2.1

theorem map_digitChar_binary (ds : List Char) (hd : ∀ c ∈ ds, is_binary_digit c) :
    ds.map (fun c => Nat.digitChar (digit_value c)) = ds := by
  conv_rhs => rw [← List.map_id ds]
  apply List.map_congr_left
  intro c hc
  exact (binary_digit_facts c (binary_digit_mem c (hd c hc))).2.1

theorem map_digitChar_hex (ds : List Char) (hd : ∀ c ∈ ds, is_hex_digit c) :
    ds.map (fun c => Nat.digitChar (hex_digit_value c)) = ds.map Char.toLower := by
  apply List.map_congr_left
  intro c hc
  exact (hex_digit_facts c (hex_digit_mem c (hd c hc))).2.2.2.2.1

/-- `save_binary` leaves no redundant high zero limb when the number reaches the weight of
the highest limb. -/
theorem save_binary_no_high_zero (bits : List Char) (hb : ∀ c ∈ bits, is_binary_digit c)
    (hval : 4294967296 ^ ((bits.length + 31) / 32 - 1) ≤ numeral_value 2 digit_value bits) :
    no_high_zero (save_binary bits) := by
  obtain ⟨s1, s2, s3⟩ := save_binary_spec bits hb
  apply no_high_zero_of_le _ s2
  rw [s1, s3]
  exact hval

theorem save_binary_ne_nil (bits : List Char) (hne : bits ≠ [])
    (hb : ∀ c ∈ bits, is_binary_digit c) : save_binary bits ≠ [] := by
  obtain ⟨-, -, s3⟩ := save_binary_spec bits hb
  intro e
  rw [e] at s3
  have : bits.length ≠ 0 := by simpa using hne
  simp only [List.length_nil] at s3
  omega

theorem numeral_base_dec (sgn ds : List Char) (hs : is_sign sgn) (hne : ds ≠ [])
    (hd : ∀ c ∈ ds, is_decimal_digit c) (hlead : no_leading_zero ds) :
    numeral_base (sgn ++ ds) = bigint_base.DEC := by
  have hhead : ds.head? ≠ some '-' ∧ ds.head? ≠ some '+' := by
    match ds, hne, hd with
    | c :: rest, _, hd =>
      obtain ⟨f1, f2, -⟩ :=
        decimal_digit_facts c (decimal_digit_mem c (hd c (List.mem_cons_self _ _)))
      simp [f1, f2]
  unfold numeral_base
  rw [check_sign_spec sgn ds hs hhead, check_base_dec ds hne hlead]

theorem numeral_base_bin (sgn ds : List Char) (hs : is_sign sgn) :
    numeral_base (sgn ++ '0' :: 'b' :: ds) = bigint_base.BIN := by
  unfold numeral_base
  rw [check_sign_spec sgn _ hs (by simp), check_base_bin]

theorem numeral_base_hex (sgn ds : List Char) (hs : is_sign sgn) :
    numeral_base (sgn ++ '0' :: 'x' :: ds) = bigint_base.HEX := by
  unfold numeral_base
  rw [check_sign_spec sgn _ hs (by simp), check_base_hex]

/-- The text `[-]body'` equals `sgn ++ body` in the sense of the round-trip comparison when
`body'` is `body` up to the case of letters and `body` does not start with `+`. -/
theorem same_numeral_text_of (sgn body body' : List Char) (hs : is_sign sgn)
    (hb : body.head? ≠ some '+') (hcase : body'.map Char.toLower = body.map Char.toLower) :
    same_numeral_text ((if sgn = ['-'] then ['-'] else []) ++ body') (sgn ++ body) := by
  unfold same_numeral_text
  rcases hs with rfl | rfl | rfl
  · have : omit_plus ([] ++ body) = body := by
      simp only [List.nil_append]
      unfold omit_plus
      split
      · next rest => exact absurd rfl hb
      · rfl
    rw [this]
    simpa using hcase
  · simpa [omit_plus] using hcase
  · simpa [omit_plus] using hcase

end Bigint

namespace Bigint

/-! ## What the front end of `bigint_create` rejects -/

theorem toUpper_eq (c : Char) :
    c.toUpper = if 97 ≤ c.toNat ∧ c.toNat ≤ 122 then Char.ofNat (c.toNat - 32) else c := by
  rfl

theorem strchr_decimal (c : Char) (h0 : c.toNat ≠ 0)
    (h : strchr_found (charsets bigint_base.DEC) c.toUpper = true) : is_decimal_digit c := by
  rw [toUpper_eq] at h
  by_cases hl : 97 ≤ c.toNat ∧ c.toNat ≤ 122
  · rw [if_pos hl] at h
    obtain ⟨h1, h2⟩ := hl
    exfalso
    generalize c.toNat = n at h h1 h2
    revert h
    interval_cases n <;> decide
  · rw [if_neg hl] at h
    simp only [strchr_found, Bool.or_eq_true, decide_eq_true_eq] at h
    rcases h with h | h
    · simp only [charsets, String.toList, List.mem_cons, List.mem_singleton] at h
      rcases h with rfl | rfl | rfl | rfl | rfl | rfl | rfl | rfl | rfl | h
      all_goals first | decide | (rcases h with rfl | h <;> first | decide | simp at h)
    · exact absurd h h0

theorem strchr_binary (c : Char) (h0 : c.toNat ≠ 0)
    (h : strchr_found (charsets bigint_base.BIN) c.toUpper = true) : is_binary_digit c := by
  rw [toUpper_eq] at h
  by_cases hl : 97 ≤ c.toNat ∧ c.toNat ≤ 122
  · rw [if_pos hl] at h
    obtain ⟨h1, h2⟩ := hl
    exfalso
    generalize c.toNat = n at h h1 h2
    revert h
    interval_cases n <;> decide
  · rw [if_neg hl] at h
    simp only [strchr_found, Bool.or_eq_true, decide_eq_true_eq] at h
    rcases h with h | h
    · simp only [charsets, String.toList, List.mem_cons, List.mem_singleton] at h
      rcases h with rfl | h
      · decide
      · rcases h with rfl | h
        · decide
        · simp at h
    · exact absurd h h0

theorem upper_hex_digit : ∀ c ∈ "0123456789ABCDEF".toList, is_hex_digit c := by
  decide

theorem strchr_hex (c : Char) (h0 : c.toNat ≠ 0)
    (h : strchr_found (charsets bigint_base.HEX) c.toUpper = true) : is_hex_digit c := by
  rw [toUpper_eq] at h
  by_cases hl : 97 ≤ c.toNat ∧ c.toNat ≤ 122
  · rw [if_pos hl] at h
    obtain ⟨h1, h2⟩ := hl
    by_cases h3 : c.toNat ≤ 102
    · exact Or.inr (Or.inr ⟨h1, h3⟩)
    · exfalso
      have h4 : 103 ≤ c.toNat := by omega
      generalize c.toNat = n at h h4 h2
      revert h
      interval_cases n <;> decide
  · rw [if_neg hl] at h
    simp only [strchr_found, Bool.or_eq_true, decide_eq_true_eq] at h
    rcases h with h | h
    · exact upper_hex_digit c h
    · exact absurd h h0

/-- The text splits into the sign `check_sign` takes off and the rest. -/
theorem check_sign_split (s : List Char) :
    ∃ sgn, is_sign sgn ∧ s = sgn ++ (check_sign s).2 := by
  unfold check_sign
  split
  · next rest => exact ⟨['-'], Or.inr (Or.inr rfl), rfl⟩
  · next rest => exact ⟨['+'], Or.inr (Or.inl rfl), rfl⟩
  · exact ⟨[], Or.inl rfl, rfl⟩

/-- What `check_base` has seen when it returns a base other than `OTHER`. -/
theorem check_base_split (body : List Char) :
    ((check_base body).1 = bigint_base.DEC → (check_base body).2 = body) ∧
      ((check_base body).1 = bigint_base.BIN → body = '0' :: 'b' :: (check_base body).2) ∧
      ((check_base body).1 = bigint_base.HEX → body = '0' :: 'x' :: (check_base body).2) := by
  unfold check_base
  by_cases h0 : body.length ≤ 0
  · simp [h0]
  · rw [if_neg h0]
    by_cases h1 : body.head? = some '0' ∧ body.length ≠ 1
    · rw [if_pos h1]
      match body, h0, h1 with
      | [c], _, h1 => exact absurd rfl h1.2
      | c :: d :: rest, _, h1 =>
        have hc : c = '0' := by simpa using h1.1
        subst hc
        simp only [List.tail_cons, List.head?_cons]
        split
        · next heq =>
          have hd : d = 'x' := by simpa using heq
          subst hd
          simp
        · next heq =>
          have hd : d = 'b' := by simpa using heq
          subst hd
          simp
        · simp
    · rw [if_neg h1]
      simp

/-- What `check_syntax` has checked when it returns `SUCCESS`. -/
theorem check_syntax_true (ds : List Char) (base : bigint_base)
    (h : check_syntax ds base = true) :
    ds ≠ [] ∧ base ≠ bigint_base.OTHER ∧ no_leading_zero ds ∧
      ∀ c ∈ ds, strchr_found (charsets base) c.toUpper = true := by
  unfold check_syntax at h
  by_cases h0 : ds.length ≤ 0
  · rw [if_pos h0] at h
    exact absurd h (by decide)
  · rw [if_neg h0] at h
    by_cases h1 : base = bigint_base.OTHER ∨ (ds.head? = some '0' ∧ ds.length ≠ 1)
    · rw [if_pos h1] at h
      exact absurd h (by decide)
    · rw [if_neg h1] at h
      refine ⟨?_, fun e => h1 (Or.inl e), ?_, List.all_eq_true.1 h⟩
      · rintro rfl
        exact h0 (by simp)
      · intro hz
        by_contra hlen
        exact h1 (Or.inr ⟨hz, hlen⟩)

/-- A text without NUL character that passes the three checks is a numeral of the grammar. -/
theorem accepted_of_checks (s : List Char) (hnul : ∀ c ∈ s, c.toNat ≠ 0)
    (h : check_syntax (check_base (check_sign s).2).2 (check_base (check_sign s).2).1 = true) :
    accepted_numeral s := by
  obtain ⟨sgn, hs, hsplit⟩ := check_sign_split s
  obtain ⟨b1, b2, b3⟩ := check_base_split (check_sign s).2
  obtain ⟨c1, c2, c3, c4⟩ := check_syntax_true _ _ h
  have hbody : ∀ c ∈ (check_sign s).2, c.toNat ≠ 0 := by
    intro c hc
    exact hnul c (by rw [hsplit]; exact List.mem_append_right _ hc)
  refine ⟨sgn, (check_base (check_sign s).2).2, hs, c1, c3, ?_⟩
  cases hbase : (check_base (check_sign s).2).1 with
  | DEC =>
    refine Or.inr (Or.inr ⟨?_, ?_⟩)
    · rw [b1 hbase]
      exact hsplit
    · intro c hc
      have := c4 c hc
      rw [hbase] at this
      exact strchr_decimal c (hbody c (by rw [← b1 hbase]; exact hc)) this
  | BIN =>
    have hb := b2 hbase
    refine Or.inl ⟨?_, ?_⟩
    · rw [← hb]
      exact hsplit
    · intro c hc
      have := c4 c hc
      rw [hbase] at this
      exact strchr_binary c
        (hbody c (by rw [hb]; exact List.mem_cons_of_mem _ (List.mem_cons_of_mem _ hc))) this
  | HEX =>
    have hb := b3 hbase
    refine Or.inr (Or.inl ⟨?_, ?_⟩)
    · rw [← hb]
      exact hsplit
    · intro c hc
      have := c4 c hc
      rw [hbase] at this
      exact strchr_hex c
        (hbody c (by rw [hb]; exact List.mem_cons_of_mem _ (List.mem_cons_of_mem _ hc))) this
  | OTHER => exact absurd hbase c2

/-- A text that fails a check makes `bigint_create` fail with `BIGINT_INCORRECT_STRING`. -/
theorem bigint_create_rejects (s : List Char)
    (h : check_syntax (check_base (check_sign s).2).2 (check_base (check_sign s).2).1 = false) :
    bigint_create s = .error bigint_error_code.BIGINT_INCORRECT_STRING := by
  unfold bigint_create
  by_cases h0 : s.length = 0
  · rw [if_pos h0]
  · rw [if_neg h0]
    simp only [h, if_true]

/-- A numeral of the grammar is parsed. -/
theorem bigint_create_accepts (s : List Char) (h : accepted_numeral s) :
    ∃ v, bigint_create s = .ok v := by
  obtain ⟨sgn, ds, hs, hne, hlead, h | h | h⟩ := h
  · rw [h.1]
    exact ⟨_, bigint_create_binary sgn ds hs hne h.2 hlead⟩
  · rw [h.1]
    exact ⟨_, bigint_create_hex sgn ds hs hne h.2 hlead⟩
  · rw [h.1]
    obtain ⟨limbs, -, -, -, -, hrun⟩ := bigint_create_decimal sgn ds hs hne h.2 hlead
    exact ⟨_, hrun⟩

end Bigint

namespace Bigint

/-- For a canonical value the sign bit is set exactly when the represented integer is
negative. -/
theorem canonical_sign_iff (r : bigint) (h : canonical r) : r.sign = 1 ↔ r.toInt < 0 := by
  rcases canonical_sign r h with hs | hs
  · rw [toInt_sign_zero _ hs]
    constructor
    · intro h1; omega
    · intro h1; omega
  · have := canonical_pos_of_sign r h hs
    rw [toInt_sign_one _ hs]
    constructor
    · intro _; omega
    · intro _; exact hs

/-- Signed subtraction on canonical operands: the result is canonical and represents
`m - s`, whatever `difference` held. -/
theorem bigint_subtract_spec (d m s : bigint) (hm : canonical m) (hs : canonical s) :
    ∃ r, bigint_subtract d m s = .ok r ∧ canonical r ∧ r.toInt = m.toInt - s.toInt := by
  have tok := hm.2.1
  have tne := hm.2.2.1
  have tz := hm.2.2.2.1
  have vok := hs.2.1
  have vne := hs.2.2.1
  have vz := hs.2.2.2.1
  have hadd := bigint_add_basic_spec d m s tok vok
  obtain ⟨d1, d0, dv, dok, dne, dz⟩ := subtract_dispatch_spec d m s tok tne tz vok vne vz
  rcases canonical_sign m hm with hms | hms <;> rcases canonical_sign s hs with hss | hss
  · rw [toInt_sign_zero _ hms, toInt_sign_zero _ hss]
    simp only [bigint_subtract, hms, hss]
    refine ⟨_, rfl, ?_, ?_⟩
    · refine canonical_of _ _ ?_ dok dne dz ?_
      · split_ifs <;> simp
      · intro h0
        rw [h0] at dv
        have : limbs_value m.limbs = limbs_value s.limbs := by
          have := abs_eq_zero.1 dv.symm
          omega
        simp [d0.2 this]
    · by_cases h0 : bigint_compare_absolute m s = 0
      · have := d0.1 h0
        rw [toInt_sign_zero _ (by simp [h0])]
        simp only
        rw [dv, this]; simp
      · by_cases h1 : bigint_compare_absolute m s = 1
        · have := d1.1 h1
          rw [toInt_sign_zero _ (by simp [h1])]
          simp only
          rw [dv, abs_of_nonneg (by omega)]
        · have h2 : ¬ limbs_value s.limbs < limbs_value m.limbs := fun h => h1 (d1.2 h)
          rw [toInt_sign_one _ (by simp [h0, h1])]
          simp only
          rw [dv, abs_of_nonpos (by omega)]
          ring
  · rw [toInt_sign_zero _ hms, toInt_sign_one _ hss]
    refine ⟨{ bigint_add_basic d m s with sign := 0 }, by simp [bigint_subtract, hms, hss],
      ?_, ?_⟩
    · exact canonical_of _ _ (by omega) hadd.2.1 hadd.2.2.1 hadd.2.2.2 (fun _ => rfl)
    · rw [toInt_sign_zero _ rfl]
      simp only
      rw [hadd.1]
      push_cast; ring
  · have hmpos := canonical_pos_of_sign m hm hms
    rw [toInt_sign_one _ hms, toInt_sign_zero _ hss]
    refine ⟨{ bigint_add_basic d m s with sign := 1 }, by simp [bigint_subtract, hms, hss],
      ?_, ?_⟩
    · exact canonical_of _ _ (le_refl _) hadd.2.1 hadd.2.2.1 hadd.2.2.2
        (fun h0 => by have := hadd.1; omega)
    · rw [toInt_sign_one _ rfl]
      simp only
      rw [hadd.1]
      push_cast; ring
  · rw [toInt_sign_one _ hms, toInt_sign_one _ hss]
    simp only [bigint_subtract, hms, hss]
    refine ⟨_, rfl, ?_, ?_⟩
    · refine canonical_of _ _ ?_ dok dne dz ?_
      · split_ifs <;> simp
      · intro h0
        rw [h0] at dv
        have : limbs_value m.limbs = limbs_value s.limbs := by
          have := abs_eq_zero.1 dv.symm
          omega
        have h1 : bigint_compare_absolute m s ≠ 1 := by
          rw [d0.2 this]; decide
        simp [h1]
    · by_cases h1 : bigint_compare_absolute m s = 1
      · have := d1.1 h1
        rw [toInt_sign_one _ (by simp [h1])]
        simp only
        rw [dv, abs_of_nonneg (by omega)]
        ring
      · have h2 : ¬ limbs_value s.limbs < limbs_value m.limbs := fun h => h1 (d1.2 h)
        rw [toInt_sign_zero _ (by simp [h1])]
        simp only
        rw [dv, abs_of_nonpos (by omega)]
        ring

/-! ## Claims on addition and subtraction -/

/-- C1: for every `k ≥ 1` and canonical summands `v_1 .. v_k`, `bigint_add(k, dest, v_1 .. v_k)`
returns `0` and leaves in `dest` a canonical value whose represented integer is
`v_1 + ... + v_k`, whatever `dest` held before. -/
theorem bigint_add_correct (dest : bigint) (vs : List bigint) (hk : 1 ≤ vs.length)
    (hc : ∀ v ∈ vs, canonical v) :
    ∃ r, bigint_add dest vs = .ok r ∧ status (bigint_add dest vs) = 0 ∧ canonical r ∧
      r.toInt = (vs.map bigint.toInt).sum := by
  obtain ⟨r, h1, h2, h3⟩ := bigint_add_fold_spec vs { limbs := [0], sign := 0 } (by decide) hc
  have hrun : bigint_add dest vs = .ok { dest with limbs := r.limbs, sign := r.sign } := by
    unfold bigint_add
    rw [if_neg (by omega), bigint_create_zero]
    show (do
      let temp_sum ← vs.foldlM (fun t v => bigint_add_sign t t v) { limbs := [0], sign := 0 }
      pure { dest with limbs := temp_sum.limbs, sign := temp_sum.sign }) = _
    rw [h1]
    rfl
  refine ⟨{ dest with limbs := r.limbs, sign := r.sign }, hrun, by rw [hrun]; rfl, h2, ?_⟩
  have : ({ dest with limbs := r.limbs, sign := r.sign } : bigint) = r := rfl
  rw [this, h3]
  simp [bigint.toInt, bigint.magnitude, limbs_value]

/-- The statement of C1 at `dest = -5` and the summands `-7, 3, 2^32 + 1`. -/
theorem bigint_add_correct_witness :
    (1 ≤ [(⟨[7], 1⟩ : bigint), ⟨[3], 0⟩, ⟨[1, 1], 0⟩].length ∧
      ∀ v ∈ [(⟨[7], 1⟩ : bigint), ⟨[3], 0⟩, ⟨[1, 1], 0⟩], canonical v) ∧
    ∃ r, bigint_add ⟨[5], 1⟩ [⟨[7], 1⟩, ⟨[3], 0⟩, ⟨[1, 1], 0⟩] = .ok r ∧
      status (bigint_add ⟨[5], 1⟩ [⟨[7], 1⟩, ⟨[3], 0⟩, ⟨[1, 1], 0⟩]) = 0 ∧ canonical r ∧
      r.toInt = ([(⟨[7], 1⟩ : bigint), ⟨[3], 0⟩, ⟨[1, 1], 0⟩].map bigint.toInt).sum :=
  ⟨⟨by decide, by decide⟩,
    bigint_add_correct ⟨[5], 1⟩ [⟨[7], 1⟩, ⟨[3], 0⟩, ⟨[1, 1], 0⟩] (by decide) (by decide)⟩

/-- C2: for canonical `m` and `s`, in all four sign combinations, `bigint_subtract(dest, m, s)`
returns `0` and leaves a canonical value that represents `m - s`; for two negative operands
the sign bit of the result is `1` exactly when `|m| > |s|`, for two non-negative operands
exactly when `m < s`. -/
theorem bigint_subtract_correct (dest m s : bigint) (hm : canonical m) (hs : canonical s) :
    ∃ r, bigint_subtract dest m s = .ok r ∧ status (bigint_subtract dest m s) = 0 ∧
      canonical r ∧ r.toInt = m.toInt - s.toInt ∧
      (m.sign = 1 → s.sign = 1 → (r.sign = if s.magnitude < m.magnitude then 1 else 0)) ∧
      (m.sign = 0 → s.sign = 0 → (r.sign = if m.toInt < s.toInt then 1 else 0)) := by
  obtain ⟨r, h1, h2, h3⟩ := bigint_subtract_spec dest m s hm hs
  have hsign := canonical_sign_iff r h2
  refine ⟨r, h1, by rw [h1]; rfl, h2, h3, ?_, ?_⟩
  · intro hms hss
    rw [h3, toInt_sign_one _ hms, toInt_sign_one _ hss] at hsign
    unfold bigint.magnitude
    rcases canonical_sign r h2 with h0 | h0
    · have : ¬ limbs_value s.limbs < limbs_value m.limbs := fun h => by
        have := hsign.2 (by omega); omega
      simp [this, h0]
    · have : limbs_value s.limbs < limbs_value m.limbs := by
        have := hsign.1 h0; omega
      simp [this, h0]
  · intro hms hss
    rw [h3] at hsign
    rcases canonical_sign r h2 with h0 | h0
    · have : ¬ m.toInt < s.toInt := fun h => by
        have := hsign.2 (by omega); omega
      simp [this, h0]
    · have : m.toInt < s.toInt := by
        have := hsign.1 h0; omega
      simp [this, h0]

/-- The statement of C2 at `m = -(2^32)`, `s = -3` and `dest = 9`. -/
theorem bigint_subtract_correct_witness :
    (canonical ⟨[0, 1], 1⟩ ∧ canonical ⟨[3], 1⟩) ∧
    ∃ r, bigint_subtract ⟨[9], 0⟩ ⟨[0, 1], 1⟩ ⟨[3], 1⟩ = .ok r ∧
      status (bigint_subtract ⟨[9], 0⟩ ⟨[0, 1], 1⟩ ⟨[3], 1⟩) = 0 ∧
      canonical r ∧ r.toInt = (⟨[0, 1], 1⟩ : bigint).toInt - (⟨[3], 1⟩ : bigint).toInt ∧
      ((⟨[0, 1], 1⟩ : bigint).sign = 1 → (⟨[3], 1⟩ : bigint).sign = 1 →
        (r.sign = if (⟨[3], 1⟩ : bigint).magnitude < (⟨[0, 1], 1⟩ : bigint).magnitude
          then 1 else 0)) ∧
      ((⟨[0, 1], 1⟩ : bigint).sign = 0 → (⟨[3], 1⟩ : bigint).sign = 0 →
        (r.sign = if (⟨[0, 1], 1⟩ : bigint).toInt < (⟨[3], 1⟩ : bigint).toInt
          then 1 else 0)) :=
  ⟨⟨by decide, by decide⟩,
    bigint_subtract_correct ⟨[9], 0⟩ ⟨[0, 1], 1⟩ ⟨[3], 1⟩ (by decide) (by decide)⟩

end Bigint

namespace Bigint

/-! ## Claim on multiplication -/

theorem xor_bits (a b : Nat) (ha : a ≤ 1) (hb : b ≤ 1) : a ^^^ b = (a + b) % 2 := by
  interval_cases a <;> interval_cases b <;> rfl

theorem foldl_xor_bits (signs : List Nat) (acc : Nat) (hacc : acc ≤ 1)
    (h : ∀ s ∈ signs, s ≤ 1) :
    signs.foldl (fun a b => a ^^^ b) acc = (acc + signs.sum) % 2 := by
  induction signs generalizing acc with
  | nil => simp; omega
  | cons s rest ih =>
    have hs : s ≤ 1 := h s (List.mem_cons_self _ _)
    rw [List.foldl_cons, ih _ (by rw [xor_bits _ _ hacc hs]; omega)
      (fun t ht => h t (List.mem_cons_of_mem _ ht)), xor_bits _ _ hacc hs]
    simp only [List.sum_cons]
    omega

/-- The fold of `bigint_multiply` over canonical factors. -/
theorem bigint_multiply_fold_spec (vs : List bigint) (p : bigint) (s : Nat)
    (hp : limbs_ok p.limbs) (hpne : p.limbs ≠ []) (hvs : ∀ v ∈ vs, canonical v) :
    limbs_value (vs.foldl (fun (state : bigint × Nat) current =>
          (bigint_multiply_basic state.1 state.1 current, (state.2 + current.sign) % 256))
        (p, s)).1.limbs = limbs_value p.limbs * (vs.map bigint.magnitude).prod ∧
      (vs ≠ [] → limbs_ok (vs.foldl (fun (state : bigint × Nat) current =>
          (bigint_multiply_basic state.1 state.1 current, (state.2 + current.sign) % 256))
        (p, s)).1.limbs ∧
        (vs.foldl (fun (state : bigint × Nat) current =>
          (bigint_multiply_basic state.1 state.1 current, (state.2 + current.sign) % 256))
        (p, s)).1.limbs ≠ [] ∧
        no_high_zero (vs.foldl (fun (state : bigint × Nat) current =>
          (bigint_multiply_basic state.1 state.1 current, (state.2 + current.sign) % 256))
        (p, s)).1.limbs) ∧
      (vs.foldl (fun (state : bigint × Nat) current =>
          (bigint_multiply_basic state.1 state.1 current, (state.2 + current.sign) % 256))
        (p, s)).2 % 2 = (s + (vs.map (fun v => v.sign)).sum) % 2 := by
  induction vs generalizing p s with
  | nil => simp
  | cons v rest ih =>
    have hv := hvs v (List.mem_cons_self _ _)
    obtain ⟨m1, m2, m3, m4⟩ := bigint_multiply_basic_spec p p v hp hpne hv.2.1 hv.2.2.1
    obtain ⟨i1, i2, i3⟩ := ih (bigint_multiply_basic p p v) ((s + v.sign) % 256) m2 m3
      (fun w hw => hvs w (List.mem_cons_of_mem _ hw))
    rw [List.foldl_cons]
    refine ⟨?_, ?_, ?_⟩
    · rw [i1, m1]
      simp only [List.map_cons, List.prod_cons, bigint.magnitude]
      ring
    · intro _
      by_cases hr : rest = []
      · subst hr
        exact ⟨m2, m3, m4⟩
      · exact i2 hr
    · rw [i3]
      simp only [List.map_cons, List.sum_cons]
      omega

theorem bigint_create_one : bigint_create ['1'] = .ok { limbs := [1], sign := 0 } := by
  rfl

/-- C3: for every `k ≥ 1` and canonical factors `v_1 .. v_k`, `bigint_multiply` returns `0`
and leaves a value whose magnitude is `|v_1| * ... * |v_k|`, stored in 32-bit limbs with no
redundant high zero limb, and whose sign bit is the XOR of the sign bits of the factors. -/
theorem bigint_multiply_correct (dest : bigint) (vs : List bigint) (hk : 1 ≤ vs.length)
    (hc : ∀ v ∈ vs, canonical v) :
    ∃ r, bigint_multiply dest vs = .ok r ∧ status (bigint_multiply dest vs) = 0 ∧
      r.magnitude = (vs.map bigint.magnitude).prod ∧
      limbs_ok r.limbs ∧ r.limbs ≠ [] ∧ no_high_zero r.limbs ∧
      r.sign = (vs.map (fun v => v.sign)).foldl (fun a b => a ^^^ b) 0 := by
  have hne : vs ≠ [] := by rintro rfl; simp at hk
  obtain ⟨f1, f2, f3⟩ := bigint_multiply_fold_spec vs { limbs := [1], sign := 0 } 0
    (by decide) (by decide) hc
  obtain ⟨g1, g2, g3⟩ := f2 hne
  have hrun : bigint_multiply dest vs = .ok
      { dest with
        limbs := (vs.foldl (fun (state : bigint × Nat) current =>
          (bigint_multiply_basic state.1 state.1 current, (state.2 + current.sign) % 256))
          ({ limbs := [1], sign := 0 }, 0)).1.limbs,
        sign := (vs.foldl (fun (state : bigint × Nat) current =>
          (bigint_multiply_basic state.1 state.1 current, (state.2 + current.sign) % 256))
          ({ limbs := [1], sign := 0 }, 0)).2 % 2 } := by
    unfold bigint_multiply
    rw [if_neg (by omega), bigint_create_one]
    rfl
  refine ⟨_, hrun, by rw [hrun]; rfl, ?_, g1, g2, g3, ?_⟩
  · simp only [bigint.magnitude]
    rw [f1]
    simp [limbs_value, bigint.magnitude]
  · simp only
    rw [f3, foldl_xor_bits _ 0 (by omega)]
    intro s hs
    obtain ⟨v, hv, rfl⟩ := List.mem_map.1 hs
    exact (hc v hv).1

/-- The statement of C3 at the factors `0xFFFFFFFFFFFFFFFF` and `2`, with the product
`0x1fffffffffffffffe` that the code leaves. -/
theorem bigint_multiply_correct_witness :
    (1 ≤ [(⟨[4294967295, 4294967295], 0⟩ : bigint), ⟨[2], 0⟩].length ∧
      ∀ v ∈ [(⟨[4294967295, 4294967295], 0⟩ : bigint), ⟨[2], 0⟩], canonical v) ∧
    (∃ r, bigint_multiply ⟨[7], 1⟩ [⟨[4294967295, 4294967295], 0⟩, ⟨[2], 0⟩] = .ok r ∧
      status (bigint_multiply ⟨[7], 1⟩ [⟨[4294967295, 4294967295], 0⟩, ⟨[2], 0⟩]) = 0 ∧
      r.magnitude =
        ([(⟨[4294967295, 4294967295], 0⟩ : bigint), ⟨[2], 0⟩].map bigint.magnitude).prod ∧
      limbs_ok r.limbs ∧ r.limbs ≠ [] ∧ no_high_zero r.limbs ∧
      r.sign = ([(⟨[4294967295, 4294967295], 0⟩ : bigint), ⟨[2], 0⟩].map
        (fun v => v.sign)).foldl (fun a b => a ^^^ b) 0) ∧
    bigint_multiply ⟨[7], 1⟩ [⟨[4294967295, 4294967295], 0⟩, ⟨[2], 0⟩] =
      .ok ⟨[4294967294, 4294967295, 1], 0⟩ ∧
    limbs_value [4294967294, 4294967295, 1] = 0x1fffffffffffffffe :=
  ⟨⟨by decide, by decide⟩,
    bigint_multiply_correct ⟨[7], 1⟩ [⟨[4294967295, 4294967295], 0⟩, ⟨[2], 0⟩]
      (by decide) (by decide),
    by rfl, by rfl⟩

end Bigint

namespace Bigint

/-! ## Claims on division -/

/-- C4: for canonical `D` and `R` with `R ≠ 0` and both destinations present,
`bigint_divide(D, R, Q, M)` returns `0` with `|Q| = floor(|D| / |R|)` and `|M| = |D| mod |R|`,
on the fast paths (`|D| ≤ |R|`) as well as on the binary long-division path, whatever the
destinations held. -/
theorem bigint_divide_magnitudes (D R Q M : bigint) (hD : canonical D) (hR : canonical R)
    (hR0 : R.magnitude ≠ 0) :
    ∃ q m, bigint_divide D R (some Q) (some M) = .ok (some q, some m) ∧
      status (bigint_divide D R (some Q) (some M)) = 0 ∧
      q.magnitude = D.magnitude / R.magnitude ∧ m.magnitude = D.magnitude % R.magnitude := by
  unfold bigint.magnitude at hR0 ⊢
  have hpos : 0 < limbs_value R.limbs := Nat.pos_of_ne_zero hR0
  by_cases hgt : limbs_value R.limbs < limbs_value D.limbs
  · obtain ⟨ql, ml, h1, h2, -, -, -, -, -, -, hrun⟩ :=
      bigint_divide_long D R hD.2.1 hD.2.2.1 hD.2.2.2.1 hR.2.1 hR.2.2.1 hR.2.2.2.1 hpos hgt
        (some Q) (some M) (by simp)
    exact ⟨_, _, hrun, by rw [hrun]; rfl, h1, h2⟩
  · have hle : limbs_value D.limbs ≤ limbs_value R.limbs := by omega
    have hrun := bigint_divide_fast D R hD.2.1 hD.2.2.1 hD.2.2.2.1 hR.2.1 hR.2.2.1 hR.2.2.2.1
      hpos hle (some Q) (some M) (by simp)
    refine ⟨_, _, hrun, by rw [hrun]; rfl, ?_, ?_⟩
    · by_cases heq : limbs_value D.limbs = limbs_value R.limbs
      · simp only [heq, if_true]
        rw [Nat.div_self hpos]
        simp [limbs_value]
      · simp only [heq, if_false]
        rw [Nat.div_eq_of_lt (by omega)]
        simp [limbs_value]
    · by_cases heq : limbs_value D.limbs = limbs_value R.limbs
      · simp only [heq, if_true]
        rw [Nat.mod_self]
        simp [limbs_value]
      · simp only [heq, if_false]
        rw [Nat.mod_eq_of_lt (by omega)]

/-- The statement of C4 at `D = -(2^32 + 5)`, `R = 3`, on the long-division path. -/
theorem bigint_divide_magnitudes_witness :
    (canonical ⟨[5, 1], 1⟩ ∧ canonical ⟨[3], 0⟩ ∧ (⟨[3], 0⟩ : bigint).magnitude ≠ 0) ∧
    ∃ q m, bigint_divide ⟨[5, 1], 1⟩ ⟨[3], 0⟩ (some ⟨[9, 9], 0⟩) (some ⟨[4], 1⟩) =
        .ok (some q, some m) ∧
      status (bigint_divide ⟨[5, 1], 1⟩ ⟨[3], 0⟩ (some ⟨[9, 9], 0⟩) (some ⟨[4], 1⟩)) = 0 ∧
      q.magnitude = (⟨[5, 1], 1⟩ : bigint).magnitude / (⟨[3], 0⟩ : bigint).magnitude ∧
      m.magnitude = (⟨[5, 1], 1⟩ : bigint).magnitude % (⟨[3], 0⟩ : bigint).magnitude :=
  ⟨⟨by decide, by decide, by decide⟩,
    bigint_divide_magnitudes ⟨[5, 1], 1⟩ ⟨[3], 0⟩ ⟨[9, 9], 0⟩ ⟨[4], 1⟩
      (by decide) (by decide) (by decide)⟩

/-- C5 fails on the code: on the long-division path `bigint_divide` sets the sign of the
quotient to `1` when exactly one operand is negative and never clears it.  With `D = 7`,
`R = 3` and a destination `Q` that held `-1`, the call leaves `Q = -2` and `M = 1`, and
`7 ≠ (-2) * 3 + 1`.  With a destination that held a non-negative value the same call leaves
`Q = 2`, and `-7 / 3` leaves `Q = -2`, `M = -1`. -/
theorem bigint_divide_keeps_stale_quotient_sign :
    bigint_divide ⟨[7], 0⟩ ⟨[3], 0⟩ (some ⟨[1], 1⟩) (some ⟨[0], 0⟩) =
        .ok (some ⟨[2], 1⟩, some ⟨[1], 0⟩) ∧
      canonical ⟨[7], 0⟩ ∧ canonical ⟨[3], 0⟩ ∧ canonical ⟨[1], 1⟩ ∧ canonical ⟨[0], 0⟩ ∧
      (⟨[7], 0⟩ : bigint).toInt ≠
        (⟨[2], 1⟩ : bigint).toInt * (⟨[3], 0⟩ : bigint).toInt + (⟨[1], 0⟩ : bigint).toInt ∧
      bigint_divide ⟨[7], 0⟩ ⟨[3], 0⟩ (some ⟨[1], 0⟩) (some ⟨[0], 0⟩) =
        .ok (some ⟨[2], 0⟩, some ⟨[1], 0⟩) ∧
      bigint_divide ⟨[7], 1⟩ ⟨[3], 0⟩ (some ⟨[0], 0⟩) (some ⟨[0], 0⟩) =
        .ok (some ⟨[2], 1⟩, some ⟨[1], 1⟩) := by
  refine ⟨by rfl, by decide, by decide, by decide, by decide, by decide, by rfl, by rfl⟩

end Bigint

namespace Bigint

/-! ## Claim on decimal numerals -/

/-- C6: for every text that is an optional `+` or `-` followed by a decimal numeral without
leading zero (or the single digit `0`), `bigint_create` returns a value whose represented
integer `(-1)^sign * Σ limb_i * 2^(32 i)` is the integer the numeral denotes. -/
theorem bigint_create_decimal_value (sgn ds : List Char) (hs : is_sign sgn)
    (hne : ds ≠ []) (hd : ∀ c ∈ ds, is_decimal_digit c) (hlead : no_leading_zero ds) :
    ∃ v, bigint_create (sgn ++ ds) = .ok v ∧
      v.toInt = (if sgn = ['-'] then -1 else 1) * (numeral_value 10 digit_value ds : Int) := by
  obtain ⟨limbs, -, l2, -, -, hrun⟩ := bigint_create_decimal sgn ds hs hne hd hlead
  refine ⟨_, hrun, ?_⟩
  simp only [bigint.toInt, bigint.magnitude, l2]
  by_cases hz : limbs.length = 1 ∧ limbs.head? = some 0
  · have h0 : limbs = [0] := by
      obtain ⟨h1, h2⟩ := hz
      match limbs, h1, h2 with
      | [x], _, h2 => simpa using h2
    rw [h0] at l2
    simp only [limbs_value, mul_zero, add_zero] at l2
    rw [if_pos hz, ← l2]
    simp
  · rw [if_neg hz]
    by_cases hm : sgn = ['-']
    · simp [hm]
    · simp [hm]

/-- The statement of C6 at the numeral `-4294967296`, with the value the code builds. -/
theorem bigint_create_decimal_value_witness :
    (is_sign ['-'] ∧ "4294967296".toList ≠ [] ∧
      (∀ c ∈ "4294967296".toList, is_decimal_digit c) ∧ no_leading_zero "4294967296".toList) ∧
    (∃ v, bigint_create (['-'] ++ "4294967296".toList) = .ok v ∧
      v.toInt = (if ['-'] = ['-'] then -1 else 1) *
        (numeral_value 10 digit_value "4294967296".toList : Int)) ∧
    bigint_create "-4294967296".toList = .ok ⟨[0, 1], 1⟩ ∧
    numeral_value 10 digit_value "4294967296".toList = 4294967296 :=
  ⟨⟨by decide, by decide, by decide, by decide⟩,
    bigint_create_decimal_value ['-'] "4294967296".toList (by decide) (by decide) (by decide)
      (by decide),
    by rfl, by rfl⟩

end Bigint

namespace Bigint

/-! ## Claim on binary and hexadecimal numerals -/

/-- C7: for every accepted numeral with marker `0b` or `0x` (optionally signed; the digits
carry no leading zero, the single digit `0` apart), `bigint_create` returns a value whose
magnitude, read from the limbs low limb first, is the number the digits spell in base 2
(rightmost character is bit 0) or base 16, and a hexadecimal numeral gives the same value
with its digits in upper or in lower case. -/
theorem bigint_create_binary_hex (sgn ds : List Char) (hs : is_sign sgn) (hne : ds ≠ [])
    (hlead : no_leading_zero ds) :
    ((∀ c ∈ ds, is_binary_digit c) →
      ∃ v, bigint_create (sgn ++ '0' :: 'b' :: ds) = .ok v ∧
        v.magnitude = numeral_value 2 digit_value ds ∧ limbs_ok v.limbs) ∧
    ((∀ c ∈ ds, is_hex_digit c) →
      ∃ v, bigint_create (sgn ++ '0' :: 'x' :: ds) = .ok v ∧
        v.magnitude = numeral_value 16 hex_digit_value ds ∧ limbs_ok v.limbs ∧
        bigint_create (sgn ++ '0' :: 'x' :: ds.map Char.toUpper) = .ok v ∧
        bigint_create (sgn ++ '0' :: 'x' :: ds.map Char.toLower) = .ok v) := by
  constructor
  · intro hb
    obtain ⟨s1, s2, -⟩ := save_binary_spec ds hb
    exact ⟨_, bigint_create_binary sgn ds hs hne hb hlead, s1, s2⟩
  · intro hd
    obtain ⟨c1, -, c3⟩ := convert_to_binary_spec ds hd
    obtain ⟨s1, s2, -⟩ := save_binary_spec (convert_to_binary ds) c1
    have hup : ∀ c ∈ ds.map Char.toUpper, is_hex_digit c := by
      intro c hc
      obtain ⟨x, hx, rfl⟩ := List.mem_map.1 hc
      exact (hex_digit_case_facts x (hex_digit_mem x (hd x hx))).1
    have hlow : ∀ c ∈ ds.map Char.toLower, is_hex_digit c := by
      intro c hc
      obtain ⟨x, hx, rfl⟩ := List.mem_map.1 hc
      exact (hex_digit_case_facts x (hex_digit_mem x (hd x hx))).2.1
    have eup : convert_to_binary (ds.map Char.toUpper) = convert_to_binary ds :=
      convert_to_binary_congr ds _ (fun c hc =>
        (hex_digit_case_facts c (hex_digit_mem c (hd c hc))).2.2.1)
    have elow : convert_to_binary (ds.map Char.toLower) = convert_to_binary ds :=
      convert_to_binary_congr ds _ (fun c hc =>
        (hex_digit_case_facts c (hex_digit_mem c (hd c hc))).2.2.2.1)
    have hup2 := bigint_create_hex sgn (ds.map Char.toUpper) hs (by simpa using hne) hup
      (no_leading_zero_map ds _ (fun c hc =>
        (hex_digit_case_facts c (hex_digit_mem c (hd c hc))).2.2.2.2.1) hlead)
    have hlow2 := bigint_create_hex sgn (ds.map Char.toLower) hs (by simpa using hne) hlow
      (no_leading_zero_map ds _ (fun c hc =>
        (hex_digit_case_facts c (hex_digit_mem c (hd c hc))).2.2.2.2.2.1) hlead)
    rw [eup] at hup2
    rw [elow] at hlow2
    refine ⟨_, bigint_create_hex sgn ds hs hne hd hlead, ?_, s2, hup2, hlow2⟩
    simp only [bigint.magnitude]
    rw [s1, c3]

/-- The statement of C7 at the numerals `-0b101010` and `0xfF`. -/
theorem bigint_create_binary_hex_witness :
    (is_sign ['-'] ∧ "101010".toList ≠ [] ∧ no_leading_zero "101010".toList ∧
      (∀ c ∈ "101010".toList, is_binary_digit c)) ∧
    (∃ v, bigint_create (['-'] ++ '0' :: 'b' :: "101010".toList) = .ok v ∧
      v.magnitude = numeral_value 2 digit_value "101010".toList ∧ limbs_ok v.limbs) ∧
    (is_sign [] ∧ "fF".toList ≠ [] ∧ no_leading_zero "fF".toList ∧
      (∀ c ∈ "fF".toList, is_hex_digit c)) ∧
    (∃ v, bigint_create ([] ++ '0' :: 'x' :: "fF".toList) = .ok v ∧
      v.magnitude = numeral_value 16 hex_digit_value "fF".toList ∧ limbs_ok v.limbs ∧
      bigint_create ([] ++ '0' :: 'x' :: "fF".toList.map Char.toUpper) = .ok v ∧
      bigint_create ([] ++ '0' :: 'x' :: "fF".toList.map Char.toLower) = .ok v) ∧
    bigint_create "-0b101010".toList = .ok ⟨[42], 1⟩ ∧
    bigint_create "0xfF".toList = .ok ⟨[255], 0⟩ :=
  ⟨⟨by decide, by decide, by decide, by decide⟩,
    (bigint_create_binary_hex ['-'] "101010".toList (by decide) (by decide) (by decide)).1
      (by decide),
    ⟨by decide, by decide, by decide, by decide⟩,
    (bigint_create_binary_hex [] "fF".toList (by decide) (by decide) (by decide)).2
      (by decide),
    by rfl, by rfl⟩

end Bigint

namespace Bigint

/-! ## Claims on printing -/

theorem canonical_value_pos (v : bigint) (hv : canonical v) (h : 1 < v.limbs.length) :
    0 < limbs_value v.limbs := by
  have := le_limbs_value v.limbs hv.2.2.2.1 h
  have hp : 0 < 4294967296 ^ (v.limbs.length - 1) := Nat.pow_pos (by decide)
  omega

/-- C8: for every canonical `v`, `bigint_print` with base `DEC` returns `0` and writes a `-`
when the sign bit is `1`, followed by exactly the decimal representation of `|v|`, which has
no leading zero; for a value of more than one limb the digits come from the printing loops of
`print_decimal` run on base-`10^9` digits of `|v|` (the first one left unpadded, the lower
ones padded to nine digits). -/
theorem bigint_print_decimal (v : bigint) (hv : canonical v) :
    bigint_print bigint_base.DEC v =
        .ok ((if v.sign = 1 then ['-'] else []) ++ Nat.toDigits 10 v.magnitude) ∧
      status (bigint_print bigint_base.DEC v) = 0 ∧
      (v.magnitude ≠ 0 → (Nat.toDigits 10 v.magnitude).head? ≠ some '0') ∧
      (∀ c ∈ Nat.toDigits 10 v.magnitude, c ∈ "0123456789".toList) ∧
      (1 < v.limbs.length → ∃ result, (∀ x ∈ result, x < 1000000000) ∧
        horner 1000000000 result = v.magnitude ∧
        Nat.toDigits 10 v.magnitude = print_decimal_result result) := by
  have hpos : v.limbs.length = 1 ∨ 0 < limbs_value v.limbs := by
    by_cases h : 1 < v.limbs.length
    · exact Or.inr (canonical_value_pos v hv h)
    · have : v.limbs.length ≠ 0 := by simpa using hv.2.2.1
      exact Or.inl (by omega)
  have hrun := bigint_print_dec_spec v hv.2.1 hv.2.2.1 hpos
  refine ⟨hrun, by rw [hrun]; rfl,
    fun h0 => toDigits_head 10 (by decide) (by decide) _ (Nat.pos_of_ne_zero h0),
    toDigits_decimal _, ?_⟩
  intro h
  obtain ⟨result, r1, r2, -, r4⟩ :=
    print_decimal_super_digits v hv.2.1 hv.2.2.1 (by omega)
  refine ⟨result, r1, r2, ?_⟩
  rw [← r4]
  exact (print_decimal_spec v hv.2.1 hv.2.2.1 hpos).symm

/-- The statement of C8 at the value of `0b101010`, which prints as `42`, and the text
written for `-4294967296`. -/
theorem bigint_print_decimal_witness :
    canonical ⟨[42], 0⟩ ∧
    (bigint_print bigint_base.DEC ⟨[42], 0⟩ =
        .ok ((if (⟨[42], 0⟩ : bigint).sign = 1 then ['-'] else []) ++
          Nat.toDigits 10 (⟨[42], 0⟩ : bigint).magnitude) ∧
      status (bigint_print bigint_base.DEC ⟨[42], 0⟩) = 0 ∧
      ((⟨[42], 0⟩ : bigint).magnitude ≠ 0 →
        (Nat.toDigits 10 (⟨[42], 0⟩ : bigint).magnitude).head? ≠ some '0') ∧
      (∀ c ∈ Nat.toDigits 10 (⟨[42], 0⟩ : bigint).magnitude, c ∈ "0123456789".toList) ∧
      (1 < (⟨[42], 0⟩ : bigint).limbs.length → ∃ result, (∀ x ∈ result, x < 1000000000) ∧
        horner 1000000000 result = (⟨[42], 0⟩ : bigint).magnitude ∧
        Nat.toDigits 10 (⟨[42], 0⟩ : bigint).magnitude = print_decimal_result result)) ∧
    bigint_create "0b101010".toList = .ok ⟨[42], 0⟩ ∧
    bigint_print bigint_base.DEC ⟨[42], 0⟩ = .ok "42".toList ∧
    bigint_print bigint_base.DEC ⟨[0, 1], 1⟩ = .ok "-4294967296".toList :=
  ⟨by decide, bigint_print_decimal ⟨[42], 0⟩ (by decide), by rfl, by rfl, by rfl⟩

/-- C9: for every canonical `v`, `bigint_print` with base `HEX` returns `0` and writes an
optional `-`, then `0x`, then the lower-case hexadecimal representation of `|v|` without
leading zero: the high limb in 1 to 8 digits and every lower limb in exactly 8 digits. -/
theorem bigint_print_hexadecimal (v : bigint) (hv : canonical v) :
    bigint_print bigint_base.HEX v =
        .ok ((if v.sign = 1 then ['-'] else []) ++ ['0', 'x'] ++
          Nat.toDigits 16 v.magnitude) ∧
      status (bigint_print bigint_base.HEX v) = 0 ∧
      Nat.toDigits 16 v.magnitude =
        printf_x (v.limbs.getLastD 0) ++ (v.limbs.dropLast.reverse.map printf_08x).flatten ∧
      1 ≤ (printf_x (v.limbs.getLastD 0)).length ∧
      (printf_x (v.limbs.getLastD 0)).length ≤ 8 ∧
      (∀ x ∈ v.limbs.dropLast, (printf_08x x).length = 8) ∧
      (∀ c ∈ Nat.toDigits 16 v.magnitude, c ∈ "0123456789abcdef".toList) ∧
      (v.magnitude ≠ 0 → (Nat.toDigits 16 v.magnitude).head? ≠ some '0') := by
  have hok := hv.2.1
  have hrun := bigint_print_hex_spec v hok hv.2.2.1 hv.2.2.2.1
  have hmap : v.limbs.dropLast.reverse.map printf_08x =
      v.limbs.dropLast.reverse.map (fixed_digits 16 8) :=
    List.map_congr_left (fun x hx =>
      printf_08x_eq x (hok x (List.dropLast_subset _ (List.mem_reverse.1 hx))))
  have hlast : v.limbs.getLastD 0 < 4294967296 := by
    obtain ⟨x, hx, hx2⟩ := eq_dropLast_append v.limbs hv.2.2.1
    rw [List.getLastD_eq_getLast?, hx2]
    exact hok x (by rw [hx]; simp)
  refine ⟨hrun, by rw [hrun]; rfl, ?_, ?_, ?_, ?_, toDigits_hex_lower _,
    fun h0 => toDigits_head 16 (by decide) (by decide) _ (Nat.pos_of_ne_zero h0)⟩
  · rw [hmap]
    exact (grouped_limbs 16 8 (by decide) (by norm_num) v.limbs hok hv.2.2.1
      hv.2.2.2.1).symm
  · have := toDigits_ne_nil 16 (v.limbs.getLastD 0)
    unfold printf_x
    cases h : Nat.toDigits 16 (v.limbs.getLastD 0) with
    | nil => exact absurd h this
    | cons c rest => simp
  · exact toDigits_length_le 16 (by decide) _ 8
      (by rw [show (16 : Nat) ^ 8 = 4294967296 from by norm_num]; exact hlast) (by decide)
  · intro x hx
    rw [printf_08x_eq x (hok x (List.dropLast_subset _ hx)), fixed_digits_length]

/-- The statement of C9 at `123456789012345678901234567890`, which prints as
`0x18ee90ff6c373e0ee4e3f0ad2`. -/
theorem bigint_print_hexadecimal_witness :
    canonical ⟨[1312754386, 3279151342, 2397638646, 1], 0⟩ ∧
    (bigint_print bigint_base.HEX ⟨[1312754386, 3279151342, 2397638646, 1], 0⟩ =
      .ok "0x18ee90ff6c373e0ee4e3f0ad2".toList) ∧
    (⟨[1312754386, 3279151342, 2397638646, 1], 0⟩ : bigint).magnitude =
      123456789012345678901234567890 ∧
    bigint_create "123456789012345678901234567890".toList =
      .ok ⟨[1312754386, 3279151342, 2397638646, 1], 0⟩ ∧
    bigint_print bigint_base.HEX ⟨[255], 1⟩ = .ok "-0xff".toList ∧
    Nat.toDigits 16 (⟨[1312754386, 3279151342, 2397638646, 1], 0⟩ : bigint).magnitude =
      "18ee90ff6c373e0ee4e3f0ad2".toList :=
  ⟨by decide,
    (bigint_print_hexadecimal ⟨[1312754386, 3279151342, 2397638646, 1], 0⟩ (by decide)).1.trans
      (by rfl),
    by rfl, by rfl, by rfl, by rfl⟩

end Bigint

namespace Bigint

/-! ## Claim on the numeral round trip -/

theorem hex_lower_idem : ∀ c ∈ "0123456789ABCDEFabcdef".toList,
    c.toLower.toLower = c.toLower := by
  decide

theorem limbs_not_zero_of_pos (limbs : List Nat) (h : 0 < limbs_value limbs) :
    ¬ (limbs.length = 1 ∧ limbs.head? = some 0) := by
  rintro ⟨h1, h2⟩
  match limbs, h1, h2 with
  | [x], _, h2 =>
    simp only [List.head?_cons, Option.some.injEq] at h2
    subst h2
    simp [limbs_value] at h

/-- C10 fails on the code as stated: `-0` is accepted, parsed to the value zero with sign
`0`, and printed in base `DEC` as `0`, which is not `-0` up to a leading `+` and case. -/
theorem round_trip_fails_on_negative_zero :
    bigint_create "-0".toList = .ok ⟨[0], 0⟩ ∧
      numeral_base "-0".toList = bigint_base.DEC ∧
      bigint_print (numeral_base "-0".toList) ⟨[0], 0⟩ = .ok "0".toList ∧
      ¬ same_numeral_text "0".toList "-0".toList := by
  refine ⟨by rfl, by rfl, by rfl, by decide⟩

/-- C10 as amended: for a text `s` that is an optional sign followed by a numeral of the
code's grammar (decimal digits, or the marker `0b` or `0x` and digits of the base, no
leading zero digit), `bigint_create` succeeds and printing the value in the base `s` is
written in yields, when the numeral is not zero, a text equal to `s` up to omission of a
leading `+` and the case of hexadecimal digits; the decimal and hexadecimal numerals for
zero print as `0` and `0x0` whatever their sign. -/
theorem numeral_round_trip (sgn ds : List Char) (hs : is_sign sgn) (hne : ds ≠ [])
    (hlead : no_leading_zero ds) :
    ((∀ c ∈ ds, is_decimal_digit c) →
      ∃ v out, bigint_create (sgn ++ ds) = .ok v ∧
        bigint_print (numeral_base (sgn ++ ds)) v = .ok out ∧
        (ds ≠ ['0'] → same_numeral_text out (sgn ++ ds)) ∧ (ds = ['0'] → out = ['0'])) ∧
    ((∀ c ∈ ds, is_binary_digit c) → ds ≠ ['0'] →
      ∃ v out, bigint_create (sgn ++ '0' :: 'b' :: ds) = .ok v ∧
        bigint_print (numeral_base (sgn ++ '0' :: 'b' :: ds)) v = .ok out ∧
        same_numeral_text out (sgn ++ '0' :: 'b' :: ds)) ∧
    ((∀ c ∈ ds, is_hex_digit c) →
      ∃ v out, bigint_create (sgn ++ '0' :: 'x' :: ds) = .ok v ∧
        bigint_print (numeral_base (sgn ++ '0' :: 'x' :: ds)) v = .ok out ∧
        (ds ≠ ['0'] → same_numeral_text out (sgn ++ '0' :: 'x' :: ds)) ∧
        (ds = ['0'] → out = ['0', 'x', '0'])) := by
  refine ⟨?_, ?_, ?_⟩
  · -- decimal
    intro hd
    rw [numeral_base_dec sgn ds hs hne hd hlead]
    by_cases hz : ds = ['0']
    · subst hz
      rcases hs with rfl | rfl | rfl <;>
        exact ⟨⟨[0], 0⟩, ['0'], by rfl, by rfl, fun h => absurd rfl h, fun _ => rfl⟩
    · obtain ⟨limbs, -, l2, l3, l4, hrun⟩ := bigint_create_decimal sgn ds hs hne hd hlead
      have hfacts := fun c hc => decimal_digit_facts c (decimal_digit_mem c (hd c hc))
      have hge := numeral_value_ge 10 digit_value ds hne hlead hz
        (fun c hc => (hfacts c hc).2.2.2.2.2.2)
      have hpos : 0 < limbs_value limbs := by
        rw [l2]
        exact lt_of_lt_of_le (Nat.pow_pos (by decide)) hge
      rw [if_neg (limbs_not_zero_of_pos limbs hpos)] at hrun
      have hprint := bigint_print_dec_spec
        { limbs := limbs, sign := if sgn = ['-'] then 1 else 0 } l3 l4 (Or.inr hpos)
      have hdigits := toDigits_numeral 10 (by decide) digit_value ds hne hlead
        (fun c hc => (hfacts c hc).2.2.2.2.1) (fun c hc => (hfacts c hc).2.2.2.2.2.2)
      rw [map_digitChar_decimal ds hd] at hdigits
      simp only at hprint
      rw [l2, hdigits] at hprint
      refine ⟨_, _, hrun, hprint, fun _ => ?_, fun h => absurd h hz⟩
      have hsign : (if (if sgn = ['-'] then 1 else 0) = 1 then ['-'] else []) =
          (if sgn = ['-'] then ['-'] else ([] : List Char)) := by
        split_ifs <;> simp_all
      rw [hsign]
      refine same_numeral_text_of sgn ds ds hs ?_ rfl
      match ds, hne, hfacts with
      | c :: rest, _, hfacts =>
        have := (hfacts c (List.mem_cons_self _ _)).2.1
        simpa using this
  · -- binary
    intro hb hz
    rw [numeral_base_bin sgn ds hs]
    have hrun := bigint_create_binary sgn ds hs hne hb hlead
    obtain ⟨s1, s2, s3⟩ := save_binary_spec ds hb
    have hfacts := fun c hc => binary_digit_facts c (binary_digit_mem c (hb c hc))
    have hge := numeral_value_ge 2 digit_value ds hne hlead hz
      (fun c hc => (hfacts c hc).2.2.2)
    have hlen : ds.length ≠ 0 := by simpa using hne
    have hpos : 0 < limbs_value (save_binary ds) := by
      rw [s1]
      exact lt_of_lt_of_le (Nat.pow_pos (by decide)) hge
    have hnhz := save_binary_no_high_zero ds hb (by
      rw [pow32]
      exact le_trans (Nat.pow_le_pow_right (by decide) (by omega)) hge)
    rw [if_neg (limbs_not_zero_of_pos _ hpos)] at hrun
    have hprint := bigint_print_bin_spec
      { limbs := save_binary ds, sign := if sgn = ['-'] then 1 else 0 } s2
      (save_binary_ne_nil ds hne hb) hnhz hpos
    have hdigits := toDigits_numeral 2 (by decide) digit_value ds hne hlead
      (fun c hc => (hfacts c hc).2.2.1) (fun c hc => (hfacts c hc).2.2.2)
    rw [map_digitChar_binary ds hb] at hdigits
    simp only at hprint
    rw [s1, hdigits] at hprint
    refine ⟨_, _, hrun, hprint, ?_⟩
    have hsign : (if (if sgn = ['-'] then 1 else 0) = 1 then ['-'] else []) =
        (if sgn = ['-'] then ['-'] else ([] : List Char)) := by
      split_ifs <;> simp_all
    rw [hsign, List.append_assoc]
    exact same_numeral_text_of sgn ('0' :: 'b' :: ds) _ hs (by simp) rfl
  · -- hexadecimal
    intro hd
    rw [numeral_base_hex sgn ds hs]
    by_cases hz : ds = ['0']
    · subst hz
      rcases hs with rfl | rfl | rfl <;>
        exact ⟨⟨[0], 0⟩, ['0', 'x', '0'], by rfl, by rfl, fun h => absurd rfl h, fun _ => rfl⟩
    · have hrun := bigint_create_hex sgn ds hs hne hd hlead
      obtain ⟨c1, c2, c3⟩ := convert_to_binary_spec ds hd
      obtain ⟨s1, s2, s3⟩ := save_binary_spec (convert_to_binary ds) c1
      have hfacts := fun c hc => hex_digit_facts c (hex_digit_mem c (hd c hc))
      have hge := numeral_value_ge 16 hex_digit_value ds hne hlead hz
        (fun c hc => (hfacts c hc).2.2.2.2.2.2)
      have hlen : ds.length ≠ 0 := by simpa using hne
      have hbne : convert_to_binary ds ≠ [] := by
        intro e
        rw [e] at c2
        simp only [List.length_nil] at c2
        omega
      have hpos : 0 < limbs_value (save_binary (convert_to_binary ds)) := by
        rw [s1, c3]
        exact lt_of_lt_of_le (Nat.pow_pos (by decide)) hge
      have h16 : (16 : Nat) ^ (ds.length - 1) = 2 ^ (4 * (ds.length - 1)) := by
        rw [pow_mul]; norm_num
      have hnhz := save_binary_no_high_zero (convert_to_binary ds) c1 (by
        rw [pow32, c3, c2]
        refine le_trans (Nat.pow_le_pow_right (by decide) ?_) (h16 ▸ hge)
        omega)
      rw [if_neg (limbs_not_zero_of_pos _ hpos)] at hrun
      have hprint := bigint_print_hex_spec
        { limbs := save_binary (convert_to_binary ds), sign := if sgn = ['-'] then 1 else 0 } s2
        (save_binary_ne_nil _ hbne c1) hnhz
      have hdigits := toDigits_numeral 16 (by decide) hex_digit_value ds hne hlead
        (fun c hc => (hfacts c hc).2.2.2.1) (fun c hc => (hfacts c hc).2.2.2.2.2.2)
      rw [map_digitChar_hex ds hd] at hdigits
      simp only at hprint
      rw [s1, c3, hdigits] at hprint
      refine ⟨_, _, hrun, hprint, fun _ => ?_, fun h => absurd h hz⟩
      have hsign : (if (if sgn = ['-'] then 1 else 0) = 1 then ['-'] else []) =
          (if sgn = ['-'] then ['-'] else ([] : List Char)) := by
        split_ifs <;> simp_all
      rw [hsign, List.append_assoc]
      refine same_numeral_text_of sgn ('0' :: 'x' :: ds) _ hs (by simp) ?_
      simp only [List.cons_append, List.nil_append, List.map_cons, List.map_map]
      congr 2
      apply List.map_congr_left
      intro c hc
      exact hex_lower_idem c (hex_digit_mem c (hd c hc))

/-- The amended statement of C10 at the numerals `+255`, `0b101010` and `-0xfF`, with the
texts printed. -/
theorem numeral_round_trip_witness :
    (is_sign ['+'] ∧ "255".toList ≠ [] ∧ no_leading_zero "255".toList ∧
      (∀ c ∈ "255".toList, is_decimal_digit c)) ∧
    (∃ v out, bigint_create (['+'] ++ "255".toList) = .ok v ∧
      bigint_print (numeral_base (['+'] ++ "255".toList)) v = .ok out ∧
      ("255".toList ≠ ['0'] → same_numeral_text out (['+'] ++ "255".toList)) ∧
      ("255".toList = ['0'] → out = ['0'])) ∧
    (∃ v out, bigint_create ([] ++ '0' :: 'b' :: "101010".toList) = .ok v ∧
      bigint_print (numeral_base ([] ++ '0' :: 'b' :: "101010".toList)) v = .ok out ∧
      same_numeral_text out ([] ++ '0' :: 'b' :: "101010".toList)) ∧
    (∃ v out, bigint_create (['-'] ++ '0' :: 'x' :: "fF".toList) = .ok v ∧
      bigint_print (numeral_base (['-'] ++ '0' :: 'x' :: "fF".toList)) v = .ok out ∧
      ("fF".toList ≠ ['0'] → same_numeral_text out (['-'] ++ '0' :: 'x' :: "fF".toList)) ∧
      ("fF".toList = ['0'] → out = ['0', 'x', '0'])) ∧
    bigint_print bigint_base.DEC ⟨[255], 0⟩ = .ok "255".toList ∧
    bigint_print bigint_base.BIN ⟨[42], 0⟩ = .ok "0b101010".toList ∧
    bigint_print bigint_base.HEX ⟨[255], 1⟩ = .ok "-0xff".toList :=
  ⟨⟨by decide, by decide, by decide, by decide⟩,
    (numeral_round_trip ['+'] "255".toList (by decide) (by decide) (by decide)).1 (by decide),
    (numeral_round_trip [] "101010".toList (by decide) (by decide) (by decide)).2.1
      (by decide) (by decide),
    (numeral_round_trip ['-'] "fF".toList (by decide) (by decide) (by decide)).2.2 (by decide),
    by rfl, by rfl, by rfl⟩

end Bigint

namespace Bigint

/-! ## Claims on the grammar of `bigint_create` -/

/-- C11 fails on the code as stated: `0b01` and `-0x0F` are numerals of the grammar the claim
gives (marker, then digits of the base), and `bigint_create` rejects both with
`BIGINT_INCORRECT_STRING`, because `check_syntax` refuses a leading `0` digit in every base. -/
theorem bigint_create_rejects_leading_zero :
    specified_numeral "0b01".toList ∧
      bigint_create "0b01".toList = .error bigint_error_code.BIGINT_INCORRECT_STRING ∧
      specified_numeral "-0x0F".toList ∧
      bigint_create "-0x0F".toList = .error bigint_error_code.BIGINT_INCORRECT_STRING := by
  refine ⟨⟨[], "01".toList, by decide, by decide, Or.inl ⟨rfl, by decide⟩⟩, by rfl,
    ⟨['-'], "0F".toList, by decide, by decide, Or.inr (Or.inl ⟨rfl, by decide⟩)⟩, by rfl⟩

/-- A slip of `check_syntax`: `strchr` finds the terminating NUL of the charset, so a NUL
character passes as a digit; the text made of one NUL is parsed to `(uint32_t)(0 - 48)`. -/
theorem bigint_create_accepts_nul :
    bigint_create [Char.ofNat 0] = .ok ⟨[4294967248], 0⟩ := by
  rfl

/-- C11 as amended: for a text `s` without NUL character, `bigint_create` succeeds exactly
when `s` is an optional `+` or `-` followed by `0b` and binary digits, or `0x` and
hexadecimal digits of either case, or decimal digits, where in every base the digits are the
lone `0` or do not begin with `0`; for every other such text it fails with
`BIGINT_INCORRECT_STRING`. -/
theorem bigint_create_accepts_exactly (s : List Char) (hnul : ∀ c ∈ s, c.toNat ≠ 0) :
    ((∃ v, bigint_create s = .ok v) ↔ accepted_numeral s) ∧
      (¬ accepted_numeral s →
        bigint_create s = .error bigint_error_code.BIGINT_INCORRECT_STRING) := by
  have hcases : ∀ b : Bool, b = true ∨ b = false := by decide
  rcases hcases
    ( check_syntax (check_base (check_sign s).2).2 (check_base (check_sign s).2).1) with h | h
  · have hacc := accepted_of_checks s hnul h
    exact ⟨⟨fun _ => hacc, fun _ => bigint_create_accepts s hacc⟩, fun hn => absurd hacc hn⟩
  · have hrej := bigint_create_rejects s h
    refine ⟨⟨?_, fun hacc => ?_⟩, fun _ => hrej⟩
    · rintro ⟨v, hv⟩
      rw [hrej] at hv
      exact absurd hv (by simp)
    · obtain ⟨v, hv⟩ := bigint_create_accepts s hacc
      rw [hrej] at hv
      exact absurd hv (by simp)

/-- The amended statement of C11 at the text `-0x1F`, with the value it is parsed to, and the
rejection of `12a`. -/
theorem bigint_create_accepts_exactly_witness :
    (∀ c ∈ "-0x1F".toList, c.toNat ≠ 0) ∧
    (((∃ v, bigint_create "-0x1F".toList = .ok v) ↔ accepted_numeral "-0x1F".toList) ∧
      (¬ accepted_numeral "-0x1F".toList →
        bigint_create "-0x1F".toList = .error bigint_error_code.BIGINT_INCORRECT_STRING)) ∧
    bigint_create "-0x1F".toList = .ok ⟨[31], 1⟩ ∧
    bigint_create "12a".toList = .error bigint_error_code.BIGINT_INCORRECT_STRING :=
  ⟨by decide, bigint_create_accepts_exactly "-0x1F".toList (by decide), by rfl, by rfl⟩

/-- C12 fails on the code as stated: `0X1` and `0B1` are rejected with
`BIGINT_INCORRECT_STRING`, while `0x1` and `0b1` are parsed to the value one. -/
theorem upper_case_marker_rejected :
    bigint_create "0X1".toList = .error bigint_error_code.BIGINT_INCORRECT_STRING ∧
      bigint_create "0x1".toList = .ok ⟨[1], 0⟩ ∧
      bigint_create "0B1".toList = .error bigint_error_code.BIGINT_INCORRECT_STRING ∧
      bigint_create "0b1".toList = .ok ⟨[1], 0⟩ := by
  refine ⟨by rfl, by rfl, by rfl, by rfl⟩

/-- C12 as amended: base detection knows the lower-case markers only.  For every optional
sign and every text `d`, `bigint_create` on `0X` followed by `d` and on `0B` followed by `d`
fails with `BIGINT_INCORRECT_STRING`, while `0x` and `0b` followed by digits of the base
(the lone `0`, or digits not beginning with `0`) are parsed. -/
theorem bigint_create_marker_case (sgn d : List Char) (hs : is_sign sgn) :
    bigint_create (sgn ++ '0' :: 'X' :: d) =
        .error bigint_error_code.BIGINT_INCORRECT_STRING ∧
      bigint_create (sgn ++ '0' :: 'B' :: d) =
        .error bigint_error_code.BIGINT_INCORRECT_STRING ∧
      (d ≠ [] → no_leading_zero d → (∀ c ∈ d, is_hex_digit c) →
        ∃ v, bigint_create (sgn ++ '0' :: 'x' :: d) = .ok v) ∧
      (d ≠ [] → no_leading_zero d → (∀ c ∈ d, is_binary_digit c) →
        ∃ v, bigint_create (sgn ++ '0' :: 'b' :: d) = .ok v) := by
  refine ⟨?_, ?_, fun hne hlead hd => ⟨_, bigint_create_hex sgn d hs hne hd hlead⟩,
    fun hne hlead hd => ⟨_, bigint_create_binary sgn d hs hne hd hlead⟩⟩
  · apply bigint_create_rejects
    rw [check_sign_spec sgn _ hs (by simp)]
    simp [check_base, check_syntax]
  · apply bigint_create_rejects
    rw [check_sign_spec sgn _ hs (by simp)]
    simp [check_base, check_syntax]

/-- The amended statement of C12 at the sign `-` and the digits `fF`. -/
theorem bigint_create_marker_case_witness :
    (is_sign ['-'] ∧ "fF".toList ≠ [] ∧ no_leading_zero "fF".toList ∧
      ∀ c ∈ "fF".toList, is_hex_digit c) ∧
    bigint_create (['-'] ++ '0' :: 'X' :: "fF".toList) =
      .error bigint_error_code.BIGINT_INCORRECT_STRING ∧
    bigint_create (['-'] ++ '0' :: 'B' :: "fF".toList) =
      .error bigint_error_code.BIGINT_INCORRECT_STRING ∧
    (∃ v, bigint_create (['-'] ++ '0' :: 'x' :: "fF".toList) = .ok v) ∧
    bigint_create "-0xfF".toList = .ok ⟨[255], 1⟩ :=
  ⟨⟨by decide, by decide, by decide, by decide⟩,
    (bigint_create_marker_case ['-'] "fF".toList (by decide)).1,
    (bigint_create_marker_case ['-'] "fF".toList (by decide)).2.1,
    (bigint_create_marker_case ['-'] "fF".toList (by decide)).2.2.1
      (by decide) (by decide) (by decide),
    by rfl⟩

end Bigint

namespace Bigint

/-! ## Claims on canonical results of `bigint_create` and on the comparator -/

/-- C13 fails on the code: the halving loop of `save_decimal` opens a new node whenever 32
bits have been stored, also when the number has just become zero, so `4294967295` is parsed
to the two nodes `[4294967295, 0]`, with a redundant high zero node.  The hexadecimal
numeral of the same number gives the single node, and `bigint_compare`, which goes by the
node count first, finds the two values different. -/
theorem bigint_create_decimal_extra_node :
    bigint_create "4294967295".toList = .ok ⟨[4294967295, 0], 0⟩ ∧
      ¬ canonical ⟨[4294967295, 0], 0⟩ ∧
      ¬ no_high_zero [4294967295, 0] ∧
      bigint_create "0xffffffff".toList = .ok ⟨[4294967295], 0⟩ ∧
      canonical ⟨[4294967295], 0⟩ ∧
      bigint_compare ⟨[4294967295, 0], 0⟩ ⟨[4294967295], 0⟩ = 1 ∧
      bigint_create "-0".toList = .ok ⟨[0], 0⟩ := by
  refine ⟨by rfl, by decide, by decide, by rfl, by decide, by rfl, by rfl⟩

theorem compare_loop_common (p as bs : List Nat) (x y : Nat) (h : x ≠ y) :
    compare_loop (p ++ x :: as) (p ++ y :: bs) = if x > y then 1 else -1 := by
  induction p with
  | nil =>
    simp only [List.nil_append, compare_loop]
    rw [if_pos h]
  | cons c rest ih =>
    simp only [List.cons_append, compare_loop]
    rw [if_neg (by simp)]
    exact ih

theorem compare_loop_antisymm (a b : List Nat) : compare_loop a b = -compare_loop b a := by
  induction a generalizing b with
  | nil => cases b <;> simp [compare_loop]
  | cons x as ih =>
    cases b with
    | nil => simp [compare_loop]
    | cons y bs =>
      simp only [compare_loop]
      by_cases hxy : x = y
      · subst hxy
        simp only [ne_eq, not_true_eq_false, if_false]
        exact ih bs
      · have hyx : y ≠ x := fun e => hxy e.symm
        rw [if_pos hxy, if_pos hyx]
        by_cases hgt : x > y
        · rw [if_pos hgt, if_neg (by omega)]
          rfl
        · rw [if_neg hgt, if_pos (by omega)]

theorem bigint_compare_absolute_antisymm (a b : bigint) :
    bigint_compare_absolute a b = -bigint_compare_absolute b a := by
  unfold bigint_compare_absolute
  by_cases hlen : a.limbs.length = b.limbs.length
  · rw [if_neg (by simpa using hlen), if_neg (by simpa using hlen.symm)]
    exact compare_loop_antisymm _ _
  · have hlen2 : b.limbs.length ≠ a.limbs.length := fun e => hlen e.symm
    rw [if_pos hlen, if_pos hlen2]
    by_cases hgt : a.limbs.length > b.limbs.length
    · rw [if_pos hgt, if_neg (by omega)]
      rfl
    · rw [if_neg hgt, if_pos (by omega)]

/-- C14: for canonical `a` and `b`, `bigint_compare(a, b)` is `-1`, `0` or `1` according to
whether the integer `a` represents is less than, equal to or greater than the one `b`
represents.  `bigint_compare_absolute` decides by the node count first, and between chains of
the same length by the first pair of nodes that differ, walking from the high end. -/
theorem bigint_compare_correct (a b : bigint) (ha : canonical a) (hb : canonical b) :
    bigint_compare a b =
        (if a.toInt < b.toInt then -1 else if a.toInt = b.toInt then 0 else 1) ∧
      bigint_compare_absolute a b =
        (if a.magnitude < b.magnitude then -1 else if a.magnitude = b.magnitude then 0 else 1) ∧
      (a.limbs.length < b.limbs.length → bigint_compare_absolute a b = -1) ∧
      (b.limbs.length < a.limbs.length → bigint_compare_absolute a b = 1) ∧
      (∀ low1 low2 high x y, a.limbs = low1 ++ x :: high → b.limbs = low2 ++ y :: high →
        low1.length = low2.length → x ≠ y →
        bigint_compare_absolute a b = if x > y then 1 else -1) := by
  have habs := bigint_compare_absolute_spec a b ha.2.1 ha.2.2.1 ha.2.2.2.1
    hb.2.1 hb.2.2.1 hb.2.2.2.1
  have hbas := bigint_compare_absolute_spec b a hb.2.1 hb.2.2.1 hb.2.2.2.1
    ha.2.1 ha.2.2.1 ha.2.2.2.1
  refine ⟨?_, habs, ?_, ?_, ?_⟩
  · unfold bigint_compare
    rcases canonical_sign a ha with sa | sa <;> rcases canonical_sign b hb with sb | sb
    · rw [sa, sb, toInt_sign_zero a sa, toInt_sign_zero b sb, habs]
      simp only [Nat.cast_lt, Nat.cast_inj]
    · have hpos := canonical_pos_of_sign b hb sb
      rw [sa, sb, toInt_sign_zero a sa, toInt_sign_one b sb]
      simp only
      rw [if_neg (by omega), if_neg (by omega)]
    · have hpos := canonical_pos_of_sign a ha sa
      rw [sa, sb, toInt_sign_one a sa, toInt_sign_zero b sb]
      simp only
      rw [if_pos (by omega)]
    · rw [sa, sb, toInt_sign_one a sa, toInt_sign_one b sb]
      simp only
      rw [hbas]
      by_cases h1 : limbs_value b.limbs < limbs_value a.limbs
      · have e1 : -(limbs_value a.limbs : Int) < -(limbs_value b.limbs : Int) := by omega
        rw [if_pos h1, if_pos e1]
      · have e1 : ¬ -(limbs_value a.limbs : Int) < -(limbs_value b.limbs : Int) := by omega
        rw [if_neg h1, if_neg e1]
        by_cases h2 : limbs_value b.limbs = limbs_value a.limbs
        · have e2 : -(limbs_value a.limbs : Int) = -(limbs_value b.limbs : Int) := by omega
          rw [if_pos h2, if_pos e2]
        · have e2 : ¬ -(limbs_value a.limbs : Int) = -(limbs_value b.limbs : Int) := by omega
          rw [if_neg h2, if_neg e2]
  · intro h
    unfold bigint_compare_absolute
    rw [if_pos (by omega), if_neg (by omega)]
  · intro h
    unfold bigint_compare_absolute
    rw [if_pos (by omega), if_pos (by omega)]
  · intro low1 low2 high x y e1 e2 hlen hxy
    unfold bigint_compare_absolute
    rw [if_neg (by rw [e1, e2]; simp [hlen]), e1, e2]
    simp only [List.reverse_append, List.reverse_cons, List.append_assoc, List.singleton_append]
    exact compare_loop_common _ _ _ x y hxy

/-- The statement of C14 at `a = -(2^32 + 5)` and `b = -7`, with the result `-1`. -/
theorem bigint_compare_correct_witness :
    (canonical ⟨[5, 1], 1⟩ ∧ canonical ⟨[7], 1⟩) ∧
    (bigint_compare ⟨[5, 1], 1⟩ ⟨[7], 1⟩ =
        (if (⟨[5, 1], 1⟩ : bigint).toInt < (⟨[7], 1⟩ : bigint).toInt then -1
          else if (⟨[5, 1], 1⟩ : bigint).toInt = (⟨[7], 1⟩ : bigint).toInt then 0 else 1)) ∧
    bigint_compare ⟨[5, 1], 1⟩ ⟨[7], 1⟩ = -1 ∧
    bigint_compare ⟨[7], 1⟩ ⟨[5, 1], 1⟩ = 1 ∧
    bigint_compare ⟨[5, 1], 0⟩ ⟨[5, 1], 0⟩ = 0 ∧
    bigint_compare_absolute ⟨[9, 3, 1], 0⟩ ⟨[2, 4, 1], 0⟩ = -1 :=
  ⟨⟨by decide, by decide⟩,
    (bigint_compare_correct ⟨[5, 1], 1⟩ ⟨[7], 1⟩ (by decide) (by decide)).1,
    by rfl, by rfl, by rfl, by rfl⟩

/-- C15: for all values `a` and `b` (sign byte `0` or `1`, any chains),
`bigint_compare(a, b) = -bigint_compare(b, a)`. -/
theorem bigint_compare_antisymmetric (a b : bigint) (ha : a.sign ≤ 1) (hb : b.sign ≤ 1) :
    bigint_compare a b = -bigint_compare b a := by
  have h := bigint_compare_absolute_antisymm a b
  have h2 := bigint_compare_absolute_antisymm b a
  unfold bigint_compare
  have sa : a.sign = 0 ∨ a.sign = 1 := by omega
  have sb : b.sign = 0 ∨ b.sign = 1 := by omega
  rcases sa with sa | sa <;> rcases sb with sb | sb <;> rw [sa, sb] <;> simp only <;>
    first | exact h | exact h2 | rfl

/-- The statement of C15 at `a = -5` and `b = 2^32`, and at a pair with a negative zero. -/
theorem bigint_compare_antisymmetric_witness :
    ((⟨[5], 1⟩ : bigint).sign ≤ 1 ∧ (⟨[0, 1], 0⟩ : bigint).sign ≤ 1) ∧
    bigint_compare ⟨[5], 1⟩ ⟨[0, 1], 0⟩ = -bigint_compare ⟨[0, 1], 0⟩ ⟨[5], 1⟩ ∧
    bigint_compare ⟨[5], 1⟩ ⟨[0, 1], 0⟩ = -1 ∧
    bigint_compare ⟨[0, 1], 0⟩ ⟨[5], 1⟩ = 1 ∧
    bigint_compare ⟨[0], 1⟩ ⟨[0], 0⟩ = -bigint_compare ⟨[0], 0⟩ ⟨[0], 1⟩ :=
  ⟨⟨by decide, by decide⟩,
    bigint_compare_antisymmetric ⟨[5], 1⟩ ⟨[0, 1], 0⟩ (by decide) (by decide),
    by rfl, by rfl,
    bigint_compare_antisymmetric ⟨[0], 1⟩ ⟨[0], 0⟩ (by decide) (by decide)⟩

end Bigint

namespace Bigint

/-! ## Claims on the results of `bigint_divide` -/

/-- C16 fails on the code: on the long-division path (`|R| < |D|`) the sign of the quotient
is set to `1` when exactly one of `D` and `R` is negative and is otherwise left as the
destination held it, so a destination that held a negative value keeps the sign `1`. -/
theorem bigint_divide_quotient_sign (D R Q M : bigint) (hD : canonical D) (hR : canonical R)
    (hR0 : 0 < R.magnitude) (hgt : R.magnitude < D.magnitude) :
    ∃ q m, bigint_divide D R (some Q) (some M) = .ok (some q, some m) ∧
      q.magnitude ≠ 0 ∧ q.sign = if D.sign + R.sign = 1 then 1 else Q.sign := by
  unfold bigint.magnitude at hR0 hgt ⊢
  obtain ⟨ql, ml, h1, -, -, -, -, -, -, -, hrun⟩ :=
    bigint_divide_long D R hD.2.1 hD.2.2.1 hD.2.2.2.1 hR.2.1 hR.2.2.1 hR.2.2.2.1 hR0 hgt
      (some Q) (some M) (by simp)
  refine ⟨_, _, hrun, ?_, rfl⟩
  show limbs_value ql ≠ 0
  rw [h1]
  have := Nat.div_pos (Nat.le_of_lt hgt) hR0
  omega

/-- The statement above at `D = 9`, `R = 2` and a destination that held `-5`: neither operand
is negative and the quotient `4` is left with the sign `1`. -/
theorem bigint_divide_quotient_sign_witness :
    (canonical ⟨[9], 0⟩ ∧ canonical ⟨[2], 0⟩ ∧ 0 < (⟨[2], 0⟩ : bigint).magnitude ∧
      (⟨[2], 0⟩ : bigint).magnitude < (⟨[9], 0⟩ : bigint).magnitude) ∧
    (∃ q m, bigint_divide ⟨[9], 0⟩ ⟨[2], 0⟩ (some ⟨[5], 1⟩) (some ⟨[0], 0⟩) =
        .ok (some q, some m) ∧
      q.magnitude ≠ 0 ∧
      q.sign = if (⟨[9], 0⟩ : bigint).sign + (⟨[2], 0⟩ : bigint).sign = 1 then 1
        else (⟨[5], 1⟩ : bigint).sign) ∧
    bigint_divide ⟨[9], 0⟩ ⟨[2], 0⟩ (some ⟨[5], 1⟩) (some ⟨[0], 0⟩) =
      .ok (some ⟨[4], 1⟩, some ⟨[1], 0⟩) ∧
    bigint_divide ⟨[2], 0⟩ ⟨[2], 0⟩ (some ⟨[5], 1⟩) (some ⟨[0], 0⟩) =
      .ok (some ⟨[1], 0⟩, some ⟨[0], 0⟩) :=
  ⟨⟨by decide, by decide, by decide, by decide⟩,
    bigint_divide_quotient_sign ⟨[9], 0⟩ ⟨[2], 0⟩ ⟨[5], 1⟩ ⟨[0], 0⟩
      (by decide) (by decide) (by decide) (by decide),
    by rfl, by rfl⟩

/-- C17 fails on the code: on the long-division path the remainder gets the sign of the
dividend also when it is zero.  For a negative `D` and a divisor with `|R| < |D|` that
divides `D`, the remainder written is the negative zero (one zero node, sign `1`), which
is not canonical; the chain of the quotient has no redundant high zero node. -/
theorem bigint_divide_negative_zero_remainder (D R Q M : bigint) (hD : canonical D)
    (hR : canonical R) (hR0 : 0 < R.magnitude) (hgt : R.magnitude < D.magnitude)
    (hneg : D.sign = 1) (hdiv : D.magnitude % R.magnitude = 0) :
    ∃ q, bigint_divide D R (some Q) (some M) = .ok (some q, some ⟨[0], 1⟩) ∧
      q.limbs ≠ [] ∧ no_high_zero q.limbs ∧ ¬ canonical ⟨[0], 1⟩ := by
  unfold bigint.magnitude at hR0 hgt hdiv
  obtain ⟨ql, ml, -, h2, -, h4, h5, -, h7, h8, hrun⟩ :=
    bigint_divide_long D R hD.2.1 hD.2.2.1 hD.2.2.2.1 hR.2.1 hR.2.2.1 hR.2.2.2.1 hR0 hgt
      (some Q) (some M) (by simp)
  have hml : ml = [0] := limbs_eq_zero_of_value ml h7 h8 (by rw [h2, hdiv])
  rw [hml, hneg] at hrun
  exact ⟨_, hrun, h4, h5, by decide⟩

/-- The statement above at `D = -6`, `R = 3`; on the fast path `-3 / 3` the remainder is
written with the sign `0`. -/
theorem bigint_divide_negative_zero_remainder_witness :
    (canonical ⟨[6], 1⟩ ∧ canonical ⟨[3], 0⟩ ∧ 0 < (⟨[3], 0⟩ : bigint).magnitude ∧
      (⟨[3], 0⟩ : bigint).magnitude < (⟨[6], 1⟩ : bigint).magnitude ∧
      (⟨[6], 1⟩ : bigint).sign = 1 ∧
      (⟨[6], 1⟩ : bigint).magnitude % (⟨[3], 0⟩ : bigint).magnitude = 0) ∧
    (∃ q, bigint_divide ⟨[6], 1⟩ ⟨[3], 0⟩ (some ⟨[0], 0⟩) (some ⟨[0], 0⟩) =
        .ok (some q, some ⟨[0], 1⟩) ∧
      q.limbs ≠ [] ∧ no_high_zero q.limbs ∧ ¬ canonical ⟨[0], 1⟩) ∧
    bigint_divide ⟨[6], 1⟩ ⟨[3], 0⟩ (some ⟨[0], 0⟩) (some ⟨[0], 0⟩) =
      .ok (some ⟨[2], 1⟩, some ⟨[0], 1⟩) ∧
    bigint_divide ⟨[3], 1⟩ ⟨[3], 0⟩ (some ⟨[0], 0⟩) (some ⟨[0], 0⟩) =
      .ok (some ⟨[1], 1⟩, some ⟨[0], 0⟩) :=
  ⟨⟨by decide, by decide, by decide, by decide, by decide, by decide⟩,
    bigint_divide_negative_zero_remainder ⟨[6], 1⟩ ⟨[3], 0⟩ ⟨[0], 0⟩ ⟨[0], 0⟩
      (by decide) (by decide) (by decide) (by decide) (by decide) (by decide),
    by rfl, by rfl⟩

/-- The zero test of `bigint_divide` looks for the chain of one zero node: a zero divisor
with a redundant zero node is not recognised, and the call succeeds on the fast path. -/
theorem bigint_divide_untrimmed_zero :
    bigint_divide ⟨[5], 0⟩ ⟨[0, 0], 0⟩ (some ⟨[4], 1⟩) (some ⟨[9, 1], 0⟩) =
      .ok (some ⟨[0], 0⟩, some ⟨[5], 0⟩) := by
  rfl

/-- C18 fails on the code for a zero divisor of more than one node: `bigint_divide` recognises
the divisor zero by the test `divisor->length == 1 && divisor->first->value == 0`.  For every
dividend `D` and every divisor `R` whose value is zero (any chain, either sign byte), with at
least one destination present: if `R` has one node the call returns `-1` with
`BIGINT_DIVISION_BY_ZERO` and leaves the destinations as they were; if `R` has more than one
node, as the zero that `bigint_shift_left` leaves after a shift by 32, the call returns `0`.
With both destinations absent it returns `-1` with `BIGINT_INCORRECT_FUNCTION_ARGUMENT`. -/
theorem bigint_divide_by_zero (D R : bigint) (Q M : Option bigint) (h0 : R.magnitude = 0) :
    (Q.isSome ∨ M.isSome →
      (R.limbs.length = 1 →
        bigint_divide D R Q M = .error bigint_error_code.BIGINT_DIVISION_BY_ZERO ∧
          status (bigint_divide D R Q M) = -1 ∧
          destinations_after Q M (bigint_divide D R Q M) = (Q, M)) ∧
      (R.limbs.length ≠ 1 → status (bigint_divide D R Q M) = 0)) ∧
      bigint_divide D R none none =
        .error bigint_error_code.BIGINT_INCORRECT_FUNCTION_ARGUMENT ∧
      status (bigint_divide D R none none) = -1 := by
  refine ⟨fun hQM => ?_, by simp [bigint_divide], by simp [bigint_divide, status]⟩
  have hnone : ¬ (Q.isNone ∧ M.isNone) := by
    rintro ⟨hq, hm⟩
    rcases hQM with h | h
    · rw [Option.isNone_iff_eq_none] at hq
      rw [hq] at h
      exact absurd h (by simp)
    · rw [Option.isNone_iff_eq_none] at hm
      rw [hm] at h
      exact absurd h (by simp)
  constructor
  · intro h1
    have hR : R.limbs = [0] := by
      match hl : R.limbs, h1 with
      | [x], _ =>
        have hx : limbs_value R.limbs = 0 := h0
        rw [hl] at hx
        simp only [limbs_value] at hx
        have : x = 0 := by omega
        rw [this]
    have hrun : bigint_divide D R Q M = .error bigint_error_code.BIGINT_DIVISION_BY_ZERO := by
      unfold bigint_divide
      rw [if_neg hnone, if_pos]
      rw [hR]
      exact ⟨rfl, rfl⟩
    rw [hrun]
    exact ⟨rfl, rfl, rfl⟩
  · intro h1
    unfold bigint_divide
    rw [if_neg hnone, if_neg (fun h => h1 h.1)]
    simp only
    split <;> rfl

/-- The statement above at `D = -7`: with the zero of one node the call fails and leaves the
destinations alone, with both destinations present and with the remainder alone; with the
zero `bigint_shift_left` makes of `0` by a shift of 32 bits (nodes `[0, 0]`) the call
returns `0` and writes the quotient `0` and the remainder `-7`. -/
theorem bigint_divide_by_zero_witness :
    ((⟨[0], 0⟩ : bigint).magnitude = 0 ∧ (⟨[0], 0⟩ : bigint).limbs.length = 1) ∧
    (bigint_divide ⟨[7], 1⟩ ⟨[0], 0⟩ (some ⟨[4], 1⟩) (some ⟨[9, 1], 0⟩) =
        .error bigint_error_code.BIGINT_DIVISION_BY_ZERO ∧
      status (bigint_divide ⟨[7], 1⟩ ⟨[0], 0⟩ (some ⟨[4], 1⟩) (some ⟨[9, 1], 0⟩)) = -1 ∧
      destinations_after (some ⟨[4], 1⟩) (some ⟨[9, 1], 0⟩)
          (bigint_divide ⟨[7], 1⟩ ⟨[0], 0⟩ (some ⟨[4], 1⟩) (some ⟨[9, 1], 0⟩)) =
        (some ⟨[4], 1⟩, some ⟨[9, 1], 0⟩)) ∧
    (bigint_divide ⟨[7], 1⟩ ⟨[0], 0⟩ none (some ⟨[9, 1], 0⟩) =
        .error bigint_error_code.BIGINT_DIVISION_BY_ZERO ∧
      status (bigint_divide ⟨[7], 1⟩ ⟨[0], 0⟩ none (some ⟨[9, 1], 0⟩)) = -1 ∧
      destinations_after none (some ⟨[9, 1], 0⟩)
          (bigint_divide ⟨[7], 1⟩ ⟨[0], 0⟩ none (some ⟨[9, 1], 0⟩)) =
        (none, some ⟨[9, 1], 0⟩)) ∧
    bigint_divide ⟨[7], 1⟩ ⟨[0], 0⟩ none none =
      .error bigint_error_code.BIGINT_INCORRECT_FUNCTION_ARGUMENT ∧
    bigint_shift_left ⟨[0], 0⟩ 32 = ⟨[0, 0], 0⟩ ∧
    ((bigint_shift_left ⟨[0], 0⟩ 32).magnitude = 0 ∧
      (bigint_shift_left ⟨[0], 0⟩ 32).limbs.length ≠ 1) ∧
    status (bigint_divide ⟨[7], 1⟩ (bigint_shift_left ⟨[0], 0⟩ 32) (some ⟨[4], 1⟩)
      (some ⟨[9, 1], 0⟩)) = 0 ∧
    bigint_divide ⟨[7], 1⟩ (bigint_shift_left ⟨[0], 0⟩ 32) (some ⟨[4], 1⟩)
        (some ⟨[9, 1], 0⟩) = .ok (some ⟨[0], 0⟩, some ⟨[7], 1⟩) :=
  ⟨⟨by decide, by decide⟩,
    ((bigint_divide_by_zero ⟨[7], 1⟩ ⟨[0], 0⟩ (some ⟨[4], 1⟩) (some ⟨[9, 1], 0⟩)
      (by decide)).1 (Or.inl rfl)).1 (by decide),
    ((bigint_divide_by_zero ⟨[7], 1⟩ ⟨[0], 0⟩ none (some ⟨[9, 1], 0⟩)
      (by decide)).1 (Or.inr rfl)).1 (by decide),
    (bigint_divide_by_zero ⟨[7], 1⟩ ⟨[0], 0⟩ none (some ⟨[9, 1], 0⟩) (by decide)).2.1,
    by rfl,
    ⟨by decide, by decide⟩,
    ((bigint_divide_by_zero ⟨[7], 1⟩ (bigint_shift_left ⟨[0], 0⟩ 32) (some ⟨[4], 1⟩)
      (some ⟨[9, 1], 0⟩) (by decide)).1 (Or.inl rfl)).2 (by decide),
    by rfl⟩

end Bigint

namespace Bigint

/-! ## Claims on the sign of a zero product -/

/-- C19 fails on the code: `bigint_multiply` gives the product the sign `sign % 2`, the parity
of the number of negative factors, without looking at the magnitude.  For canonical factors
of which one is zero the product is the chain of one zero node with that parity as its sign:
a negative zero when the number of negative factors is odd. -/
theorem bigint_multiply_zero_sign (dest : bigint) (vs : List bigint) (hk : 1 ≤ vs.length)
    (hc : ∀ v ∈ vs, canonical v) (hz : ∃ v ∈ vs, v.magnitude = 0) :
    ∃ r, bigint_multiply dest vs = .ok r ∧ r.limbs = [0] ∧
      r.sign = (vs.map (fun v => v.sign)).sum % 2 := by
  have hne : vs ≠ [] := by rintro rfl; simp at hk
  obtain ⟨f1, f2, f3⟩ := bigint_multiply_fold_spec vs { limbs := [1], sign := 0 } 0
    (by decide) (by decide) hc
  obtain ⟨-, g2, g3⟩ := f2 hne
  have hrun : bigint_multiply dest vs = .ok
      { dest with
        limbs := (vs.foldl (fun (state : bigint × Nat) current =>
          (bigint_multiply_basic state.1 state.1 current, (state.2 + current.sign) % 256))
          ({ limbs := [1], sign := 0 }, 0)).1.limbs,
        sign := (vs.foldl (fun (state : bigint × Nat) current =>
          (bigint_multiply_basic state.1 state.1 current, (state.2 + current.sign) % 256))
          ({ limbs := [1], sign := 0 }, 0)).2 % 2 } := by
    unfold bigint_multiply
    rw [if_neg (by omega), bigint_create_one]
    rfl
  have hprod : (vs.map bigint.magnitude).prod = 0 := by
    obtain ⟨v, hv, hv0⟩ := hz
    exact List.prod_eq_zero (List.mem_map.2 ⟨v, hv, hv0⟩)
  refine ⟨_, hrun, ?_, ?_⟩
  · refine limbs_eq_zero_of_value _ g2 g3 ?_
    rw [f1, hprod, Nat.mul_zero]
  · simp only
    rw [f3, Nat.zero_add]

/-- The statement above at the factors `-5` and `0`: the product written is the negative
zero, which is not canonical. -/
theorem bigint_multiply_zero_sign_witness :
    (1 ≤ [(⟨[5], 1⟩ : bigint), ⟨[0], 0⟩].length ∧
      (∀ v ∈ [(⟨[5], 1⟩ : bigint), ⟨[0], 0⟩], canonical v) ∧
      ∃ v ∈ [(⟨[5], 1⟩ : bigint), ⟨[0], 0⟩], v.magnitude = 0) ∧
    (∃ r, bigint_multiply ⟨[7], 0⟩ [⟨[5], 1⟩, ⟨[0], 0⟩] = .ok r ∧ r.limbs = [0] ∧
      r.sign = ([(⟨[5], 1⟩ : bigint), ⟨[0], 0⟩].map (fun v => v.sign)).sum % 2) ∧
    bigint_multiply ⟨[7], 0⟩ [⟨[5], 1⟩, ⟨[0], 0⟩] = .ok ⟨[0], 1⟩ ∧
    ¬ canonical ⟨[0], 1⟩ :=
  ⟨⟨by decide, by decide, by decide⟩,
    bigint_multiply_zero_sign ⟨[7], 0⟩ [⟨[5], 1⟩, ⟨[0], 0⟩] (by decide) (by decide)
      (by decide),
    by rfl, by decide⟩

/-- C20 fails on the code: with `a = -1`, `b = 1`, `c = -1` the sum `b + c` is zero and
`bigint_multiply` writes `a * (b + c)` as the negative zero, while `a * b + a * c`, the sum of
`-1` and `1`, is written by `bigint_add` as the zero of sign `0`; the two results differ in
the sign byte and `bigint_compare` returns `-1` for them. -/
theorem distributivity_fails_on_zero_product :
    (canonical ⟨[1], 1⟩ ∧ canonical ⟨[1], 0⟩) ∧
      bigint_add ⟨[0], 0⟩ [⟨[1], 0⟩, ⟨[1], 1⟩] = .ok ⟨[0], 0⟩ ∧
      bigint_multiply ⟨[0], 0⟩ [⟨[1], 1⟩, ⟨[0], 0⟩] = .ok ⟨[0], 1⟩ ∧
      bigint_multiply ⟨[0], 0⟩ [⟨[1], 1⟩, ⟨[1], 0⟩] = .ok ⟨[1], 1⟩ ∧
      bigint_multiply ⟨[0], 0⟩ [⟨[1], 1⟩, ⟨[1], 1⟩] = .ok ⟨[1], 0⟩ ∧
      bigint_add ⟨[0], 0⟩ [⟨[1], 1⟩, ⟨[1], 0⟩] = .ok ⟨[0], 0⟩ ∧
      (⟨[0], 1⟩ : bigint) ≠ ⟨[0], 0⟩ ∧
      bigint_compare ⟨[0], 1⟩ ⟨[0], 0⟩ = -1 := by
  refine ⟨⟨by decide, by decide⟩, by rfl, by rfl, by rfl, by rfl, by rfl, by decide, by rfl⟩

end Bigint

namespace Bigint

/-! ## Right shift -/

theorem shift_right_loop_length (l : List Nat) (r : Nat) :
    (shift_right_loop l r).length = l.length := by
  induction l generalizing r with
  | nil => rfl
  | cons v rest ih => simp [shift_right_loop, ih]

theorem shift_right_loop_cons (v : Nat) (rest : List Nat) (r : Nat) :
    shift_right_loop (v :: rest) r =
      ((v >>> 1) ||| r) :: shift_right_loop rest (((v &&& 1) <<< 31) % 4294967296) :=
  rfl

theorem shift_right_word (v c : Nat) (hv : v < 4294967296) :
    (v >>> 1) ||| (c * 2147483648) = (c * 4294967296 + v) / 2 := by
  have h1 : v >>> 1 = v / 2 := by
    rw [Nat.shiftRight_eq_div_pow]
  rw [h1]
  have hlt : v / 2 < 2 ^ 31 := by
    have : (2 : Nat) ^ 31 = 2147483648 := by norm_num
    omega
  have hor : 2 ^ 31 * c + v / 2 = 2 ^ 31 * c ||| v / 2 := Nat.mul_add_lt_is_or hlt c
  have h2 : (2 : Nat) ^ 31 = 2147483648 := by norm_num
  rw [h2] at hor
  rw [Nat.lor_comm, Nat.mul_comm, ← hor]
  omega

theorem shift_right_carry (v : Nat) :
    ((v &&& 1) <<< 31) % 4294967296 = (v % 2) * 2147483648 := by
  rw [Nat.and_one_is_mod, Nat.shiftLeft_eq]
  have h2 : (2 : Nat) ^ 31 = 2147483648 := by norm_num
  rw [h2]
  have : v % 2 < 2 := Nat.mod_lt _ (by decide)
  omega

/-- The loop on the words from the most significant one: with the carried-in bit `c` on
top, the array is halved. -/
theorem shift_right_loop_value (a : List Nat) (c : Nat) (ha : limbs_ok a) (hc : c ≤ 1) :
    array_value (shift_right_loop a (c * 2147483648)) =
        (c * 4294967296 ^ a.length + array_value a) / 2 ∧
      limbs_ok (shift_right_loop a (c * 2147483648)) := by
  induction a generalizing c with
  | nil =>
    refine ⟨?_, by intro x hx; simp [shift_right_loop] at hx⟩
    simp only [shift_right_loop, array_value_nil, List.length_nil, pow_zero, mul_one, add_zero]
    omega
  | cons v rest ih =>
    have hv : v < 4294967296 := ha v (List.mem_cons_self _ _)
    have hrest : limbs_ok rest := fun x hx => ha x (List.mem_cons_of_mem _ hx)
    have hb : v % 2 ≤ 1 := by omega
    obtain ⟨i1, i2⟩ := ih (v % 2) hrest hb
    rw [shift_right_loop_cons, shift_right_carry, shift_right_word v c hv]
    constructor
    · rw [array_value_cons, shift_right_loop_length, i1, array_value_cons, List.length_cons,
        pow_succ]
      generalize 4294967296 ^ rest.length = W
      generalize array_value rest = R
      have e1 : c * (W * 4294967296) + (v * W + R) =
          2 * ((c * 4294967296 + v) / 2 * W) + (v % 2 * W + R) := by
        have : c * 4294967296 + v = 2 * ((c * 4294967296 + v) / 2) + v % 2 := by omega
        calc c * (W * 4294967296) + (v * W + R) = (c * 4294967296 + v) * W + R := by ring
          _ = (2 * ((c * 4294967296 + v) / 2) + v % 2) * W + R := by rw [← this]
          _ = 2 * ((c * 4294967296 + v) / 2 * W) + (v % 2 * W + R) := by ring
      rw [e1, Nat.mul_add_div (by decide)]
    · intro x hx
      rcases List.mem_cons.1 hx with rfl | hx
      · interval_cases c <;> omega
      · exact i2 x hx

theorem no_high_zero_of_last {l : List Nat} (h : l.getLast? ≠ some 0) : no_high_zero l :=
  fun _ => h

/-- `bigint_shift_right_basic` halves the magnitude and keeps the chain trimmed. -/
theorem bigint_shift_right_basic_spec (number : bigint) (hok : limbs_ok number.limbs)
    (hne : number.limbs ≠ []) (hz : no_high_zero number.limbs) :
    limbs_value (bigint_shift_right_basic number).limbs = limbs_value number.limbs / 2 ∧
      limbs_ok (bigint_shift_right_basic number).limbs ∧
      (bigint_shift_right_basic number).limbs ≠ [] ∧
      no_high_zero (bigint_shift_right_basic number).limbs ∧
      (bigint_shift_right_basic number).sign = number.sign := by
  obtain ⟨s1, s2⟩ := shift_right_loop_value number.limbs.reverse 0 (limbs_ok_reverse.2 hok)
    (Nat.zero_le _)
  simp only [Nat.zero_mul, Nat.zero_add] at s1 s2
  unfold array_value at s1
  rw [List.reverse_reverse] at s1
  have hlen : (shift_right_loop number.limbs.reverse 0).reverse.length = number.limbs.length := by
    rw [List.length_reverse, shift_right_loop_length, List.length_reverse]
  have hok2 : limbs_ok (shift_right_loop number.limbs.reverse 0).reverse := limbs_ok_reverse.2 s2
  have hne2 : (shift_right_loop number.limbs.reverse 0).reverse ≠ [] := by
    intro e
    rw [e] at hlen
    exact hne (List.length_eq_zero.1 hlen.symm)
  unfold bigint_shift_right_basic
  simp only
  generalize (shift_right_loop number.limbs.reverse 0).reverse = l at s1 hlen hok2 hne2
  by_cases hc : l.getLast? = some 0 ∧ l.length ≠ 1
  · rw [if_pos hc]
    simp only
    have hv : limbs_value l.dropLast = limbs_value number.limbs / 2 := by
      rw [limbs_value_dropLast_zero l hc.1, s1]
    have hl2 : 2 ≤ l.length := by
      have : l.length ≠ 0 := fun e => hne2 (List.length_eq_zero.1 e)
      omega
    refine ⟨hv, limbs_ok_dropLast hok2, ?_, ?_, trivial⟩
    · intro e
      have := congrArg List.length e
      rw [List.length_dropLast] at this
      simp at this
      omega
    · apply no_high_zero_of_le _ (limbs_ok_dropLast hok2)
      rw [hv, List.length_dropLast]
      by_cases h3 : l.length = 2
      · rw [h3]
        simp
        have := le_limbs_value number.limbs hz (by omega)
        rw [← hlen, h3] at this
        simp at this
        omega
      · have hb := le_limbs_value number.limbs hz (by omega)
        rw [← hlen] at hb
        have e : l.length - 1 = (l.length - 1 - 1) + 1 := by omega
        rw [e, pow_succ] at hb
        have hp : 0 < 4294967296 ^ (l.length - 1 - 1) := Nat.pow_pos (by decide)
        generalize 4294967296 ^ (l.length - 1 - 1) = P at hb hp ⊢
        omega
  · rw [if_neg hc]
    simp only
    refine ⟨s1, hok2, hne2, ?_, trivial⟩
    intro h1 hlast
    exact hc ⟨hlast, by omega⟩

theorem iterate_shift_right_basic_spec (k : Nat) (number : bigint)
    (hok : limbs_ok number.limbs) (hne : number.limbs ≠ []) (hz : no_high_zero number.limbs) :
    limbs_value (Nat.iterate bigint_shift_right_basic k number).limbs =
        limbs_value number.limbs / 2 ^ k ∧
      limbs_ok (Nat.iterate bigint_shift_right_basic k number).limbs ∧
      (Nat.iterate bigint_shift_right_basic k number).limbs ≠ [] ∧
      no_high_zero (Nat.iterate bigint_shift_right_basic k number).limbs ∧
      (Nat.iterate bigint_shift_right_basic k number).sign = number.sign := by
  induction k generalizing number with
  | zero => simpa using ⟨hok, hne, hz⟩
  | succ k ih =>
    obtain ⟨b1, b2, b3, b4, b5⟩ := bigint_shift_right_basic_spec number hok hne hz
    obtain ⟨i1, i2, i3, i4, i5⟩ := ih (bigint_shift_right_basic number) b2 b3 b4
    rw [Function.iterate_succ_apply]
    refine ⟨?_, i2, i3, i4, by rw [i5, b5]⟩
    rw [i1, b1, Nat.div_div_eq_div_mul, pow_succ, Nat.mul_comm]

/-- `bigint_shift_right` divides the magnitude by `2^count`, rounding down, keeps the chain
trimmed and leaves the sign byte as it was. -/
theorem bigint_shift_right_spec (number : bigint) (count : Nat) (hok : limbs_ok number.limbs)
    (hne : number.limbs ≠ []) (hz : no_high_zero number.limbs) :
    limbs_value (bigint_shift_right number count).limbs =
        limbs_value number.limbs / 2 ^ count ∧
      limbs_ok (bigint_shift_right number count).limbs ∧
      (bigint_shift_right number count).limbs ≠ [] ∧
      no_high_zero (bigint_shift_right number count).limbs ∧
      (bigint_shift_right number count).sign = number.sign := by
  unfold bigint_shift_right
  by_cases h0 : count = 0
  · rw [if_pos h0, h0]
    simpa using ⟨hok, hne, hz⟩
  · rw [if_neg h0]
    exact iterate_shift_right_basic_spec count number hok hne hz

end Bigint

namespace Bigint

/-! ## Magnitude decrement, signed increment and decrement -/

/-- A trimmed chain is as long as its value says. -/
theorem length_of_value_bounds (l : List Nat) (n : Nat) (hok : limbs_ok l)
    (hz : no_high_zero l) (hlow : 4294967296 ^ n ≤ limbs_value l)
    (hhigh : limbs_value l < 4294967296 ^ (n + 1)) : l.length = n + 1 := by
  have hlt := limbs_value_lt l hok
  have h1 : n < l.length := by
    by_contra hcon
    have : 4294967296 ^ l.length ≤ 4294967296 ^ n :=
      Nat.pow_le_pow_right (by decide) (by omega)
    omega
  by_contra hne
  have h2 : n + 2 ≤ l.length := by omega
  have h3 := le_limbs_value l hz (by omega)
  have : 4294967296 ^ (n + 1) ≤ 4294967296 ^ (l.length - 1) :=
    Nat.pow_le_pow_right (by decide) (by omega)
  omega

/-- `bigint_decrement_basic` on a non-zero magnitude: the value goes down by one and the
chain keeps its number of nodes. -/
theorem bigint_decrement_basic_spec (number : bigint) (hok : limbs_ok number.limbs)
    (hpos : 0 < limbs_value number.limbs) :
    limbs_value (bigint_decrement_basic number).limbs + 1 = limbs_value number.limbs ∧
      limbs_ok (bigint_decrement_basic number).limbs ∧
      (bigint_decrement_basic number).limbs.length = number.limbs.length ∧
      (bigint_decrement_basic number).sign = number.sign := by
  have hones : (bigint_not (bigint_create_empty_segments number.limbs.length)).limbs =
      List.replicate number.limbs.length (not32 0) := by
    simp [bigint_not, bigint_create_empty_segments]
  have hov := limbs_value_replicate_ones number.limbs.length
  have hook : limbs_ok (bigint_not (bigint_create_empty_segments number.limbs.length)).limbs := by
    rw [hones]
    intro x hx
    rw [List.eq_of_mem_replicate hx]
    decide
  obtain ⟨a1, a2, a3, a4⟩ := bigint_add_basic_spec number number
    (bigint_not (bigint_create_empty_segments number.limbs.length)) hok hook
  rw [hones] at a1
  have hlt := limbs_value_lt number.limbs hok
  have hlen := length_of_value_bounds _ number.limbs.length a2 a4 (by omega)
    (by rw [pow_succ]; omega)
  unfold bigint_decrement_basic
  simp only
  refine ⟨?_, limbs_ok_dropLast a2, ?_, bigint_add_basic_sign _ _ _⟩
  · rw [limbs_value_dropLast _ a2, hlen, Nat.add_sub_cancel, a1]
    have e : limbs_value number.limbs +
        limbs_value (List.replicate number.limbs.length (not32 0)) =
        (limbs_value number.limbs - 1) + 4294967296 ^ number.limbs.length := by omega
    rw [e, Nat.add_mod_right, Nat.mod_eq_of_lt (by omega)]
    omega
  · rw [List.length_dropLast, hlen, Nat.add_sub_cancel]

theorem single_zero_iff (l : List Nat) (hne : l ≠ []) (hz : no_high_zero l) :
    (l.length = 1 ∧ l.head? = some 0) ↔ limbs_value l = 0 := by
  constructor
  · rintro ⟨h1, h2⟩
    match l, h1, h2 with
    | [x], _, h2 =>
      have : x = 0 := by simpa using h2
      subst this
      rfl
  · intro h0
    rw [limbs_eq_zero_of_value l hne hz h0]
    exact ⟨rfl, rfl⟩

/-- `bigint_increment` on a canonical value: the represented integer goes up by one. -/
theorem bigint_increment_spec (v : bigint) (hv : canonical v) :
    (bigint_increment v).toInt = v.toInt + 1 ∧ limbs_ok (bigint_increment v).limbs ∧
      (bigint_increment v).limbs ≠ [] := by
  unfold bigint_increment
  rcases canonical_sign v hv with hs | hs
  · rw [if_pos hs]
    obtain ⟨b1, b2, b3, -, b5⟩ := bigint_increment_basic_spec v hv.2.1 hv.2.2.1 hv.2.2.2.1
    refine ⟨?_, b2, b3⟩
    rw [toInt_sign_zero _ (by rw [b5, hs]), toInt_sign_zero _ hs, b1]
    push_cast
    rfl
  · rw [if_neg (by omega)]
    have hpos := canonical_pos_of_sign v hv hs
    obtain ⟨d1, d2, d3, d4⟩ := bigint_decrement_basic_spec v hv.2.1 hpos
    have hne : (bigint_decrement_basic v).limbs ≠ [] := by
      intro e
      rw [e] at d3
      exact hv.2.2.1 (List.length_eq_zero.1 d3.symm)
    simp only
    by_cases hc : (bigint_decrement_basic v).limbs.length = 1 ∧
        (bigint_decrement_basic v).limbs.head? = some 0
    · rw [if_pos hc]
      refine ⟨?_, d2, hne⟩
      have h0 : limbs_value (bigint_decrement_basic v).limbs = 0 := by
        obtain ⟨h1, h2⟩ := hc
        generalize (bigint_decrement_basic v).limbs = l at h1 h2
        match l, h1, h2 with
        | [x], _, h2 =>
          have : x = 0 := by simpa using h2
          subst this
          rfl
      rw [toInt_sign_zero _ rfl, toInt_sign_one _ hs]
      simp only
      rw [h0]
      omega
    · rw [if_neg hc]
      refine ⟨?_, d2, hne⟩
      rw [toInt_sign_one _ (by rw [d4, hs]), toInt_sign_one _ hs]
      omega

/-- `bigint_decrement` on a canonical value: the represented integer goes down by one. -/
theorem bigint_decrement_spec (v : bigint) (hv : canonical v) :
    (bigint_decrement v).toInt = v.toInt - 1 ∧ limbs_ok (bigint_decrement v).limbs ∧
      (bigint_decrement v).limbs ≠ [] := by
  unfold bigint_decrement
  have hzero := single_zero_iff v.limbs hv.2.2.1 hv.2.2.2.1
  by_cases hc : v.limbs.length = 1 ∧ v.limbs.head? = some 0
  · rw [if_pos hc]
    have h0 := hzero.1 hc
    have hl := limbs_eq_zero_of_value v.limbs hv.2.2.1 hv.2.2.2.1 h0
    have hs := hv.2.2.2.2 hl
    refine ⟨?_, ?_, by simp⟩
    · rw [toInt_sign_one _ rfl, toInt_sign_zero _ hs, h0, hl]
      rfl
    · rw [hl]
      decide
  · rw [if_neg hc]
    have hpos : 0 < limbs_value v.limbs := by
      rcases Nat.eq_zero_or_pos (limbs_value v.limbs) with h | h
      · exact absurd (hzero.2 h) hc
      · exact h
    rcases canonical_sign v hv with hs | hs
    · rw [if_pos hs]
      obtain ⟨d1, d2, d3, d4⟩ := bigint_decrement_basic_spec v hv.2.1 hpos
      refine ⟨?_, d2, ?_⟩
      · rw [toInt_sign_zero _ (by rw [d4, hs]), toInt_sign_zero _ hs]
        omega
      · intro e
        rw [e] at d3
        exact hv.2.2.1 (List.length_eq_zero.1 d3.symm)
    · rw [if_neg (by omega)]
      obtain ⟨b1, b2, b3, -, b5⟩ := bigint_increment_basic_spec v hv.2.1 hv.2.2.1 hv.2.2.2.1
      refine ⟨?_, b2, b3⟩
      rw [toInt_sign_one _ (by rw [b5, hs]), toInt_sign_one _ hs, b1]
      push_cast
      omega

end Bigint

namespace Bigint

/-! ## Left shift and the high node -/

theorem bigint_shift_left_basic_length (number : bigint) :
    (bigint_shift_left_basic number).limbs.length =
      if number.limbs.getLastD 0 &&& 2147483648 ≠ 0 then number.limbs.length + 1
      else number.limbs.length := by
  unfold bigint_shift_left_basic
  split <;> simp [shift_left_loop_length]

theorem last_of_chain (l : List Nat) (hne : l ≠ []) :
    limbs_value l = limbs_value l.dropLast + 4294967296 ^ (l.length - 1) * l.getLastD 0 := by
  obtain ⟨x, hx, hx2⟩ := eq_dropLast_append l hne
  have hlast : l.getLastD 0 = x := by
    rw [List.getLastD_eq_getLast?, hx2]; rfl
  have e := congrArg limbs_value hx
  rw [limbs_value_append] at e
  rw [hlast]
  simpa [limbs_value] using e

theorem bigint_shift_left_basic_sign_eq (number : bigint) :
    (bigint_shift_left_basic number).sign = number.sign := by
  unfold bigint_shift_left_basic
  split <;> rfl

/-- A one-bit left shift keeps the bound `W^(length - 1) ≤ value` of a chain whose high node
is not zero. -/
theorem bigint_shift_left_basic_tight (number : bigint) (hok : limbs_ok number.limbs)
    (hne : number.limbs ≠ [])
    (ht : 4294967296 ^ (number.limbs.length - 1) ≤ limbs_value number.limbs) :
    4294967296 ^ ((bigint_shift_left_basic number).limbs.length - 1) ≤
      limbs_value (bigint_shift_left_basic number).limbs := by
  obtain ⟨s1, -, -⟩ := bigint_shift_left_basic_spec number hok hne
  have hlen := bigint_shift_left_basic_length number
  have hval := last_of_chain number.limbs hne
  have hn : 1 ≤ number.limbs.length := by
    have : number.limbs.length ≠ 0 := by simpa using hne
    omega
  have hxlt : number.limbs.getLastD 0 < 4294967296 := by
    obtain ⟨x, hx, hx2⟩ := eq_dropLast_append number.limbs hne
    rw [List.getLastD_eq_getLast?, hx2]
    exact hok x (by rw [hx]; simp)
  rw [s1]
  by_cases htop : number.limbs.getLastD 0 &&& 2147483648 ≠ 0
  · rw [if_pos htop] at hlen
    rw [hlen, Nat.add_sub_cancel]
    have hx := (and_top_bit_ne_zero _ hxlt).1 htop
    have hpow : (4294967296 : Nat) ^ number.limbs.length =
        4294967296 ^ (number.limbs.length - 1) * 4294967296 := by
      rw [← pow_succ]; congr 1; omega
    have h1 : 4294967296 ^ (number.limbs.length - 1) * 2147483648 ≤
        4294967296 ^ (number.limbs.length - 1) * number.limbs.getLastD 0 :=
      Nat.mul_le_mul_left _ hx
    rw [hpow]
    omega
  · rw [if_neg htop] at hlen
    rw [hlen]
    omega

theorem iterate_shift_left_basic_tight (k : Nat) (number : bigint)
    (hok : limbs_ok number.limbs) (hne : number.limbs ≠ [])
    (ht : 4294967296 ^ (number.limbs.length - 1) ≤ limbs_value number.limbs) :
    4294967296 ^ ((Nat.iterate bigint_shift_left_basic k number).limbs.length - 1) ≤
        limbs_value (Nat.iterate bigint_shift_left_basic k number).limbs ∧
      (Nat.iterate bigint_shift_left_basic k number).sign = number.sign := by
  induction k generalizing number with
  | zero => exact ⟨ht, rfl⟩
  | succ k ih =>
    obtain ⟨-, h2, h3⟩ := bigint_shift_left_basic_spec number hok hne
    obtain ⟨i1, i2⟩ := ih (bigint_shift_left_basic number) h2 h3
      (bigint_shift_left_basic_tight number hok hne ht)
    rw [Function.iterate_succ_apply]
    exact ⟨i1, by rw [i2, bigint_shift_left_basic_sign_eq]⟩

theorem bigint_shift_left_sign (number : bigint) (count : Nat) :
    (bigint_shift_left number count).sign = number.sign := by
  have hiter : ∀ k (n : bigint), (Nat.iterate bigint_shift_left_basic k n).sign = n.sign := by
    intro k
    induction k with
    | zero => intro n; rfl
    | succ k ih =>
      intro n
      rw [Function.iterate_succ_apply, ih, bigint_shift_left_basic_sign_eq]
  unfold bigint_shift_left
  split
  · rfl
  · rw [hiter]
    rfl

theorem tight_of_pos (l : List Nat) (hz : no_high_zero l) (hpos : 0 < limbs_value l) :
    4294967296 ^ (l.length - 1) ≤ limbs_value l := by
  by_cases h : 1 < l.length
  · exact le_limbs_value l hz h
  · have : l.length - 1 = 0 := by omega
    rw [this, pow_zero]
    exact hpos

/-- `bigint_shift_left` on a non-zero trimmed chain: the result is trimmed, and the sign
byte is as before. -/
theorem bigint_shift_left_trimmed (number : bigint) (count : Nat)
    (hok : limbs_ok number.limbs) (hne : number.limbs ≠ []) (hz : no_high_zero number.limbs)
    (hpos : 0 < limbs_value number.limbs) :
    no_high_zero (bigint_shift_left number count).limbs ∧
      (bigint_shift_left number count).sign = number.sign := by
  obtain ⟨-, s2, -⟩ := bigint_shift_left_spec number count hok hne
  refine ⟨no_high_zero_of_le _ s2 ?_, ?_⟩
  · unfold bigint_shift_left
    split
    · exact tight_of_pos _ hz hpos
    · have hok2 : limbs_ok (add_segments_beginning number (count / 32)).limbs :=
        limbs_ok_append.2 ⟨limbs_ok_replicate_zero _, hok⟩
      have hne2 : (add_segments_beginning number (count / 32)).limbs ≠ [] := by
        simp [add_segments_beginning, hne]
      refine (iterate_shift_left_basic_tight (count % 32) _ hok2 hne2 ?_).1
      simp only [add_segments_beginning]
      rw [limbs_value_append, limbs_value_replicate_zero, List.length_replicate, zero_add,
        List.length_append, List.length_replicate]
      have hn : 1 ≤ number.limbs.length := by
        have : number.limbs.length ≠ 0 := by simpa using hne
        omega
      have e : count / 32 + number.limbs.length - 1 = count / 32 + (number.limbs.length - 1) := by
        omega
      rw [e, pow_add]
      exact Nat.mul_le_mul_left _ (tight_of_pos _ hz hpos)
  · exact bigint_shift_left_sign number count

theorem limbs_zero_of_value (l : List Nat) (h : limbs_value l = 0) :
    l = List.replicate l.length 0 := by
  induction l with
  | nil => rfl
  | cons x rest ih =>
    simp only [limbs_value] at h
    have hx : x = 0 := by omega
    have hr : limbs_value rest = 0 := by omega
    rw [List.length_cons, List.replicate_succ, ← ih hr, hx]

theorem iterate_shift_left_basic_zero (k : Nat) (number : bigint)
    (hok : limbs_ok number.limbs) (hne : number.limbs ≠ [])
    (h0 : limbs_value number.limbs = 0) :
    (Nat.iterate bigint_shift_left_basic k number).limbs.length = number.limbs.length ∧
      limbs_value (Nat.iterate bigint_shift_left_basic k number).limbs = 0 := by
  induction k generalizing number with
  | zero => exact ⟨rfl, h0⟩
  | succ k ih =>
    obtain ⟨h1, h2, h3⟩ := bigint_shift_left_basic_spec number hok hne
    have hval := last_of_chain number.limbs hne
    have hp : 0 < 4294967296 ^ (number.limbs.length - 1) := Nat.pow_pos (by decide)
    have hlast : number.limbs.getLastD 0 = 0 := by
      rw [h0] at hval
      have := Nat.eq_zero_of_add_eq_zero_left hval.symm
      rcases Nat.mul_eq_zero.1 this with h | h
      · omega
      · exact h
    have hlen := bigint_shift_left_basic_length number
    rw [hlast] at hlen
    simp only [Nat.zero_and, ne_eq, not_true_eq_false, if_false] at hlen
    obtain ⟨i1, i2⟩ := ih (bigint_shift_left_basic number) h2 h3 (by rw [h1, h0])
    rw [Function.iterate_succ_apply]
    exact ⟨by rw [i1, hlen], i2⟩

/-- `bigint_shift_left` on the chain of one zero node: `count / 32` zero nodes are added and
nothing is trimmed. -/
theorem bigint_shift_left_zero (sign count : Nat) :
    (bigint_shift_left ⟨[0], sign⟩ count).limbs = List.replicate (count / 32 + 1) 0 := by
  have key : (bigint_shift_left ⟨[0], sign⟩ count).limbs.length = count / 32 + 1 ∧
      limbs_value (bigint_shift_left ⟨[0], sign⟩ count).limbs = 0 := by
    unfold bigint_shift_left
    split
    · next h => subst h; exact ⟨rfl, rfl⟩
    · have hok2 : limbs_ok (add_segments_beginning ⟨[0], sign⟩ (count / 32)).limbs :=
        limbs_ok_append.2 ⟨limbs_ok_replicate_zero _, (show limbs_ok [0] by decide)⟩
      have hne2 : (add_segments_beginning ⟨[0], sign⟩ (count / 32)).limbs ≠ [] := by
        simp [add_segments_beginning]
      have h0 : limbs_value (add_segments_beginning ⟨[0], sign⟩ (count / 32)).limbs = 0 := by
        simp only [add_segments_beginning]
        rw [limbs_value_append, limbs_value_replicate_zero]
        simp [limbs_value]
      obtain ⟨i1, i2⟩ := iterate_shift_left_basic_zero (count % 32) _ hok2 hne2 h0
      refine ⟨?_, i2⟩
      rw [i1]
      simp [add_segments_beginning]
  have := limbs_zero_of_value _ key.2
  rw [key.1] at this
  exact this

theorem not_no_high_zero_replicate (m : Nat) (hm : 1 ≤ m) :
    ¬ no_high_zero (List.replicate (m + 1) 0) := by
  intro h
  have h1 := h (by simp; omega)
  apply h1
  rw [List.replicate_succ', List.getLast?_append]
  simp

/-! ## Canonical values are determined by the integer they represent -/

theorem limbs_eq_of_length_value (a b : List Nat) (ha : limbs_ok a) (hb : limbs_ok b)
    (hlen : a.length = b.length) (hval : limbs_value a = limbs_value b) : a = b := by
  induction a generalizing b with
  | nil =>
    cases b with
    | nil => rfl
    | cons y bs => simp at hlen
  | cons x as ih =>
    cases b with
    | nil => simp at hlen
    | cons y bs =>
      have hx : x < 4294967296 := ha x (List.mem_cons_self _ _)
      have hy : y < 4294967296 := hb y (List.mem_cons_self _ _)
      simp only [limbs_value] at hval
      have hxy : x = y := by omega
      have hrest : limbs_value as = limbs_value bs := by omega
      rw [hxy, ih bs (fun z hz => ha z (List.mem_cons_of_mem _ hz))
        (fun z hz => hb z (List.mem_cons_of_mem _ hz)) (by simpa using hlen) hrest]

theorem limbs_eq_of_value (a b : List Nat) (ha : limbs_ok a) (hb : limbs_ok b)
    (hane : a ≠ []) (hbne : b ≠ []) (haz : no_high_zero a) (hbz : no_high_zero b)
    (hval : limbs_value a = limbs_value b) : a = b := by
  have h1 := length_le_of_value_le a b haz hb hbne (by omega)
  have h2 := length_le_of_value_le b a hbz ha hane (by omega)
  exact limbs_eq_of_length_value a b ha hb (by omega) hval

theorem canonical_eq_of_toInt (x y : bigint) (hx : canonical x) (hy : canonical y)
    (h : x.toInt = y.toInt) : x = y := by
  have sx := canonical_sign_iff x hx
  have sy := canonical_sign_iff y hy
  have hsign : x.sign = y.sign := by
    rcases canonical_sign x hx with h0 | h0 <;> rcases canonical_sign y hy with h1 | h1
    · rw [h0, h1]
    · have := sy.1 h1
      rw [← h] at this
      have := sx.2 this
      omega
    · have := sx.1 h0
      rw [h] at this
      have := sy.2 this
      omega
    · rw [h0, h1]
  have hval : limbs_value x.limbs = limbs_value y.limbs := by
    rcases canonical_sign x hx with h0 | h0
    · rw [toInt_sign_zero x h0, toInt_sign_zero y (by rw [← hsign, h0])] at h
      exact_mod_cast h
    · rw [toInt_sign_one x h0, toInt_sign_one y (by rw [← hsign, h0])] at h
      omega
  have hl := limbs_eq_of_value x.limbs y.limbs hx.2.1 hy.2.1 hx.2.2.1 hy.2.2.1 hx.2.2.2.1
    hy.2.2.2.1 hval
  cases x
  cases y
  simp only at hsign hl
  rw [hsign, hl]

/-- `bigint_add` on canonical summands. -/
theorem bigint_add_spec (dest : bigint) (vs : List bigint) (hk : 1 ≤ vs.length)
    (hc : ∀ v ∈ vs, canonical v) :
    ∃ r, bigint_add dest vs = .ok r ∧ canonical r ∧ r.toInt = (vs.map bigint.toInt).sum := by
  obtain ⟨r, h1, h2, h3⟩ := bigint_add_fold_spec vs { limbs := [0], sign := 0 } (by decide) hc
  have hrun : bigint_add dest vs = .ok { dest with limbs := r.limbs, sign := r.sign } := by
    unfold bigint_add
    rw [if_neg (by omega), bigint_create_zero]
    show (do
      let temp_sum ← vs.foldlM (fun t v => bigint_add_sign t t v) { limbs := [0], sign := 0 }
      pure { dest with limbs := temp_sum.limbs, sign := temp_sum.sign }) = _
    rw [h1]
    rfl
  refine ⟨{ dest with limbs := r.limbs, sign := r.sign }, hrun, h2, ?_⟩
  have : ({ dest with limbs := r.limbs, sign := r.sign } : bigint) = r := rfl
  rw [this, h3]
  simp [bigint.toInt, bigint.magnitude, limbs_value]

end Bigint

namespace Bigint

/-! ## Fixed-width conversion -/

/-- The deletion loop on a chain of at least three nodes whose last node is zero: the second
round dereferences the pointer read from the freed node. -/
theorem delete_leading_nodes_stale (rounds : Nat) (l : List Nat) (hr : 2 ≤ rounds)
    (hlast : l.getLast? = some 0) : delete_leading_nodes rounds false l = none := by
  match rounds, hr with
  | n + 2, _ =>
    simp only [delete_leading_nodes]
    rw [if_neg (by simp), if_pos hlast, if_pos trivial]

theorem range_map_getD (l : List Nat) :
    (List.range l.length).map (fun i => l.getD i 0) = l := by
  apply List.ext_getElem
  · simp
  · intro i h1 h2
    simp [List.getD_eq_getElem?_getD, h2]

theorem range_map_getD_reverse (l : List Nat) :
    (List.range l.length).map (fun i => l.getD (l.length - i - 1) 0) = l.reverse := by
  apply List.ext_getElem
  · simp
  · intro i h1 h2
    have hi : i < l.length := by simpa using h2
    have h3 : l.length - i - 1 < l.length := by omega
    simp only [List.getElem_map, List.getElem_range, List.getElem_reverse]
    rw [List.getD_eq_getElem?_getD, List.getElem?_eq_getElem h3]
    simp only [Option.getD_some]
    congr 1
    omega

/-- `bigint_convert_to_bigint` on a buffer of three or more whole words whose most
significant word is zero: the deletion loop frees the node of that word and in its second
round follows the pointer it has read from the freed node. -/
theorem bigint_convert_to_bigint_stale (endianness : Int) (integer32 : List Nat)
    (length : Nat) (h4 : length % 4 = 0) (hlen : integer32.length = length / 4)
    (hlong : 12 ≤ length)
    (htop : (if endianness = -1 then integer32.getLast? else integer32.head?) = some 0) :
    bigint_convert_to_bigint endianness integer32 length = none := by
  unfold bigint_convert_to_bigint
  rw [if_neg (by omega), if_neg (by omega)]
  simp only
  by_cases he : endianness = -1
  · simp only [he, if_true] at htop ⊢
    rw [← hlen, range_map_getD,
      delete_leading_nodes_stale (integer32.length - 1) integer32 (by omega) htop]
    rfl
  · simp only [he, if_false] at htop ⊢
    rw [← hlen, range_map_getD_reverse,
      delete_leading_nodes_stale (integer32.length - 1) integer32.reverse (by omega)
        (by rw [List.getLast?_reverse]; exact htop)]
    rfl

theorem convert_max_value (endianness : Int) :
    bigint_convert_to_bigint endianness [4294967295, 4294967295] 8 =
      some (.ok ⟨[4294967295, 4294967295], 0⟩) := by
  by_cases he : endianness = -1
  · subst he
    rfl
  · simp [bigint_convert_to_bigint, he, List.range, List.range.loop, delete_leading_nodes]

/-- `bigint_convert_to_int` on a trimmed chain: the call fails exactly when the magnitude
exceeds `UINTMAX_MAX`; otherwise the destination holds the magnitude on a little-endian host
and, on a big-endian host, the magnitude of a two-node chain but `2^32` times the magnitude
of a one-node chain. -/
theorem bigint_convert_to_int_spec (endianness : Int) (v : bigint) (hok : limbs_ok v.limbs)
    (hne : v.limbs ≠ []) (hz : no_high_zero v.limbs) :
    (18446744073709551615 < limbs_value v.limbs →
      bigint_convert_to_int endianness v =
        .error bigint_error_code.BIGINT_TOO_LARGE_BIGINT_TO_CONVERT) ∧
    (limbs_value v.limbs ≤ 18446744073709551615 →
      bigint_convert_to_int endianness v =
        .ok (if endianness = -1 then limbs_value v.limbs
          else if v.limbs.length = 1 then 4294967296 * limbs_value v.limbs
          else limbs_value v.limbs)) := by
  have hcmp := bigint_compare_absolute_spec ⟨[4294967295, 4294967295], 0⟩ v (by decide)
    (by decide) (by decide) hok hne hz
  have hmax : limbs_value [4294967295, 4294967295] = 18446744073709551615 := by rfl
  simp only [hmax] at hcmp
  unfold bigint_convert_to_int
  rw [convert_max_value]
  simp only
  constructor
  · intro hbig
    have hc1 : bigint_compare_absolute ⟨[4294967295, 4294967295], 0⟩ v = -1 := by
      rw [hcmp, if_pos hbig]
    rw [if_pos (decide_eq_true hc1)]
  · intro hfit
    have hnot : ¬ 18446744073709551615 < limbs_value v.limbs := by omega
    have hc1 : ¬ bigint_compare_absolute ⟨[4294967295, 4294967295], 0⟩ v = -1 := by
      rw [hcmp, if_neg hnot]
      split <;> decide
    rw [if_neg (by simpa using hc1)]
    have hl := length_le_of_value_le v.limbs [4294967295, 4294967295] hz (by decide)
      (by decide) (by rw [hmax]; exact hfit)
    congr 1
    match hv : v.limbs, hne, hl with
    | [a], _, _ =>
      by_cases he : endianness = -1
      · simp [convert_loop, uintmax_of_words, he, limbs_value]
      · simp [convert_loop, uintmax_of_words, he, limbs_value]
    | [a, b], _, _ =>
      by_cases he : endianness = -1
      · simp [convert_loop, uintmax_of_words, he, limbs_value]
      · simp [convert_loop, uintmax_of_words, he, limbs_value]

end Bigint

namespace Bigint

/-! ## Claims on the inverse of addition and on the shifts -/

/-- C21: for canonical `a` and `b`, subtracting `b` from the value `bigint_add` leaves for
`a + b` gives `a`, and adding `b` to the value `bigint_subtract` leaves for `a - b` gives
`a`: the same sign byte and the same chain, whatever the destinations held. -/
theorem subtract_inverts_add (d1 d2 a b : bigint) (ha : canonical a) (hb : canonical b) :
    (∃ s, bigint_add d1 [a, b] = .ok s ∧ bigint_subtract d2 s b = .ok a) ∧
      (∃ t, bigint_subtract d1 a b = .ok t ∧ bigint_add d2 [t, b] = .ok a) := by
  constructor
  · obtain ⟨s, s1, s2, s3⟩ := bigint_add_spec d1 [a, b] (by simp)
      (by intro v hv; simp at hv; rcases hv with rfl | rfl <;> assumption)
    obtain ⟨r, r1, r2, r3⟩ := bigint_subtract_spec d2 s b s2 hb
    have : r = a := canonical_eq_of_toInt r a r2 ha (by rw [r3, s3]; simp)
    exact ⟨s, s1, by rw [r1, this]⟩
  · obtain ⟨t, t1, t2, t3⟩ := bigint_subtract_spec d1 a b ha hb
    obtain ⟨r, r1, r2, r3⟩ := bigint_add_spec d2 [t, b] (by simp)
      (by intro v hv; simp at hv; rcases hv with rfl | rfl <;> assumption)
    have : r = a := canonical_eq_of_toInt r a r2 ha (by rw [r3]; simp [t3])
    exact ⟨t, t1, by rw [r1, this]⟩

/-- The statement of C21 at `a = -(2^32 + 5)` and `b = 7`, with the intermediate values. -/
theorem subtract_inverts_add_witness :
    (canonical ⟨[5, 1], 1⟩ ∧ canonical ⟨[7], 0⟩) ∧
    ((∃ s, bigint_add ⟨[9], 1⟩ [⟨[5, 1], 1⟩, ⟨[7], 0⟩] = .ok s ∧
        bigint_subtract ⟨[3, 3], 0⟩ s ⟨[7], 0⟩ = .ok ⟨[5, 1], 1⟩) ∧
      (∃ t, bigint_subtract ⟨[9], 1⟩ ⟨[5, 1], 1⟩ ⟨[7], 0⟩ = .ok t ∧
        bigint_add ⟨[3, 3], 0⟩ [t, ⟨[7], 0⟩] = .ok ⟨[5, 1], 1⟩)) ∧
    bigint_add ⟨[9], 1⟩ [⟨[5, 1], 1⟩, ⟨[7], 0⟩] = .ok ⟨[4294967294], 1⟩ ∧
    bigint_subtract ⟨[9], 1⟩ ⟨[5, 1], 1⟩ ⟨[7], 0⟩ = .ok ⟨[12, 1], 1⟩ :=
  ⟨⟨by decide, by decide⟩,
    subtract_inverts_add ⟨[9], 1⟩ ⟨[3, 3], 0⟩ ⟨[5, 1], 1⟩ ⟨[7], 0⟩ (by decide) (by decide),
    by rfl, by rfl⟩

/-- C22: for every canonical `v` and every `k`, after `bigint_shift_left(v, k)` the
represented integer is `v * 2^k`, and for a non-negative canonical `v` after
`bigint_shift_right(v, k)` it is `floor(v / 2^k)`. -/
theorem shift_consistency (v : bigint) (k : Nat) (hv : canonical v) :
    (bigint_shift_left v k).toInt = v.toInt * 2 ^ k ∧
      (v.sign = 0 → (bigint_shift_right v k).toInt = v.toInt / 2 ^ k) := by
  obtain ⟨l1, -, -⟩ := bigint_shift_left_spec v k hv.2.1 hv.2.2.1
  have lsign := bigint_shift_left_sign v k
  obtain ⟨r1, -, -, -, rsign⟩ := bigint_shift_right_spec v k hv.2.1 hv.2.2.1 hv.2.2.2.1
  constructor
  · rcases canonical_sign v hv with hs | hs
    · rw [toInt_sign_zero _ (by rw [lsign, hs]), toInt_sign_zero _ hs, l1]
      push_cast
      ring
    · rw [toInt_sign_one _ (by rw [lsign, hs]), toInt_sign_one _ hs, l1]
      push_cast
      ring
  · intro hs
    rw [toInt_sign_zero _ (by rw [rsign, hs]), toInt_sign_zero _ hs, r1]
    push_cast
    rfl

/-- The statement of C22 at `v = -(2^32 + 5)`, `k = 33` for the left shift and at
`v = 2^32 + 5`, `k = 33` for the right shift, with results the code leaves. -/
theorem shift_consistency_witness :
    (canonical ⟨[5, 1], 1⟩ ∧ canonical ⟨[5, 1], 0⟩ ∧ (⟨[5, 1], 0⟩ : bigint).sign = 0) ∧
    (bigint_shift_left ⟨[5, 1], 1⟩ 33).toInt = (⟨[5, 1], 1⟩ : bigint).toInt * 2 ^ 33 ∧
    (bigint_shift_right ⟨[5, 1], 0⟩ 33).toInt = (⟨[5, 1], 0⟩ : bigint).toInt / 2 ^ 33 ∧
    bigint_shift_left ⟨[5, 1], 1⟩ 33 = ⟨[0, 10, 2], 1⟩ ∧
    bigint_shift_right ⟨[5, 1], 0⟩ 3 = ⟨[536870912], 0⟩ ∧
    bigint_shift_right ⟨[7], 0⟩ 3 = ⟨[0], 0⟩ :=
  ⟨⟨by decide, by decide, by decide⟩,
    (shift_consistency ⟨[5, 1], 1⟩ 33 (by decide)).1,
    (shift_consistency ⟨[5, 1], 0⟩ 33 (by decide)).2 (by decide),
    by rfl, by rfl, by rfl⟩

/-- C23 fails on the code for the value zero: `bigint_shift_left` inserts `count / 32` zero
nodes below the chain and never trims, so zero shifted by 32 or more is left as a chain of
`count / 32 + 1` zero nodes.  For a canonical value other than zero the result is canonical. -/
theorem bigint_shift_left_canonical (v : bigint) (k : Nat) (hv : canonical v) :
    (v.magnitude ≠ 0 → canonical (bigint_shift_left v k)) ∧
      (v.magnitude = 0 →
        (bigint_shift_left v k).limbs = List.replicate (k / 32 + 1) 0 ∧
          (32 ≤ k → ¬ no_high_zero (bigint_shift_left v k).limbs ∧
            ¬ canonical (bigint_shift_left v k))) := by
  unfold bigint.magnitude
  constructor
  · intro hne
    have hpos : 0 < limbs_value v.limbs := Nat.pos_of_ne_zero hne
    obtain ⟨l1, l2, l3⟩ := bigint_shift_left_spec v k hv.2.1 hv.2.2.1
    obtain ⟨t1, t2⟩ := bigint_shift_left_trimmed v k hv.2.1 hv.2.2.1 hv.2.2.2.1 hpos
    refine ⟨by rw [t2]; exact hv.1, l2, l3, t1, ?_⟩
    intro hl
    have : limbs_value (bigint_shift_left v k).limbs = 0 := by rw [hl]; rfl
    rw [l1] at this
    have hp : 0 < 2 ^ k := Nat.pow_pos (by decide)
    rcases Nat.mul_eq_zero.1 this with h | h <;> omega
  · intro h0
    have hl := limbs_eq_zero_of_value v.limbs hv.2.2.1 hv.2.2.2.1 h0
    have hvz : v = ⟨[0], v.sign⟩ := by
      cases v
      simp only at hl
      rw [hl]
    have hrep : (bigint_shift_left v k).limbs = List.replicate (k / 32 + 1) 0 := by
      rw [hvz]
      exact bigint_shift_left_zero v.sign k
    refine ⟨hrep, fun hk => ?_⟩
    have hnot : ¬ no_high_zero (bigint_shift_left v k).limbs := by
      rw [hrep]
      exact not_no_high_zero_replicate (k / 32) (by omega)
    exact ⟨hnot, fun hc => hnot hc.2.2.2.1⟩

/-- The statement above at zero shifted by 32, which is left with two zero nodes, and at
`2^31` shifted by 33. -/
theorem bigint_shift_left_canonical_witness :
    (canonical ⟨[0], 0⟩ ∧ (⟨[0], 0⟩ : bigint).magnitude = 0 ∧ 32 ≤ 32) ∧
    ((bigint_shift_left ⟨[0], 0⟩ 32).limbs = List.replicate (32 / 32 + 1) 0 ∧
      (32 ≤ 32 → ¬ no_high_zero (bigint_shift_left ⟨[0], 0⟩ 32).limbs ∧
        ¬ canonical (bigint_shift_left ⟨[0], 0⟩ 32))) ∧
    bigint_shift_left ⟨[0], 0⟩ 32 = ⟨[0, 0], 0⟩ ∧
    (canonical ⟨[2147483648], 1⟩ ∧ (⟨[2147483648], 1⟩ : bigint).magnitude ≠ 0) ∧
    canonical (bigint_shift_left ⟨[2147483648], 1⟩ 33) ∧
    bigint_shift_left ⟨[2147483648], 1⟩ 33 = ⟨[0, 0, 1], 1⟩ :=
  ⟨⟨by decide, by decide, by decide⟩,
    (bigint_shift_left_canonical ⟨[0], 0⟩ 32 (by decide)).2 (by decide),
    by rfl,
    ⟨by decide, by decide⟩,
    (bigint_shift_left_canonical ⟨[2147483648], 1⟩ 33 (by decide)).1 (by decide),
    by rfl⟩

/-- C24 fails on the code for negative values: `bigint_shift_right` keeps the chain trimmed
and halves the magnitude `count` times, but never touches the sign byte, so a negative `v`
with `|v| < 2^count` is left as the negative zero (one zero node, sign `1`). -/
theorem bigint_shift_right_keeps_sign (v : bigint) (k : Nat) (hv : canonical v) :
    limbs_ok (bigint_shift_right v k).limbs ∧ (bigint_shift_right v k).limbs ≠ [] ∧
      no_high_zero (bigint_shift_right v k).limbs ∧
      (bigint_shift_right v k).magnitude = v.magnitude / 2 ^ k ∧
      (bigint_shift_right v k).sign = v.sign ∧
      (v.sign = 1 → v.magnitude < 2 ^ k →
        bigint_shift_right v k = ⟨[0], 1⟩ ∧ ¬ canonical (bigint_shift_right v k)) := by
  obtain ⟨r1, r2, r3, r4, r5⟩ := bigint_shift_right_spec v k hv.2.1 hv.2.2.1 hv.2.2.2.1
  refine ⟨r2, r3, r4, r1, r5, fun hs hlt => ?_⟩
  unfold bigint.magnitude at hlt
  have h0 : limbs_value (bigint_shift_right v k).limbs = 0 := by
    rw [r1, Nat.div_eq_of_lt hlt]
  have hl := limbs_eq_zero_of_value _ r3 r4 h0
  have heq : bigint_shift_right v k = ⟨[0], 1⟩ := by
    have hs2 : (bigint_shift_right v k).sign = 1 := by rw [r5, hs]
    generalize bigint_shift_right v k = w at hl hs2
    cases w
    simp only at hl hs2
    rw [hl, hs2]
  exact ⟨heq, by rw [heq]; decide⟩

/-- The statement above at `v = -1`, `k = 1`, with the results for `-(2^32 + 1)` shifted by
1 and `-3` shifted by 2. -/
theorem bigint_shift_right_keeps_sign_witness :
    (canonical ⟨[1], 1⟩ ∧ (⟨[1], 1⟩ : bigint).sign = 1 ∧ (⟨[1], 1⟩ : bigint).magnitude < 2 ^ 1) ∧
    (bigint_shift_right ⟨[1], 1⟩ 1 = ⟨[0], 1⟩ ∧ ¬ canonical (bigint_shift_right ⟨[1], 1⟩ 1)) ∧
    bigint_shift_right ⟨[1, 1], 1⟩ 1 = ⟨[2147483648], 1⟩ ∧
    bigint_shift_right ⟨[3], 1⟩ 2 = ⟨[0], 1⟩ :=
  ⟨⟨by decide, by decide, by decide⟩,
    (bigint_shift_right_keeps_sign ⟨[1], 1⟩ 1 (by decide)).2.2.2.2.2 (by decide) (by decide),
    by rfl, by rfl⟩

end Bigint

namespace Bigint

/-! ## Claims on signed increment and decrement -/

/-- C25: for every canonical `v`, `bigint_increment` changes the represented integer to
`v + 1` and `bigint_decrement` changes it to `v - 1`, for positive, zero and negative `v`;
the decrement of `0` is `-1` and the increment of `-1` is the zero of sign `0`. -/
theorem bigint_increment_decrement_correct (v : bigint) (hv : canonical v) :
    (bigint_increment v).toInt = v.toInt + 1 ∧ (bigint_decrement v).toInt = v.toInt - 1 ∧
      bigint_decrement ⟨[0], 0⟩ = ⟨[1], 1⟩ ∧ bigint_increment ⟨[1], 1⟩ = ⟨[0], 0⟩ :=
  ⟨(bigint_increment_spec v hv).1, (bigint_decrement_spec v hv).1, by rfl, by rfl⟩

/-- The statement of C25 at `v = -(2^32)` and at `v = 2^32 - 1`, with the values the code
leaves. -/
theorem bigint_increment_decrement_correct_witness :
    (canonical ⟨[0, 1], 1⟩ ∧ canonical ⟨[4294967295], 0⟩) ∧
    ((bigint_increment ⟨[0, 1], 1⟩).toInt = (⟨[0, 1], 1⟩ : bigint).toInt + 1 ∧
      (bigint_decrement ⟨[0, 1], 1⟩).toInt = (⟨[0, 1], 1⟩ : bigint).toInt - 1 ∧
      bigint_decrement ⟨[0], 0⟩ = ⟨[1], 1⟩ ∧ bigint_increment ⟨[1], 1⟩ = ⟨[0], 0⟩) ∧
    (bigint_increment ⟨[4294967295], 0⟩).toInt = (⟨[4294967295], 0⟩ : bigint).toInt + 1 ∧
    bigint_increment ⟨[4294967295], 0⟩ = ⟨[0, 1], 0⟩ ∧
    bigint_decrement ⟨[0, 1], 1⟩ = ⟨[1, 1], 1⟩ ∧
    bigint_decrement ⟨[1], 0⟩ = ⟨[0], 0⟩ :=
  ⟨⟨by decide, by decide⟩,
    bigint_increment_decrement_correct ⟨[0, 1], 1⟩ (by decide),
    (bigint_increment_decrement_correct ⟨[4294967295], 0⟩ (by decide)).1,
    by rfl, by rfl, by rfl⟩

/-- C26 fails on the code: `bigint_decrement_basic` deletes the carry node and nothing else,
so the chain keeps its number of nodes.  For a canonical non-zero `v`, the decrement of a
positive `v` and the increment of a negative `v` leave a chain as long as that of `v`, with
the magnitude `|v| - 1`; when `|v|` is the power `2^(32 (n - 1))` of an `n`-node chain,
`n > 1`, the high node of the result is zero. -/
theorem bigint_decrement_keeps_length (v : bigint) (hv : canonical v)
    (hpos : 0 < v.magnitude) :
    (v.sign = 0 → (bigint_decrement v).limbs.length = v.limbs.length ∧
        (bigint_decrement v).magnitude + 1 = v.magnitude) ∧
      (v.sign = 1 → (bigint_increment v).limbs.length = v.limbs.length ∧
        (bigint_increment v).magnitude + 1 = v.magnitude) ∧
      (1 < v.limbs.length → v.magnitude = 4294967296 ^ (v.limbs.length - 1) →
        (v.sign = 0 → ¬ no_high_zero (bigint_decrement v).limbs) ∧
        (v.sign = 1 → ¬ no_high_zero (bigint_increment v).limbs)) := by
  unfold bigint.magnitude at hpos ⊢
  obtain ⟨d1, d2, d3, d4⟩ := bigint_decrement_basic_spec v hv.2.1 hpos
  have hnz : ¬ (v.limbs.length = 1 ∧ v.limbs.head? = some 0) := by
    intro h
    have := (single_zero_iff v.limbs hv.2.2.1 hv.2.2.2.1).1 h
    omega
  have hdec : v.sign = 0 → (bigint_decrement v).limbs = (bigint_decrement_basic v).limbs := by
    intro hs
    unfold bigint_decrement
    rw [if_neg hnz, if_pos hs]
  have hinc : v.sign = 1 → (bigint_increment v).limbs = (bigint_decrement_basic v).limbs := by
    intro hs
    unfold bigint_increment
    rw [if_neg (by omega)]
    simp only
    split <;> rfl
  refine ⟨fun hs => ?_, fun hs => ?_, fun hlen hval => ⟨fun hs => ?_, fun hs => ?_⟩⟩
  · rw [hdec hs]
    exact ⟨d3, d1⟩
  · rw [hinc hs]
    exact ⟨d3, d1⟩
  · rw [hdec hs]
    intro hz
    have := le_limbs_value _ hz (by rw [d3]; exact hlen)
    rw [d3] at this
    omega
  · rw [hinc hs]
    intro hz
    have := le_limbs_value _ hz (by rw [d3]; exact hlen)
    rw [d3] at this
    omega

/-- The statement above at `v = 2^32` and `v = -(2^32)`: the decrement of the first and the
increment of the second leave the nodes `[4294967295, 0]`. -/
theorem bigint_decrement_keeps_length_witness :
    (canonical ⟨[0, 1], 0⟩ ∧ 0 < (⟨[0, 1], 0⟩ : bigint).magnitude ∧
      1 < (⟨[0, 1], 0⟩ : bigint).limbs.length ∧
      (⟨[0, 1], 0⟩ : bigint).magnitude = 4294967296 ^ ((⟨[0, 1], 0⟩ : bigint).limbs.length - 1) ∧
      (⟨[0, 1], 0⟩ : bigint).sign = 0) ∧
    ¬ no_high_zero (bigint_decrement ⟨[0, 1], 0⟩).limbs ∧
    bigint_decrement ⟨[0, 1], 0⟩ = ⟨[4294967295, 0], 0⟩ ∧
    bigint_increment ⟨[0, 1], 1⟩ = ⟨[4294967295, 0], 1⟩ ∧
    ¬ canonical ⟨[4294967295, 0], 0⟩ :=
  ⟨⟨by decide, by decide, by decide, by decide, by decide⟩,
    ((bigint_decrement_keeps_length ⟨[0, 1], 0⟩ (by decide) (by decide)).2.2
      (by decide) (by decide)).1 (by decide),
    by rfl, by rfl, by decide⟩

end Bigint

namespace Bigint

/-! ## Claims on the fixed-width conversions and on `bigint_not` -/

/-- The buffers left out of the amended statement of C27: with 12 bytes and a zero most
significant word the deletion loop frees the node of that word and, in its second round,
follows the pointer it has read from the freed node. -/
theorem bigint_convert_to_bigint_stale_example :
    bigint_convert_to_bigint BIGINT_LITTLE_ENDIAN [7, 1, 0] 12 = none ∧
      bigint_convert_to_bigint BIGINT_LITTLE_ENDIAN [7, 0, 0] 12 = none ∧
      bigint_convert_to_bigint BIGINT_BIG_ENDIAN [0, 1, 7] 12 = none := by
  refine ⟨by rfl, by rfl, by rfl⟩

/-- C28 fails on the code on a big-endian host: the conversion loop of
`bigint_convert_to_int` stores node `i` at word `segments - i - 1` of the destination, so a
value of one node lands in the high word.  For every canonical `v` the call fails with
`BIGINT_TOO_LARGE_BIGINT_TO_CONVERT` exactly when `|v|` exceeds `UINTMAX_MAX`; otherwise the
destination holds `|v|` on a little-endian host and, on a big-endian host, `|v|` for a value
of two nodes but `2^32 * |v|` for a value of one node. -/
theorem bigint_convert_to_int_result (endianness : Int) (v : bigint) (hv : canonical v) :
    (bigint_convert_to_int endianness v =
          .error bigint_error_code.BIGINT_TOO_LARGE_BIGINT_TO_CONVERT ↔
        18446744073709551615 < v.magnitude) ∧
      (v.magnitude ≤ 18446744073709551615 → endianness = BIGINT_LITTLE_ENDIAN →
        bigint_convert_to_int endianness v = .ok v.magnitude) ∧
      (v.magnitude ≤ 18446744073709551615 → endianness ≠ BIGINT_LITTLE_ENDIAN →
        bigint_convert_to_int endianness v =
          .ok (if v.limbs.length = 1 then 4294967296 * v.magnitude else v.magnitude)) := by
  obtain ⟨h1, h2⟩ := bigint_convert_to_int_spec endianness v hv.2.1 hv.2.2.1 hv.2.2.2.1
  unfold bigint.magnitude
  refine ⟨⟨fun herr => ?_, h1⟩, fun hfit he => ?_, fun hfit he => ?_⟩
  · by_contra hcon
    rw [h2 (by omega)] at herr
    exact absurd herr (by simp)
  · rw [h2 hfit, if_pos (show endianness = -1 from he)]
  · rw [h2 hfit, if_neg (show ¬ endianness = -1 from he)]

/-- The statement above on a big-endian host at `v = 1`: the destination is left holding
`2^32`; on a little-endian host it holds `1`. -/
theorem bigint_convert_to_int_result_witness :
    (canonical ⟨[1], 0⟩ ∧ (⟨[1], 0⟩ : bigint).magnitude ≤ 18446744073709551615 ∧
      BIGINT_BIG_ENDIAN ≠ BIGINT_LITTLE_ENDIAN) ∧
    bigint_convert_to_int BIGINT_BIG_ENDIAN ⟨[1], 0⟩ =
      .ok (if (⟨[1], 0⟩ : bigint).limbs.length = 1 then 4294967296 * (⟨[1], 0⟩ : bigint).magnitude
        else (⟨[1], 0⟩ : bigint).magnitude) ∧
    bigint_convert_to_int BIGINT_BIG_ENDIAN ⟨[1], 0⟩ = .ok 4294967296 ∧
    bigint_convert_to_int BIGINT_LITTLE_ENDIAN ⟨[1], 0⟩ = .ok 1 ∧
    bigint_convert_to_int BIGINT_LITTLE_ENDIAN ⟨[7, 1], 1⟩ = .ok 4294967303 ∧
    bigint_convert_to_int BIGINT_LITTLE_ENDIAN ⟨[0, 0, 1], 0⟩ =
      .error bigint_error_code.BIGINT_TOO_LARGE_BIGINT_TO_CONVERT :=
  ⟨⟨by decide, by decide, by decide⟩,
    (bigint_convert_to_int_result BIGINT_BIG_ENDIAN ⟨[1], 0⟩ (by decide)).2.2
      (by decide) (by decide),
    by rfl, by rfl, by rfl, by rfl⟩

theorem not32_not32 (x : Nat) (h : x < 4294967296) : not32 (not32 x) = x := by
  unfold not32
  omega

theorem not32_testBit (x : Nat) (h : x < 4294967296) (i : Nat) (hi : i < 32) :
    (not32 x).testBit i = !x.testBit i := by
  have e : not32 x = 2 ^ 32 - (x + 1) := by
    unfold not32
    rw [Nat.mod_eq_of_lt h]
    norm_num
    omega
  rw [e, Nat.testBit_two_pow_sub_succ (by norm_num; exact h)]
  simp [hi]

/-- C30: for every value `v` (its nodes 32-bit words), `bigint_not` replaces each node by
its 32-bit ones-complement and changes neither the number of nodes nor the sign; applying
it twice restores `v`. -/
theorem bigint_not_involution (v : bigint) (hok : limbs_ok v.limbs) :
    (bigint_not v).limbs = v.limbs.map not32 ∧
      (∀ x ∈ v.limbs, not32 x < 4294967296 ∧ x + not32 x = 4294967295 ∧
        ∀ i < 32, (not32 x).testBit i = !x.testBit i) ∧
      (bigint_not v).limbs.length = v.limbs.length ∧ (bigint_not v).sign = v.sign ∧
      bigint_not (bigint_not v) = v := by
  refine ⟨rfl, fun x hx => ?_, by simp [bigint_not], rfl, ?_⟩
  · have hxl := hok x hx
    refine ⟨?_, ?_, fun i hi => not32_testBit x hxl i hi⟩
    · unfold not32; omega
    · unfold not32; omega
  · cases v with
    | mk limbs sign =>
      simp only [bigint_not, List.map_map]
      congr 1
      simp only at hok
      have : ∀ x ∈ limbs, (not32 ∘ not32) x = id x := fun x hx => not32_not32 x (hok x hx)
      rw [List.map_congr_left this, List.map_id]

/-- The statement of C30 at the value with nodes `[1, 4294967295, 0]` and sign `1`. -/
theorem bigint_not_involution_witness :
    limbs_ok (⟨[1, 4294967295, 0], 1⟩ : bigint).limbs ∧
    ((bigint_not ⟨[1, 4294967295, 0], 1⟩).limbs =
        (⟨[1, 4294967295, 0], 1⟩ : bigint).limbs.map not32 ∧
      (∀ x ∈ (⟨[1, 4294967295, 0], 1⟩ : bigint).limbs, not32 x < 4294967296 ∧
        x + not32 x = 4294967295 ∧ ∀ i < 32, (not32 x).testBit i = !x.testBit i) ∧
      (bigint_not ⟨[1, 4294967295, 0], 1⟩).limbs.length =
        (⟨[1, 4294967295, 0], 1⟩ : bigint).limbs.length ∧
      (bigint_not ⟨[1, 4294967295, 0], 1⟩).sign = (⟨[1, 4294967295, 0], 1⟩ : bigint).sign ∧
      bigint_not (bigint_not ⟨[1, 4294967295, 0], 1⟩) = ⟨[1, 4294967295, 0], 1⟩) ∧
    bigint_not ⟨[1, 4294967295, 0], 1⟩ = ⟨[4294967294, 0, 4294967295], 1⟩ :=
  ⟨by decide, bigint_not_involution ⟨[1, 4294967295, 0], 1⟩ (by decide), by rfl⟩

end Bigint

namespace Bigint

/-! ## Claims on the sign operations, on `divide` and on the decimal round trip -/

/-- C31 fails on the code for zero: `bigint_change_sign` sets the sign byte to `1` whenever
it is not `1`, without looking at the magnitude, so the canonical zero becomes the negative
zero.  For a canonical `v` other than zero the result is canonical and represents `-v`, with
the chain unchanged; `bigint_absolute_value` leaves the sign `0` and the chain unchanged. -/
theorem bigint_change_sign_result (v : bigint) (hv : canonical v) :
    (bigint_change_sign v).limbs = v.limbs ∧
      (v.magnitude ≠ 0 → canonical (bigint_change_sign v) ∧
        (bigint_change_sign v).sign = 1 - v.sign ∧
        (bigint_change_sign v).toInt = -v.toInt) ∧
      (v.magnitude = 0 → bigint_change_sign v = ⟨[0], 1⟩ ∧
        ¬ canonical (bigint_change_sign v)) ∧
      (bigint_absolute_value v).sign = 0 ∧ (bigint_absolute_value v).limbs = v.limbs := by
  unfold bigint.magnitude
  refine ⟨rfl, fun hne => ?_, fun h0 => ?_, rfl, rfl⟩
  · have hl : v.limbs ≠ [0] := by
      intro e
      rw [e] at hne
      exact hne rfl
    rcases canonical_sign v hv with hs | hs
    · refine ⟨⟨?_, hv.2.1, hv.2.2.1, hv.2.2.2.1, fun e => absurd e hl⟩, ?_, ?_⟩
      · simp [bigint_change_sign, hs]
      · simp [bigint_change_sign, hs]
      · rw [toInt_sign_one _ (by simp [bigint_change_sign, hs]), toInt_sign_zero _ hs]
        rfl
    · refine ⟨⟨?_, hv.2.1, hv.2.2.1, hv.2.2.2.1, fun e => absurd e hl⟩, ?_, ?_⟩
      · simp [bigint_change_sign, hs]
      · simp [bigint_change_sign, hs]
      · rw [toInt_sign_zero _ (by simp [bigint_change_sign, hs]), toInt_sign_one _ hs]
        simp only [neg_neg]
        rfl
  · have hl := limbs_eq_zero_of_value v.limbs hv.2.2.1 hv.2.2.2.1 h0
    have hs := hv.2.2.2.2 hl
    have heq : bigint_change_sign v = ⟨[0], 1⟩ := by
      cases v
      simp only at hl hs
      simp [bigint_change_sign, hl, hs]
    exact ⟨heq, by rw [heq]; decide⟩

/-- The statement above at the canonical zero, which is left as the negative zero, and at
`v = -(2^32 + 5)`. -/
theorem bigint_change_sign_result_witness :
    (canonical ⟨[0], 0⟩ ∧ (⟨[0], 0⟩ : bigint).magnitude = 0) ∧
    (bigint_change_sign ⟨[0], 0⟩ = ⟨[0], 1⟩ ∧ ¬ canonical (bigint_change_sign ⟨[0], 0⟩)) ∧
    (canonical ⟨[5, 1], 1⟩ ∧ (⟨[5, 1], 1⟩ : bigint).magnitude ≠ 0) ∧
    (canonical (bigint_change_sign ⟨[5, 1], 1⟩) ∧
      (bigint_change_sign ⟨[5, 1], 1⟩).sign = 1 - (⟨[5, 1], 1⟩ : bigint).sign ∧
      (bigint_change_sign ⟨[5, 1], 1⟩).toInt = -(⟨[5, 1], 1⟩ : bigint).toInt) ∧
    bigint_change_sign ⟨[5, 1], 1⟩ = ⟨[5, 1], 0⟩ ∧
    bigint_absolute_value ⟨[5, 1], 1⟩ = ⟨[5, 1], 0⟩ :=
  ⟨⟨by decide, by decide⟩,
    (bigint_change_sign_result ⟨[0], 0⟩ (by decide)).2.2.1 (by decide),
    ⟨by decide, by decide⟩,
    (bigint_change_sign_result ⟨[5, 1], 1⟩ (by decide)).2.1 (by decide),
    by rfl, by rfl⟩

/-- C33: for every array of `count` 32-bit words, most significant word first, that
represents `N`, and a zeroed quotient array of the same length, `divide` returns
`r = N mod 10^9`, so `0 ≤ r < 10^9`, and leaves the quotient array representing
`floor(N / 10^9)`.  (This needs neither `count ≥ 1` nor a non-zero first word.) -/
theorem divide_correct (divident : List Nat) (hok : limbs_ok divident) :
    (divide divident (List.replicate divident.length 0) divident.length).1 =
        array_value divident % 1000000000 ∧
      (divide divident (List.replicate divident.length 0) divident.length).1 < 1000000000 ∧
      array_value (divide divident (List.replicate divident.length 0) divident.length).2 =
        array_value divident / 1000000000 ∧
      (divide divident (List.replicate divident.length 0) divident.length).2.length =
        divident.length := by
  obtain ⟨h1, h2, -, h4⟩ := divide_spec divident hok
  refine ⟨h1, ?_, h2, h4⟩
  rw [h1]
  exact Nat.mod_lt _ (by decide)

/-- The statement of C33 at the array `[1, 0]`, which represents `2^32`: the remainder is
`294967296` and the quotient `4`. -/
theorem divide_correct_witness :
    limbs_ok [1, 0] ∧
    ((divide [1, 0] (List.replicate [1, 0].length 0) [1, 0].length).1 =
        array_value [1, 0] % 1000000000 ∧
      (divide [1, 0] (List.replicate [1, 0].length 0) [1, 0].length).1 < 1000000000 ∧
      array_value (divide [1, 0] (List.replicate [1, 0].length 0) [1, 0].length).2 =
        array_value [1, 0] / 1000000000 ∧
      (divide [1, 0] (List.replicate [1, 0].length 0) [1, 0].length).2.length =
        [1, 0].length) ∧
    divide [1, 0] [0, 0] 2 = (294967296, [0, 4]) ∧
    array_value [1, 0] = 4294967296 :=
  ⟨by decide, divide_correct [1, 0] (by decide), by rfl, by rfl⟩

/-- C35: for every text `s` that is an optional `-` followed by a decimal numeral without
leading zero that denotes a non-zero number, `bigint_create` succeeds and printing the value
in base `DEC` yields exactly `s`, whatever the bit length of the number; and the text `0` is
printed as `0`. -/
theorem decimal_round_trip (sgn ds : List Char) (hs : sgn = [] ∨ sgn = ['-'])
    (hne : ds ≠ []) (hd : ∀ c ∈ ds, is_decimal_digit c) (hlead : no_leading_zero ds)
    (hnz : ds ≠ ['0']) :
    (∃ v, bigint_create (sgn ++ ds) = .ok v ∧
        bigint_print bigint_base.DEC v = .ok (sgn ++ ds)) ∧
      (∃ z, bigint_create ['0'] = .ok z ∧ bigint_print bigint_base.DEC z = .ok ['0']) := by
  refine ⟨?_, ⟨⟨[0], 0⟩, by rfl, by rfl⟩⟩
  have hsign : is_sign sgn := by
    rcases hs with h | h
    · exact Or.inl h
    · exact Or.inr (Or.inr h)
  obtain ⟨limbs, -, l2, l3, l4, hrun⟩ := bigint_create_decimal sgn ds hsign hne hd hlead
  have hfacts := fun c hc => decimal_digit_facts c (decimal_digit_mem c (hd c hc))
  have hge := numeral_value_ge 10 digit_value ds hne hlead hnz
    (fun c hc => (hfacts c hc).2.2.2.2.2.2)
  have hpos : 0 < limbs_value limbs := by
    rw [l2]
    exact lt_of_lt_of_le (Nat.pow_pos (by decide)) hge
  have hnot : ¬ (limbs.length = 1 ∧ limbs.head? = some 0) := by
    rintro ⟨h1, h2⟩
    match limbs, h1, h2 with
    | [x], _, h2 =>
      simp only [List.head?_cons, Option.some.injEq] at h2
      subst h2
      simp [limbs_value] at hpos
  rw [if_neg hnot] at hrun
  have hprint := bigint_print_dec_spec
    { limbs := limbs, sign := if sgn = ['-'] then 1 else 0 } l3 l4 (Or.inr hpos)
  have hdigits := toDigits_numeral 10 (by decide) digit_value ds hne hlead
    (fun c hc => (hfacts c hc).2.2.2.2.1) (fun c hc => (hfacts c hc).2.2.2.2.2.2)
  rw [map_digitChar_decimal ds hd] at hdigits
  simp only at hprint
  rw [l2, hdigits] at hprint
  refine ⟨_, hrun, ?_⟩
  rw [hprint]
  rcases hs with h | h <;> subst h <;> simp

/-- The statement of C35 at `4294967295` and `-18446744073709551616`, numbers of bit length
32 and 65, with the values built and the texts printed. -/
theorem decimal_round_trip_witness :
    (([] : List Char) = [] ∨ ([] : List Char) = ['-']) ∧
    ("4294967295".toList ≠ [] ∧ (∀ c ∈ "4294967295".toList, is_decimal_digit c) ∧
      no_leading_zero "4294967295".toList ∧ "4294967295".toList ≠ ['0']) ∧
    (∃ v, bigint_create ([] ++ "4294967295".toList) = .ok v ∧
      bigint_print bigint_base.DEC v = .ok ([] ++ "4294967295".toList)) ∧
    bigint_create "4294967295".toList = .ok ⟨[4294967295, 0], 0⟩ ∧
    bigint_print bigint_base.DEC ⟨[4294967295, 0], 0⟩ = .ok "4294967295".toList ∧
    (∃ v, bigint_create (['-'] ++ "18446744073709551616".toList) = .ok v ∧
      bigint_print bigint_base.DEC v = .ok (['-'] ++ "18446744073709551616".toList)) :=
  ⟨Or.inl rfl, ⟨by decide, by decide, by decide, by decide⟩,
    (decimal_round_trip [] "4294967295".toList (Or.inl rfl) (by decide) (by decide)
      (by decide) (by decide)).1,
    by rfl, by rfl,
    (decimal_round_trip ['-'] "18446744073709551616".toList (Or.inr rfl) (by decide)
      (by decide) (by decide) (by decide)).1⟩

end Bigint

namespace Bigint

/-! ## The bit loop of `bigint_divide`, round by round -/

theorem divide_bit_loop_succ (d r : List Nat) (n i : Nat) (state : List Nat × List Nat) :
    divide_bit_loop d r n (i + 1) state =
      divide_bit_loop d r n i (divide_bit_round d r n i state) := by
  rw [divide_bit_loop]
  simp only [divide_bit_round, divide_bit_shift]
  split <;> split <;> rfl

/-- The loop is its rounds: after the first `count - i` rounds the bits `i - 1 .. 0` are
left. -/
theorem divide_bit_loop_rounds (d r : List Nat) (n count : Nat) (state : List Nat × List Nat)
    (i : Nat) (hi : i ≤ count) :
    divide_bit_loop d r n i (divide_bit_rounds d r n count (count - i) state) =
      divide_bit_loop d r n count state := by
  induction i with
  | zero =>
    have h : ∀ m, m ≤ count → divide_bit_loop d r n m
        (divide_bit_rounds d r n count (count - m) state) =
        divide_bit_loop d r n count state := by
      intro m
      induction' hk : count - m with k ih generalizing m
      · intro hm
        have : m = count := by omega
        subst this
        rfl
      · intro hm
        have e : m + 1 ≤ count := by omega
        have := ih (m + 1) (by omega) e
        rw [← this, divide_bit_loop_succ]
        congr 1
        simp only [divide_bit_rounds]
        congr 1
        omega
    exact h 0 (Nat.zero_le _)
  | succ i ih =>
    have h := ih (by omega)
    rw [← h, divide_bit_loop_succ]
    congr 1
    have e : count - i = (count - (i + 1)) + 1 := by omega
    rw [e]
    simp only [divide_bit_rounds]
    congr 1
    omega

/-- One round of the bit loop on a state that satisfies the invariant for the bits above
`i`: the shift loses nothing, the subtraction does not borrow, and the invariant holds for
the bits above `i - 1`. -/
theorem divide_bit_round_spec (d r : List Nat) (n : Nat) (hd : limbs_ok d) (hdl : d.length = n)
    (hr : limbs_ok r) (hrl : r.length = n) (hpos : 0 < array_value r) (i : Nat)
    (rem quo : List Nat) (hi : i + 1 ≤ 32 * n) (hrem : limbs_ok rem) (hreml : rem.length = n)
    (hquo : limbs_ok quo) (hquol : quo.length = n)
    (hremv : array_value rem = array_value d / 2 ^ (i + 1) % array_value r)
    (hquov : array_value quo = array_value d / 2 ^ (i + 1) / array_value r * 2 ^ (i + 1)) :
    array_value (array_shift_left rem) = 2 * array_value rem ∧
      array_value (divide_bit_shift d n i rem) =
        2 * array_value rem + array_value d / 2 ^ i % 2 ∧
      (greater_or_eq (divide_bit_shift d n i rem) r = true →
        array_value r ≤ array_value (divide_bit_shift d n i rem) ∧
        array_value (array_subtract (divide_bit_shift d n i rem) r) + array_value r =
          array_value (divide_bit_shift d n i rem)) ∧
      array_value (divide_bit_round d r n i (rem, quo)).1 =
        array_value d / 2 ^ i % array_value r ∧
      array_value (divide_bit_round d r n i (rem, quo)).2 =
        array_value d / 2 ^ i / array_value r * 2 ^ i ∧
      limbs_ok (divide_bit_round d r n i (rem, quo)).1 ∧
      (divide_bit_round d r n i (rem, quo)).1.length = n ∧
      limbs_ok (divide_bit_round d r n i (rem, quo)).2 ∧
      (divide_bit_round d r n i (rem, quo)).2.length = n := by
  have hnpos : 0 < n := by omega
  have hdlt := array_value_lt d hd
  rw [hdl] at hdlt
  have hYX : array_value d / 2 ^ (i + 1) = array_value d / 2 ^ i / 2 := by
    rw [pow_succ, Nat.div_div_eq_div_mul]
  rw [hYX] at hremv hquov
  have hYle : array_value d / 2 ^ i ≤ array_value d := Nat.div_le_self _ _
  have hmodle : array_value d / 2 ^ i / 2 % array_value r ≤ array_value d / 2 ^ i / 2 :=
    Nat.mod_le _ _
  have hfit : 2 * array_value rem < 4294967296 ^ rem.length := by
    rw [hreml, hremv]; omega
  have hs := array_shift_left_value rem hrem hfit
  have hsok := array_shift_left_ok rem
  have hsl : (array_shift_left rem).length = n := by rw [array_shift_left_length, hreml]
  have hbit : get_n_bit d n i = array_value d / 2 ^ i % 2 := by
    rw [← hdl, get_n_bit_spec d hd i (by omega), Nat.toNat_testBit]
  have hb2 : array_value (divide_bit_shift d n i rem) =
        2 * array_value rem + array_value d / 2 ^ i % 2 ∧
      limbs_ok (divide_bit_shift d n i rem) ∧ (divide_bit_shift d n i rem).length = n := by
    unfold divide_bit_shift
    simp only
    by_cases hb : get_n_bit d n i ≠ 0
    · rw [if_pos hb, set_low_bit_eq _ n hsl hnpos]
      have hclear : (array_value (array_shift_left rem)).testBit 0 = false := by
        rw [hs, Nat.testBit_zero]
        simp
      obtain ⟨s1, s2, s3⟩ := set_n_bit_to_1_spec _ hsok 0 (by omega) hclear
      refine ⟨?_, s2, by rw [s3, hsl]⟩
      rw [s1, hs]
      rw [hbit] at hb
      omega
    · rw [if_neg hb]
      refine ⟨?_, hsok, hsl⟩
      rw [hs]
      rw [hbit] at hb
      omega
  obtain ⟨hv2, hok2, hl2⟩ := hb2
  have hstep := div_step (array_value d / 2 ^ i) (array_value r) hpos
  have hsub : greater_or_eq (divide_bit_shift d n i rem) r = true →
      array_value r ≤ array_value (divide_bit_shift d n i rem) ∧
      array_value (array_subtract (divide_bit_shift d n i rem) r) + array_value r =
        array_value (divide_bit_shift d n i rem) := by
    intro hge
    have hle := (greater_or_eq_spec _ r hok2 hr (by omega)).1 hge
    exact ⟨hle, (array_subtract_spec _ r hok2 hr (by omega) hle).1⟩
  refine ⟨hs, hv2, hsub, ?_⟩
  unfold divide_bit_round
  simp only
  by_cases hge : greater_or_eq (divide_bit_shift d n i rem) r = true
  · rw [if_pos hge]
    have hle := (greater_or_eq_spec _ r hok2 hr (by omega)).1 hge
    obtain ⟨a1, a2, a3⟩ := array_subtract_spec _ r hok2 hr (by omega) hle
    have hclear : (array_value quo).testBit i = false := by
      rw [hquov, mul_comm]
      have := Nat.testBit_mul_pow_two_add (array_value d / 2 ^ i / 2 / array_value r)
        (show 0 < 2 ^ (i + 1) from Nat.pow_pos (by decide)) i
      simp only [add_zero] at this
      rw [this, if_pos (by omega)]
      simp
    have hquo2 := set_n_bit_to_1_spec quo hquo i (by omega) hclear
    rw [hquol] at hquo2
    obtain ⟨q1, q2, q3⟩ := hquo2
    obtain ⟨e1, e2⟩ := hstep.1 (by rw [← hremv, ← hv2]; exact hle)
    refine ⟨?_, ?_, a2, by rw [a3, hl2], q2, q3⟩
    · show array_value (array_subtract (divide_bit_shift d n i rem) r) = _
      rw [e2, ← hremv, ← hv2]; omega
    · show array_value (set_n_bit_to_1 quo n i) = _
      rw [q1, hquov, e1, pow_succ]; ring
  · rw [if_neg hge]
    have hlt : array_value (divide_bit_shift d n i rem) < array_value r := by
      by_contra hcon
      exact hge ((greater_or_eq_spec _ r hok2 hr (by omega)).2 (by omega))
    obtain ⟨e1, e2⟩ := hstep.2 (by rw [← hremv, ← hv2]; exact hlt)
    refine ⟨?_, ?_, hok2, hl2, hquo, hquol⟩
    · show array_value (divide_bit_shift d n i rem) = _
      rw [e2, ← hremv, ← hv2]
    · show array_value quo = _
      rw [hquov, e1, pow_succ]; ring

/-- The invariant of the bit loop after `k` rounds from the zero arrays. -/
theorem divide_bit_rounds_spec (d r : List Nat) (n count : Nat) (hd : limbs_ok d)
    (hdl : d.length = n) (hr : limbs_ok r) (hrl : r.length = n) (hpos : 0 < array_value r)
    (hcount : count ≤ 32 * n) (hzero : array_value d / 2 ^ count = 0) (k : Nat)
    (hk : k ≤ count) :
    array_value (divide_bit_rounds d r n count k
        (List.replicate n 0, List.replicate n 0)).1 =
        array_value d / 2 ^ (count - k) % array_value r ∧
      array_value (divide_bit_rounds d r n count k
        (List.replicate n 0, List.replicate n 0)).2 =
        array_value d / 2 ^ (count - k) / array_value r * 2 ^ (count - k) ∧
      limbs_ok (divide_bit_rounds d r n count k (List.replicate n 0, List.replicate n 0)).1 ∧
      (divide_bit_rounds d r n count k (List.replicate n 0, List.replicate n 0)).1.length = n ∧
      limbs_ok (divide_bit_rounds d r n count k (List.replicate n 0, List.replicate n 0)).2 ∧
      (divide_bit_rounds d r n count k (List.replicate n 0, List.replicate n 0)).2.length = n := by
  induction k with
  | zero =>
    simp only [divide_bit_rounds, Nat.sub_zero, array_value_replicate_zero, hzero]
    exact ⟨by simp, by simp, limbs_ok_replicate_zero _, by simp, limbs_ok_replicate_zero _,
      by simp⟩
  | succ k ih =>
    obtain ⟨i1, i2, i3, i4, i5, i6⟩ := ih (by omega)
    have e : count - k = (count - (k + 1)) + 1 := by omega
    rw [e] at i1 i2
    have := divide_bit_round_spec d r n hd hdl hr hrl hpos (count - (k + 1)) _ _ (by omega)
      i3 i4 i5 i6 i1 i2
    simp only [divide_bit_rounds]
    exact this.2.2.2

end Bigint

namespace Bigint

/-! ## The halving loop of `save_decimal` round by round -/

theorem save_decimal_loop_succ (fuel : Nat) (state : List Int × Nat × Nat × List Nat) :
    save_decimal_loop (fuel + 1) state.1 state.2.1 state.2.2.1 state.2.2.2 =
      if is_zero state.1 then .ok (state.2.2.2 ++ [state.2.2.1])
      else save_decimal_loop fuel (save_decimal_round state).1 (save_decimal_round state).2.1
        (save_decimal_round state).2.2.1 (save_decimal_round state).2.2.2 := by
  rw [save_decimal_loop]
  simp only [save_decimal_round]
  split
  · rfl
  · split <;> rfl

/-- While the buffer is not all zeros, `j` rounds of the loop use `j` units of fuel. -/
theorem save_decimal_loop_rounds (fuel j : Nat) (state : List Int × Nat × Nat × List Nat)
    (h : ∀ i, i < j → is_zero (save_decimal_round^[i] state).1 = false) :
    save_decimal_loop (fuel + j) state.1 state.2.1 state.2.2.1 state.2.2.2 =
      save_decimal_loop fuel (save_decimal_round^[j] state).1
        (save_decimal_round^[j] state).2.1 (save_decimal_round^[j] state).2.2.1
        (save_decimal_round^[j] state).2.2.2 := by
  induction j generalizing state with
  | zero => rfl
  | succ j ih =>
    have h0 : is_zero state.1 = false := h 0 (by omega)
    rw [← Nat.add_assoc, save_decimal_loop_succ, h0]
    simp only [Bool.false_eq_true, if_false]
    rw [ih (save_decimal_round state) (fun i hi => h (i + 1) (by omega))]
    rfl

/-- One round keeps the digits, halves the number in the buffer and advances the bit
position by one. -/
theorem save_decimal_round_spec (state : List Int × Nat × Nat × List Nat)
    (hok : scratch_ok state.1) (hne : state.1 ≠ []) (hc : state.2.1 < 32) :
    scratch_ok (save_decimal_round state).1 ∧
      (save_decimal_round state).1.length = state.1.length ∧
      scratch_value (save_decimal_round state).1 = scratch_value state.1 / 2 ∧
      (save_decimal_round state).2.1 < 32 ∧
      32 * (save_decimal_round state).2.2.2.length + (save_decimal_round state).2.1 =
        32 * state.2.2.2.length + state.2.1 + 1 := by
  obtain ⟨p1, p2, p3, p4⟩ := get_parity_spec state.1 hok hne
  obtain ⟨d1, d2, -, d4⟩ := divide_digits_spec _ p2
  have hv : scratch_value (divide_digits (get_parity state.1).2) = scratch_value state.1 / 2 := by
    rw [d4]
    rw [p1] at p4
    omega
  unfold save_decimal_round
  simp only
  split
  · refine ⟨d1, by rw [d2, p3], hv, (show 0 < 32 by decide), ?_⟩
    simp only [List.length_append, List.length_singleton]
    omega
  · exact ⟨d1, by rw [d2, p3], hv, (show state.2.1 + 1 < 32 by omega), rfl⟩

/-- The state after `k` rounds from the text `ds`. -/
theorem save_decimal_iterate_spec (ds : List Char) (hne : ds ≠ [])
    (hd : ∀ c ∈ ds, is_decimal_digit c) (k : Nat) :
    scratch_ok (save_decimal_round^[k] (ds.map (fun c => (c.toNat : Int)), 0, 0, [])).1 ∧
      (save_decimal_round^[k] (ds.map (fun c => (c.toNat : Int)), 0, 0, [])).1.length =
        ds.length ∧
      scratch_value (save_decimal_round^[k] (ds.map (fun c => (c.toNat : Int)), 0, 0, [])).1 =
        numeral_value 10 digit_value ds / 2 ^ k ∧
      (save_decimal_round^[k] (ds.map (fun c => (c.toNat : Int)), 0, 0, [])).2.1 < 32 ∧
      32 * (save_decimal_round^[k] (ds.map (fun c => (c.toNat : Int)), 0, 0, [])).2.2.2.length +
        (save_decimal_round^[k] (ds.map (fun c => (c.toNat : Int)), 0, 0, [])).2.1 = k := by
  induction k with
  | zero =>
    obtain ⟨s1, s2⟩ := scratch_of_digits ds hd
    exact ⟨s1, by simp, by simpa using s2, (show 0 < 32 by decide), rfl⟩
  | succ k ih =>
    obtain ⟨i1, i2, i3, i4, i5⟩ := ih
    have hne2 : (save_decimal_round^[k] (ds.map (fun c => (c.toNat : Int)), 0, 0, [])).1 ≠
        [] := by
      intro h
      rw [h] at i2
      exact hne (List.length_eq_zero.1 i2.symm)
    obtain ⟨r1, r2, r3, r4, r5⟩ := save_decimal_round_spec _ i1 hne2 i4
    rw [Function.iterate_succ_apply']
    refine ⟨r1, by rw [r2, i2], ?_, r4, by rw [r5, i5]⟩
    rw [r3, i3, pow_succ, Nat.div_div_eq_div_mul]

/-- The buffer is all zeros after `k` rounds exactly when `k` reaches the bit length. -/
theorem save_decimal_iterate_zero (ds : List Char) (hne : ds ≠ [])
    (hd : ∀ c ∈ ds, is_decimal_digit c) (k : Nat) :
    is_zero (save_decimal_round^[k] (ds.map (fun c => (c.toNat : Int)), 0, 0, [])).1 = true ↔
      Nat.size (numeral_value 10 digit_value ds) ≤ k := by
  obtain ⟨i1, -, i3, -, -⟩ := save_decimal_iterate_spec ds hne hd k
  rw [is_zero_iff _ i1, i3, Nat.size_le]
  exact Nat.div_eq_zero_iff (Nat.pow_pos (by decide))

/-- A decimal numeral of `n` digits has at most `4 n` bits. -/
theorem numeral_size_le (ds : List Char) (hd : ∀ c ∈ ds, is_decimal_digit c) :
    Nat.size (numeral_value 10 digit_value ds) ≤ 4 * ds.length := by
  obtain ⟨s1, s2⟩ := scratch_of_digits ds hd
  have := scratch_value_lt _ s1
  rw [s2, List.length_map] at this
  rw [Nat.size_le]
  have h16 : (10 : Nat) ^ ds.length ≤ 16 ^ ds.length := Nat.pow_le_pow_left (by decide) _
  have e : (2 : Nat) ^ (4 * ds.length) = 16 ^ ds.length := by
    rw [pow_mul]; rfl
  omega

end Bigint

namespace Bigint

/-- C34 holds. For canonical `D` and `R` with `|D| > |R| > 0`, `n` the limb count of `D` and
`count` the number of rounds of the bit loop of `bigint_divide`: the state after `k < count`
rounds from the zeroed arrays is a state the loop passes through, and there the remainder
array holds a value below `|R|` and below `2^(32n-1)`, the one-bit left shift of the
`n`-word array doubles that value (no set top bit is lost), and whenever the comparison
lets the subtraction run it takes `|R|` from a value that is at least `|R|` and leaves
exactly the difference (no borrow leaves the array). -/
theorem bigint_divide_loop_invariant (D R : bigint) (hD : canonical D) (hR : canonical R)
    (hpos : 0 < R.magnitude) (hgt : R.magnitude < D.magnitude) (k : Nat)
    (hk : k < (D.limbs.length - 1) * 32 + bit_len ((copy_to_chain D).headD 0)) :
    divide_bit_loop (copy_to_chain D) (chain_alignment R D.limbs.length) D.limbs.length
        ((D.limbs.length - 1) * 32 + bit_len ((copy_to_chain D).headD 0) - k)
        (divide_bit_rounds (copy_to_chain D) (chain_alignment R D.limbs.length) D.limbs.length
          ((D.limbs.length - 1) * 32 + bit_len ((copy_to_chain D).headD 0)) k
          (List.replicate D.limbs.length 0, List.replicate D.limbs.length 0)) =
      divide_bit_loop (copy_to_chain D) (chain_alignment R D.limbs.length) D.limbs.length
        ((D.limbs.length - 1) * 32 + bit_len ((copy_to_chain D).headD 0))
        (List.replicate D.limbs.length 0, List.replicate D.limbs.length 0) ∧
    array_value (divide_bit_rounds (copy_to_chain D) (chain_alignment R D.limbs.length)
        D.limbs.length ((D.limbs.length - 1) * 32 + bit_len ((copy_to_chain D).headD 0)) k
        (List.replicate D.limbs.length 0, List.replicate D.limbs.length 0)).1 < R.magnitude ∧
    array_value (divide_bit_rounds (copy_to_chain D) (chain_alignment R D.limbs.length)
        D.limbs.length ((D.limbs.length - 1) * 32 + bit_len ((copy_to_chain D).headD 0)) k
        (List.replicate D.limbs.length 0, List.replicate D.limbs.length 0)).1 <
      2 ^ (32 * D.limbs.length - 1) ∧
    array_value (array_shift_left (divide_bit_rounds (copy_to_chain D)
        (chain_alignment R D.limbs.length) D.limbs.length
        ((D.limbs.length - 1) * 32 + bit_len ((copy_to_chain D).headD 0)) k
        (List.replicate D.limbs.length 0, List.replicate D.limbs.length 0)).1) =
      2 * array_value (divide_bit_rounds (copy_to_chain D) (chain_alignment R D.limbs.length)
        D.limbs.length ((D.limbs.length - 1) * 32 + bit_len ((copy_to_chain D).headD 0)) k
        (List.replicate D.limbs.length 0, List.replicate D.limbs.length 0)).1 ∧
    (greater_or_eq (divide_bit_shift (copy_to_chain D) D.limbs.length
          ((D.limbs.length - 1) * 32 + bit_len ((copy_to_chain D).headD 0) - (k + 1))
          (divide_bit_rounds (copy_to_chain D) (chain_alignment R D.limbs.length)
            D.limbs.length ((D.limbs.length - 1) * 32 + bit_len ((copy_to_chain D).headD 0)) k
            (List.replicate D.limbs.length 0, List.replicate D.limbs.length 0)).1)
        (chain_alignment R D.limbs.length) = true →
      R.magnitude ≤ array_value (divide_bit_shift (copy_to_chain D) D.limbs.length
          ((D.limbs.length - 1) * 32 + bit_len ((copy_to_chain D).headD 0) - (k + 1))
          (divide_bit_rounds (copy_to_chain D) (chain_alignment R D.limbs.length)
            D.limbs.length ((D.limbs.length - 1) * 32 + bit_len ((copy_to_chain D).headD 0)) k
            (List.replicate D.limbs.length 0, List.replicate D.limbs.length 0)).1) ∧
      array_value (array_subtract (divide_bit_shift (copy_to_chain D) D.limbs.length
          ((D.limbs.length - 1) * 32 + bit_len ((copy_to_chain D).headD 0) - (k + 1))
          (divide_bit_rounds (copy_to_chain D) (chain_alignment R D.limbs.length)
            D.limbs.length ((D.limbs.length - 1) * 32 + bit_len ((copy_to_chain D).headD 0)) k
            (List.replicate D.limbs.length 0, List.replicate D.limbs.length 0)).1)
          (chain_alignment R D.limbs.length)) + R.magnitude =
        array_value (divide_bit_shift (copy_to_chain D) D.limbs.length
          ((D.limbs.length - 1) * 32 + bit_len ((copy_to_chain D).headD 0) - (k + 1))
          (divide_bit_rounds (copy_to_chain D) (chain_alignment R D.limbs.length)
            D.limbs.length ((D.limbs.length - 1) * 32 + bit_len ((copy_to_chain D).headD 0)) k
            (List.replicate D.limbs.length 0, List.replicate D.limbs.length 0)).1)) := by
  obtain ⟨-, hDok, hDne, hDz, -⟩ := hD
  obtain ⟨-, hRok, hRne, hRz, -⟩ := hR
  simp only [bigint.magnitude] at hpos hgt ⊢
  have hlenle := length_le_of_value_le _ _ hRz hDok hDne (le_of_lt hgt)
  have hdok : limbs_ok (copy_to_chain D) := limbs_ok_reverse.2 hDok
  have hdl : (copy_to_chain D).length = D.limbs.length := by simp [copy_to_chain]
  have hrok : limbs_ok (chain_alignment R D.limbs.length) :=
    limbs_ok_append.2 ⟨limbs_ok_replicate_zero _, limbs_ok_reverse.2 hRok⟩
  have hrl : (chain_alignment R D.limbs.length).length = D.limbs.length := by
    simp [chain_alignment]; omega
  obtain ⟨hlt, hcount⟩ := dividend_lt_pow D.limbs hDok hDne
  have hhead : (copy_to_chain D).headD 0 = D.limbs.reverse.headD 0 := by
    simp only [copy_to_chain]
  rw [hhead] at hk ⊢
  generalize hc : (D.limbs.length - 1) * 32 + bit_len (D.limbs.reverse.headD 0) = count
    at hk hlt hcount ⊢
  have hrpos : 0 < array_value (chain_alignment R D.limbs.length) := by
    rw [chain_alignment_value]; exact hpos
  have hzero : array_value (copy_to_chain D) / 2 ^ count = 0 := by
    rw [copy_to_chain_value]; exact Nat.div_eq_of_lt hlt
  obtain ⟨i1, i2, i3, i4, i5, i6⟩ := divide_bit_rounds_spec (copy_to_chain D)
    (chain_alignment R D.limbs.length) D.limbs.length count hdok hdl hrok hrl hrpos hcount
    hzero k (le_of_lt hk)
  have e : count - k = (count - (k + 1)) + 1 := by omega
  have i1b := i1
  rw [e] at i1 i2
  obtain ⟨s1, -, s3, -⟩ := divide_bit_round_spec (copy_to_chain D)
    (chain_alignment R D.limbs.length) D.limbs.length hdok hdl hrok hrl hrpos
    (count - (k + 1)) _ _ (by omega) i3 i4 i5 i6 i1 i2
  rw [chain_alignment_value] at s3 i1b
  rw [copy_to_chain_value] at i1b
  have hloop := divide_bit_loop_rounds (copy_to_chain D) (chain_alignment R D.limbs.length)
    D.limbs.length count (List.replicate D.limbs.length 0, List.replicate D.limbs.length 0)
    (count - k) (Nat.sub_le _ _)
  rw [show count - (count - k) = k by omega] at hloop
  refine ⟨hloop, ?_, ?_, s1, s3⟩
  · rw [i1b]; exact Nat.mod_lt _ hpos
  · rw [i1b]
    have h1 : limbs_value D.limbs / 2 ^ (count - k) % limbs_value R.limbs ≤
        limbs_value D.limbs / 2 ^ (count - k) := Nat.mod_le _ _
    have h2 : limbs_value D.limbs / 2 ^ (count - k) ≤ limbs_value D.limbs / 2 := by
      have hp : 2 ≤ 2 ^ (count - k) := by
        rw [e, pow_succ]
        have : 0 < 2 ^ (count - (k + 1)) := Nat.pow_pos (by decide)
        omega
      exact Nat.div_le_div_left hp (by decide)
    have h3 := limbs_value_lt _ hDok
    have hn : D.limbs.length ≠ 0 := by simpa using hDne
    have h4 : (4294967296 : Nat) ^ D.limbs.length = 2 * 2 ^ (32 * D.limbs.length - 1) := by
      rw [pow32, ← pow_succ']
      congr 1
      omega
    omega

/-- The statement above at `D = 5`, `R = 2` after one round (`count = 3`): the remainder
array holds `1`, the shift gives `2`, the dividend bit is `0`, and the subtraction leaves
`0`. -/
theorem bigint_divide_loop_invariant_witness :
    (canonical ⟨[5], 0⟩ ∧ canonical ⟨[2], 0⟩ ∧ 0 < (⟨[2], 0⟩ : bigint).magnitude ∧
      (⟨[2], 0⟩ : bigint).magnitude < (⟨[5], 0⟩ : bigint).magnitude ∧
      1 < ((⟨[5], 0⟩ : bigint).limbs.length - 1) * 32 +
        bit_len ((copy_to_chain ⟨[5], 0⟩).headD 0)) ∧
    (array_value (divide_bit_rounds (copy_to_chain ⟨[5], 0⟩)
        (chain_alignment ⟨[2], 0⟩ (⟨[5], 0⟩ : bigint).limbs.length)
        (⟨[5], 0⟩ : bigint).limbs.length
        (((⟨[5], 0⟩ : bigint).limbs.length - 1) * 32 +
          bit_len ((copy_to_chain ⟨[5], 0⟩).headD 0)) 1
        (List.replicate (⟨[5], 0⟩ : bigint).limbs.length 0,
          List.replicate (⟨[5], 0⟩ : bigint).limbs.length 0)).1 <
      (⟨[2], 0⟩ : bigint).magnitude) ∧
    divide_bit_rounds [5] [2] 1 3 1 ([0], [0]) = ([1], [0]) ∧
    divide_bit_shift [5] 1 1 [1] = [2] ∧
    divide_bit_rounds [5] [2] 1 3 2 ([0], [0]) = ([0], [2]) ∧
    divide_bit_rounds [5] [2] 1 3 3 ([0], [0]) = ([1], [2]) :=
  ⟨⟨by decide, by decide, by decide, by decide, by decide⟩,
    (bigint_divide_loop_invariant ⟨[5], 0⟩ ⟨[2], 0⟩ (by decide) (by decide) (by decide)
      (by decide) 1 (by decide)).2.1,
    by rfl, by rfl, by rfl, by rfl⟩

/-- C36 holds. For a text `ds` of at least two decimal digits that spells `N > 0`, with
`Nat.size N` the bit length of `N` (`2^(size - 1) ≤ N < 2^size`): the scratch buffer holds
only the characters `'0'` .. `'9'` after every number of rounds of the halving loop, the
test `is_zero` at the head of the loop fails before each of the first `Nat.size N` rounds
and succeeds after them, `save_decimal` returns the nodes of the state reached then, and
their number is `Nat.size N / 32 + 1`. -/
theorem save_decimal_rounds (ds : List Char) (hlen : 2 ≤ ds.length)
    (hd : ∀ c ∈ ds, is_decimal_digit c) (hN : 0 < numeral_value 10 digit_value ds) :
    (2 ^ (Nat.size (numeral_value 10 digit_value ds) - 1) ≤ numeral_value 10 digit_value ds ∧
      numeral_value 10 digit_value ds < 2 ^ Nat.size (numeral_value 10 digit_value ds)) ∧
    (∀ k, scratch_ok (save_decimal_round^[k] (ds.map (fun c => (c.toNat : Int)), 0, 0, [])).1) ∧
    (∀ k, k < Nat.size (numeral_value 10 digit_value ds) →
      is_zero (save_decimal_round^[k] (ds.map (fun c => (c.toNat : Int)), 0, 0, [])).1 =
        false) ∧
    is_zero (save_decimal_round^[Nat.size (numeral_value 10 digit_value ds)]
      (ds.map (fun c => (c.toNat : Int)), 0, 0, [])).1 = true ∧
    save_decimal ds = .ok
      ((save_decimal_round^[Nat.size (numeral_value 10 digit_value ds)]
          (ds.map (fun c => (c.toNat : Int)), 0, 0, [])).2.2.2 ++
        [(save_decimal_round^[Nat.size (numeral_value 10 digit_value ds)]
          (ds.map (fun c => (c.toNat : Int)), 0, 0, [])).2.2.1]) ∧
    ((save_decimal_round^[Nat.size (numeral_value 10 digit_value ds)]
          (ds.map (fun c => (c.toNat : Int)), 0, 0, [])).2.2.2 ++
        [(save_decimal_round^[Nat.size (numeral_value 10 digit_value ds)]
          (ds.map (fun c => (c.toNat : Int)), 0, 0, [])).2.2.1]).length =
      Nat.size (numeral_value 10 digit_value ds) / 32 + 1 := by
  have hne : ds ≠ [] := by
    intro h
    rw [h] at hlen
    simp at hlen
  have hfalse : ∀ k, k < Nat.size (numeral_value 10 digit_value ds) →
      is_zero (save_decimal_round^[k] (ds.map (fun c => (c.toNat : Int)), 0, 0, [])).1 =
        false := by
    intro k hk
    cases hz : is_zero (save_decimal_round^[k] (ds.map (fun c => (c.toNat : Int)), 0, 0, [])).1
    · rfl
    · have := (save_decimal_iterate_zero ds hne hd k).1 hz
      omega
  have htrue := (save_decimal_iterate_zero ds hne hd
    (Nat.size (numeral_value 10 digit_value ds))).2 (le_refl _)
  have hsize := numeral_size_le ds hd
  obtain ⟨-, -, -, i4, i5⟩ := save_decimal_iterate_spec ds hne hd
    (Nat.size (numeral_value 10 digit_value ds))
  refine ⟨⟨?_, Nat.lt_size_self _⟩, fun k => (save_decimal_iterate_spec ds hne hd k).1,
    hfalse, htrue, ?_, ?_⟩
  · have hpos : 0 < Nat.size (numeral_value 10 digit_value ds) := Nat.size_pos.2 hN
    exact Nat.lt_size.1 (by omega)
  · unfold save_decimal
    rw [if_neg (by omega), if_neg (by omega)]
    have e : 4 * ds.length + 1 =
        (4 * ds.length - Nat.size (numeral_value 10 digit_value ds) + 1) +
          Nat.size (numeral_value 10 digit_value ds) := by omega
    rw [e]
    have := save_decimal_loop_rounds
      (4 * ds.length - Nat.size (numeral_value 10 digit_value ds) + 1)
      (Nat.size (numeral_value 10 digit_value ds))
      (ds.map (fun c => (c.toNat : Int)), 0, 0, []) hfalse
    simp only at this
    rw [this, save_decimal_loop_succ, htrue]
    rfl
  · simp only [List.length_append, List.length_singleton]
    omega

/-- The statement above at the text `12`, whose bit length is `4`: the loop runs four
rounds, `12 → 6 → 3 → 1 → 0`, and leaves the one node `12`. -/
theorem save_decimal_rounds_witness :
    (2 ≤ ['1', '2'].length ∧ (∀ c ∈ ['1', '2'], is_decimal_digit c) ∧
      0 < numeral_value 10 digit_value ['1', '2']) ∧
    (save_decimal ['1', '2'] = .ok
      ((save_decimal_round^[Nat.size (numeral_value 10 digit_value ['1', '2'])]
          (['1', '2'].map (fun c => (c.toNat : Int)), 0, 0, [])).2.2.2 ++
        [(save_decimal_round^[Nat.size (numeral_value 10 digit_value ['1', '2'])]
          (['1', '2'].map (fun c => (c.toNat : Int)), 0, 0, [])).2.2.1])) ∧
    numeral_value 10 digit_value ['1', '2'] = 12 ∧
    Nat.size 12 = 4 ∧
    save_decimal_round^[3] ([49, 50], 0, 0, []) = ([48, 49], 3, 4, []) ∧
    save_decimal_round^[4] ([49, 50], 0, 0, []) = ([48, 48], 4, 12, []) ∧
    save_decimal ['1', '2'] = .ok [12] :=
  ⟨⟨by decide, by decide, by decide⟩,
    (save_decimal_rounds ['1', '2'] (by decide) (by decide) (by decide)).2.2.2.2.1,
    by rfl,
    by
      have h1 : Nat.size 12 ≤ 4 := Nat.size_le.2 (by decide)
      have h2 : 3 < Nat.size 12 := Nat.lt_size.2 (by decide)
      omega,
    by rfl, by rfl, by rfl⟩

end Bigint

namespace Bigint

/-! ## Calls on objects against calls on values -/

theorem store_write_same (h : store) (p : Nat) (v : bigint) :
    (store.write h p v).object p = v := by
  simp [store.write]

theorem store_write_other (h : store) (p q : Nat) (v : bigint) (hq : q ≠ p) :
    (store.write h p v).object q = h.object q := by
  simp [store.write, hq]

theorem store_write_next (h : store) (p : Nat) (v : bigint) :
    (store.write h p v).next = h.next := rfl

theorem store_allocate_fst (h : store) (v : bigint) : (store.allocate h v).1 = h.next := rfl

theorem store_allocate_next (h : store) (v : bigint) :
    (store.allocate h v).2.next = h.next + 1 := rfl

theorem store_allocate_new (h : store) (v : bigint) :
    (store.allocate h v).2.object h.next = v := by
  simp [store.allocate]

theorem store_allocate_old (h : store) (v : bigint) (q : Nat) (hq : q < h.next) :
    (store.allocate h v).2.object q = h.object q := by
  have : q ≠ h.next := by omega
  simp [store.allocate, this]

theorem store_frame_refl (h : store) (dest : Nat) : store.frame h h dest :=
  ⟨le_refl _, fun _ _ _ => rfl⟩

theorem store_frame_trans (h1 h2 h3 : store) (dest : Nat) (a : store.frame h1 h2 dest)
    (b : store.frame h2 h3 dest) : store.frame h1 h3 dest :=
  ⟨le_trans a.1 b.1, fun p hp hd => by
    rw [b.2 p (lt_of_lt_of_le hp a.1) hd, a.2 p hp hd]⟩

theorem store_frame_write (h : store) (dest : Nat) (v : bigint) :
    store.frame h (store.write h dest v) dest :=
  ⟨le_refl _, fun p _ hd => store_write_other h dest p v hd⟩

theorem store_frame_allocate (h : store) (dest : Nat) (v : bigint) :
    store.frame h (store.allocate h v).2 dest :=
  ⟨by rw [store_allocate_next]; omega, fun p hp _ => store_allocate_old h v p hp⟩

theorem bigint_compare_absolute_self (x : bigint) : bigint_compare_absolute x x = 0 := by
  have := bigint_compare_absolute_antisymm x x
  omega

theorem headD_drop (l : List Nat) (i : Nat) : (l.drop i).headD 0 = l.getD i 0 := by
  induction l generalizing i with
  | nil => simp
  | cons x rest ih =>
    cases i with
    | zero => rfl
    | succ n => simp

theorem set_append_cons (P : List Nat) (s x : Nat) (S : List Nat) :
    (P ++ s :: S).set P.length x = P ++ x :: S := by
  induction P with
  | nil => rfl
  | cons p rest ih => simp [List.set, ih]

/-- The loop of `bigint_add_basic` on objects, when neither `longer` nor `shorter` is the
object `sum`: the nodes `i .. i + rounds - 1` of `sum` receive what the loop on values
computes from the chains of `longer` and `shorter`; nothing else changes. -/
theorem add_loop_ptr_spec (sum longer shorter : Nat) (hl : longer ≠ sum) (hs : shorter ≠ sum)
    (rounds : Nat) (i temp : Nat) (h : store) (P S : List Nat)
    (hsum : (h.object sum).limbs = P ++ S) (hi : P.length = i) (hr : rounds ≤ S.length) :
    (add_loop_ptr sum longer shorter rounds i temp h).object sum =
        { h.object sum with
          limbs := P ++ add_loop rounds ((h.object longer).limbs.drop i)
            ((h.object shorter).limbs.drop i) temp ++ S.drop rounds } ∧
      (∀ q, q ≠ sum → (add_loop_ptr sum longer shorter rounds i temp h).object q = h.object q) ∧
      (add_loop_ptr sum longer shorter rounds i temp h).next = h.next := by
  induction rounds generalizing i temp h P S with
  | zero =>
    simp only [add_loop_ptr, add_loop, List.drop_zero, List.append_nil]
    refine ⟨?_, fun _ _ => trivial, trivial⟩
    rw [← hsum]
  | succ n ih =>
    match S, hr with
    | s :: S1, hr =>
      simp only [add_loop_ptr]
      generalize hx : ((h.object longer).limbs.getD i 0 + (h.object shorter).limbs.getD i 0 +
        temp) % 18446744073709551616 = x
      have hset : (h.object sum).limbs.set i (x % 4294967296) =
          (P ++ [x % 4294967296]) ++ S1 := by
        rw [hsum, ← hi, set_append_cons]
        simp
      obtain ⟨r1, r2, r3⟩ := ih (i + 1) (x / 4294967296)
        (store.write h sum
          { h.object sum with limbs := (h.object sum).limbs.set i (x % 4294967296) })
        (P ++ [x % 4294967296]) S1
        (by rw [store_write_same]; exact hset)
        (by simp [hi])
        (by simpa using hr)
      refine ⟨?_, fun q hq => ?_, ?_⟩
      · rw [r1, store_write_same, store_write_other _ _ _ _ hl, store_write_other _ _ _ _ hs,
          add_loop_succ, headD_drop, headD_drop, List.tail_drop, List.tail_drop, hx]
        simp
      · rw [r2 q hq, store_write_other _ _ _ _ hq]
      · rw [r3, store_write_next]

/-- The loop and the trimming of `bigint_add_basic` on objects, from a state `k` in which
`sum` has at least one node more than `longer`. -/
theorem add_basic_tail_ptr (k : store) (sum longer shorter : Nat) (hl : longer ≠ sum)
    (hs : shorter ≠ sum) (hlen : (k.object longer).limbs.length + 1 ≤ (k.object sum).limbs.length) :
    (store.write
        (add_loop_ptr sum longer shorter ((k.object longer).limbs.length + 1) 0 0 k) sum
        { (add_loop_ptr sum longer shorter ((k.object longer).limbs.length + 1) 0 0 k).object
            sum with
          limbs := delete_zero_segments
            ((add_loop_ptr sum longer shorter ((k.object longer).limbs.length + 1) 0 0
              k).object sum).limbs }).object sum =
        { limbs := delete_zero_segments
            (add_loop ((k.object longer).limbs.length + 1) (k.object longer).limbs
              (k.object shorter).limbs 0 ++
              (k.object sum).limbs.drop ((k.object longer).limbs.length + 1)),
          sign := (k.object sum).sign } ∧
      store.frame k (store.write
        (add_loop_ptr sum longer shorter ((k.object longer).limbs.length + 1) 0 0 k) sum
        { (add_loop_ptr sum longer shorter ((k.object longer).limbs.length + 1) 0 0 k).object
            sum with
          limbs := delete_zero_segments
            ((add_loop_ptr sum longer shorter ((k.object longer).limbs.length + 1) 0 0
              k).object sum).limbs }) sum := by
  obtain ⟨r1, r2, r3⟩ := add_loop_ptr_spec sum longer shorter hl hs
    ((k.object longer).limbs.length + 1) 0 0 k [] (k.object sum).limbs rfl rfl hlen
  refine ⟨?_, ?_, fun p _ hp => ?_⟩
  · rw [store_write_same, r1]
    simp
  · rw [store_write_next, r3]
  · rw [store_write_other _ _ _ _ hp, r2 p hp]

/-- `bigint_add_basic` on objects leaves in `sum` what `bigint_add_basic` on the values held
on entry returns, whichever of the summands is the object `sum`, and changes no other object
that existed. -/
theorem bigint_add_basic_ptr_spec (h : store) (sum a b : Nat) (hs : sum < h.next)
    (hb : b < h.next) :
    (bigint_add_basic_ptr h sum a b).object sum =
        bigint_add_basic (h.object sum) (h.object a) (h.object b) ∧
      store.frame h (bigint_add_basic_ptr h sum a b) sum := by
  have e1 : (bigint_copy_ptr h a).1 = h.next := rfl
  have e2 : (bigint_copy_ptr (bigint_copy_ptr h a).2 b).1 = h.next + 1 := rfl
  have g1 : (bigint_copy_ptr (bigint_copy_ptr h a).2 b).2.object h.next = h.object a := by
    simp only [bigint_copy_ptr]
    rw [store_allocate_old _ _ _ (by rw [store_allocate_next]; omega), store_allocate_new]
    rfl
  have g2 : (bigint_copy_ptr (bigint_copy_ptr h a).2 b).2.object (h.next + 1) = h.object b := by
    simp only [bigint_copy_ptr]
    have := store_allocate_new (store.allocate h (bigint_copy (h.object a))).2
      (bigint_copy ((store.allocate h (bigint_copy (h.object a))).2.object b))
    rw [store_allocate_next] at this
    rw [this, store_allocate_old _ _ _ hb]
    rfl
  have g3 : (bigint_copy_ptr (bigint_copy_ptr h a).2 b).2.object sum = h.object sum := by
    simp only [bigint_copy_ptr]
    rw [store_allocate_old _ _ _ (by rw [store_allocate_next]; omega),
      store_allocate_old _ _ _ hs]
  have g4 : store.frame h (bigint_copy_ptr (bigint_copy_ptr h a).2 b).2 sum :=
    store_frame_trans _ _ _ _ (store_frame_allocate h sum _) (store_frame_allocate _ sum _)
  have n1 : h.next ≠ sum := by omega
  have n2 : h.next + 1 ≠ sum := by omega
  unfold bigint_add_basic_ptr
  simp only [e1, e2]
  generalize (bigint_copy_ptr (bigint_copy_ptr h a).2 b).2 = g at g1 g2 g3 g4
  by_cases hc : (g.object h.next).limbs.length > (g.object (h.next + 1)).limbs.length
  · simp only [hc, if_true]
    by_cases hg : ((store.write g sum (reset (g.object sum))).object sum).limbs.length <
        ((store.write g sum (reset (g.object sum))).object h.next).limbs.length + 1
    · simp only [hg, if_true]
      obtain ⟨t1, t2⟩ := add_basic_tail_ptr
        (store.write (store.write g sum (reset (g.object sum))) sum
          (add_segments ((store.write g sum (reset (g.object sum))).object sum)
            (((store.write g sum (reset (g.object sum))).object h.next).limbs.length + 1 -
              ((store.write g sum (reset (g.object sum))).object sum).limbs.length)))
        sum h.next (h.next + 1) n1 n2 (by
          simp only [store_write_same, store_write_other _ _ _ _ n1, add_segments, reset,
            List.length_append, List.length_map, List.length_replicate] at hg ⊢
          omega)
      refine ⟨?_, store_frame_trans _ _ _ _ g4 (store_frame_trans _ _ _ _
        (store_frame_trans _ _ _ _ (store_frame_write _ _ _) (store_frame_write _ _ _)) t2)⟩
      rw [t1]
      simp only [store_write_same, store_write_other _ _ _ _ n1,
        store_write_other _ _ _ _ n2, g1, g2, g3] at hc hg ⊢
      simp only [bigint_add_basic, bigint_copy, hc, if_true, hg, if_true]
    · simp only [hg, if_false]
      obtain ⟨t1, t2⟩ := add_basic_tail_ptr (store.write g sum (reset (g.object sum)))
        sum h.next (h.next + 1) n1 n2 (by
          simp only [store_write_same, store_write_other _ _ _ _ n1, reset,
            List.length_map] at hg ⊢
          omega)
      refine ⟨?_, store_frame_trans _ _ _ _ g4 (store_frame_trans _ _ _ _
        (store_frame_write _ _ _) t2)⟩
      rw [t1]
      simp only [store_write_same, store_write_other _ _ _ _ n1,
        store_write_other _ _ _ _ n2, g1, g2, g3] at hc hg ⊢
      simp only [bigint_add_basic, bigint_copy, hc, if_true, hg, if_false]
  · simp only [hc, if_false]
    by_cases hg : ((store.write g sum (reset (g.object sum))).object sum).limbs.length <
        ((store.write g sum (reset (g.object sum))).object (h.next + 1)).limbs.length + 1
    · simp only [hg, if_true]
      obtain ⟨t1, t2⟩ := add_basic_tail_ptr
        (store.write (store.write g sum (reset (g.object sum))) sum
          (add_segments ((store.write g sum (reset (g.object sum))).object sum)
            (((store.write g sum (reset (g.object sum))).object (h.next + 1)).limbs.length + 1 -
              ((store.write g sum (reset (g.object sum))).object sum).limbs.length)))
        sum (h.next + 1) h.next n2 n1 (by
          simp only [store_write_same, store_write_other _ _ _ _ n2, add_segments, reset,
            List.length_append, List.length_map, List.length_replicate] at hg ⊢
          omega)
      refine ⟨?_, store_frame_trans _ _ _ _ g4 (store_frame_trans _ _ _ _
        (store_frame_trans _ _ _ _ (store_frame_write _ _ _) (store_frame_write _ _ _)) t2)⟩
      rw [t1]
      simp only [store_write_same, store_write_other _ _ _ _ n1,
        store_write_other _ _ _ _ n2, g1, g2, g3] at hc hg ⊢
      simp only [bigint_add_basic, bigint_copy, hc, if_false, hg, if_true]
    · simp only [hg, if_false]
      obtain ⟨t1, t2⟩ := add_basic_tail_ptr (store.write g sum (reset (g.object sum)))
        sum (h.next + 1) h.next n2 n1 (by
          simp only [store_write_same, store_write_other _ _ _ _ n2, reset,
            List.length_map] at hg ⊢
          omega)
      refine ⟨?_, store_frame_trans _ _ _ _ g4 (store_frame_trans _ _ _ _
        (store_frame_write _ _ _) t2)⟩
      rw [t1]
      simp only [store_write_same, store_write_other _ _ _ _ n1,
        store_write_other _ _ _ _ n2, g1, g2, g3] at hc hg ⊢
      simp only [bigint_add_basic, bigint_copy, hc, if_false, hg, if_false]

/-- `bigint_subtract_basic` on objects leaves in `difference` what `bigint_subtract_basic` on
the values held on entry returns, whichever of the operands is the object `difference`. -/
theorem bigint_subtract_basic_ptr_spec (h : store) (difference minuend subtrahend : Nat)
    (hd : difference < h.next) (hm : minuend < h.next) :
    (bigint_subtract_basic_ptr h difference minuend subtrahend).object difference =
        bigint_subtract_basic (h.object difference) (h.object minuend) (h.object subtrahend) ∧
      store.frame h (bigint_subtract_basic_ptr h difference minuend subtrahend) difference := by
  unfold bigint_subtract_basic_ptr
  simp only [store_allocate_fst]
  obtain ⟨a1, a2⟩ := bigint_add_basic_ptr_spec
    (store.allocate h ⟨(h.object subtrahend).limbs.map not32 ++
      List.replicate ((h.object minuend).limbs.length - (h.object subtrahend).limbs.length)
        (not32 0), 0⟩).2 difference minuend
    h.next (by rw [store_allocate_next]; omega) (by rw [store_allocate_next]; omega)
  rw [store_allocate_old _ _ _ hd, store_allocate_old _ _ _ hm, store_allocate_new] at a1
  refine ⟨?_, ?_⟩
  · simp only [store_write_same, a1]
    simp only [bigint_subtract_basic]
  · exact store_frame_trans _ _ _ _ (store_frame_allocate h difference _)
      (store_frame_trans _ _ _ _ a2 (store_frame_trans _ _ _ _ (store_frame_write _ _ _)
        (store_frame_trans _ _ _ _ (store_frame_write _ _ _) (store_frame_write _ _ _))))

/-- The sign `bigint_add_sign` reads from `bigger` after the subtraction is the sign `bigger`
had on entry, also when `bigger` is the object `sum`. -/
theorem subtract_basic_ptr_sign (h : store) (sum bigger smaller : Nat) (hs : sum < h.next)
    (hb : bigger < h.next) :
    ((bigint_subtract_basic_ptr h sum bigger smaller).object bigger).sign =
      (h.object bigger).sign := by
  obtain ⟨a1, a2⟩ := bigint_subtract_basic_ptr_spec h sum bigger smaller hs hb
  by_cases e : bigger = sum
  · rw [e] at a1 ⊢
    rw [a1, bigint_subtract_basic_sign]
  · rw [a2.2 bigger hb e]

/-- `bigint_add_sign` on objects against `bigint_add_sign` on the values held on entry. -/
theorem bigint_add_sign_ptr_spec (h : store) (sum summand1 summand2 : Nat)
    (hs : sum < h.next) (h1 : summand1 < h.next) (h2 : summand2 < h.next) :
    (∃ e, bigint_add_sign_ptr h sum summand1 summand2 = .error e ∧
        bigint_add_sign (h.object sum) (h.object summand1) (h.object summand2) = .error e) ∨
      (∃ r, bigint_add_sign_ptr h sum summand1 summand2 = .ok r ∧
        bigint_add_sign (h.object sum) (h.object summand1) (h.object summand2) =
          .ok (r.object sum) ∧
        store.frame h r sum) := by
  unfold bigint_add_sign_ptr bigint_add_sign
  split
  · right
    obtain ⟨a1, a2⟩ := bigint_add_basic_ptr_spec h sum summand1 summand2 hs h2
    exact ⟨_, rfl, by rw [a1], a2⟩
  · right
    refine ⟨_, rfl, ?_, ?_⟩
    · simp only [store_write_same]
      by_cases hc : bigint_compare_absolute (h.object summand1) (h.object summand2) = 1
      · simp only [hc, if_true]
        rw [subtract_basic_ptr_sign h sum summand1 summand2 hs h1,
          (bigint_subtract_basic_ptr_spec h sum summand1 summand2 hs h1).1]
      · simp only [hc, if_false]
        rw [subtract_basic_ptr_sign h sum summand2 summand1 hs h2,
          (bigint_subtract_basic_ptr_spec h sum summand2 summand1 hs h2).1]
    · by_cases hc : bigint_compare_absolute (h.object summand1) (h.object summand2) = 1
      · simp only [hc, if_true]
        exact store_frame_trans _ _ _ _
          (bigint_subtract_basic_ptr_spec h sum summand1 summand2 hs h1).2
          (store_frame_write _ _ _)
      · simp only [hc, if_false]
        exact store_frame_trans _ _ _ _
          (bigint_subtract_basic_ptr_spec h sum summand2 summand1 hs h2).2
          (store_frame_write _ _ _)
  · right
    refine ⟨_, rfl, ?_, ?_⟩
    · simp only [store_write_same]
      by_cases hc : bigint_compare_absolute (h.object summand1) (h.object summand2) = 1
      · simp only [hc, if_true]
        rw [subtract_basic_ptr_sign h sum summand1 summand2 hs h1,
          (bigint_subtract_basic_ptr_spec h sum summand1 summand2 hs h1).1]
      · simp only [hc, if_false]
        rw [subtract_basic_ptr_sign h sum summand2 summand1 hs h2,
          (bigint_subtract_basic_ptr_spec h sum summand2 summand1 hs h2).1]
    · by_cases hc : bigint_compare_absolute (h.object summand1) (h.object summand2) = 1
      · simp only [hc, if_true]
        exact store_frame_trans _ _ _ _
          (bigint_subtract_basic_ptr_spec h sum summand1 summand2 hs h1).2
          (store_frame_write _ _ _)
      · simp only [hc, if_false]
        exact store_frame_trans _ _ _ _
          (bigint_subtract_basic_ptr_spec h sum summand2 summand1 hs h2).2
          (store_frame_write _ _ _)
  · right
    obtain ⟨a1, a2⟩ := bigint_add_basic_ptr_spec h sum summand1 summand2 hs h2
    refine ⟨_, rfl, ?_, store_frame_trans _ _ _ _ a2 (store_frame_write _ _ _)⟩
    simp only [store_write_same, a1]
  · left
    exact ⟨_, rfl, rfl⟩

/-- The loop of `bigint_add` on objects: with `temp_sum` none of the summands, the rounds on
objects are the rounds on the values held on entry. -/
theorem bigint_add_fold_ptr (temp_sum : Nat) (summands : List Nat) (h : store)
    (ht : temp_sum < h.next) (hv : ∀ v ∈ summands, v < h.next ∧ v ≠ temp_sum) :
    (∃ e, summands.foldlM (fun h v => bigint_add_sign_ptr h temp_sum temp_sum v) h = .error e ∧
        (summands.map h.object).foldlM (fun t v => bigint_add_sign t t v)
          (h.object temp_sum) = .error e) ∨
      (∃ r, summands.foldlM (fun h v => bigint_add_sign_ptr h temp_sum temp_sum v) h = .ok r ∧
        (summands.map h.object).foldlM (fun t v => bigint_add_sign t t v)
          (h.object temp_sum) = .ok (r.object temp_sum) ∧
        store.frame h r temp_sum) := by
  induction summands generalizing h with
  | nil =>
    right
    exact ⟨h, rfl, rfl, store_frame_refl _ _⟩
  | cons v rest ih =>
    obtain ⟨hv1, hv2⟩ := hv v (List.mem_cons_self _ _)
    rw [List.foldlM_cons, List.map_cons, List.foldlM_cons]
    rcases bigint_add_sign_ptr_spec h temp_sum temp_sum v ht ht hv1 with
      ⟨e, e1, e2⟩ | ⟨r, r1, r2, r3⟩
    · left
      refine ⟨e, ?_, ?_⟩
      · rw [e1]; rfl
      · rw [e2]; rfl
    · have hmap : rest.map r.object = rest.map h.object := by
        apply List.map_congr_left
        intro x hx
        obtain ⟨x1, x2⟩ := hv x (List.mem_cons_of_mem _ hx)
        exact r3.2 x x1 x2
      have hrest : ∀ x ∈ rest, x < r.next ∧ x ≠ temp_sum := by
        intro x hx
        obtain ⟨x1, x2⟩ := hv x (List.mem_cons_of_mem _ hx)
        exact ⟨lt_of_lt_of_le x1 r3.1, x2⟩
      have hstep1 : (bigint_add_sign_ptr h temp_sum temp_sum v >>= fun h' =>
          rest.foldlM (fun h v => bigint_add_sign_ptr h temp_sum temp_sum v) h') =
          rest.foldlM (fun h v => bigint_add_sign_ptr h temp_sum temp_sum v) r := by
        rw [r1]; rfl
      have hstep2 : (bigint_add_sign (h.object temp_sum) (h.object temp_sum) (h.object v) >>=
          fun t' => (rest.map h.object).foldlM (fun t v => bigint_add_sign t t v) t') =
          (rest.map r.object).foldlM (fun t v => bigint_add_sign t t v) (r.object temp_sum) := by
        rw [r2, hmap]; rfl
      rw [hstep1, hstep2]
      rcases ih r (lt_of_lt_of_le ht r3.1) hrest with ⟨e, e1, e2⟩ | ⟨q, q1, q2, q3⟩
      · left
        exact ⟨e, e1, e2⟩
      · right
        exact ⟨q, q1, q2, store_frame_trans _ _ _ _ r3 q3⟩

/-- `bigint_add` on objects leaves in `sum` what `bigint_add` on the values held on entry
returns, whichever of the summands is the object `sum`. -/
theorem bigint_add_ptr_eq (h : store) (sum : Nat) (summands : List Nat)
    (hv : ∀ v ∈ summands, v < h.next) :
    value_after (bigint_add_ptr h sum summands) sum =
      bigint_add (h.object sum) (summands.map h.object) := by
  unfold bigint_add_ptr bigint_add
  simp only [List.length_map]
  split
  · rfl
  · rw [bigint_create_zero]
    simp only [Except.bind, bind, pure, Except.pure, store_allocate_fst]
    have hmap : summands.map (store.allocate h ⟨[0], 0⟩).2.object = summands.map h.object := by
      apply List.map_congr_left
      intro x hx
      exact store_allocate_old _ _ _ (hv x hx)
    have hnew := store_allocate_new h ⟨[0], 0⟩
    rcases bigint_add_fold_ptr h.next summands (store.allocate h ⟨[0], 0⟩).2
      (by rw [store_allocate_next]; omega)
      (fun x hx => ⟨by rw [store_allocate_next]; have := hv x hx; omega,
        by have := hv x hx; omega⟩) with ⟨e, e1, e2⟩ | ⟨r, r1, r2, r3⟩
    · rw [hmap, hnew] at e2
      rw [e1, e2]
      rfl
    · rw [hmap, hnew] at r2
      rw [r1, r2]
      simp only [value_after, store_write_same]

/-- `bigint_subtract` on objects leaves in `difference` what `bigint_subtract` on the values
held on entry returns, whichever of the addresses name the same object. -/
theorem bigint_subtract_ptr_eq (h : store) (difference minuend subtrahend : Nat)
    (hd : difference < h.next) (hm : minuend < h.next) (hs : subtrahend < h.next) :
    value_after (bigint_subtract_ptr h difference minuend subtrahend) difference =
      bigint_subtract (h.object difference) (h.object minuend) (h.object subtrahend) := by
  unfold bigint_subtract_ptr bigint_subtract
  split
  · simp only [value_after, store_write_same]
    by_cases hc : bigint_compare_absolute (h.object minuend) (h.object subtrahend) = 1
    · have hsm : ¬ subtrahend = minuend := by
        intro e
        rw [e, bigint_compare_absolute_self] at hc
        exact absurd hc (by decide)
      simp only [hc, if_true, hsm, if_false]
      rw [(bigint_subtract_basic_ptr_spec h difference minuend subtrahend hd hm).1]
    · simp only [hc, if_false, if_true]
      rw [(bigint_subtract_basic_ptr_spec h difference subtrahend minuend hd hs).1]
  · simp only [value_after, store_write_same]
    rw [(bigint_add_basic_ptr_spec h difference minuend subtrahend hd hs).1]
  · simp only [value_after, store_write_same]
    rw [(bigint_add_basic_ptr_spec h difference minuend subtrahend hd hs).1]
  · simp only [value_after, store_write_same]
    by_cases hc : bigint_compare_absolute (h.object minuend) (h.object subtrahend) = 1
    · simp only [hc, if_true]
      rw [(bigint_subtract_basic_ptr_spec h difference minuend subtrahend hd hm).1]
    · simp only [hc, if_false]
      rw [(bigint_subtract_basic_ptr_spec h difference subtrahend minuend hd hs).1]
  · rfl

theorem store_frame_allocate_write (h : store) (dest : Nat) (v w : bigint) :
    store.frame h (store.write (store.allocate h v).2 h.next w) dest :=
  ⟨by rw [store_write_next, store_allocate_next]; omega, fun p hp _ => by
    rw [store_write_other _ _ _ _ (by omega), store_allocate_old _ _ _ hp]⟩

/-- One round of the inner loop of `bigint_multiply_basic` on objects. -/
theorem multiply_bit_ptr_spec (product longer shorter i : Nat) (k : store) (c j : Nat)
    (hp : product < k.next) :
    ((multiply_bit_ptr product longer shorter i (k, c) j).1.object product,
        (multiply_bit_ptr product longer shorter i (k, c) j).2) =
      multiply_bit (k.object longer) ((k.object shorter).limbs.getD i 0)
        (k.object product, c) j ∧
      store.frame k (multiply_bit_ptr product longer shorter i (k, c) j).1 product := by
  unfold multiply_bit_ptr multiply_bit
  simp only [bigint_copy_ptr, store_allocate_fst]
  split
  · obtain ⟨a1, a2⟩ := bigint_add_basic_ptr_spec
      (store.write (store.allocate k (bigint_copy (k.object longer))).2 k.next
        (bigint_shift_left ((store.allocate k (bigint_copy (k.object longer))).2.object k.next)
          c)) product product k.next
      (by rw [store_write_next, store_allocate_next]; omega)
      (by rw [store_write_next, store_allocate_next]; omega)
    refine ⟨?_, store_frame_trans _ _ _ _ (store_frame_allocate_write k product _ _) a2⟩
    rw [a1, store_write_same, store_write_other _ _ _ _ (show product ≠ k.next by omega),
      store_allocate_old _ _ _ hp, store_allocate_new]
  · exact ⟨rfl, store_frame_refl _ _⟩

theorem multiply_bits_ptr_spec (product longer shorter i : Nat) (hln : longer ≠ product)
    (hsn : shorter ≠ product) (js : List Nat) (k : store) (c : Nat)
    (hp : product < k.next) (hl : longer < k.next) (hs : shorter < k.next) :
    ((js.foldl (multiply_bit_ptr product longer shorter i) (k, c)).1.object product,
        (js.foldl (multiply_bit_ptr product longer shorter i) (k, c)).2) =
      js.foldl (multiply_bit (k.object longer) ((k.object shorter).limbs.getD i 0))
        (k.object product, c) ∧
      store.frame k (js.foldl (multiply_bit_ptr product longer shorter i) (k, c)).1 product := by
  induction js generalizing k c with
  | nil => exact ⟨rfl, store_frame_refl _ _⟩
  | cons j rest ih =>
    obtain ⟨b1, b2⟩ := multiply_bit_ptr_spec product longer shorter i k c j hp
    rw [List.foldl_cons, List.foldl_cons, ← b1]
    obtain ⟨i1, i2⟩ := ih (multiply_bit_ptr product longer shorter i (k, c) j).1
      (multiply_bit_ptr product longer shorter i (k, c) j).2
      (lt_of_lt_of_le hp b2.1) (lt_of_lt_of_le hl b2.1) (lt_of_lt_of_le hs b2.1)
    rw [b2.2 longer hl hln, b2.2 shorter hs hsn] at i1
    exact ⟨i1, store_frame_trans _ _ _ _ b2 i2⟩

theorem multiply_nodes_ptr_spec (product longer shorter : Nat) (hln : longer ≠ product)
    (hsn : shorter ≠ product) (idx : List Nat) (k : store) (c : Nat)
    (hp : product < k.next) (hl : longer < k.next) (hs : shorter < k.next) :
    ((idx.foldl (multiply_node_ptr product longer shorter) (k, c)).1.object product,
        (idx.foldl (multiply_node_ptr product longer shorter) (k, c)).2) =
      (idx.map (fun i => (k.object shorter).limbs.getD i 0)).foldl
        (multiply_node (k.object longer)) (k.object product, c) ∧
      store.frame k (idx.foldl (multiply_node_ptr product longer shorter) (k, c)).1 product := by
  induction idx generalizing k c with
  | nil => exact ⟨rfl, store_frame_refl _ _⟩
  | cons i rest ih =>
    obtain ⟨b1, b2⟩ := multiply_bits_ptr_spec product longer shorter i hln hsn (List.range 32)
      k c hp hl hs
    rw [List.foldl_cons, List.map_cons, List.foldl_cons]
    have e : multiply_node (k.object longer) (k.object product, c)
        ((k.object shorter).limbs.getD i 0) =
        ((multiply_node_ptr product longer shorter (k, c) i).1.object product,
          (multiply_node_ptr product longer shorter (k, c) i).2) := b1.symm
    rw [e]
    obtain ⟨i1, i2⟩ := ih (multiply_node_ptr product longer shorter (k, c) i).1
      (multiply_node_ptr product longer shorter (k, c) i).2
      (lt_of_lt_of_le hp b2.1) (lt_of_lt_of_le hl b2.1) (lt_of_lt_of_le hs b2.1)
    have f1 : (multiply_node_ptr product longer shorter (k, c) i).1.object longer =
        k.object longer := b2.2 longer hl hln
    have f2 : (multiply_node_ptr product longer shorter (k, c) i).1.object shorter =
        k.object shorter := b2.2 shorter hs hsn
    rw [f1, f2] at i1
    exact ⟨i1, store_frame_trans _ _ _ _ b2 i2⟩

/-- `bigint_multiply_basic` on objects leaves in `product` what `bigint_multiply_basic` on
the values held on entry returns, whichever of the factors is the object `product`, and
changes no other object that existed. -/
theorem bigint_multiply_basic_ptr_spec (h : store) (product a b : Nat)
    (hp : product < h.next) (hb : b < h.next) :
    (bigint_multiply_basic_ptr h product a b).object product =
        bigint_multiply_basic (h.object product) (h.object a) (h.object b) ∧
      store.frame h (bigint_multiply_basic_ptr h product a b) product := by
  have e1 : (bigint_copy_ptr h a).1 = h.next := rfl
  have e2 : (bigint_copy_ptr (bigint_copy_ptr h a).2 b).1 = h.next + 1 := rfl
  have g1 : (bigint_copy_ptr (bigint_copy_ptr h a).2 b).2.object h.next = h.object a := by
    simp only [bigint_copy_ptr]
    rw [store_allocate_old _ _ _ (by rw [store_allocate_next]; omega), store_allocate_new]
    rfl
  have g2 : (bigint_copy_ptr (bigint_copy_ptr h a).2 b).2.object (h.next + 1) = h.object b := by
    simp only [bigint_copy_ptr]
    have := store_allocate_new (store.allocate h (bigint_copy (h.object a))).2
      (bigint_copy ((store.allocate h (bigint_copy (h.object a))).2.object b))
    rw [store_allocate_next] at this
    rw [this, store_allocate_old _ _ _ hb]
    rfl
  have g3 : (bigint_copy_ptr (bigint_copy_ptr h a).2 b).2.object product =
      h.object product := by
    simp only [bigint_copy_ptr]
    rw [store_allocate_old _ _ _ (by rw [store_allocate_next]; omega),
      store_allocate_old _ _ _ hp]
  have g4 : store.frame h (bigint_copy_ptr (bigint_copy_ptr h a).2 b).2 product :=
    store_frame_trans _ _ _ _ (store_frame_allocate h product _) (store_frame_allocate _ product _)
  have g5 : (bigint_copy_ptr (bigint_copy_ptr h a).2 b).2.next = h.next + 2 := rfl
  have n1 : h.next ≠ product := by omega
  have n2 : h.next + 1 ≠ product := by omega
  unfold bigint_multiply_basic_ptr
  simp only [e1, e2]
  generalize (bigint_copy_ptr (bigint_copy_ptr h a).2 b).2 = g at g1 g2 g3 g4 g5
  by_cases hc : bigint_compare_absolute (g.object h.next) (g.object (h.next + 1)) = 1
  · simp only [hc, if_true]
    obtain ⟨m1, m2⟩ := multiply_nodes_ptr_spec product h.next (h.next + 1) n1 n2
      (List.range ((store.write g product { g.object product with limbs := [0] }).object
        (h.next + 1)).limbs.length)
      (store.write g product { g.object product with limbs := [0] }) 0
      (by rw [store_write_next, g5]; omega) (by rw [store_write_next, g5]; omega)
      (by rw [store_write_next, g5]; omega)
    refine ⟨?_, store_frame_trans _ _ _ _ g4
      (store_frame_trans _ _ _ _ (store_frame_write _ _ _) m2)⟩
    have := congrArg Prod.fst m1
    simp only at this
    rw [this, range_map_getD, store_write_same, store_write_other _ _ _ _ n1,
      store_write_other _ _ _ _ n2, g1, g2, g3]
    rw [g1, g2] at hc
    simp only [bigint_multiply_basic, bigint_copy, hc, if_true]
  · simp only [hc, if_false]
    obtain ⟨m1, m2⟩ := multiply_nodes_ptr_spec product (h.next + 1) h.next n2 n1
      (List.range ((store.write g product { g.object product with limbs := [0] }).object
        h.next).limbs.length)
      (store.write g product { g.object product with limbs := [0] }) 0
      (by rw [store_write_next, g5]; omega) (by rw [store_write_next, g5]; omega)
      (by rw [store_write_next, g5]; omega)
    refine ⟨?_, store_frame_trans _ _ _ _ g4
      (store_frame_trans _ _ _ _ (store_frame_write _ _ _) m2)⟩
    have := congrArg Prod.fst m1
    simp only at this
    rw [this, range_map_getD, store_write_same, store_write_other _ _ _ _ n1,
      store_write_other _ _ _ _ n2, g1, g2, g3]
    rw [g1, g2] at hc
    simp only [bigint_multiply_basic, bigint_copy, hc, if_false]

/-- The loop of `bigint_multiply` on objects: with `temp_product` none of the factors, the
rounds on objects are the rounds on the values held on entry. -/
theorem bigint_multiply_fold_ptr (temp_product : Nat) (factors : List Nat) (h : store)
    (sign : Nat) (ht : temp_product < h.next)
    (hv : ∀ v ∈ factors, v < h.next ∧ v ≠ temp_product) :
    ((factors.foldl
        (fun (state : store × Nat) current =>
          (bigint_multiply_basic_ptr state.1 temp_product temp_product current,
            (state.2 + ((bigint_multiply_basic_ptr state.1 temp_product temp_product
              current).object current).sign) % 256))
        (h, sign)).1.object temp_product,
      (factors.foldl
        (fun (state : store × Nat) current =>
          (bigint_multiply_basic_ptr state.1 temp_product temp_product current,
            (state.2 + ((bigint_multiply_basic_ptr state.1 temp_product temp_product
              current).object current).sign) % 256))
        (h, sign)).2) =
      (factors.map h.object).foldl
        (fun (state : bigint × Nat) current =>
          (bigint_multiply_basic state.1 state.1 current, (state.2 + current.sign) % 256))
        (h.object temp_product, sign) := by
  induction factors generalizing h sign with
  | nil => rfl
  | cons v rest ih =>
    obtain ⟨hv1, hv2⟩ := hv v (List.mem_cons_self _ _)
    obtain ⟨b1, b2⟩ := bigint_multiply_basic_ptr_spec h temp_product temp_product v ht hv1
    rw [List.foldl_cons, List.map_cons, List.foldl_cons]
    have hmap : rest.map (bigint_multiply_basic_ptr h temp_product temp_product v).object =
        rest.map h.object := by
      apply List.map_congr_left
      intro x hx
      obtain ⟨x1, x2⟩ := hv x (List.mem_cons_of_mem _ hx)
      exact b2.2 x x1 x2
    have := ih (bigint_multiply_basic_ptr h temp_product temp_product v)
      ((sign + ((bigint_multiply_basic_ptr h temp_product temp_product v).object v).sign) % 256)
      (lt_of_lt_of_le ht b2.1) (fun x hx => by
        obtain ⟨x1, x2⟩ := hv x (List.mem_cons_of_mem _ hx)
        exact ⟨lt_of_lt_of_le x1 b2.1, x2⟩)
    rw [hmap, b1, b2.2 v hv1 hv2] at this
    rw [b2.2 v hv1 hv2]
    exact this

/-- `bigint_multiply` on objects leaves in `product` what `bigint_multiply` on the values
held on entry returns, whichever of the factors is the object `product`. -/
theorem bigint_multiply_ptr_eq (h : store) (product : Nat) (factors : List Nat)
    (hv : ∀ v ∈ factors, v < h.next) :
    value_after (bigint_multiply_ptr h product factors) product =
      bigint_multiply (h.object product) (factors.map h.object) := by
  unfold bigint_multiply_ptr bigint_multiply
  simp only [List.length_map]
  split
  · rfl
  · rw [bigint_create_one]
    simp only [Except.bind, bind, pure, Except.pure, store_allocate_fst]
    have hmap : factors.map (store.allocate h ⟨[1], 0⟩).2.object = factors.map h.object := by
      apply List.map_congr_left
      intro x hx
      exact store_allocate_old _ _ _ (hv x hx)
    have hnew := store_allocate_new h ⟨[1], 0⟩
    have hfold := bigint_multiply_fold_ptr h.next factors (store.allocate h ⟨[1], 0⟩).2 0
      (by rw [store_allocate_next]; omega)
      (fun x hx => ⟨by rw [store_allocate_next]; have := hv x hx; omega,
        by have := hv x hx; omega⟩)
    rw [hmap, hnew] at hfold
    simp only [value_after, store_write_same]
    rw [← hfold]

/-! ## The destination depends on the values of the inputs only -/

theorem bigint_add_pair_ptr (h : store) (a d x y x1 y1 : Nat) (hx : canonical (h.object x))
    (hy : canonical (h.object y)) (ex : h.object x1 = h.object x) (ey : h.object y1 = h.object y)
    (hb : x < h.next ∧ y < h.next ∧ x1 < h.next ∧ y1 < h.next) :
    ∃ v, value_after (bigint_add_ptr h a [x, y]) a = .ok v ∧
      value_after (bigint_add_ptr h d [x1, y1]) d = .ok v ∧
      bigint_add (h.object a) [h.object x, h.object y] = .ok v := by
  obtain ⟨b1, b2, b3, b4⟩ := hb
  have h1 := bigint_add_ptr_eq h a [x, y] (by
    intro v hv
    simp only [List.mem_cons, List.mem_singleton, List.mem_nil_iff, or_false] at hv
    rcases hv with e | e <;> rw [e] <;> assumption)
  have h2 := bigint_add_ptr_eq h d [x1, y1] (by
    intro v hv
    simp only [List.mem_cons, List.mem_singleton, List.mem_nil_iff, or_false] at hv
    rcases hv with e | e <;> rw [e] <;> assumption)
  simp only [List.map_cons, List.map_nil, ex, ey] at h1 h2
  obtain ⟨r, hr, -, -⟩ := bigint_add_spec (h.object a) [h.object x, h.object y] (by simp) (by
    intro v hv
    simp only [List.mem_cons, List.mem_singleton, List.mem_nil_iff, or_false] at hv
    rcases hv with e | e <;> rw [e] <;> assumption)
  refine ⟨r, by rw [h1, hr], ?_, hr⟩
  rw [h2]
  exact hr

theorem bigint_subtract_pair_ptr (h : store) (a d x y x1 y1 : Nat)
    (hx : canonical (h.object x)) (hy : canonical (h.object y))
    (ex : h.object x1 = h.object x) (ey : h.object y1 = h.object y)
    (hb : a < h.next ∧ d < h.next ∧ x < h.next ∧ y < h.next ∧ x1 < h.next ∧ y1 < h.next) :
    ∃ v, value_after (bigint_subtract_ptr h a x y) a = .ok v ∧
      value_after (bigint_subtract_ptr h d x1 y1) d = .ok v ∧
      bigint_subtract (h.object a) (h.object x) (h.object y) = .ok v := by
  obtain ⟨b1, b2, b3, b4, b5, b6⟩ := hb
  have h1 := bigint_subtract_ptr_eq h a x y b1 b3 b4
  have h2 := bigint_subtract_ptr_eq h d x1 y1 b2 b5 b6
  rw [ex, ey] at h2
  obtain ⟨r, hr, rc, rv⟩ := bigint_subtract_spec (h.object a) (h.object x) (h.object y) hx hy
  obtain ⟨r2, hr2, rc2, rv2⟩ :=
    bigint_subtract_spec (h.object d) (h.object x) (h.object y) hx hy
  have e : r2 = r := canonical_eq_of_toInt r2 r rc2 rc (by rw [rv, rv2])
  refine ⟨r, by rw [h1, hr], ?_, hr⟩
  rw [h2, hr2, e]

theorem bigint_multiply_pair_ptr (h : store) (a d x y x1 y1 : Nat)
    (ex : h.object x1 = h.object x) (ey : h.object y1 = h.object y)
    (hb : x < h.next ∧ y < h.next ∧ x1 < h.next ∧ y1 < h.next) :
    ∃ v, value_after (bigint_multiply_ptr h a [x, y]) a = .ok v ∧
      value_after (bigint_multiply_ptr h d [x1, y1]) d = .ok v ∧
      bigint_multiply (h.object a) [h.object x, h.object y] = .ok v := by
  obtain ⟨b1, b2, b3, b4⟩ := hb
  have h1 := bigint_multiply_ptr_eq h a [x, y] (by
    intro v hv
    simp only [List.mem_cons, List.mem_singleton, List.mem_nil_iff, or_false] at hv
    rcases hv with e | e <;> rw [e] <;> assumption)
  have h2 := bigint_multiply_ptr_eq h d [x1, y1] (by
    intro v hv
    simp only [List.mem_cons, List.mem_singleton, List.mem_nil_iff, or_false] at hv
    rcases hv with e | e <;> rw [e] <;> assumption)
  simp only [List.map_cons, List.map_nil, ex, ey] at h1 h2
  have hok : ∃ r, bigint_multiply (h.object a) [h.object x, h.object y] = .ok r := by
    unfold bigint_multiply
    rw [if_neg (by simp), bigint_create_one]
    exact ⟨_, rfl⟩
  obtain ⟨r, hr⟩ := hok
  refine ⟨r, by rw [h1, hr], ?_, hr⟩
  rw [h2]
  exact hr

end Bigint

namespace Bigint

set_option maxRecDepth 8000

/-- C32 holds. In a program state `h` let `a`, `b`, `d`, `a1`, `a2`, `b1` be objects, let
`a` and `b` hold canonical values, let `a1`, `a2` hold copies of the value of `a` and `b1` a
copy of the value of `b`.  Then for each of `bigint_add`, `bigint_subtract` and
`bigint_multiply`, run statement by statement on the objects, the calls `f(a, a, a)`,
`f(a, a, b)` and `f(a, b, a)` succeed and leave in `a` the value that the call on the
destination `d` with the copies in place of the inputs leaves in `d`, which is the value
the function on values returns for the values the inputs hold on entry. -/
theorem aliased_calls_agree (h : store) (a b d a1 a2 b1 : Nat)
    (ha : canonical (h.object a)) (hb : canonical (h.object b))
    (ea1 : h.object a1 = h.object a) (ea2 : h.object a2 = h.object a)
    (eb1 : h.object b1 = h.object b)
    (hobj : a < h.next ∧ b < h.next ∧ d < h.next ∧ a1 < h.next ∧ a2 < h.next ∧ b1 < h.next) :
    ((∃ v, value_after (bigint_add_ptr h a [a, a]) a = .ok v ∧
        value_after (bigint_add_ptr h d [a1, a2]) d = .ok v ∧
        bigint_add (h.object a) [h.object a, h.object a] = .ok v) ∧
      (∃ v, value_after (bigint_add_ptr h a [a, b]) a = .ok v ∧
        value_after (bigint_add_ptr h d [a1, b1]) d = .ok v ∧
        bigint_add (h.object a) [h.object a, h.object b] = .ok v) ∧
      (∃ v, value_after (bigint_add_ptr h a [b, a]) a = .ok v ∧
        value_after (bigint_add_ptr h d [b1, a1]) d = .ok v ∧
        bigint_add (h.object a) [h.object b, h.object a] = .ok v)) ∧
    ((∃ v, value_after (bigint_subtract_ptr h a a a) a = .ok v ∧
        value_after (bigint_subtract_ptr h d a1 a2) d = .ok v ∧
        bigint_subtract (h.object a) (h.object a) (h.object a) = .ok v) ∧
      (∃ v, value_after (bigint_subtract_ptr h a a b) a = .ok v ∧
        value_after (bigint_subtract_ptr h d a1 b1) d = .ok v ∧
        bigint_subtract (h.object a) (h.object a) (h.object b) = .ok v) ∧
      (∃ v, value_after (bigint_subtract_ptr h a b a) a = .ok v ∧
        value_after (bigint_subtract_ptr h d b1 a1) d = .ok v ∧
        bigint_subtract (h.object a) (h.object b) (h.object a) = .ok v)) ∧
    ((∃ v, value_after (bigint_multiply_ptr h a [a, a]) a = .ok v ∧
        value_after (bigint_multiply_ptr h d [a1, a2]) d = .ok v ∧
        bigint_multiply (h.object a) [h.object a, h.object a] = .ok v) ∧
      (∃ v, value_after (bigint_multiply_ptr h a [a, b]) a = .ok v ∧
        value_after (bigint_multiply_ptr h d [a1, b1]) d = .ok v ∧
        bigint_multiply (h.object a) [h.object a, h.object b] = .ok v) ∧
      (∃ v, value_after (bigint_multiply_ptr h a [b, a]) a = .ok v ∧
        value_after (bigint_multiply_ptr h d [b1, a1]) d = .ok v ∧
        bigint_multiply (h.object a) [h.object b, h.object a] = .ok v)) := by
  obtain ⟨o1, o2, o3, o4, o5, o6⟩ := hobj
  exact ⟨⟨bigint_add_pair_ptr h a d a a a1 a2 ha ha ea1 ea2 ⟨o1, o1, o4, o5⟩,
      bigint_add_pair_ptr h a d a b a1 b1 ha hb ea1 eb1 ⟨o1, o2, o4, o6⟩,
      bigint_add_pair_ptr h a d b a b1 a1 hb ha eb1 ea1 ⟨o2, o1, o6, o4⟩⟩,
    ⟨bigint_subtract_pair_ptr h a d a a a1 a2 ha ha ea1 ea2 ⟨o1, o3, o1, o1, o4, o5⟩,
      bigint_subtract_pair_ptr h a d a b a1 b1 ha hb ea1 eb1 ⟨o1, o3, o1, o2, o4, o6⟩,
      bigint_subtract_pair_ptr h a d b a b1 a1 hb ha eb1 ea1 ⟨o1, o3, o2, o1, o6, o4⟩⟩,
    ⟨bigint_multiply_pair_ptr h a d a a a1 a2 ea1 ea2 ⟨o1, o1, o4, o5⟩,
      bigint_multiply_pair_ptr h a d a b a1 b1 ea1 eb1 ⟨o1, o2, o4, o6⟩,
      bigint_multiply_pair_ptr h a d b a b1 a1 eb1 ea1 ⟨o2, o1, o6, o4⟩⟩⟩

/-- The statement above in a state of six objects where the objects `0`, `3`, `4` hold `-5`,
the objects `1`, `5` hold `3` and the object `2` holds `0`, with `a = 0`, `b = 1`, `d = 2`:
`a - b` leaves `-8` in `a` and in `d`, `a - a` leaves `0`, `b - a` leaves `8`, `a + b`
leaves `-2`, `a + a` leaves `-10` and `a * a` leaves `25`. -/
theorem aliased_calls_agree_witness :
    (canonical ((⟨fun p => if p = 0 ∨ p = 3 ∨ p = 4 then ⟨[5], 1⟩
        else if p = 1 ∨ p = 5 then ⟨[3], 0⟩ else ⟨[0], 0⟩, 6⟩ : store).object 0) ∧
      canonical ((⟨fun p => if p = 0 ∨ p = 3 ∨ p = 4 then ⟨[5], 1⟩
        else if p = 1 ∨ p = 5 then ⟨[3], 0⟩ else ⟨[0], 0⟩, 6⟩ : store).object 1) ∧
      (0 < 6 ∧ 1 < 6 ∧ 2 < 6 ∧ 3 < 6 ∧ 4 < 6 ∧ 5 < 6)) ∧
    (∃ v, value_after (bigint_subtract_ptr
          ⟨fun p => if p = 0 ∨ p = 3 ∨ p = 4 then ⟨[5], 1⟩
            else if p = 1 ∨ p = 5 then ⟨[3], 0⟩ else ⟨[0], 0⟩, 6⟩ 0 0 1) 0 = .ok v ∧
        value_after (bigint_subtract_ptr
          ⟨fun p => if p = 0 ∨ p = 3 ∨ p = 4 then ⟨[5], 1⟩
            else if p = 1 ∨ p = 5 then ⟨[3], 0⟩ else ⟨[0], 0⟩, 6⟩ 2 3 5) 2 = .ok v ∧
        bigint_subtract
          ((⟨fun p => if p = 0 ∨ p = 3 ∨ p = 4 then ⟨[5], 1⟩
            else if p = 1 ∨ p = 5 then ⟨[3], 0⟩ else ⟨[0], 0⟩, 6⟩ : store).object 0)
          ((⟨fun p => if p = 0 ∨ p = 3 ∨ p = 4 then ⟨[5], 1⟩
            else if p = 1 ∨ p = 5 then ⟨[3], 0⟩ else ⟨[0], 0⟩, 6⟩ : store).object 0)
          ((⟨fun p => if p = 0 ∨ p = 3 ∨ p = 4 then ⟨[5], 1⟩
            else if p = 1 ∨ p = 5 then ⟨[3], 0⟩ else ⟨[0], 0⟩, 6⟩ : store).object 1) =
          .ok v) ∧
    value_after (bigint_subtract_ptr
        ⟨fun p => if p = 0 ∨ p = 3 ∨ p = 4 then ⟨[5], 1⟩
          else if p = 1 ∨ p = 5 then ⟨[3], 0⟩ else ⟨[0], 0⟩, 6⟩ 0 0 1) 0 = .ok ⟨[8], 1⟩ ∧
    value_after (bigint_subtract_ptr
        ⟨fun p => if p = 0 ∨ p = 3 ∨ p = 4 then ⟨[5], 1⟩
          else if p = 1 ∨ p = 5 then ⟨[3], 0⟩ else ⟨[0], 0⟩, 6⟩ 2 3 5) 2 = .ok ⟨[8], 1⟩ ∧
    value_after (bigint_subtract_ptr
        ⟨fun p => if p = 0 ∨ p = 3 ∨ p = 4 then ⟨[5], 1⟩
          else if p = 1 ∨ p = 5 then ⟨[3], 0⟩ else ⟨[0], 0⟩, 6⟩ 0 0 0) 0 = .ok ⟨[0], 0⟩ ∧
    value_after (bigint_subtract_ptr
        ⟨fun p => if p = 0 ∨ p = 3 ∨ p = 4 then ⟨[5], 1⟩
          else if p = 1 ∨ p = 5 then ⟨[3], 0⟩ else ⟨[0], 0⟩, 6⟩ 0 1 0) 0 = .ok ⟨[8], 0⟩ ∧
    value_after (bigint_add_ptr
        ⟨fun p => if p = 0 ∨ p = 3 ∨ p = 4 then ⟨[5], 1⟩
          else if p = 1 ∨ p = 5 then ⟨[3], 0⟩ else ⟨[0], 0⟩, 6⟩ 0 [0, 1]) 0 = .ok ⟨[2], 1⟩ ∧
    value_after (bigint_add_ptr
        ⟨fun p => if p = 0 ∨ p = 3 ∨ p = 4 then ⟨[5], 1⟩
          else if p = 1 ∨ p = 5 then ⟨[3], 0⟩ else ⟨[0], 0⟩, 6⟩ 2 [3, 5]) 2 = .ok ⟨[2], 1⟩ ∧
    value_after (bigint_add_ptr
        ⟨fun p => if p = 0 ∨ p = 3 ∨ p = 4 then ⟨[5], 1⟩
          else if p = 1 ∨ p = 5 then ⟨[3], 0⟩ else ⟨[0], 0⟩, 6⟩ 0 [0, 0]) 0 = .ok ⟨[10], 1⟩ ∧
    value_after (bigint_multiply_ptr
        ⟨fun p => if p = 0 ∨ p = 3 ∨ p = 4 then ⟨[5], 1⟩
          else if p = 1 ∨ p = 5 then ⟨[3], 0⟩ else ⟨[0], 0⟩, 6⟩ 0 [0, 0]) 0 = .ok ⟨[25], 0⟩ ∧
    value_after (bigint_multiply_ptr
        ⟨fun p => if p = 0 ∨ p = 3 ∨ p = 4 then ⟨[5], 1⟩
          else if p = 1 ∨ p = 5 then ⟨[3], 0⟩ else ⟨[0], 0⟩, 6⟩ 2 [3, 4]) 2 = .ok ⟨[25], 0⟩ :=
  ⟨⟨by decide, by decide, by decide⟩,
    (aliased_calls_agree
      ⟨fun p => if p = 0 ∨ p = 3 ∨ p = 4 then ⟨[5], 1⟩
        else if p = 1 ∨ p = 5 then ⟨[3], 0⟩ else ⟨[0], 0⟩, 6⟩ 0 1 2 3 4 5
      (by decide) (by decide) (by rfl) (by rfl) (by rfl) (by decide)).2.1.2.1,
    by rfl, by rfl, by rfl, by rfl, by rfl, by rfl, by rfl, by rfl, by rfl⟩

end Bigint
